import Mathlib

/-!
# go-gitconfig: the PEG matcher, its token buffer and the section builder

A shallow embedding of `config.peg.go`, `config.go` and `gitconfig.go`.

* Text is decoded once (`[]rune(p.Buffer)`); the model takes the decoded text as a
  `String` and works on the rune codes (`Nat`), with the end sentinel `end_symbol`.
* `position` and `depth` are `uint32` in the source: increments and decrements are
  taken modulo `2 ^ 32`. `tokenIndex` is an `int` and is modelled by `Nat`.
* A Go run-time panic (index out of range, nil dereference) is a `Fault`; the
  unbounded `goto` loops run on a budget of `len(buffer)` iterations and report
  `Fault.outOfFuel` when it is exhausted.
* The generated rule functions are built from the code templates of the PEG
  generator; every template is one combinator below, with the Go shape it stands for.
* The goroutine of `PreOrder` is modelled by the list of the items it sends on its
  channel, in order, until it closes it; its `int32` counters are kept as bit patterns.
-/

namespace gitconfig

/-! ## Tokens -/

/-- The sentinel rune appended to the buffer: `const end_symbol rune = 1114112`. -/
def end_symbol : Nat := 1114112

/-- The rule tags: `type pegRule uint8` with its `iota` constants. -/
inductive pegRule where
  | ruleUnknown
  | ruleGrammar
  | ruleSection
  | ruleValueLine
  | ruleValue
  | ruleIdentifier
  | ruleWord
  | ruleSpaceComment
  | ruleComment
  | ruleSpace
  | ruleEndOfLine
  | rulePegText
  | ruleAction0
  | ruleAction1
  | ruleAction2
  | ruleAction3
  | rulePre_
  | rule_In_
  | rule_Suf
  deriving DecidableEq, Repr

/-- The record `token32`: `pegRule`, `begin`, `end`, `next` (`next` holds the depth
until `Order` overwrites it with the emission index). -/
structure token32 where
  pegRule : pegRule
  begin : Nat
  end_ : Nat
  next : Nat
  deriving DecidableEq, Repr

/-- The zero value of `token32`, what `make([]token32, n)` fills a slice with. -/
def token32.zero : token32 := ⟨pegRule.ruleUnknown, 0, 0, 0⟩

/-- Equality of results is decidable when it is on both sides. -/
instance instDecidableEqExcept {ε α : Type} [DecidableEq ε] [DecidableEq α] :
    DecidableEq (Except ε α)
  | .ok a, .ok b =>
    if h : a = b then isTrue (by rw [h]) else isFalse (fun h1 => h (Except.ok.inj h1))
  | .error a, .error b =>
    if h : a = b then isTrue (by rw [h]) else isFalse (fun h1 => h (Except.error.inj h1))
  | .ok _, .error _ => isFalse (fun h => Except.noConfusion h)
  | .error _, .ok _ => isFalse (fun h => Except.noConfusion h)

/-- The Go run-time failures the model distinguishes. -/
inductive Fault where
  | indexOutOfRange
  | nilDereference
  | outOfFuel
  deriving DecidableEq, Repr

/-- Size of the `uint32` range. -/
def u32 : Nat := 4294967296

/-- The `uint32` increment `x++`. -/
def inc (x : Nat) : Nat := (x + 1) % u32

/-- The `uint32` decrement `x--`. -/
def dec (x : Nat) : Nat := (x + u32 - 1) % u32

/-- A Go slice `[]token32` of `len` entries. `cells` holds its leading entries; every
entry from index `cells.length` up to `len` is the zero token, as `make` leaves it. -/
structure tokenSlice where
  cells : List token32
  len : Nat
  deriving DecidableEq, Repr

/-- The allocation `make([]token32, n)`: `n` zero tokens. -/
def tokenSlice.make (n : Nat) : tokenSlice := ⟨[], n⟩

/-- The entry `t[i]` of a slice, `none` when `i` is out of range. -/
def tokenSlice.get? (t : tokenSlice) (i : Nat) : Option token32 :=
  if i < t.len then some (t.cells.getD i token32.zero) else none

/-- The entries of a slice in order, as `range` visits them. -/
def tokenSlice.toList (t : tokenSlice) : List token32 :=
  (t.cells ++ List.replicate (t.len - t.cells.length) token32.zero).take t.len

/-- Storing `tok` at index `i` of the leading entries, zero tokens filling a gap. -/
def putAt (cells : List token32) (i : Nat) (tok : token32) : List token32 :=
  if i < cells.length then cells.set i tok
  else cells ++ List.replicate (i - cells.length) token32.zero ++ [tok]

/-- `tokens32.Expand(index)`: when `index >= len(tree)` the slice is replaced by one of
twice the length holding a copy of the old entries (the rest are zero tokens). -/
def Expand (tree : tokenSlice) (index : Nat) : tokenSlice :=
  if index ≥ tree.len then ⟨tree.cells, 2 * tree.len⟩ else tree

/-- `tokens32.Add(rule, begin, end, depth, index)`: `t.tree[index] = token32{...}`;
an index outside the slice panics. -/
def Add (tree : tokenSlice) (rule : pegRule) (begin end_ depth index : Nat) :
    Except Fault tokenSlice :=
  if index < tree.len then .ok ⟨putAt tree.cells index ⟨rule, begin, end_, depth⟩, tree.len⟩
  else .error Fault.indexOutOfRange

/-! ## The matcher state -/

/-- The variables `config.Init` closes over: `buffer`, `position`, `depth`,
`tokenIndex` and the token slice `tree`. `appended` is a ghost history of every
`add` call; nothing reads it. -/
structure Matcher where
  buffer : List Nat
  position : Nat
  depth : Nat
  tokenIndex : Nat
  tree : tokenSlice
  appended : List token32
  deriving DecidableEq, Repr

/-- A rule function of the generated table: `func() bool` acting on the closure state. -/
abbrev Rule := Matcher → Except Fault (Bool × Matcher)

/-- The closure `add`: `Expand(tokenIndex)`, `Add(rule, begin, position, depth, tokenIndex)`,
`tokenIndex++`. -/
def add (rule : pegRule) (begin : Nat) (s : Matcher) : Except Fault Matcher :=
  match Add (Expand s.tree s.tokenIndex) rule begin s.position s.depth s.tokenIndex with
  | .error e => .error e
  | .ok tree => .ok { s with
      tree := tree
      tokenIndex := s.tokenIndex + 1
      appended := s.appended ++ [⟨rule, begin, s.position, s.depth⟩] }

/-- The assignment `position, tokenIndex, depth = positionN, tokenIndexN, depthN`. -/
def restore (s snap : Matcher) : Matcher :=
  { s with position := snap.position, tokenIndex := snap.tokenIndex, depth := snap.depth }

/-- The closure `matchDot`: `if buffer[position] != end_symbol { position++; return true }`. -/
def matchDot : Rule := fun s =>
  match s.buffer[s.position]? with
  | none => .error Fault.indexOutOfRange
  | some c =>
    if c ≠ end_symbol then .ok (true, { s with position := inc s.position })
    else .ok (false, s)

/-- The template `if buffer[position] != rune(c) { goto fail }; position++`. -/
def lit (c : Nat) : Rule := fun s =>
  match s.buffer[s.position]? with
  | none => .error Fault.indexOutOfRange
  | some b =>
    if b ≠ c then .ok (false, s)
    else .ok (true, { s with position := inc s.position })

/-- The template `if c := buffer[position]; c < rune(lo) || c > rune(hi) { goto fail }; position++`. -/
def range (lo hi : Nat) : Rule := fun s =>
  match s.buffer[s.position]? with
  | none => .error Fault.indexOutOfRange
  | some c =>
    if c < lo ∨ c > hi then .ok (false, s)
    else .ok (true, { s with position := inc s.position })

/-- Sequencing: the code of `g` follows the code of `f`; a failure of either jumps to
the enclosing failure label with the state as it is at that point. -/
def seq (f g : Rule) : Rule := fun s =>
  match f s with
  | .error e => .error e
  | .ok (false, s1) => .ok (false, s1)
  | .ok (true, s1) => g s1

/-- Ordered choice: `{ snapshot; f or goto lB; goto lA; lB: restore; g }; lA:`. -/
def alt (f g : Rule) : Rule := fun s =>
  match f s with
  | .error e => .error e
  | .ok (true, s1) => .ok (true, s1)
  | .ok (false, s1) => g (restore s1 s)

/-- Option: `{ snapshot; f or goto lB; goto lA; lB: restore }; lA:`. -/
def opt (f : Rule) : Rule := fun s =>
  match f s with
  | .error e => .error e
  | .ok (true, s1) => .ok (true, s1)
  | .ok (false, s1) => .ok (true, restore s1 s)

/-- Negative lookahead as generated for `!e`: `{ snapshot; e or goto lB; goto fail; lB: restore }`. -/
def notP (f : Rule) : Rule := fun s =>
  match f s with
  | .error e => .error e
  | .ok (true, s1) => .ok (false, s1)
  | .ok (false, s1) => .ok (true, restore s1 s)

/-- The loop `lA: { snapshot; f or goto lB; goto lA; lB: restore }` run for at most
`fuel` iterations. -/
def starLoop (f : Rule) : Nat → Matcher → Except Fault (Bool × Matcher)
  | 0, _ => .error Fault.outOfFuel
  | fuel + 1, s =>
    match f s with
    | .error e => .error e
    | .ok (true, s1) => starLoop f fuel s1
    | .ok (false, s1) => .ok (true, restore s1 s)

/-- Repetition `e*`: the loop above on a budget of `len(buffer)` iterations. -/
def star (f : Rule) : Rule := fun s => starLoop f s.buffer.length s

/-- A recorded span: `positionN := position; depth++; f; depth--; add(rule, positionN)`. -/
def capture (rule : pegRule) (f : Rule) : Rule := fun s =>
  match f { s with depth := inc s.depth } with
  | .error e => .error e
  | .ok (false, s1) => .ok (false, s1)
  | .ok (true, s1) =>
    match add rule s.position { s1 with depth := dec s1.depth } with
    | .error e => .error e
    | .ok s2 => .ok (true, s2)

/-- An action marker: `{ add(ruleActionN, position) }`. -/
def action (rule : pegRule) : Rule := fun s =>
  match add rule s.position s with
  | .error e => .error e
  | .ok s1 => .ok (true, s1)

/-- The frame of a rule function: `positionN, tokenIndexN, depthN := position, tokenIndex, depth`
on entry, `return true` on success, and on failure
`lN: position, tokenIndex, depth = positionN, tokenIndexN, depthN; return false`. -/
def ruleFn (f : Rule) : Rule := fun s =>
  match f s with
  | .error e => .error e
  | .ok (true, s1) => .ok (true, s1)
  | .ok (false, s1) => .ok (false, restore s1 s)

/-! ## The rule table -/

/-- Rule 8, `Space <- <(' ' / '\t')>`. -/
def rules_ruleSpace : Rule :=
  ruleFn (capture pegRule.ruleSpace (alt (lit 32) (lit 9)))

/-- Rule 9, `EndOfLine <- <(('\r' '\n') / '\n' / '\r')>`. -/
def rules_ruleEndOfLine : Rule :=
  ruleFn (capture pegRule.ruleEndOfLine (alt (seq (lit 13) (lit 10)) (alt (lit 10) (lit 13))))

/-- The `switch buffer[position]` of rule Identifier: `.`, `@`, `-`, `_`, a digit
(`[0-9] / [0-9]`), `[A-Z]`, and `[a-z]` as the default case. -/
def identChar : Rule := fun s =>
  match s.buffer[s.position]? with
  | none => .error Fault.indexOutOfRange
  | some c =>
    if c = 46 then lit 46 s
    else if c = 64 then lit 64 s
    else if c = 45 then lit 45 s
    else if c = 95 then lit 95 s
    else if 48 ≤ c ∧ c ≤ 57 then alt (range 48 57) (range 48 57) s
    else if 65 ≤ c ∧ c ≤ 90 then range 65 90 s
    else range 97 122 s

/-- Rule 4, `Identifier <- <(...)+>`: one character of the class, then the loop `l79`. -/
def rules_ruleIdentifier : Rule :=
  ruleFn (capture pegRule.ruleIdentifier (seq identChar (star identChar)))

/-- The `switch buffer[position]` inside the lookahead of rule Word: `\n`, `\r`, `#`,
`\t`, and the blank as the default case. -/
def stopChar : Rule := fun s =>
  match s.buffer[s.position]? with
  | none => .error Fault.indexOutOfRange
  | some c =>
    if c = 10 then lit 10 s
    else if c = 13 then lit 13 s
    else if c = 35 then lit 35 s
    else if c = 9 then lit 9 s
    else lit 32 s

/-- One item of rule Word: `!(stop character) .`. -/
def wordChar : Rule := seq (notP stopChar) matchDot

/-- Rule 5, `Word <- <(!(...) .)+>`. -/
def rules_ruleWord : Rule :=
  ruleFn (capture pegRule.ruleWord (seq wordChar (star wordChar)))

/-- Rule 7 as inlined in SpaceComment, `Comment <- <('#' (!EndOfLine .)* EndOfLine)>`. -/
def inlineComment : Rule :=
  capture pegRule.ruleComment
    (seq (lit 35) (seq (star (seq (notP rules_ruleEndOfLine) matchDot)) rules_ruleEndOfLine))

/-- The `switch buffer[position]` of rule SpaceComment: `\n`, `\r` select EndOfLine,
`#` selects Comment, and `Space+` is the default case. -/
def spaceCommentSwitch : Rule := fun s =>
  match s.buffer[s.position]? with
  | none => .error Fault.indexOutOfRange
  | some c =>
    if c = 10 ∨ c = 13 then rules_ruleEndOfLine s
    else if c = 35 then inlineComment s
    else seq rules_ruleSpace (star rules_ruleSpace) s

/-- Rule 6, `SpaceComment <- <((&('\n' | '\r') EndOfLine) | (&('#') Comment) | (&('\t' | ' ') Space+))>`. -/
def rules_ruleSpaceComment : Rule :=
  ruleFn (capture pegRule.ruleSpaceComment spaceCommentSwitch)

/-- Rule 3 as inlined in ValueLine, `Value <- <(Word (Space+ Word)*)>`. -/
def inlineValue : Rule :=
  capture pegRule.ruleValue
    (seq rules_ruleWord (star (seq rules_ruleSpace (seq (star rules_ruleSpace) rules_ruleWord))))

/-- Rule 2 as inlined in Section,
`ValueLine <- <(Space* <Identifier> Action2 Space* '=' Space* <Value> Action3 SpaceComment)>`. -/
def inlineValueLine : Rule :=
  capture pegRule.ruleValueLine
    (seq (star rules_ruleSpace)
    (seq (capture pegRule.rulePegText rules_ruleIdentifier)
    (seq (action pegRule.ruleAction2)
    (seq (star rules_ruleSpace)
    (seq (lit 61)
    (seq (star rules_ruleSpace)
    (seq (capture pegRule.rulePegText inlineValue)
    (seq (action pegRule.ruleAction3)
      rules_ruleSpaceComment))))))))

/-- The optional id of a section header: `(Space+ '"' <Identifier> Action1 '"')?`. -/
def inlineSectionID : Rule :=
  opt
    (seq rules_ruleSpace
    (seq (star rules_ruleSpace)
    (seq (lit 34)
    (seq (capture pegRule.rulePegText rules_ruleIdentifier)
    (seq (action pegRule.ruleAction1)
      (lit 34))))))

/-- Rule 1 as inlined (twice, identically) in Grammar,
`Section <- <(Space* '[' Space* <Identifier> Action0 (Space+ '"' <Identifier> Action1 '"')? Space* ']' SpaceComment ValueLine*)>`. -/
def inlineSection : Rule :=
  capture pegRule.ruleSection
    (seq (star rules_ruleSpace)
    (seq (lit 91)
    (seq (star rules_ruleSpace)
    (seq (capture pegRule.rulePegText rules_ruleIdentifier)
    (seq (action pegRule.ruleAction0)
    (seq inlineSectionID
    (seq (star rules_ruleSpace)
    (seq (lit 93)
    (seq rules_ruleSpaceComment
      (star inlineValueLine))))))))))

/-- Rule 0 of the table, the start rule `Grammar <- <(SpaceComment / Section)+>`. -/
def rules_ruleGrammar : Rule :=
  ruleFn (capture pegRule.ruleGrammar
    (seq (alt rules_ruleSpaceComment inlineSection) (star (alt rules_ruleSpaceComment inlineSection))))

/-! ## The section builder (`config.go`) and `Parse` (`gitconfig.go`) -/

/-- The Go map `map[string]string` as a list of bindings with pairwise distinct keys;
`mapSet` is the assignment `m[k] = v`. -/
def mapSet (m : List (String × String)) (k v : String) : List (String × String) :=
  if m.any (fun p => p.1 == k) then m.map (fun p => if p.1 == k then (k, v) else p)
  else m ++ [(k, v)]

/-- The Go map lookup `m[k]` with its presence flag. -/
def mapGet (m : List (String × String)) (k : String) : Option String :=
  (m.find? (fun p => p.1 == k)).map Prod.snd

/-- The record `Section`: `Type` (here `Type_`), `ID` and the map `Values`. -/
structure Section where
  Type_ : String
  ID : String
  Values : List (String × String)
  deriving DecidableEq, Repr

/-- The token store `tokens32`: the slice `tree` and the cache `ordered` of `Order`. -/
structure tokens32 where
  tree : tokenSlice
  ordered : Option (List (List token32))
  deriving DecidableEq, Repr

/-- The fields of `config` the code reads or writes. `curSection` is the pointer into
`sections`, held as the index of the section it points to (`none` is `nil`);
`tokenTree` is `nil` until the `Parse` closure has run. -/
structure config where
  sections : List Section
  curSection : Option Nat
  curKey : String
  Buffer : String
  buffer : List Nat
  tokenTree : Option tokens32
  deriving DecidableEq, Repr

/-- The error value `parseError{p}`: it only holds the parser it came from. -/
structure parseError where
  p : config
  deriving DecidableEq, Repr

/-- The method `addSection`: a fresh section with an empty map becomes the current one and
is appended to `sections`. -/
def config.addSection (p : config) (stype : String) : config :=
  { p with
    curSection := some p.sections.length
    sections := p.sections ++ [⟨stype, "", []⟩] }

/-- The method `setID`: `p.curSection.ID = id`, a nil dereference without a section. -/
def config.setID (p : config) (id : String) : Except Fault config :=
  match p.curSection with
  | none => .error Fault.nilDereference
  | some i => .ok { p with sections := p.sections.modify (fun sec => { sec with ID := id }) i }

/-- The method `addValue`: `p.curSection.Values[p.curKey] = value`. -/
def config.addValue (p : config) (value : String) : Except Fault config :=
  match p.curSection with
  | none => .error Fault.nilDereference
  | some i => .ok { p with
      sections := p.sections.modify
        (fun sec => { sec with Values := mapSet sec.Values p.curKey value }) i }

/-- The method `setKey`: `p.curKey = key`. -/
def config.setKey (p : config) (key : String) : config :=
  { p with curKey := key }

/-- The conversion `string(runes)`: a rune that is not a Unicode scalar value becomes U+FFFD. -/
def stringOfRunes (rs : List Nat) : String :=
  String.mk (rs.map fun r => if r.isValidChar then Char.ofNat r else Char.ofNat 65533)

/-- The slice expression `_buffer[begin:end]`, which panics unless `begin <= end <= len`. -/
def sliceRunes (buffer : List Nat) (begin end_ : Nat) : Except Fault (List Nat) :=
  if begin ≤ end_ ∧ end_ ≤ buffer.length then .ok ((buffer.take end_).drop begin)
  else .error Fault.indexOutOfRange

/-- One turn of the loop of `Execute`: the `switch token.pegRule` acting on the parser and
on the local variable `text`. -/
def executeStep (st : config × String) (token : token32) : Except Fault (config × String) :=
  match token.pegRule with
  | pegRule.rulePegText =>
    match sliceRunes st.1.buffer token.begin token.end_ with
    | .error e => .error e
    | .ok rs => .ok (st.1, stringOfRunes rs)
  | pegRule.ruleAction0 => .ok (st.1.addSection st.2, st.2)
  | pegRule.ruleAction1 =>
    match st.1.setID st.2 with
    | .error e => .error e
    | .ok p => .ok (p, st.2)
  | pegRule.ruleAction2 => .ok (st.1.setKey st.2, st.2)
  | pegRule.ruleAction3 =>
    match st.1.addValue st.2 with
    | .error e => .error e
    | .ok p => .ok (p, st.2)
  | _ => .ok st

/-- The loop `for token := range p.tokenTree.Tokens()` of `Execute` over a token list. -/
def executeLoop : List token32 → config × String → Except Fault (config × String)
  | [], st => .ok st
  | token :: rest, st =>
    match executeStep st token with
    | .error e => .error e
    | .ok st1 => executeLoop rest st1

/-- The method `Execute`: runs the loop over the tokens of `p.tokenTree` with `text = ""`. -/
def config.Execute (p : config) : Except Fault config :=
  match p.tokenTree with
  | none => .error Fault.nilDereference
  | some t =>
    match executeLoop t.tree.toList (p, "") with
    | .error e => .error e
    | .ok st => .ok st.1

/-- The length `math.MaxInt16` of the token slice that `Init` allocates. -/
def maxInt16 : Nat := 32767

/-- The buffer that `Init` builds: `[]rune(p.Buffer)` followed by `end_symbol` unless the
last rune already is the sentinel. -/
def initBuffer (Buffer : String) : List Nat :=
  let runes := Buffer.toList.map Char.toNat
  if runes.length = 0 ∨ runes.getLast? ≠ some end_symbol then runes ++ [end_symbol] else runes

/-- The method `Init`: the parser with its rune buffer, and the initial closure state
(`position`, `depth`, `tokenIndex` zero, a token slice of `math.MaxInt16` zero tokens). -/
def Init (p : config) : config × Matcher :=
  let buffer := initBuffer p.Buffer
  ({ p with buffer := buffer },
   { buffer := buffer, position := 0, depth := 0, tokenIndex := 0,
     tree := tokenSlice.make maxInt16, appended := [] })

/-- The method `trim`: `t.tree = t.tree[0:length]`, which panics beyond the slice. -/
def tokens32.trim (t : tokens32) (length : Nat) : Except Fault tokens32 :=
  if length ≤ t.tree.len then .ok { t with tree := ⟨t.tree.cells.take length, length⟩ }
  else .error Fault.indexOutOfRange

/-- The closure `p.Parse` called without arguments: runs the start rule (`p.rules[1]`),
stores the token tree in the parser, and either trims it and returns no error or
returns `parseError{p}`. The second component is the closure state afterwards. -/
def config.Parse (p : config) (m : Matcher) :
    Except Fault (config × Option parseError × Matcher) :=
  match rules_ruleGrammar m with
  | .error e => .error e
  | .ok (true, m1) =>
    match tokens32.trim ⟨m1.tree, none⟩ m1.tokenIndex with
    | .error e => .error e
    | .ok t => .ok ({ p with tokenTree := some t }, none, m1)
  | .ok (false, m1) =>
    let p1 := { p with tokenTree := some ⟨m1.tree, none⟩ }
    .ok (p1, some ⟨p1⟩, m1)

/-- The literal `&config{Buffer: string(data)}`: every other field has its zero value. -/
def config.new (data : String) : config := ⟨[], none, "", data, [], none⟩

/-- The whole run of `Parse(data)`: `Init`, `conf.Parse()`, and `Execute` when the parse
succeeded. Returns the parser as it is when `Parse` returns, with the error value. -/
def parseRun (data : String) : Except Fault (config × Option parseError) :=
  let im := Init (config.new data)
  match im.1.Parse im.2 with
  | .error e => .error e
  | .ok (p, some err, _) => .ok (p, some err)
  | .ok (p, none, _) =>
    match p.Execute with
    | .error e => .error e
    | .ok p1 => .ok (p1, none)

/-- The slice `conf.sections` as `Parse` returns it: the field is `nil` until `addSection`
appends to it, so it is `nil` exactly when it holds no section. A `nil` slice of sections
is `none`. -/
def sectionSlice (sections : List Section) : Option (List Section) :=
  if sections.isEmpty then none else some sections

/-- The function `Parse`: `(nil, err)` when `conf.Parse()` fails, `(conf.sections, nil)`
otherwise, where `conf.sections` is `nil` when no section was added. -/
def Parse (data : String) : Except Fault (Option (List Section) × Option parseError) :=
  match parseRun data with
  | .error e => .error e
  | .ok (_, some err) => .ok (none, some err)
  | .ok (p, none) => .ok (sectionSlice p.sections, none)

/-! ## Derived views of the token buffer: `Order`, `Error`, `AST` -/

/-- The tokens `Order` keeps: its first loop cuts the slice at the first token tagged
`ruleUnknown` (`t.tree = t.tree[:i]; break`), so the entries before that one remain. -/
def tokenSlice.liveTokens (t : tokenSlice) : List token32 :=
  (t.cells.take t.len).takeWhile (fun tok => decide (tok.pegRule ≠ pegRule.ruleUnknown))

/-- An `int32` counter is kept as its bit pattern, a number below `2 ^ 32`; it is
negative when the pattern is `2 ^ 31` or more. -/
def int32Negative (n : Nat) : Bool := decide (2147483648 ≤ n)

/-- The first loop of `Order`: `depths[depth]++` (on `int32`) for every token, after
`depths = depths[:depth+1]` when `depth >= len(depths)`; the reslice panics beyond the
capacity `math.MaxInt16` of `depths`. -/
def countDepths : List token32 → List Nat → Except Fault (List Nat)
  | [], depths => .ok depths
  | token :: rest, depths =>
    let depth := token.next
    if depth ≥ depths.length then
      if depth + 1 ≤ 32767 then
        countDepths rest
          ((depths ++ List.replicate (depth + 1 - depths.length) 0).modify
            (fun n => (n + 1) % u32) depth)
      else .error Fault.indexOutOfRange
    else countDepths rest (depths.modify (fun n => (n + 1) % u32) depth)

/-- The second loop of `Order`: `depth++; ordered[i], pool, depths[i] = pool[:depth],
pool[depth:], 0` for every counter; `pool` is the number of zero tokens still in the
pool, and a slice expression with a negative bound or a bound beyond the pool panics. -/
def carve : List Nat → Nat → Except Fault (List (List token32))
  | [], _ => .ok []
  | depth :: rest, pool =>
    let d := (depth + 1) % u32
    if int32Negative d = false ∧ d ≤ pool then
      match carve rest (pool - d) with
      | .error e => .error e
      | .ok ordered => .ok (List.replicate d token32.zero :: ordered)
    else .error Fault.indexOutOfRange

/-- The third loop of `Order`: `token.next = uint32(i); ordered[depth][depths[depth]] = token;
depths[depth]++`, with `i` the emission index. -/
def scatter : List token32 → Nat → List (List token32) → List Nat →
    Except Fault (List (List token32))
  | [], _, ordered, _ => .ok ordered
  | token :: rest, i, ordered, depths =>
    let depth := token.next
    match ordered[depth]?, depths[depth]? with
    | some bucket, some k =>
      if k < bucket.length then
        scatter rest (i + 1)
          (ordered.set depth (bucket.set k { token with next := i % u32 }))
          (depths.set depth ((k + 1) % u32))
      else .error Fault.indexOutOfRange
    | _, _ => .error Fault.indexOutOfRange

/-- The method `Order`: returns the cached buckets when there are any; otherwise cuts the
tree at the first unknown token, counts the tokens of every depth, carves for every depth
(and one more, from `append(depths, 0)`) a bucket of `count + 1` zero tokens out of a
pool of `len(t.tree)+len(depths)` and fills the buckets in emission order. Returns the
buckets and the updated token store. -/
def tokens32.Order (t : tokens32) : Except Fault (List (List token32) × tokens32) :=
  match t.ordered with
  | some ordered => .ok (ordered, t)
  | none =>
    let live := t.tree.liveTokens
    match countDepths live [0] with
    | .error e => .error e
    | .ok counts =>
      let depths := counts ++ [0]
      match carve depths (live.length + depths.length) with
      | .error e => .error e
      | .ok empty =>
        match scatter live 0 empty (depths.map (fun _ => 0)) with
        | .error e => .error e
        | .ok ordered => .ok (ordered, ⟨⟨live, live.length⟩, some ordered⟩)

/-- The method `Error`: for every bucket, deepest first, its second-to-last entry, or
the zero token when the bucket has fewer than two entries. -/
def tokens32.Error (t : tokens32) : Except Fault (List token32 × tokens32) :=
  match t.Order with
  | .error e => .error e
  | .ok (ordered, t1) =>
    .ok (ordered.reverse.map (fun o =>
      if o.length > 1 then o.getD (o.length - 2) token32.zero else token32.zero), t1)

/-- The first statement of `parseError.Error`, `tokens := e.p.tokenTree.Error()`: the
tokens the message reports, one line each. -/
def parseError.tokens (e : parseError) : Except Fault (List token32) :=
  match e.p.tokenTree with
  | none => .error Fault.nilDereference
  | some t =>
    match t.Error with
    | .error f => .error f
    | .ok (tokens, _) => .ok tokens

/-- The pointer type `*node32`: `nil`, or a node with its token and the links `up`
(first child) and `next` (next sibling). -/
inductive node32 where
  | nil : node32
  | mk (tok : token32) (up next : node32) : node32
  deriving DecidableEq, Repr

/-- The inner loop of `AST`: while the top of the stack lies inside the span of `token`,
`stack.node.next = node.up; node.up = stack.node; stack = stack.down`. A stack entry is
a node whose `next` is still nil, kept as its token and its `up` link. -/
def astPop (token : token32) : List (token32 × node32) → node32 → node32 × List (token32 × node32)
  | [], up => (up, [])
  | (tok, u) :: down, up =>
    if tok.begin ≥ token.begin ∧ tok.end_ ≤ token.end_ then
      astPop token down (node32.mk tok u up)
    else (up, (tok, u) :: down)

/-- The outer loop of `AST` over the tokens after the first: zero-width tokens are
skipped, every other token collects its children from the stack and is pushed. -/
def astLoop : List token32 → List (token32 × node32) → List (token32 × node32)
  | [], stack => stack
  | token :: rest, stack =>
    if token.begin = token.end_ then astLoop rest stack
    else
      let r := astPop token stack node32.nil
      astLoop rest ((token, r.1) :: r.2)

/-- The method `AST`: the first token received (the zero token from a closed channel when
there is none) starts the stack, the loop runs over the rest, and the node on top of
the stack is returned. -/
def tokens32.AST (t : tokens32) : node32 :=
  let tokens := t.tree.toList
  match astLoop tokens.tail [(tokens.head?.getD token32.zero, node32.nil)] with
  | (tok, up) :: _ => node32.mk tok up node32.nil
  | [] => node32.nil

/-- The nodes reached from a pointer by following `next`: a sibling chain. -/
def node32.chain : node32 → List node32
  | node32.nil => []
  | node32.mk tok up next => node32.mk tok up next :: next.chain

/-- Every node reachable from a pointer through `up` and `next`. -/
def node32.nodes : node32 → List node32
  | node32.nil => []
  | node32.mk tok up next => node32.mk tok up next :: (up.nodes ++ next.nodes)

/-- The token of a node (the zero token for `nil`). -/
def node32.token : node32 → token32
  | node32.nil => token32.zero
  | node32.mk tok _ _ => tok

/-- The children of a node: the chain that starts at its `up` link. -/
def node32.children : node32 → List node32
  | node32.nil => []
  | node32.mk _ up _ => up.chain

/-! ## Offsets to lines and columns: `translatePositions` -/

/-- The record `textPosition`. -/
structure textPosition where
  line : Int
  symbol : Int
  deriving DecidableEq, Repr

/-- The type `textPositionMap`, a Go `map[int]textPosition`, as a list of bindings in
which the first binding of a key is the one in force. -/
abbrev textPositionMap := List (Int × textPosition)

/-- The assignment `m[k] = v`. -/
def textPositionMap.set (m : textPositionMap) (k : Int) (v : textPosition) :
    textPositionMap := (k, v) :: m

/-- The lookup `m[k]`: the zero value for a key that is not in the map. -/
def textPositionMap.get (m : textPositionMap) (k : Int) : textPosition :=
  match m.find? (fun p => p.1 == k) with
  | some p => p.2
  | none => ⟨0, 0⟩

/-- The inner loop of `translatePositions`, `for j++; j < length; j++ { if i !=
positions[j] { continue search } }`, on the positions after index `j`: what is left of
them once the entries equal to `i` are passed. -/
def skipEqual (i : Int) : List Int → List Int
  | [] => []
  | p :: ps => if i ≠ p then p :: ps else skipEqual i ps

/-- The loop `search` of `translatePositions` over the runes from index `i` on;
`positions` are the sorted targets from index `j` on (`positions[j]` panics when there
is none), `line` and `symbol` the counters. -/
def translateLoop : List Char → Int → List Int → Int → Int → textPositionMap →
    Except Fault textPositionMap
  | [], _, _, _, _, translations => .ok translations
  | c :: cs, i, positions, line, symbol, translations =>
    let line1 := if c = '\n' then line + 1 else line
    let symbol1 := if c = '\n' then 0 else symbol + 1
    match positions with
    | [] => .error Fault.indexOutOfRange
    | p :: ps =>
      if i = p then
        match skipEqual i ps with
        | [] => .ok (translations.set p ⟨line1, symbol1⟩)
        | q :: qs =>
          translateLoop cs (i + 1) (q :: qs) line1 symbol1 (translations.set p ⟨line1, symbol1⟩)
      else translateLoop cs (i + 1) (p :: ps) line1 symbol1 translations

/-- The function `translatePositions`: `sort.Ints(positions)`, then the loop `search`
from line 1, symbol 0. -/
def translatePositions (buffer : String) (positions : List Int) :
    Except Fault textPositionMap :=
  translateLoop buffer.toList 0 (positions.insertionSort (fun a b => a ≤ b)) 1 0 []

/-! ## The walk of `PreOrder` -/

/-- The record `state32`: a token with the depth counters at the time it was written and
the leaf flag. -/
structure state32 where
  pegRule : pegRule
  begin : Nat
  end_ : Nat
  next : Nat
  depths : List Nat
  leaf : Bool
  deriving DecidableEq, Repr

/-- The method `isParentOf`. -/
def token32.isParentOf (t u : token32) : Bool :=
  decide (t.begin ≤ u.begin ∧ t.end_ ≥ u.end_ ∧ t.next > u.next)

/-- The variables of the goroutine of `PreOrder`: the `int32` counters `depths`, the
level `depth`, the tokens `a` and `b`, and what has been sent on the channel so far. -/
structure Walk where
  depths : List Nat
  depth : Nat
  a : token32
  b : token32
  out : List state32
  deriving Repr

/-- The index expression `ordered[d][i]`, which panics out of range. -/
def bucketAt (ordered : List (List token32)) (d i : Nat) : Except Fault token32 :=
  match ordered[d]? with
  | none => .error Fault.indexOutOfRange
  | some bucket =>
    match bucket[i]? with
    | none => .error Fault.indexOutOfRange
    | some tok => .ok tok

/-- The index expression `depths[d]`. -/
def counterAt (depths : List Nat) (d : Nat) : Except Fault Nat :=
  match depths[d]? with
  | none => .error Fault.indexOutOfRange
  | some n => .ok n

/-- The closure `write`: the token is sent with `next = uint32(depth)`, a copy of the
counters and the leaf flag. -/
def Walk.write (w : Walk) (t : token32) (leaf : Bool) : Walk :=
  { w with out := w.out ++ [⟨t.pegRule, t.begin, t.end_, w.depth % u32, w.depths, leaf⟩] }

/-- The statement `depths[depth]++` on an `int32` counter. -/
def Walk.bump (w : Walk) : Except Fault Walk :=
  match w.depths[w.depth]? with
  | none => .error Fault.indexOutOfRange
  | some n => .ok { w with depths := w.depths.set w.depth ((n + 1) % u32) }

/-- The first inner loop of `depthFirstSearch`: the gap in front of `b`, an `_In_` item
after the token before it in its bucket when `a` is the parent of that token and the
token before `a` in its bucket is not, else a `Pre_` item after the begin of `a`. -/
def Walk.gap (ordered : List (List token32)) (w : Walk) : Except Fault Walk :=
  match counterAt w.depths w.depth with
  | .error e => .error e
  | .ok i =>
    let pre : Walk :=
      if w.a.begin < w.b.begin then
        w.write ⟨pegRule.rulePre_, w.a.begin, w.b.begin, 0⟩ true
      else w
    let inner : token32 → Walk := fun c =>
      if c.end_ ≠ w.b.begin then
        w.write ⟨pegRule.rule_In_, c.end_, w.b.begin, 0⟩ true
      else w
    if 0 < i ∧ int32Negative i = false then
      match bucketAt ordered w.depth (i - 1) with
      | .error e => .error e
      | .ok c =>
        if w.depth = 0 then .error Fault.indexOutOfRange
        else
          match counterAt w.depths (w.depth - 1) with
          | .error e => .error e
          | .ok j =>
            if w.a.isParentOf c then
              if j < 2 ∨ int32Negative j = true then .ok (inner c)
              else
                match bucketAt ordered (w.depth - 1) (j - 2) with
                | .error e => .error e
                | .ok z => if z.isParentOf c then .ok pre else .ok (inner c)
            else .ok pre
    else .ok pre

/-- The second inner loop of `depthFirstSearch`, entered at a level above 0 with `c` and
`parent`: it either finds the next sibling (`continue depthFirstSearch`, the walk
returned with `true`) or writes a `_Suf` item and ascends, until level 0 ends the walk
(`break depthFirstSearch`, returned with `false`). The walk never enters it at level
0, below which the level of this model does not go. -/
def ascend (ordered : List (List token32)) :
    Nat → Walk → token32 → Bool → Except Fault (Bool × Walk)
  | 0, w, c, _ =>
    if (decide (c.pegRule ≠ pegRule.ruleUnknown) && w.a.isParentOf c) then
      .ok (true, { w with b := c })
    else .error Fault.indexOutOfRange
  | depth + 1, w, c, parent =>
    if (decide (c.pegRule ≠ pegRule.ruleUnknown) && w.a.isParentOf c) then
      .ok (true, { w with b := c })
    else
      let w1 : Walk :=
        if parent = true ∧ w.b.end_ ≠ w.a.end_ then
          w.write ⟨pegRule.rule_Suf, w.b.end_, w.a.end_, 0⟩ true
        else w
      if 0 < depth then
        match counterAt w1.depths (depth - 1) with
        | .error e => .error e
        | .ok k =>
          if k = 0 ∨ int32Negative k = true then .error Fault.indexOutOfRange
          else
            match bucketAt ordered (depth - 1) (k - 1) with
            | .error e => .error e
            | .ok a1 =>
              match counterAt w1.depths depth with
              | .error e => .error e
              | .ok n =>
                match bucketAt ordered depth n with
                | .error e => .error e
                | .ok c1 =>
                  ascend ordered depth { w1 with depth := depth, a := a1, b := w1.a } c1
                    (a1.isParentOf w1.a)
      else .ok (false, { w1 with depth := depth })

/-- The loop `depthFirstSearch` on a budget of `fuel` turns: the gap in front of `b`,
then `b` itself, as a non-leaf with a descent to its first child when the next token
one level down is a child of `b`, else as a leaf followed by the second inner loop. -/
def depthFirstSearch (ordered : List (List token32)) : Nat → Walk → Except Fault Walk
  | 0, _ => .error Fault.outOfFuel
  | fuel + 1, w =>
    match w.gap ordered with
    | .error e => .error e
    | .ok w1 =>
      match counterAt w1.depths (w1.depth + 1) with
      | .error e => .error e
      | .ok n =>
        match bucketAt ordered (w1.depth + 1) n with
        | .error e => .error e
        | .ok c =>
          if (decide (c.pegRule ≠ pegRule.ruleUnknown) && w1.b.isParentOf c) then
            match (w1.write w1.b false).bump with
            | .error e => .error e
            | .ok w2 =>
              depthFirstSearch ordered fuel { w2 with depth := w2.depth + 1, a := w2.b, b := c }
          else
            match (w1.write w1.b true).bump with
            | .error e => .error e
            | .ok w2 =>
              match counterAt w2.depths w2.depth with
              | .error e => .error e
              | .ok m =>
                match bucketAt ordered w2.depth m with
                | .error e => .error e
                | .ok c2 =>
                  match ascend ordered w2.depth w2 c2 true with
                  | .error e => .error e
                  | .ok (true, w3) => depthFirstSearch ordered fuel w3
                  | .ok (false, w3) => .ok w3

/-- The method `PreOrder`: the buckets of `Order`, and the items its goroutine sends on
the channel until it closes it. The walk starts at level 1 with `a = ordered[0][0]`,
`b = ordered[1][0]` and the counter of level 0 at 1. Every turn of `depthFirstSearch`
advances one counter, and a counter past the end of its bucket panics, so the budget
of one turn for every cell of the buckets and every live token is never used up. -/
def tokens32.PreOrder (t : tokens32) :
    Except Fault (List state32 × List (List token32) × tokens32) :=
  match t.Order with
  | .error e => .error e
  | .ok (ordered, t1) =>
    match bucketAt ordered 0 0 with
    | .error e => .error e
    | .ok root =>
      match bucketAt ordered 1 0 with
      | .error e => .error e
      | .ok b =>
        let depths := (ordered.map (fun _ => 0)).set 0 1
        match depthFirstSearch ordered ((ordered.map List.length).sum + t1.tree.len + 1)
            ⟨depths, 1, root, b, []⟩ with
        | .error e => .error e
        | .ok w => .ok (w.out, ordered, t1)

/-! ## The offsets `parseError.Error` translates -/

/-- The slice `positions` that `parseError.Error` fills and hands to
`translatePositions`: `int(token.begin)` and `int(token.end)` of every token of
`Error()`, in order. -/
def errorPositions (tokens : List token32) : List Int :=
  tokens.flatMap (fun token => [(token.begin : Int), (token.end_ : Int)])

/-! ## Predicates on matcher states and rule functions -/

/-- The tokens below the token count: what a successful parse keeps after `trim`. -/
def Matcher.committed (s : Matcher) : List token32 := s.tree.cells.take s.tokenIndex

/-- What every step of the matcher leaves alone: the buffer, and the tokens below the
token count it started from; the token count and the slice never shrink. -/
structure Frame (s s1 : Matcher) : Prop where
  buffer_eq : s1.buffer = s.buffer
  index_le : s.tokenIndex ≤ s1.tokenIndex
  len_le : s.tree.len ≤ s1.tree.len
  cells_le : s.tree.cells.length ≤ s1.tree.cells.length
  below : ∀ i, i < s.tokenIndex →
    s1.tree.cells.getD i token32.zero = s.tree.cells.getD i token32.zero

/-- A rule function that respects `Frame` whatever it returns. -/
def Framed (f : Rule) : Prop := ∀ s b s1, f s = .ok (b, s1) → Frame s s1

/-- A rule function that hands back the cursor, the token count and the depth it was
called with when it returns false. -/
def Restoring (f : Rule) : Prop :=
  ∀ s s1, f s = .ok (false, s1) →
    s1.position = s.position ∧ s1.tokenIndex = s.tokenIndex ∧ s1.depth = s.depth

/-- A token whose span lies inside a text of `n` characters. -/
def token32.spanOk (n : Nat) (t : token32) : Prop := t.begin ≤ t.end_ ∧ t.end_ ≤ n

/-- The states the matcher moves through: the cursor is inside the buffer, the buffer is
addressable by `uint32` offsets and ends with the sentinel, the token count is within the
written part of a non-empty slice, and every token written so far has a span inside
the text. -/
structure Inv (s : Matcher) : Prop where
  pos_lt : s.position < s.buffer.length
  len_le : s.buffer.length ≤ u32
  last : s.buffer[s.buffer.length - 1]? = some end_symbol
  index_le : s.tokenIndex ≤ s.tree.cells.length
  cells_le : s.tree.cells.length ≤ s.tree.len
  len_pos : 0 < s.tree.len
  cells_ok : ∀ t ∈ s.tree.cells, t.spanOk (s.buffer.length - 1)
  appended_ok : ∀ t ∈ s.appended, t.spanOk (s.buffer.length - 1)

/-- A rule function that, from a state of `Inv`, returns (no fault) in a state of `Inv`,
respects `Frame`, and does not move the cursor backwards when it succeeds. -/
def Safe (f : Rule) : Prop :=
  ∀ s, Inv s → ∃ b s1, f s = .ok (b, s1) ∧ Inv s1 ∧ Frame s s1 ∧
    (b = true → s.position ≤ s1.position)

/-- A rule function whose success consumes at least one character. -/
def Adv (f : Rule) : Prop :=
  ∀ s s1, Inv s → f s = .ok (true, s1) → s.position < s1.position

/-- A token list in which every `Action1` and `Action3` token comes after an `Action0`
token; `seen` tells whether one came before the list. -/
def actionsGuarded : Bool → List token32 → Prop
  | _, [] => True
  | seen, t :: ts =>
    match t.pegRule with
    | pegRule.ruleAction0 => actionsGuarded true ts
    | pegRule.ruleAction1 => seen = true ∧ actionsGuarded seen ts
    | pegRule.ruleAction3 => seen = true ∧ actionsGuarded seen ts
    | _ => actionsGuarded seen ts

/-- A guarded token list that holds an `Action0` token. -/
def sectionOpen (l : List token32) : Prop :=
  actionsGuarded false l ∧ ∃ t ∈ l, t.pegRule = pegRule.ruleAction0

/-- A property of token lists that survives appending a token tagged `r`. -/
def ClosedUnder (Q : List token32 → Prop) (r : pegRule) : Prop :=
  ∀ l t, t.pegRule = r → Q l → Q (l ++ [t])

/-- A property that survives appending any token but `Action1` and `Action3`. -/
def QuietClosed (Q : List token32 → Prop) : Prop :=
  ∀ r, r ≠ pegRule.ruleAction1 → r ≠ pegRule.ruleAction3 → ClosedUnder Q r

/-- A successful call from a state whose committed tokens satisfy `P` ends in a state
whose committed tokens satisfy `Q`. -/
def Hoare (P : List token32 → Prop) (f : Rule) (Q : List token32 → Prop) : Prop :=
  ∀ s s1, Inv s → P s.committed → f s = .ok (true, s1) → Q s1.committed

/-- A tree in which the span of every node lies inside the span of the node it is a
child of. -/
def node32.contained : node32 → Prop
  | node32.nil => True
  | node32.mk tok up next =>
    (∀ c ∈ up.chain, tok.begin ≤ c.token.begin ∧ c.token.end_ ≤ tok.end_) ∧
      up.contained ∧ next.contained

/-- A stack of `AST`: every entry has a contained subtree and holds its children. -/
def stackContained (stack : List (token32 × node32)) : Prop :=
  ∀ e ∈ stack, e.2.contained ∧
    ∀ c ∈ e.2.chain, e.1.begin ≤ c.token.begin ∧ c.token.end_ ≤ e.1.end_

/-! ## Exact behaviour on a given text -/

/-- The input still ahead of the cursor (the sentinel included). -/
def Matcher.rest (s : Matcher) : List Nat := s.buffer.drop s.position

/-- What `Execute` reads off a token: the tag of a `PegText` or action token, with the
text a `PegText` token spans. -/
abbrev Op := pegRule × List Nat

/-- The tokens `Execute` acts on, in order, each `PegText` token with the runes it spans. -/
def opsOf (buffer : List Nat) : List token32 → List Op
  | [] => []
  | t :: ts =>
    match t.pegRule with
    | pegRule.rulePegText =>
      (pegRule.rulePegText, (buffer.take t.end_).drop t.begin) :: opsOf buffer ts
    | pegRule.ruleAction0 => (pegRule.ruleAction0, []) :: opsOf buffer ts
    | pegRule.ruleAction1 => (pegRule.ruleAction1, []) :: opsOf buffer ts
    | pegRule.ruleAction2 => (pegRule.ruleAction2, []) :: opsOf buffer ts
    | pegRule.ruleAction3 => (pegRule.ruleAction3, []) :: opsOf buffer ts
    | _ => opsOf buffer ts

/-- The tags `Execute` acts on. -/
def pegRule.isExec (r : pegRule) : Bool :=
  r == pegRule.rulePegText || r == pegRule.ruleAction0 || r == pegRule.ruleAction1 ||
    r == pegRule.ruleAction2 || r == pegRule.ruleAction3

/-- The state `s1` is the state `s` after the text `w` was consumed: the cursor has moved
over `w`, `r` is ahead, and the committed tokens have grown by tokens that `Execute`
reads as `ops`. -/
structure Step (s s1 : Matcher) (w : List Nat) (ops : List Op) (r : List Nat) : Prop where
  inv : Inv s1
  buffer_eq : s1.buffer = s.buffer
  position_eq : s1.position = s.position + w.length
  rest_eq : s1.rest = r
  ops_eq : opsOf s.buffer s1.committed = opsOf s.buffer s.committed ++ ops

/-- The rule function `f` succeeds on the text `w` whenever what follows `w` satisfies
the lookahead condition `C`, and records `ops`. -/
def Parses (f : Rule) (w : List Nat) (ops : List Op) (C : List Nat → Prop) : Prop :=
  ∀ s r, Inv s → s.rest = w ++ r → C r → ∃ s1, f s = .ok (true, s1) ∧ Step s s1 w ops r

/-- The rule function `f` returns false whenever the input ahead satisfies `C`. -/
def Fails (f : Rule) (C : List Nat → Prop) : Prop :=
  ∀ s, Inv s → C s.rest → ∃ s1, f s = .ok (false, s1)

/-- The input ahead starts with a rune that satisfies `P`. -/
def Next (P : Nat → Prop) (r : List Nat) : Prop := ∃ d t, r = d :: t ∧ P d

/-- The runes rule Identifier accepts: `.`, `@`, `-`, `_`, digits and ASCII letters. -/
def isIdentRune (c : Nat) : Bool :=
  c == 46 || c == 64 || c == 45 || c == 95 || (48 ≤ c && c ≤ 57) || (65 ≤ c && c ≤ 90) ||
    (97 ≤ c && c ≤ 122)

/-- The runes that end a word: newline, carriage return, `#`, tab and blank. -/
def isStopRune (c : Nat) : Bool :=
  c == 10 || c == 13 || c == 35 || c == 9 || c == 32

/-- The runes rule Word accepts: anything but a stop rune and the sentinel. -/
def isWordRune (c : Nat) : Bool := !isStopRune c && c != end_symbol

/-! ## The plain rendering of sections -/

/-- The rune codes of a text: `[]rune(s)`. -/
def runes (s : String) : List Nat := s.toList.map Char.toNat

/-- An identifier: one or more characters of `[A-Za-z0-9_.@-]`. -/
def IsIdentifier (s : String) : Prop :=
  s.toList ≠ [] ∧ ∀ c ∈ s.toList, isIdentRune c.toNat = true

/-- A word: one or more characters, none of them a blank, a tab, `#`, or an end of line. -/
def IsWord (s : String) : Prop :=
  s.toList ≠ [] ∧ ∀ c ∈ s.toList, isStopRune c.toNat = false

/-- Words separated by single blanks. -/
def joinWords : List String → String
  | [] => ""
  | [w] => w
  | w :: v :: ws => w ++ " " ++ joinWords (v :: ws)

/-- The concatenation of a list of texts. -/
def concatStrings : List String → String
  | [] => ""
  | s :: ss => s ++ concatStrings ss

/-- A value line to render: its indentation (a number of blanks), its key and the words
of its value. -/
structure SrcLine where
  indent : Nat
  key : String
  words : List String
  deriving DecidableEq, Repr

/-- The value of a line: its words separated by single blanks. -/
def SrcLine.value (l : SrcLine) : String := joinWords l.words

/-- The line `key = value`, indented, with its newline. -/
def SrcLine.render (l : SrcLine) : String :=
  String.mk (List.replicate l.indent ' ') ++ l.key ++ " = " ++ l.value ++ "\n"

/-- A line whose key is an identifier and whose value has at least one word. -/
def SrcLine.valid (l : SrcLine) : Prop :=
  IsIdentifier l.key ∧ l.words ≠ [] ∧ ∀ w ∈ l.words, IsWord w

/-- A section to render: its type, its optional id and its value lines. -/
structure SrcSection where
  type : String
  id : Option String
  lines : List SrcLine
  deriving DecidableEq, Repr

/-- The header line: `[type]`, or `[type "id"]` when there is an id. -/
def SrcSection.header (s : SrcSection) : String :=
  match s.id with
  | none => "[" ++ s.type ++ "]\n"
  | some i => "[" ++ s.type ++ " \"" ++ i ++ "\"]\n"

/-- The header line followed by the value lines. -/
def SrcSection.render (s : SrcSection) : String :=
  s.header ++ concatStrings (s.lines.map SrcLine.render)

/-- A section whose type and id are identifiers and whose lines are valid. -/
def SrcSection.valid (s : SrcSection) : Prop :=
  IsIdentifier s.type ∧ (∀ i, s.id = some i → IsIdentifier i) ∧ ∀ l ∈ s.lines, l.valid

instance instDecidableIsIdentifier (s : String) : Decidable (IsIdentifier s) := by
  unfold IsIdentifier
  infer_instance

instance instDecidableIsWord (s : String) : Decidable (IsWord s) := by
  unfold IsWord
  infer_instance

instance instDecidableLineValid (l : SrcLine) : Decidable l.valid := by
  unfold SrcLine.valid
  infer_instance

instance instDecidableSectionValid (s : SrcSection) : Decidable s.valid :=
  match h : s.id with
  | none =>
    if h1 : IsIdentifier s.type ∧ ∀ l ∈ s.lines, l.valid then
      isTrue ⟨h1.1, fun i hi => by rw [h] at hi; exact Option.noConfusion hi, h1.2⟩
    else isFalse (fun hv => h1 ⟨hv.1, hv.2.2⟩)
  | some i =>
    if h1 : IsIdentifier s.type ∧ IsIdentifier i ∧ ∀ l ∈ s.lines, l.valid then
      isTrue ⟨h1.1, fun j hj => by
        rw [h] at hj
        rw [← Option.some.inj hj]
        exact h1.2.1, h1.2.2⟩
    else isFalse (fun hv => h1 ⟨hv.1, hv.2.1 i h, hv.2.2⟩)

/-- The map a list of value lines builds, written in order: a later line with the same
key overwrites the value. -/
def valuesOf (lines : List SrcLine) : List (String × String) :=
  lines.foldl (fun m l => mapSet m l.key l.value) []

/-- The section a rendered section stands for. -/
def SrcSection.expected (s : SrcSection) : Section :=
  ⟨s.type, s.id.getD "", valuesOf s.lines⟩

/-- The text of a list of sections: their renderings one after the other. -/
def renderSections (secs : List SrcSection) : String :=
  concatStrings (secs.map SrcSection.render)

/-- What `Execute` does with one entry of `opsOf`: the `switch` of `executeStep` with the
text of the token already sliced. -/
def execOp (st : config × String) (op : Op) : Except Fault (config × String) :=
  match op.1 with
  | pegRule.rulePegText => .ok (st.1, stringOfRunes op.2)
  | pegRule.ruleAction0 => .ok (st.1.addSection st.2, st.2)
  | pegRule.ruleAction1 =>
    match st.1.setID st.2 with
    | .error e => .error e
    | .ok p => .ok (p, st.2)
  | pegRule.ruleAction2 => .ok (st.1.setKey st.2, st.2)
  | pegRule.ruleAction3 =>
    match st.1.addValue st.2 with
    | .error e => .error e
    | .ok p => .ok (p, st.2)
  | _ => .ok st

/-- The loop of `Execute` on the entries of `opsOf`. -/
def execOps : List Op → config × String → Except Fault (config × String)
  | [], st => .ok st
  | op :: rest, st =>
    match execOp st op with
    | .error e => .error e
    | .ok st1 => execOps rest st1

/-- What `Execute` reads off the tokens of a rendered value line. -/
def SrcLine.ops (l : SrcLine) : List Op :=
  [(pegRule.rulePegText, runes l.key), (pegRule.ruleAction2, []),
   (pegRule.rulePegText, runes l.value), (pegRule.ruleAction3, [])]

/-- What `Execute` reads off the tokens of a rendered header. -/
def SrcSection.headerOps (s : SrcSection) : List Op :=
  match s.id with
  | none => [(pegRule.rulePegText, runes s.type), (pegRule.ruleAction0, [])]
  | some i => [(pegRule.rulePegText, runes s.type), (pegRule.ruleAction0, []),
      (pegRule.rulePegText, runes i), (pegRule.ruleAction1, [])]

/-- What `Execute` reads off the tokens of a rendered section. -/
def SrcSection.ops (s : SrcSection) : List Op :=
  s.headerOps ++ (s.lines.map SrcLine.ops).flatten

/-- The line `key = value #comment`, indented, with its newline. -/
def SrcLine.renderCommented (l : SrcLine) (comment : String) : String :=
  String.mk (List.replicate l.indent ' ') ++ l.key ++ " = " ++ l.value ++ " #" ++ comment ++ "\n"

/-- A section to render whose header may be indented and whose last value line may carry a
comment: the number of blanks in front of the header, the section with its plain value
lines, and the commented line with its comment. -/
structure SrcBlock where
  indent : Nat
  plain : SrcSection
  commented : Option (SrcLine × String)
  deriving DecidableEq, Repr

/-- The text of a block: the indented header, the plain value lines and the commented
line. -/
def SrcBlock.render (b : SrcBlock) : String :=
  String.mk (List.replicate b.indent ' ') ++
    match b.commented with
    | none => b.plain.render
    | some (l, c) => b.plain.render ++ l.renderCommented c

/-- The section of a block with all its value lines, the commented one last. -/
def SrcBlock.whole (b : SrcBlock) : SrcSection :=
  match b.commented with
  | none => b.plain
  | some (l, _) => ⟨b.plain.type, b.plain.id, b.plain.lines ++ [l]⟩

/-- A commented line that is valid and whose comment has no end of line in it. -/
def commentValid : Option (SrcLine × String) → Prop
  | none => True
  | some (l, c) => l.valid ∧ ∀ x ∈ c.toList, x ≠ '\n' ∧ x ≠ '\r'

instance instDecidableCommentValid : (o : Option (SrcLine × String)) → Decidable (commentValid o)
  | none => isTrue trivial
  | some (l, c) =>
    if h : l.valid ∧ ∀ x ∈ c.toList, x ≠ '\n' ∧ x ≠ '\r' then isTrue h else isFalse h

/-- A block whose section and commented line are valid. -/
def SrcBlock.valid (b : SrcBlock) : Prop := b.plain.valid ∧ commentValid b.commented

instance instDecidableBlockValid (b : SrcBlock) : Decidable b.valid := by
  unfold SrcBlock.valid
  infer_instance

/-- The text of a list of blocks: their renderings one after the other. -/
def renderBlocks (bs : List SrcBlock) : String := concatStrings (bs.map SrcBlock.render)

/-- The input ahead is a run of blanks followed by a rune that satisfies `P`. -/
def Indented (P : Nat → Prop) (r : List Nat) : Prop :=
  ∃ n d t, r = List.replicate n 32 ++ d :: t ∧ P d


/-- The caller's view of a failed parse: `_, err := Parse(data)` and then the token chain
that `err.Error()` reports; `none` when `Parse` returned no error. -/
def errorTokens (data : String) : Except Fault (Option (List token32)) :=
  match Parse data with
  | .error f => .error f
  | .ok (_, none) => .ok none
  | .ok (_, some err) =>
    match err.tokens with
    | .error f => .error f
    | .ok tokens => .ok (some tokens)

/-! ## What `Order` computes -/

/-- The tokens of depth `d` among `toks`, in emission order, each with its `next` field
set to its emission index (counted from `i`): what bucket `d` of `Order` should hold. -/
def bucketSpec (i : Nat) (toks : List token32) (d : Nat) : List token32 :=
  ((toks.enumFrom i).filter (fun p => decide (p.2.next = d))).map
    (fun p => { p.2 with next := p.1 })

/-- One more than the deepest depth among `toks`, and at least `n`: the number of
counters the first loop of `Order` ends with. -/
def depthSpan (toks : List token32) (n : Nat) : Nat :=
  toks.foldl (fun m t => max m (t.next + 1)) n

/-- How many of `toks` have depth `d`. -/
def depthCount (toks : List token32) (d : Nat) : Nat :=
  toks.countP (fun t => decide (t.next = d))

/-! ## What `translatePositions` records -/

/-- The line counter after the runes up to and including offset `p` have been read: one
more than the number of newlines among them. -/
def lineAfter (buffer : String) (p : Nat) : Int :=
  1 + ((buffer.toList.take (p + 1)).count '\n' : Nat)

/-- The symbol counter after the runes up to and including offset `p` have been read:
the number of runes after the last newline among them. -/
def symbolAfter (buffer : String) (p : Nat) : Int :=
  (((buffer.toList.take (p + 1)).reverse.takeWhile (fun c => decide (c ≠ '\n'))).length : Nat)

/-- The counters `line` and `symbol` after the loop `search` has read the runes `l`. -/
def scanCounters (line symbol : Int) (l : List Char) : Int × Int :=
  l.foldl (fun st c => if c = '\n' then (st.1 + 1, 0) else (st.1, st.2 + 1)) (line, symbol)

/-! ## The nesting of the committed tokens -/

/-- How an earlier token `a` of a parse lies to a later token `b`: it ends where `b`
begins or before, or it lies inside `b` at a greater depth. -/
def token32.before (a b : token32) : Prop :=
  a.end_ ≤ b.begin ∨ (b.begin ≤ a.begin ∧ a.end_ ≤ b.end_ ∧ b.next < a.next)

/-- The tokens of a forest of depth `d` over the text from `lo` to `hi`, as the parser
writes them: tree after tree in text order, each tree being the tokens of its children
(a forest one level deeper, over the text of the tree) followed by the token of its
root, which has a known rule and the depth `d`. -/
inductive Forest : Nat → Nat → Nat → List token32 → Prop
  | nil {d lo hi : Nat} : lo ≤ hi → Forest d lo hi []
  | snoc {d lo hi b e : Nat} {r : pegRule} {ts cs : List token32} :
      Forest d lo b ts → Forest (d + 1) b e cs → e ≤ hi → r ≠ pegRule.ruleUnknown →
      Forest d lo hi (ts ++ cs ++ [⟨r, b, e, d⟩])

/-- The state `s1` is the state `s` after a successful step that has committed the tokens
`new`: same depth, the cursor not behind, and `new` nested, inside the text the step
has read and not above the depth of the step; `new` is a forest at the depth of the
step over the text read. -/
structure Grow (s s1 : Matcher) (new : List token32) : Prop where
  depth_eq : s1.depth = s.depth
  pos_le : s.position ≤ s1.position
  committed_eq : s1.committed = s.committed ++ new
  nested : new.Pairwise token32.before
  inside : ∀ t ∈ new, s.position ≤ t.begin ∧ t.begin ≤ t.end_ ∧ t.end_ ≤ s1.position ∧
    s.depth ≤ t.next
  forest : Forest s.depth s.position s1.position new

/-- A rule function that stays within `h` levels of the depth it is called at: no token
it writes is deeper than that, whatever it returns; and when it succeeds the committed
tokens have grown as `Grow` says. -/
def Deep (h : Nat) (f : Rule) : Prop :=
  ∀ s b s1, Inv s → f s = .ok (b, s1) → ∀ B, s.depth + h ≤ B → B < u32 →
    (∀ t ∈ s.tree.cells, t.next ≤ B) →
    (∀ t ∈ s1.tree.cells, t.next ≤ B) ∧ s1.depth ≤ s.depth + h ∧
    (b = true → ∃ new, Grow s s1 new)

/-- A safe rule function of depth at most `h`. -/
def Tidy (h : Nat) (f : Rule) : Prop := Safe f ∧ Deep h f

/-! ## The shape of the tree of `AST` -/

/-- A forest in which every node ends where its next sibling begins or before. -/
def node32.inOrder : node32 → Prop
  | node32.nil => True
  | node32.mk tok up next =>
    (next = node32.nil ∨ tok.end_ ≤ next.token.begin) ∧ up.inOrder ∧ next.inOrder

/-- The tokens held by a stack of `AST`: those of the entries and of the nodes under
them. -/
def stackTokens (stack : List (token32 × node32)) : List token32 :=
  stack.flatMap (fun e => e.1 :: e.2.nodes.map node32.token)

/-! ## What `PreOrder` sends -/

/-- The items sent for a non-leaf item of depth `d`, read off the items `rest` sent after
it: those of depth `d + 1` among the items that follow it up to the next item that is
not deeper than `d`. -/
def childItems (d : Nat) (rest : List state32) : List state32 :=
  (rest.takeWhile (fun s => decide (d < s.next))).filter (fun s => decide (s.next = d + 1))

/-- The spans of `items`, in order, tile the text from `lo` to `hi`: the first begins at
`lo`, each begins where the one before it ended, and the last ends at `hi`. -/
def tiles : Nat → Nat → List state32 → Prop
  | lo, hi, [] => lo = hi
  | lo, hi, x :: xs => x.begin = lo ∧ tiles x.end_ hi xs

/-- The items of a walk over a forest of depth `d` that tile the text from `lo` to `hi`:
item after item of depth `d`, each beginning where the one before it ended, a non-leaf
item followed by a non-empty walk one level deeper that tiles its span. -/
inductive Tiled : Nat → Nat → Nat → List state32 → Prop
  | done {d lo : Nat} : Tiled d lo lo []
  | leaf {d hi : Nat} {x : state32} {rest : List state32} :
      x.next = d → x.leaf = true → Tiled d x.end_ hi rest → Tiled d x.begin hi (x :: rest)
  | node {d hi : Nat} {x : state32} {sub rest : List state32} :
      x.next = d → x.leaf = false → sub ≠ [] → Tiled (d + 1) x.begin x.end_ sub →
      Tiled d x.end_ hi rest → Tiled d x.begin hi (x :: (sub ++ rest))

/-- What the outer loop of `PreOrder` does with the result of its second inner loop:
the next turn, or the end of the walk. -/
def resume (ordered : List (List token32)) (fuel : Nat) :
    Except Fault (Bool × Walk) → Except Fault Walk
  | .error e => .error e
  | .ok (true, w) => depthFirstSearch ordered fuel w
  | .ok (false, w) => .ok w

/-- The token `t` as `Order` files it: with `next` set to its index `i`. -/
def token32.filed (t : token32) (i : Nat) : token32 := { t with next := i }

/-- The buckets `ordered` are those `Order` makes of the tokens `toks`, which are fewer
than `2 ^ 31 - 1`, well formed and of known rules: every bucket holds the tokens of its
depth, filed, and then one zero token; there is a bucket one level below every token. -/
structure Buckets (toks : List token32) (ordered : List (List token32)) : Prop where
  get : ∀ d, d < ordered.length →
    ordered[d]? = some (bucketSpec 0 toks d ++ [token32.zero])
  depth_lt : ∀ t ∈ toks, t.next + 1 < ordered.length
  known : ∀ t ∈ toks, t.pegRule ≠ pegRule.ruleUnknown
  span : ∀ t ∈ toks, t.begin ≤ t.end_
  count : toks.length < 2147483647
  levels : ordered.length < u32

/-- The walk `w` is at the first root of the forest `ts` of depth `d` over the text from
`lo` to `hi`, which follows the tokens `pre`: `a` is a token that begins at `lo`, ends at
`hi` or after and is filed after the forest, the counter one level up is `cP`, just
past `a` in its bucket, the token before `a` in that bucket is filed before the forest,
the counters from level `d` on count the tokens of `pre`, and `b` is the cell at the
counter of level `d`. -/
structure Ready (toks : List token32) (ordered : List (List token32)) (d lo hi : Nat)
    (ts pre post : List token32) (w : Walk) (cP : Nat) : Prop where
  split : toks = pre ++ ts ++ post
  depth : w.depth = d
  lo_eq : w.a.begin = lo
  hi_le : hi ≤ w.a.end_
  after : pre.length + ts.length ≤ w.a.next
  before : ∀ t ∈ pre, t.end_ ≤ lo
  size : w.depths.length = ordered.length
  up : w.depths[d - 1]? = some cP
  up_pos : 0 < cP
  up_lt : cP < 2147483648
  parent : bucketAt ordered (d - 1) (cP - 1) = .ok w.a
  uncle : 2 ≤ cP → ∃ z, bucketAt ordered (d - 1) (cP - 2) = .ok z ∧ z.next < pre.length
  cursors : ∀ e, d ≤ e → e < ordered.length → w.depths[e]? = some (depthCount pre e)
  first : bucketAt ordered d (depthCount pre d) = .ok w.b

/-- The rules of the items `PreOrder` makes up for the text between tokens: `Pre_`,
`_In_` and `_Suf`. -/
def pegRule.isSynthetic (r : pegRule) : Bool :=
  r == pegRule.rulePre_ || r == pegRule.rule_In_ || r == pegRule.rule_Suf

/-- An item of `PreOrder` that is neither synthetic nor zero-width. -/
def state32.isReal (s : state32) : Bool := !s.pegRule.isSynthetic && s.begin != s.end_

/-- The items of `PreOrder` that are neither synthetic nor zero-width, in emission order,
each as its rule, begin, end and depth. -/
def realItems (out : List state32) : List (pegRule × Nat × Nat × Nat) :=
  (out.filter state32.isReal).map (fun s => (s.pegRule, s.begin, s.end_, s.next))

/-- The tokens of a list that are not zero-width, each as its rule, begin, end and depth. -/
def visits (ps : List token32) : List (pegRule × Nat × Nat × Nat) :=
  (ps.filter (fun t => t.begin != t.end_)).map (fun t => (t.pegRule, t.begin, t.end_, t.next))

/-- The depth-first pre-order walk from a pointer taken as being at depth `d`: the node,
then the walk from its `up` link one level deeper, then the walk from its `next` link
at the same level; each node as its rule, begin, end and the depth it is reached at. -/
def node32.walk : node32 → Nat → List (pegRule × Nat × Nat × Nat)
  | node32.nil, _ => []
  | node32.mk tok up next, d =>
    (tok.pegRule, tok.begin, tok.end_, d) :: (up.walk (d + 1) ++ next.walk d)

/-- The nodes on the stack of `AST`, oldest first, each walked with what hangs from its `up`
link, at depth `d`. -/
def stackWalk : List (token32 × node32) → Nat → List (pegRule × Nat × Nat × Nat)
  | [], _ => []
  | (tok, u) :: down, d =>
    stackWalk down d ++ (tok.pegRule, tok.begin, tok.end_, d) :: u.walk (d + 1)

/-- A forest (see `Forest`) with its tokens `ps` in pre-order: tree after tree, the token
of each root followed by the tokens of its children in pre-order. -/
inductive Walks : Nat → Nat → Nat → List token32 → List token32 → Prop
  | nil {d lo hi : Nat} : lo ≤ hi → Walks d lo hi [] []
  | snoc {d lo hi b e : Nat} {r : pegRule} {ts cs ps qs : List token32} :
      Walks d lo b ts ps → Walks (d + 1) b e cs qs → e ≤ hi → r ≠ pegRule.ruleUnknown →
      Walks d lo hi (ts ++ cs ++ [⟨r, b, e, d⟩]) (ps ++ ⟨r, b, e, d⟩ :: qs)

/-- From the walk `w`, one turn of `depthFirstSearch` for every token of the forest `ts`
brings the walk to its second inner loop after the last root of `ts`, at the level `d`
of the forest and with the same `a`: the counters below `d` are as they were, those
from `d` on count the tokens of `pre` and `ts`, `c` is the cell at the counter of level
`d`, and the items sent tile the text from `lo` to the end of that last root; when no
token of `ts` has a synthetic rule, the items sent that are real are the tokens of the
forest that are not zero-width, in the pre-order `ps`. -/
def Walked (ordered : List (List token32)) (d lo hi : Nat) (ts ps pre : List token32)
    (w : Walk) (f : Nat) : Prop :=
  ∃ (ds : List Nat) (items : List state32) (last c : token32),
    depthFirstSearch ordered (f + ts.length) w =
      resume ordered f (ascend ordered d ⟨ds, d, w.a, last, w.out ++ items⟩ c true) ∧
    bucketAt ordered d (depthCount (pre ++ ts) d) = .ok c ∧
    ds.length = ordered.length ∧
    (∀ e, e < d → ds[e]? = w.depths[e]?) ∧
    (∀ e, d ≤ e → e < ordered.length → ds[e]? = some (depthCount (pre ++ ts) e)) ∧
    Tiled d lo last.end_ items ∧ items ≠ [] ∧ last.end_ ≤ hi ∧
    ∃ init y, ts = init ++ [y] ∧ y.next = d ∧ last = y.filed (pre.length + init.length) ∧
      ((∀ t ∈ ts, t.pegRule.isSynthetic = false) → realItems items = visits ps)

/-! ## Entries of a position map -/

/-- The map has an entry for the key `k`. -/
def textPositionMap.has (m : textPositionMap) (k : Int) : Bool :=
  m.any (fun e => e.1 == k)

/-! ## Loops that end -/

/-- A repetition loop over `f` ends: from every state of `Inv`, one turn of `f` returns
(in a state of `Inv`), and when it returns true the cursor has moved forward by at
least one character (when it returns false the loop is left); and the loop as a whole
returns within as many turns as there are characters from the cursor to the end of
the buffer. -/
def LoopEnds (f : Rule) : Prop :=
  (∀ s, Inv s → ∃ b s1, f s = .ok (b, s1) ∧ Inv s1 ∧ (b = true → s.position < s1.position)) ∧
  ∀ s, Inv s → ∃ s1, starLoop f (s.buffer.length - s.position) s = .ok (true, s1)

/-! ## A Hoare logic on the committed tokens and the cursor -/

/-- A successful call on the buffer `buf`, from a state whose committed tokens and
cursor satisfy `P`, ends in a state whose committed tokens and cursor satisfy `Q`. -/
def HoareOn (buf : List Nat) (P : List token32 → Nat → Prop) (f : Rule)
    (Q : List token32 → Nat → Prop) : Prop :=
  ∀ s s1, Inv s → s.buffer = buf → P s.committed s.position → f s = .ok (true, s1) →
    Q s1.committed s1.position

/-- A property of token lists, read as one of token lists and cursors. -/
def Still (Q : List token32 → Prop) : List token32 → Nat → Prop := fun l _ => Q l

/-- The tags of the captures of the grammar other than `PegText`. -/
def pegRule.isCapture (r : pegRule) : Bool :=
  r == pegRule.ruleGrammar || r == pegRule.ruleSection || r == pegRule.ruleValueLine ||
    r == pegRule.ruleValue || r == pegRule.ruleIdentifier || r == pegRule.ruleWord ||
    r == pegRule.ruleSpaceComment || r == pegRule.ruleComment || r == pegRule.ruleSpace ||
    r == pegRule.ruleEndOfLine

/-- The tags of the four actions. -/
def pegRule.isAction (r : pegRule) : Bool :=
  r == pegRule.ruleAction0 || r == pegRule.ruleAction1 || r == pegRule.ruleAction2 ||
    r == pegRule.ruleAction3

/-- A property of token lists that survives appending the token of a capture other than
`PegText` that is not zero-width. -/
def WideClosed (Q : List token32 → Prop) : Prop :=
  ∀ l t, t.pegRule.isCapture = true → t.begin < t.end_ → Q l → Q (l ++ [t])

/-- Every action token comes right after a `PegText` token that ends where the action
token stands. -/
def actionsPaired (l : List token32) : Prop :=
  ∀ pre tok post, l = pre ++ tok :: post → tok.pegRule.isAction = true →
    ∃ pre1 u, pre = pre1 ++ [u] ∧ u.pegRule = pegRule.rulePegText ∧ u.end_ = tok.begin

/-- Every `Action1`, `Action2` and `Action3` token comes after an `Action0` token. -/
def actionsSectioned (l : List token32) : Prop :=
  ∀ pre tok post, l = pre ++ tok :: post →
    tok.pegRule = pegRule.ruleAction1 ∨ tok.pegRule = pegRule.ruleAction2 ∨
      tok.pegRule = pegRule.ruleAction3 →
    ∃ u ∈ pre, u.pegRule = pegRule.ruleAction0

/-- Every token has the tag of a capture or of an action, the action tokens are
zero-width and the others are not. -/
def tokensPlain (l : List token32) : Prop :=
  ∀ t ∈ l, (t.pegRule.isAction = true ∧ t.begin = t.end_) ∨
    ((t.pegRule.isCapture = true ∨ t.pegRule = pegRule.rulePegText) ∧ t.begin < t.end_)

/-- The three properties together: what the matcher keeps of its committed tokens. -/
def actionsOrdered (l : List token32) : Prop :=
  actionsPaired l ∧ actionsSectioned l ∧ tokensPlain l

/-- Ordered tokens among which there is an `Action0` token. -/
def actionsOpen (l : List token32) : Prop :=
  actionsOrdered l ∧ ∃ u ∈ l, u.pegRule = pegRule.ruleAction0

/-- The property `Q` of the committed tokens, the last of which is a `PegText` token that
ends at the cursor, holds of the tokens before that one. -/
def afterText (Q : List token32 → Prop) : List token32 → Nat → Prop :=
  fun l pos => ∃ l0 u, l = l0 ++ [u] ∧ u.pegRule = pegRule.rulePegText ∧ u.begin < u.end_ ∧
    u.end_ = pos ∧ Q l0

/-- Every `Action3` token of the list stands at an offset of `buf` that holds a stop
rune. -/
def valuesTerminated (buf : List Nat) (l : List token32) : Prop :=
  ∀ t ∈ l, t.pegRule = pegRule.ruleAction3 →
    ∃ c, buf[t.end_]? = some c ∧ isStopRune c = true

/-! ## Zero-width tokens -/

/-- A zero-width token `t` comes after a token `u` that is not zero-width. -/
def token32.apart (u t : token32) : Prop := t.begin = t.end_ → u.begin < u.end_

/-! ## The root of the tree of `AST` -/

/-- The entry that `AST` ends with on top of its stack: the last entry after the first that
is not zero-width, or the first entry when there is none (the zero token for no entry at
all). -/
def astRoot (tokens : List token32) : token32 :=
  ((tokens.tail.filter (fun t => t.begin != t.end_)).getLast?).getD
    (tokens.head?.getD token32.zero)

/-! ## The span of a recorded value -/

/-- A blank or a tab, the runes rule Space accepts. -/
def isBlankRune (c : Nat) : Bool := c == 32 || c == 9

/-- The rune at offset `i` of `text` satisfies `p`. -/
def runeAt (text : List Nat) (p : Nat → Bool) (i : Nat) : Prop :=
  ∃ c, text[i]? = some c ∧ p c = true

/-- Every rune of `text` at an offset from `b` up to `e` (excluded) satisfies `p`. -/
def runesIn (text : List Nat) (p : Nat → Bool) (b e : Nat) : Prop :=
  ∀ i, b ≤ i → i < e → runeAt text p i

/-- No further word follows offset `e` on its line: a run of one or more blanks and tabs
that starts at `e` is not followed by a rune of a word. -/
def noMoreWords (text : List Nat) (e : Nat) : Prop :=
  ∀ n, 0 < n → runesIn text isBlankRune e (e + n) → ¬ runeAt text isWordRune (e + n)

/-- The offsets `b` and `e` delimit the value of a line `key = value` of `text`, exactly:
the span starts at the first rune after a `=` and the blanks and tabs that follow it, that
rune is one of a word, the span holds runes of words, blanks and tabs only (no `#`, no end
of line), its last rune is one of a word (no trailing blank), the rune at `e` ends a word
(a blank, a tab, `#` or an end of line), and no further word follows on the line. -/
structure ValueSpan (text : List Nat) (b e : Nat) : Prop where
  assigned : ∃ q, q < b ∧ runeAt text (fun c => c == 61) q ∧ runesIn text isBlankRune (q + 1) b
  first : runeAt text isWordRune b
  inside : runesIn text (fun c => isWordRune c || isBlankRune c) b e
  last : b < e ∧ runeAt text isWordRune (e - 1)
  stop : runeAt text isStopRune e
  maximal : noMoreWords text e

/-- Every `Action3` token of the list comes right after a `PegText` token that ends where
the action stands and spans exactly the value of its line. -/
def valuesExact (buf : List Nat) (l : List token32) : Prop :=
  ∀ pre tok post, l = pre ++ tok :: post → tok.pegRule = pegRule.ruleAction3 →
    ∃ pre1 u, pre = pre1 ++ [u] ∧ u.pegRule = pegRule.rulePegText ∧ u.end_ = tok.begin ∧
      ValueSpan buf u.begin u.end_

/-- A successful call of `f` reads one rune, which satisfies `p`: it moves the cursor by
one and leaves the committed tokens as they are. -/
def Reads (f : Rule) (p : Nat → Bool) : Prop :=
  ∀ s s1, Inv s → f s = .ok (true, s1) →
    s1.committed = s.committed ∧ s1.position = s.position + 1 ∧ runeAt s.buffer p s.position

/-- The cursor `pos` stands after a `=` and the blanks and tabs that follow it. -/
def afterAssign (buf : List Nat) (pos : Nat) : Prop :=
  ∃ q, q < pos ∧ runeAt buf (fun c => c == 61) q ∧ runesIn buf isBlankRune (q + 1) pos

/-- The cursor `pos` is inside a value that starts at `b`: what was read from `b` on is a
rune of a word followed by runes of words, blanks and tabs. -/
def valueFront (buf : List Nat) (b pos : Nat) : Prop :=
  afterAssign buf b ∧ runeAt buf isWordRune b ∧
    runesIn buf (fun c => isWordRune c || isBlankRune c) b pos ∧ b < pos

/-- The cursor `pos` stands after a word of a value that starts at `b`. -/
def valueBody (buf : List Nat) (b pos : Nat) : Prop :=
  valueFront buf b pos ∧ runeAt buf isWordRune (pos - 1)

/-- The last committed token is a `PegText` token that ends at the cursor and spans exactly
a value provided the rune at the cursor ends a word; the tokens before it satisfy
`valuesExact`. -/
def pendingValue (buf : List Nat) : List token32 → Nat → Prop :=
  fun l pos => ∃ l0 u, l = l0 ++ [u] ∧ valuesExact buf l0 ∧ u.pegRule = pegRule.rulePegText ∧
    u.end_ = pos ∧ (runeAt buf isStopRune pos → ValueSpan buf u.begin pos)

/-! # Theorems -/

/-! ## Inversion of the code templates -/

theorem seq_ok (f g : Rule) (s s1 : Matcher) (b : Bool) :
    seq f g s = .ok (b, s1) ↔
      (∃ s0, f s = .ok (true, s0) ∧ g s0 = .ok (b, s1)) ∨
      (b = false ∧ f s = .ok (false, s1)) := by
  unfold seq
  cases hf : f s with
  | error e => simp
  | ok r =>
    obtain ⟨b0, s0⟩ := r
    cases b0 <;> simp

theorem alt_ok (f g : Rule) (s s1 : Matcher) (b : Bool) :
    alt f g s = .ok (b, s1) ↔
      (b = true ∧ f s = .ok (true, s1)) ∨
      (∃ s0, f s = .ok (false, s0) ∧ g (restore s0 s) = .ok (b, s1)) := by
  unfold alt
  cases hf : f s with
  | error e => simp
  | ok r =>
    obtain ⟨b0, s0⟩ := r
    cases b0 <;> simp

theorem opt_ok (f : Rule) (s s1 : Matcher) (b : Bool) :
    opt f s = .ok (b, s1) ↔
      b = true ∧ (f s = .ok (true, s1) ∨ ∃ s0, f s = .ok (false, s0) ∧ s1 = restore s0 s) := by
  unfold opt
  cases hf : f s with
  | error e => simp
  | ok r =>
    obtain ⟨b0, s0⟩ := r
    cases b0 <;> simp
    all_goals aesop

theorem notP_ok (f : Rule) (s s1 : Matcher) (b : Bool) :
    notP f s = .ok (b, s1) ↔
      (b = false ∧ f s = .ok (true, s1)) ∨
      (b = true ∧ ∃ s0, f s = .ok (false, s0) ∧ s1 = restore s0 s) := by
  unfold notP
  cases hf : f s with
  | error e => simp
  | ok r =>
    obtain ⟨b0, s0⟩ := r
    cases b0 <;> simp
    all_goals aesop

theorem ruleFn_ok (f : Rule) (s s1 : Matcher) (b : Bool) :
    ruleFn f s = .ok (b, s1) ↔
      (b = true ∧ f s = .ok (true, s1)) ∨
      (b = false ∧ ∃ s0, f s = .ok (false, s0) ∧ s1 = restore s0 s) := by
  unfold ruleFn
  cases hf : f s with
  | error e => simp
  | ok r =>
    obtain ⟨b0, s0⟩ := r
    cases b0 <;> simp
    all_goals aesop

theorem starLoop_succ_ok (f : Rule) (fuel : Nat) (s s1 : Matcher) (b : Bool) :
    starLoop f (fuel + 1) s = .ok (b, s1) ↔
      (∃ s0, f s = .ok (true, s0) ∧ starLoop f fuel s0 = .ok (b, s1)) ∨
      (b = true ∧ ∃ s0, f s = .ok (false, s0) ∧ s1 = restore s0 s) := by
  rw [starLoop]
  cases hf : f s with
  | error e => simp
  | ok r =>
    obtain ⟨b0, s0⟩ := r
    cases b0 <;> simp
    all_goals aesop

theorem add_ok (rule : pegRule) (begin : Nat) (s s1 : Matcher) :
    add rule begin s = .ok s1 ↔
      s.tokenIndex < (Expand s.tree s.tokenIndex).len ∧
      s1 = { s with
        tree := ⟨putAt (Expand s.tree s.tokenIndex).cells s.tokenIndex
          ⟨rule, begin, s.position, s.depth⟩, (Expand s.tree s.tokenIndex).len⟩
        tokenIndex := s.tokenIndex + 1
        appended := s.appended ++ [⟨rule, begin, s.position, s.depth⟩] } := by
  unfold add Add
  by_cases h : s.tokenIndex < (Expand s.tree s.tokenIndex).len
  · simp [h]; exact eq_comm
  · simp [h]

theorem capture_ok (rule : pegRule) (f : Rule) (s s1 : Matcher) (b : Bool) :
    capture rule f s = .ok (b, s1) ↔
      (b = false ∧ f { s with depth := inc s.depth } = .ok (false, s1)) ∨
      (b = true ∧ ∃ s0, f { s with depth := inc s.depth } = .ok (true, s0) ∧
        add rule s.position { s0 with depth := dec s0.depth } = .ok s1) := by
  unfold capture
  cases hf : f { s with depth := inc s.depth } with
  | error e => simp
  | ok r =>
    obtain ⟨b0, s0⟩ := r
    cases b0
    · simp
    · cases ha : add rule s.position { s0 with depth := dec s0.depth } with
      | error e => simp [ha]
      | ok s2 => simp [ha]

theorem action_ok (rule : pegRule) (s s1 : Matcher) (b : Bool) :
    action rule s = .ok (b, s1) ↔ b = true ∧ add rule s.position s = .ok s1 := by
  unfold action
  cases ha : add rule s.position s with
  | error e => simp
  | ok s2 => simp

/-! ## The token slice under `add` -/

theorem putAt_length (cells : List token32) (j : Nat) (tok : token32) :
    (putAt cells j tok).length = max cells.length (j + 1) := by
  unfold putAt
  split <;> simp <;> omega

theorem putAt_getD_lt (cells : List token32) (i j : Nat) (tok : token32) (h : i < j) :
    (putAt cells j tok).getD i token32.zero = cells.getD i token32.zero := by
  unfold putAt
  split
  · have hne : ¬ j = i := by omega
    simp [List.getD_eq_getElem?_getD, List.getElem?_set, hne]
  · rename_i hj
    simp only [List.getD_eq_getElem?_getD, List.append_assoc]
    by_cases hi : i < cells.length
    · rw [List.getElem?_append_left hi]
    · rw [List.getElem?_append_right (by omega)]
      rw [List.getElem?_eq_none (l := cells) (by omega)]
      rw [List.getElem?_append_left (by simp; omega)]
      simp

theorem putAt_take (cells : List token32) (j : Nat) (tok : token32) (h : j ≤ cells.length) :
    (putAt cells j tok).take (j + 1) = cells.take j ++ [tok] := by
  unfold putAt
  split
  · rename_i h1
    have h2 : (cells.set j tok).take j = cells.take j := by
      apply List.ext_getElem?
      intro i
      simp only [List.getElem?_take, List.getElem?_set]
      split
      · rename_i hi
        have hne : ¬ j = i := by omega
        simp [hne]
      · rfl
    rw [List.take_succ, h2]
    simp [List.getElem?_set, h1]
  · have : j = cells.length := by omega
    subst this
    simp

theorem putAt_mem (cells : List token32) (j : Nat) (tok t : token32)
    (h : t ∈ putAt cells j tok) : t ∈ cells ∨ t = tok ∨ t = token32.zero := by
  unfold putAt at h
  split at h
  · rcases List.mem_or_eq_of_mem_set h with h1 | h1
    · exact Or.inl h1
    · exact Or.inr (Or.inl h1)
  · simp only [List.mem_append, List.mem_replicate, List.mem_singleton] at h
    rcases h with (h1 | h1) | h1
    · exact Or.inl h1
    · exact Or.inr (Or.inr h1.2)
    · exact Or.inr (Or.inl h1)

theorem Expand_cells (tree : tokenSlice) (i : Nat) : (Expand tree i).cells = tree.cells := by
  unfold Expand
  split <;> rfl

theorem Expand_len_le (tree : tokenSlice) (i : Nat) : tree.len ≤ (Expand tree i).len := by
  unfold Expand
  split
  · show tree.len ≤ 2 * tree.len
    omega
  · exact Nat.le_refl _

theorem Expand_index_lt (tree : tokenSlice) (i : Nat) (h : i ≤ tree.len) (hpos : 0 < tree.len) :
    i < (Expand tree i).len := by
  unfold Expand
  split
  · show i < 2 * tree.len
    omega
  · omega

/-! ## Frames -/

theorem Frame.refl (s : Matcher) : Frame s s :=
  ⟨rfl, Nat.le_refl _, Nat.le_refl _, Nat.le_refl _, fun _ _ => rfl⟩

/-- Chaining two frames through a state that differs from the middle one only in the
cursor, the token count (not below the first one) and the depth. -/
theorem Frame.step {a b m c : Matcher} (hab : Frame a b) (htree : m.tree = b.tree)
    (hbuf : m.buffer = b.buffer) (hidx : a.tokenIndex ≤ m.tokenIndex) (hbc : Frame m c) :
    Frame a c := by
  refine ⟨?_, ?_, ?_, ?_, ?_⟩
  · rw [hbc.buffer_eq, hbuf, hab.buffer_eq]
  · exact Nat.le_trans hidx hbc.index_le
  · have := hbc.len_le
    rw [htree] at this
    exact Nat.le_trans hab.len_le this
  · have := hbc.cells_le
    rw [htree] at this
    exact Nat.le_trans hab.cells_le this
  · intro i hi
    have h1 := hbc.below i (by omega)
    rw [htree] at h1
    rw [h1]
    exact hab.below i hi

/-- A frame does not depend on the cursor or the depth of the state it starts from. -/
theorem Frame.of_eq {a a1 b : Matcher} (h : Frame a1 b) (hbuf : a1.buffer = a.buffer)
    (hidx : a1.tokenIndex = a.tokenIndex) (htree : a1.tree = a.tree) : Frame a b := by
  obtain ⟨h1, h2, h3, h4, h5⟩ := h
  rw [hbuf] at h1
  rw [hidx] at h2 h5
  rw [htree] at h3 h4 h5
  exact ⟨h1, h2, h3, h4, h5⟩

theorem Frame.trans {a b c : Matcher} (hab : Frame a b) (hbc : Frame b c) : Frame a c :=
  Frame.step hab rfl rfl hab.index_le hbc

theorem Frame.restored {a b : Matcher} (hab : Frame a b) : Frame a (restore b a) :=
  ⟨hab.buffer_eq, Nat.le_refl _, hab.len_le, hab.cells_le, hab.below⟩

theorem frame_add {rule : pegRule} {begin : Nat} {s s1 : Matcher}
    (h : add rule begin s = .ok s1) : Frame s s1 := by
  rw [add_ok] at h
  obtain ⟨_, rfl⟩ := h
  refine ⟨rfl, Nat.le_succ _, Expand_len_le _ _, ?_, ?_⟩
  · show s.tree.cells.length ≤ (putAt _ _ _).length
    rw [putAt_length, Expand_cells]
    exact Nat.le_max_left _ _
  · intro i hi
    show (putAt _ _ _).getD i token32.zero = _
    rw [putAt_getD_lt _ _ _ _ hi, Expand_cells]

theorem framed_matchDot : Framed matchDot := by
  intro s b s1 h
  unfold matchDot at h
  split at h
  · simp at h
  · split at h <;> simp at h <;> obtain ⟨_, rfl⟩ := h <;> exact ⟨rfl, Nat.le_refl _, Nat.le_refl _, Nat.le_refl _, fun _ _ => rfl⟩

theorem framed_lit (c : Nat) : Framed (lit c) := by
  intro s b s1 h
  unfold lit at h
  split at h
  · simp at h
  · split at h <;> simp at h <;> obtain ⟨_, rfl⟩ := h <;> exact ⟨rfl, Nat.le_refl _, Nat.le_refl _, Nat.le_refl _, fun _ _ => rfl⟩

theorem framed_range (lo hi : Nat) : Framed (range lo hi) := by
  intro s b s1 h
  unfold range at h
  split at h
  · simp at h
  · split at h <;> simp at h <;> obtain ⟨_, rfl⟩ := h <;> exact ⟨rfl, Nat.le_refl _, Nat.le_refl _, Nat.le_refl _, fun _ _ => rfl⟩

theorem framed_seq {f g : Rule} (hf : Framed f) (hg : Framed g) : Framed (seq f g) := by
  intro s b s1 h
  rw [seq_ok] at h
  rcases h with ⟨s0, h0, h1⟩ | ⟨_, h0⟩
  · exact (hf _ _ _ h0).trans (hg _ _ _ h1)
  · exact hf _ _ _ h0

theorem framed_alt {f g : Rule} (hf : Framed f) (hg : Framed g) : Framed (alt f g) := by
  intro s b s1 h
  rw [alt_ok] at h
  rcases h with ⟨_, h0⟩ | ⟨s0, h0, h1⟩
  · exact hf _ _ _ h0
  · exact Frame.step (m := restore s0 s) (hf _ _ _ h0) rfl rfl (Nat.le_refl _) (hg _ _ _ h1)

theorem framed_opt {f : Rule} (hf : Framed f) : Framed (opt f) := by
  intro s b s1 h
  rw [opt_ok] at h
  rcases h with ⟨_, h0 | ⟨s0, h0, rfl⟩⟩
  · exact hf _ _ _ h0
  · exact (hf _ _ _ h0).restored

theorem framed_notP {f : Rule} (hf : Framed f) : Framed (notP f) := by
  intro s b s1 h
  rw [notP_ok] at h
  rcases h with ⟨_, h0⟩ | ⟨_, s0, h0, rfl⟩
  · exact hf _ _ _ h0
  · exact (hf _ _ _ h0).restored

theorem framed_ruleFn {f : Rule} (hf : Framed f) : Framed (ruleFn f) := by
  intro s b s1 h
  rw [ruleFn_ok] at h
  rcases h with ⟨_, h0⟩ | ⟨_, s0, h0, rfl⟩
  · exact hf _ _ _ h0
  · exact (hf _ _ _ h0).restored

theorem framed_starLoop {f : Rule} (hf : Framed f) (fuel : Nat) :
    ∀ s b s1, starLoop f fuel s = .ok (b, s1) → Frame s s1 := by
  induction fuel with
  | zero => intro s b s1 h; simp [starLoop] at h
  | succ n ih =>
    intro s b s1 h
    rw [starLoop_succ_ok] at h
    rcases h with ⟨s0, h0, h1⟩ | ⟨_, s0, h0, rfl⟩
    · exact (hf _ _ _ h0).trans (ih _ _ _ h1)
    · exact (hf _ _ _ h0).restored

theorem framed_star {f : Rule} (hf : Framed f) : Framed (star f) :=
  fun s b s1 h => framed_starLoop hf _ s b s1 h

theorem framed_capture {f : Rule} (rule : pegRule) (hf : Framed f) : Framed (capture rule f) := by
  intro s b s1 h
  rw [capture_ok] at h
  rcases h with ⟨_, h0⟩ | ⟨_, s0, h0, h1⟩
  · exact (hf _ _ _ h0).of_eq rfl rfl rfl
  · have h2 : Frame s s0 := (hf _ _ _ h0).of_eq rfl rfl rfl
    exact Frame.step (m := { s0 with depth := dec s0.depth }) h2 rfl rfl h2.index_le
      (frame_add h1)

theorem framed_action (rule : pegRule) : Framed (action rule) := by
  intro s b s1 h
  rw [action_ok] at h
  exact frame_add h.2

theorem restoring_ruleFn (f : Rule) : Restoring (ruleFn f) := by
  intro s s1 h
  rw [ruleFn_ok] at h
  rcases h with ⟨h0, _⟩ | ⟨_, s0, _, rfl⟩
  · simp at h0
  · exact ⟨rfl, rfl, rfl⟩

theorem framed_ruleSpace : Framed rules_ruleSpace :=
  framed_ruleFn (framed_capture _ (framed_alt (framed_lit _) (framed_lit _)))

theorem framed_ruleEndOfLine : Framed rules_ruleEndOfLine :=
  framed_ruleFn (framed_capture _
    (framed_alt (framed_seq (framed_lit _) (framed_lit _)) (framed_alt (framed_lit _) (framed_lit _))))

theorem framed_identChar : Framed identChar := by
  intro s b s1 h
  unfold identChar at h
  split at h
  · simp at h
  · split_ifs at h
    · exact framed_lit _ _ _ _ h
    · exact framed_lit _ _ _ _ h
    · exact framed_lit _ _ _ _ h
    · exact framed_lit _ _ _ _ h
    · exact framed_alt (framed_range _ _) (framed_range _ _) _ _ _ h
    · exact framed_range _ _ _ _ _ h
    · exact framed_range _ _ _ _ _ h

theorem framed_ruleIdentifier : Framed rules_ruleIdentifier :=
  framed_ruleFn (framed_capture _ (framed_seq framed_identChar (framed_star framed_identChar)))

theorem framed_stopChar : Framed stopChar := by
  intro s b s1 h
  unfold stopChar at h
  split at h
  · simp at h
  · split_ifs at h <;> exact framed_lit _ _ _ _ h

theorem framed_wordChar : Framed wordChar :=
  framed_seq (framed_notP framed_stopChar) framed_matchDot

theorem framed_ruleWord : Framed rules_ruleWord :=
  framed_ruleFn (framed_capture _ (framed_seq framed_wordChar (framed_star framed_wordChar)))

theorem framed_inlineComment : Framed inlineComment :=
  framed_capture _ (framed_seq (framed_lit _)
    (framed_seq (framed_star (framed_seq (framed_notP framed_ruleEndOfLine) framed_matchDot))
      framed_ruleEndOfLine))

theorem framed_spaceCommentSwitch : Framed spaceCommentSwitch := by
  intro s b s1 h
  unfold spaceCommentSwitch at h
  split at h
  · simp at h
  · split_ifs at h
    · exact framed_ruleEndOfLine _ _ _ h
    · exact framed_inlineComment _ _ _ h
    · exact framed_seq framed_ruleSpace (framed_star framed_ruleSpace) _ _ _ h

theorem framed_ruleSpaceComment : Framed rules_ruleSpaceComment :=
  framed_ruleFn (framed_capture _ framed_spaceCommentSwitch)

theorem framed_inlineValue : Framed inlineValue :=
  framed_capture _ (framed_seq framed_ruleWord
    (framed_star (framed_seq framed_ruleSpace
      (framed_seq (framed_star framed_ruleSpace) framed_ruleWord))))

theorem framed_inlineValueLine : Framed inlineValueLine :=
  framed_capture _
    (framed_seq (framed_star framed_ruleSpace)
    (framed_seq (framed_capture _ framed_ruleIdentifier)
    (framed_seq (framed_action _)
    (framed_seq (framed_star framed_ruleSpace)
    (framed_seq (framed_lit _)
    (framed_seq (framed_star framed_ruleSpace)
    (framed_seq (framed_capture _ framed_inlineValue)
    (framed_seq (framed_action _) framed_ruleSpaceComment))))))))

theorem framed_inlineSectionID : Framed inlineSectionID :=
  framed_opt
    (framed_seq framed_ruleSpace
    (framed_seq (framed_star framed_ruleSpace)
    (framed_seq (framed_lit _)
    (framed_seq (framed_capture _ framed_ruleIdentifier)
    (framed_seq (framed_action _) (framed_lit _))))))

theorem framed_inlineSection : Framed inlineSection :=
  framed_capture _
    (framed_seq (framed_star framed_ruleSpace)
    (framed_seq (framed_lit _)
    (framed_seq (framed_star framed_ruleSpace)
    (framed_seq (framed_capture _ framed_ruleIdentifier)
    (framed_seq (framed_action _)
    (framed_seq framed_inlineSectionID
    (framed_seq (framed_star framed_ruleSpace)
    (framed_seq (framed_lit _)
    (framed_seq framed_ruleSpaceComment (framed_star framed_inlineValueLine))))))))))

theorem framed_grammarItem : Framed (alt rules_ruleSpaceComment inlineSection) :=
  framed_alt framed_ruleSpaceComment framed_inlineSection

theorem framed_ruleGrammar : Framed rules_ruleGrammar :=
  framed_ruleFn (framed_capture _ (framed_seq framed_grammarItem (framed_star framed_grammarItem)))

/-! ## Safety: no fault, no leaving the buffer, spans inside the text -/

theorem end_symbol_eq : end_symbol = 1114112 := rfl

theorem Inv.peek {s : Matcher} (hs : Inv s) : ∃ c, s.buffer[s.position]? = some c :=
  ⟨s.buffer.get ⟨s.position, hs.pos_lt⟩, List.getElem?_eq_getElem hs.pos_lt⟩

theorem Inv.next_lt {s : Matcher} (hs : Inv s) {c : Nat} (hc : s.buffer[s.position]? = some c)
    (hne : c ≠ end_symbol) : s.position + 1 < s.buffer.length := by
  have h1 := hs.pos_lt
  by_contra hcon
  have h2 : s.position = s.buffer.length - 1 := by omega
  rw [h2, hs.last] at hc
  exact hne (Option.some.inj hc).symm

theorem Inv.inc_eq {s : Matcher} (hs : Inv s) {c : Nat} (hc : s.buffer[s.position]? = some c)
    (hne : c ≠ end_symbol) : inc s.position = s.position + 1 := by
  have h1 := hs.next_lt hc hne
  have h2 := hs.len_le
  unfold inc
  exact Nat.mod_eq_of_lt (by omega)

theorem Inv.advance {s : Matcher} (hs : Inv s) {c : Nat} (hc : s.buffer[s.position]? = some c)
    (hne : c ≠ end_symbol) : Inv { s with position := inc s.position } := by
  have h1 := hs.next_lt hc hne
  have h2 := hs.inc_eq hc hne
  exact ⟨by show inc s.position < s.buffer.length; omega, hs.len_le, hs.last, hs.index_le,
    hs.cells_le, hs.len_pos, hs.cells_ok, hs.appended_ok⟩

theorem Inv.set_depth {s : Matcher} (hs : Inv s) (d : Nat) : Inv { s with depth := d } :=
  ⟨hs.pos_lt, hs.len_le, hs.last, hs.index_le, hs.cells_le, hs.len_pos, hs.cells_ok,
    hs.appended_ok⟩

theorem Inv.rewind {s t : Matcher} (hs : Inv s) (hs1 : Inv t) (hf : Frame s t) :
    Inv (restore t s) := by
  have hb := hf.buffer_eq
  refine ⟨?_, hs1.len_le, hs1.last, ?_, hs1.cells_le, hs1.len_pos, hs1.cells_ok,
    hs1.appended_ok⟩
  · show s.position < t.buffer.length
    rw [hb]
    exact hs.pos_lt
  · show s.tokenIndex ≤ t.tree.cells.length
    exact Nat.le_trans hs.index_le hf.cells_le

theorem zero_spanOk (n : Nat) : token32.zero.spanOk n := ⟨Nat.le_refl _, Nat.zero_le _⟩

theorem Inv.add_token {s : Matcher} (hs : Inv s) (rule : pegRule) (begin : Nat)
    (hb : begin ≤ s.position) :
    ∃ s1, add rule begin s = .ok s1 ∧ Inv s1 ∧ s1.position = s.position ∧
      s1.depth = s.depth := by
  have hlt : s.tokenIndex < (Expand s.tree s.tokenIndex).len :=
    Expand_index_lt _ _ (Nat.le_trans hs.index_le hs.cells_le) hs.len_pos
  refine ⟨_, (add_ok _ _ _ _).2 ⟨hlt, rfl⟩, ?_, rfl, rfl⟩
  have htok : (⟨rule, begin, s.position, s.depth⟩ : token32).spanOk (s.buffer.length - 1) := by
    have := hs.pos_lt
    exact ⟨hb, by show s.position ≤ s.buffer.length - 1; omega⟩
  refine ⟨hs.pos_lt, hs.len_le, hs.last, ?_, ?_, ?_, ?_, ?_⟩
  · show s.tokenIndex + 1 ≤ (putAt _ _ _).length
    rw [putAt_length]
    exact Nat.le_max_right _ _
  · show (putAt _ _ _).length ≤ (Expand s.tree s.tokenIndex).len
    rw [putAt_length, Expand_cells]
    have := Nat.le_trans hs.cells_le (Expand_len_le s.tree s.tokenIndex)
    exact Nat.max_le.2 ⟨this, hlt⟩
  · exact Nat.lt_of_le_of_lt (Nat.zero_le _) hlt
  · intro t ht
    rcases putAt_mem _ _ _ _ ht with h1 | h1 | h1
    · rw [Expand_cells] at h1
      exact hs.cells_ok t h1
    · rw [h1]; exact htok
    · rw [h1]; exact zero_spanOk _
  · intro t ht
    rcases List.mem_append.1 ht with h1 | h1
    · exact hs.appended_ok t h1
    · rw [List.mem_singleton.1 h1]; exact htok

theorem safe_matchDot : Safe matchDot := by
  intro s hs
  obtain ⟨c, hc⟩ := hs.peek
  by_cases hne : c = end_symbol
  · exact ⟨false, s, by simp [matchDot, hc, hne], hs, Frame.refl s, by simp⟩
  · refine ⟨true, _, by simp [matchDot, hc, hne], hs.advance hc hne,
      ⟨rfl, Nat.le_refl _, Nat.le_refl _, Nat.le_refl _, fun _ _ => rfl⟩, fun _ => ?_⟩
    show s.position ≤ inc s.position
    rw [hs.inc_eq hc hne]
    exact Nat.le_succ _

theorem safe_lit {c : Nat} (hc0 : c ≠ end_symbol) : Safe (lit c) := by
  intro s hs
  obtain ⟨b, hb⟩ := hs.peek
  by_cases hne : b = c
  · have hne1 : b ≠ end_symbol := by rw [hne]; exact hc0
    refine ⟨true, _, by simp [lit, hb, hne], hs.advance hb hne1,
      ⟨rfl, Nat.le_refl _, Nat.le_refl _, Nat.le_refl _, fun _ _ => rfl⟩, fun _ => ?_⟩
    show s.position ≤ inc s.position
    rw [hs.inc_eq hb hne1]
    exact Nat.le_succ _
  · exact ⟨false, s, by simp [lit, hb, hne], hs, Frame.refl s, by simp⟩

theorem safe_range {lo hi : Nat} (hhi : hi < end_symbol) : Safe (range lo hi) := by
  intro s hs
  obtain ⟨c, hc⟩ := hs.peek
  by_cases hin : c < lo ∨ c > hi
  · exact ⟨false, s, by simp [range, hc, hin], hs, Frame.refl s, by simp⟩
  · have hne1 : c ≠ end_symbol := by
      intro h
      rw [h] at hin
      omega
    refine ⟨true, _, by simp [range, hc, hin], hs.advance hc hne1,
      ⟨rfl, Nat.le_refl _, Nat.le_refl _, Nat.le_refl _, fun _ _ => rfl⟩, fun _ => ?_⟩
    show s.position ≤ inc s.position
    rw [hs.inc_eq hc hne1]
    exact Nat.le_succ _

theorem safe_seq {f g : Rule} (hf : Safe f) (hg : Safe g) : Safe (seq f g) := by
  intro s hs
  obtain ⟨b0, s0, h0, hi0, hf0, hp0⟩ := hf s hs
  cases b0
  · exact ⟨false, s0, (seq_ok _ _ _ _ _).2 (Or.inr ⟨rfl, h0⟩), hi0, hf0, by simp⟩
  · obtain ⟨b1, s1, h1, hi1, hf1, hp1⟩ := hg s0 hi0
    refine ⟨b1, s1, (seq_ok _ _ _ _ _).2 (Or.inl ⟨s0, h0, h1⟩), hi1, hf0.trans hf1, ?_⟩
    intro hb
    exact Nat.le_trans (hp0 rfl) (hp1 hb)

theorem safe_alt {f g : Rule} (hf : Safe f) (hg : Safe g) : Safe (alt f g) := by
  intro s hs
  obtain ⟨b0, s0, h0, hi0, hf0, hp0⟩ := hf s hs
  cases b0
  · obtain ⟨b1, s1, h1, hi1, hf1, hp1⟩ := hg (gitconfig.restore s0 s) (hs.rewind hi0 hf0)
    exact ⟨b1, s1, (alt_ok _ _ _ _ _).2 (Or.inr ⟨s0, h0, h1⟩), hi1,
      Frame.step (m := gitconfig.restore s0 s) hf0 rfl rfl (Nat.le_refl _) hf1, hp1⟩
  · exact ⟨true, s0, (alt_ok _ _ _ _ _).2 (Or.inl ⟨rfl, h0⟩), hi0, hf0, hp0⟩

theorem safe_opt {f : Rule} (hf : Safe f) : Safe (opt f) := by
  intro s hs
  obtain ⟨b0, s0, h0, hi0, hf0, hp0⟩ := hf s hs
  cases b0
  · exact ⟨true, _, (opt_ok _ _ _ _).2 ⟨rfl, Or.inr ⟨s0, h0, rfl⟩⟩, hs.rewind hi0 hf0,
      hf0.restored, fun _ => Nat.le_refl _⟩
  · exact ⟨true, s0, (opt_ok _ _ _ _).2 ⟨rfl, Or.inl h0⟩, hi0, hf0, hp0⟩

theorem safe_notP {f : Rule} (hf : Safe f) : Safe (notP f) := by
  intro s hs
  obtain ⟨b0, s0, h0, hi0, hf0, hp0⟩ := hf s hs
  cases b0
  · exact ⟨true, _, (notP_ok _ _ _ _).2 (Or.inr ⟨rfl, s0, h0, rfl⟩), hs.rewind hi0 hf0,
      hf0.restored, fun _ => Nat.le_refl _⟩
  · exact ⟨false, s0, (notP_ok _ _ _ _).2 (Or.inl ⟨rfl, h0⟩), hi0, hf0, by simp⟩

theorem safe_ruleFn {f : Rule} (hf : Safe f) : Safe (ruleFn f) := by
  intro s hs
  obtain ⟨b0, s0, h0, hi0, hf0, hp0⟩ := hf s hs
  cases b0
  · exact ⟨false, _, (ruleFn_ok _ _ _ _).2 (Or.inr ⟨rfl, s0, h0, rfl⟩), hs.rewind hi0 hf0,
      hf0.restored, by simp⟩
  · exact ⟨true, s0, (ruleFn_ok _ _ _ _).2 (Or.inl ⟨rfl, h0⟩), hi0, hf0, hp0⟩

theorem safe_starLoop {f : Rule} (hf : Safe f) (ha : Adv f) (fuel : Nat) :
    ∀ s, Inv s → s.buffer.length - s.position ≤ fuel →
      ∃ s1, starLoop f fuel s = .ok (true, s1) ∧ Inv s1 ∧ Frame s s1 ∧
        s.position ≤ s1.position := by
  induction fuel with
  | zero =>
    intro s hs hfuel
    have := hs.pos_lt
    omega
  | succ n ih =>
    intro s hs hfuel
    obtain ⟨b0, s0, h0, hi0, hf0, hp0⟩ := hf s hs
    cases b0
    · exact ⟨_, (starLoop_succ_ok _ _ _ _ _).2 (Or.inr ⟨rfl, s0, h0, rfl⟩),
        hs.rewind hi0 hf0, hf0.restored, Nat.le_refl _⟩
    · have hlt := ha s s0 hs h0
      have hb := hf0.buffer_eq
      obtain ⟨s1, h1, hi1, hf1, hp1⟩ := ih s0 hi0 (by rw [hb]; omega)
      exact ⟨s1, (starLoop_succ_ok _ _ _ _ _).2 (Or.inl ⟨s0, h0, h1⟩), hi1, hf0.trans hf1,
        by omega⟩

theorem safe_star {f : Rule} (hf : Safe f) (ha : Adv f) : Safe (star f) := by
  intro s hs
  obtain ⟨s1, h1, hi1, hf1, hp1⟩ := safe_starLoop hf ha s.buffer.length s hs (Nat.sub_le _ _)
  exact ⟨true, s1, h1, hi1, hf1, fun _ => hp1⟩

theorem safe_capture {f : Rule} (rule : pegRule) (hf : Safe f) : Safe (capture rule f) := by
  intro s hs
  obtain ⟨b0, s0, h0, hi0, hf0, hp0⟩ := hf _ (hs.set_depth (inc s.depth))
  have hfr : Frame s s0 := hf0.of_eq rfl rfl rfl
  cases b0
  · exact ⟨false, s0, (capture_ok _ _ _ _ _).2 (Or.inl ⟨rfl, h0⟩), hi0, hfr, by simp⟩
  · have hp : s.position ≤ s0.position := hp0 rfl
    obtain ⟨s1, h1, hi1, hpos, _⟩ :=
      (hi0.set_depth (dec s0.depth)).add_token rule s.position hp
    refine ⟨true, s1, (capture_ok _ _ _ _ _).2 (Or.inr ⟨rfl, s0, h0, h1⟩), hi1,
      Frame.step (m := { s0 with depth := dec s0.depth }) hfr rfl rfl hfr.index_le
        (frame_add h1), fun _ => ?_⟩
    rw [hpos]
    exact hp

theorem safe_action (rule : pegRule) : Safe (action rule) := by
  intro s hs
  obtain ⟨s1, h1, hi1, hpos, _⟩ := hs.add_token rule s.position (Nat.le_refl _)
  exact ⟨true, s1, (action_ok _ _ _ _).2 ⟨rfl, h1⟩, hi1, frame_add h1,
    fun _ => by rw [hpos]⟩

/-! ## Progress: the bodies of the loops consume input -/

theorem Safe.result {f : Rule} (hf : Safe f) {s s1 : Matcher} {b : Bool} (hs : Inv s)
    (h : f s = .ok (b, s1)) : Inv s1 ∧ Frame s s1 ∧ (b = true → s.position ≤ s1.position) := by
  obtain ⟨b0, s0, h0, hi0, hf0, hp0⟩ := hf s hs
  rw [h] at h0
  obtain ⟨rfl, rfl⟩ := Prod.mk.inj (Except.ok.inj h0)
  exact ⟨hi0, hf0, hp0⟩

theorem adv_matchDot : Adv matchDot := by
  intro s s1 hs h
  obtain ⟨c, hc⟩ := hs.peek
  by_cases hne : c = end_symbol
  · simp [matchDot, hc, hne] at h
  · simp [matchDot, hc, hne] at h
    rw [← h]
    show s.position < inc s.position
    rw [hs.inc_eq hc hne]
    exact Nat.lt_succ_self _

theorem adv_lit {c : Nat} (hc0 : c ≠ end_symbol) : Adv (lit c) := by
  intro s s1 hs h
  obtain ⟨b, hb⟩ := hs.peek
  by_cases hne : b = c
  · have hne1 : b ≠ end_symbol := by rw [hne]; exact hc0
    simp [lit, hb, hne] at h
    rw [← h]
    show s.position < inc s.position
    rw [hs.inc_eq hb hne1]
    exact Nat.lt_succ_self _
  · simp [lit, hb, hne] at h

theorem adv_range {lo hi : Nat} (hhi : hi < end_symbol) : Adv (range lo hi) := by
  intro s s1 hs h
  obtain ⟨c, hc⟩ := hs.peek
  by_cases hin : c < lo ∨ c > hi
  · simp [range, hc, hin] at h
  · have hne1 : c ≠ end_symbol := by
      intro h
      rw [h] at hin
      omega
    simp [range, hc, hin] at h
    rw [← h]
    show s.position < inc s.position
    rw [hs.inc_eq hc hne1]
    exact Nat.lt_succ_self _

theorem adv_seq_left {f g : Rule} (hf : Safe f) (ha : Adv f) (hg : Safe g) : Adv (seq f g) := by
  intro s s1 hs h
  rw [seq_ok] at h
  rcases h with ⟨s0, h0, h1⟩ | ⟨hb, _⟩
  · have r0 := hf.result hs h0
    have r1 := hg.result r0.1 h1
    exact Nat.lt_of_lt_of_le (ha s s0 hs h0) (r1.2.2 rfl)
  · simp at hb

theorem adv_seq_right {f g : Rule} (hf : Safe f) (hg : Adv g) : Adv (seq f g) := by
  intro s s1 hs h
  rw [seq_ok] at h
  rcases h with ⟨s0, h0, h1⟩ | ⟨hb, _⟩
  · have r0 := hf.result hs h0
    exact Nat.lt_of_le_of_lt (r0.2.2 rfl) (hg s0 s1 r0.1 h1)
  · simp at hb

theorem adv_alt {f g : Rule} (hf : Safe f) (ha : Adv f) (hg : Adv g) : Adv (alt f g) := by
  intro s s1 hs h
  rw [alt_ok] at h
  rcases h with ⟨_, h0⟩ | ⟨s0, h0, h1⟩
  · exact ha s s1 hs h0
  · have r0 := hf.result hs h0
    exact hg (gitconfig.restore s0 s) s1 (Inv.rewind (s := s) (t := s0) hs r0.1 r0.2.1) h1

theorem adv_ruleFn {f : Rule} (ha : Adv f) : Adv (ruleFn f) := by
  intro s s1 hs h
  rw [ruleFn_ok] at h
  rcases h with ⟨_, h0⟩ | ⟨hb, _⟩
  · exact ha s s1 hs h0
  · simp at hb

theorem adv_capture {f : Rule} (rule : pegRule) (ha : Adv f) :
    Adv (capture rule f) := by
  intro s s1 hs h
  rw [capture_ok] at h
  rcases h with ⟨hb, _⟩ | ⟨_, s0, h0, h1⟩
  · simp at hb
  · have hlt := ha _ s0 (hs.set_depth (inc s.depth)) h0
    rw [add_ok] at h1
    obtain ⟨_, rfl⟩ := h1
    exact hlt

/-! ## Safety and progress of the rule table -/

theorem safe_ruleSpace : Safe rules_ruleSpace :=
  safe_ruleFn (safe_capture _ (safe_alt (safe_lit (by decide)) (safe_lit (by decide))))

theorem adv_ruleSpace : Adv rules_ruleSpace :=
  adv_ruleFn (adv_capture _ (adv_alt (safe_lit (by decide)) (adv_lit (by decide))
    (adv_lit (by decide))))

theorem safe_starSpace : Safe (star rules_ruleSpace) := safe_star safe_ruleSpace adv_ruleSpace

theorem safe_ruleEndOfLine : Safe rules_ruleEndOfLine :=
  safe_ruleFn (safe_capture _
    (safe_alt (safe_seq (safe_lit (by decide)) (safe_lit (by decide)))
      (safe_alt (safe_lit (by decide)) (safe_lit (by decide)))))

theorem adv_ruleEndOfLine : Adv rules_ruleEndOfLine :=
  adv_ruleFn (adv_capture _
    (adv_alt (safe_seq (safe_lit (by decide)) (safe_lit (by decide)))
      (adv_seq_left (safe_lit (by decide)) (adv_lit (by decide)) (safe_lit (by decide)))
      (adv_alt (safe_lit (by decide)) (adv_lit (by decide)) (adv_lit (by decide)))))

theorem safe_identChar : Safe identChar := by
  intro s hs
  obtain ⟨c, hc⟩ := hs.peek
  unfold identChar
  simp only [hc]
  split_ifs
  · exact safe_lit (by decide) s hs
  · exact safe_lit (by decide) s hs
  · exact safe_lit (by decide) s hs
  · exact safe_lit (by decide) s hs
  · exact safe_alt (safe_range (by decide)) (safe_range (by decide)) s hs
  · exact safe_range (by decide) s hs
  · exact safe_range (by decide) s hs

theorem adv_identChar : Adv identChar := by
  intro s s1 hs h
  obtain ⟨c, hc⟩ := hs.peek
  unfold identChar at h
  simp only [hc] at h
  split_ifs at h
  · exact adv_lit (by decide) s s1 hs h
  · exact adv_lit (by decide) s s1 hs h
  · exact adv_lit (by decide) s s1 hs h
  · exact adv_lit (by decide) s s1 hs h
  · exact adv_alt (safe_range (by decide)) (adv_range (by decide)) (adv_range (by decide))
      s s1 hs h
  · exact adv_range (by decide) s s1 hs h
  · exact adv_range (by decide) s s1 hs h

theorem safe_ruleIdentifier : Safe rules_ruleIdentifier :=
  safe_ruleFn (safe_capture _ (safe_seq safe_identChar (safe_star safe_identChar adv_identChar)))

theorem adv_ruleIdentifier : Adv rules_ruleIdentifier :=
  adv_ruleFn (adv_capture _
    (adv_seq_left safe_identChar adv_identChar (safe_star safe_identChar adv_identChar)))

theorem safe_stopChar : Safe stopChar := by
  intro s hs
  obtain ⟨c, hc⟩ := hs.peek
  unfold stopChar
  simp only [hc]
  split_ifs <;> exact safe_lit (by decide) s hs

theorem safe_wordChar : Safe wordChar := safe_seq (safe_notP safe_stopChar) safe_matchDot

theorem adv_wordChar : Adv wordChar := adv_seq_right (safe_notP safe_stopChar) adv_matchDot

theorem safe_ruleWord : Safe rules_ruleWord :=
  safe_ruleFn (safe_capture _ (safe_seq safe_wordChar (safe_star safe_wordChar adv_wordChar)))

theorem adv_ruleWord : Adv rules_ruleWord :=
  adv_ruleFn (adv_capture _
    (adv_seq_left safe_wordChar adv_wordChar (safe_star safe_wordChar adv_wordChar)))

theorem safe_commentBody : Safe (star (seq (notP rules_ruleEndOfLine) matchDot)) :=
  safe_star (safe_seq (safe_notP safe_ruleEndOfLine) safe_matchDot)
    (adv_seq_right (safe_notP safe_ruleEndOfLine) adv_matchDot)

theorem safe_inlineComment : Safe inlineComment :=
  safe_capture _ (safe_seq (safe_lit (by decide)) (safe_seq safe_commentBody safe_ruleEndOfLine))

theorem adv_inlineComment : Adv inlineComment :=
  adv_capture _ (adv_seq_left (safe_lit (by decide)) (adv_lit (by decide))
    (safe_seq safe_commentBody safe_ruleEndOfLine))

theorem safe_spaceCommentSwitch : Safe spaceCommentSwitch := by
  intro s hs
  obtain ⟨c, hc⟩ := hs.peek
  unfold spaceCommentSwitch
  simp only [hc]
  split_ifs
  · exact safe_ruleEndOfLine s hs
  · exact safe_inlineComment s hs
  · exact safe_seq safe_ruleSpace safe_starSpace s hs

theorem adv_spaceCommentSwitch : Adv spaceCommentSwitch := by
  intro s s1 hs h
  obtain ⟨c, hc⟩ := hs.peek
  unfold spaceCommentSwitch at h
  simp only [hc] at h
  split_ifs at h
  · exact adv_ruleEndOfLine s s1 hs h
  · exact adv_inlineComment s s1 hs h
  · exact adv_seq_left safe_ruleSpace adv_ruleSpace safe_starSpace s s1 hs h

theorem safe_ruleSpaceComment : Safe rules_ruleSpaceComment :=
  safe_ruleFn (safe_capture _ safe_spaceCommentSwitch)

theorem adv_ruleSpaceComment : Adv rules_ruleSpaceComment :=
  adv_ruleFn (adv_capture _ adv_spaceCommentSwitch)

theorem safe_moreWords :
    Safe (star (seq rules_ruleSpace (seq (star rules_ruleSpace) rules_ruleWord))) :=
  safe_star (safe_seq safe_ruleSpace (safe_seq safe_starSpace safe_ruleWord))
    (adv_seq_left safe_ruleSpace adv_ruleSpace (safe_seq safe_starSpace safe_ruleWord))

theorem safe_inlineValue : Safe inlineValue :=
  safe_capture _ (safe_seq safe_ruleWord safe_moreWords)

theorem safe_valueLineTail :
    Safe (seq (action pegRule.ruleAction2)
      (seq (star rules_ruleSpace)
      (seq (lit 61)
      (seq (star rules_ruleSpace)
      (seq (capture pegRule.rulePegText inlineValue)
      (seq (action pegRule.ruleAction3) rules_ruleSpaceComment)))))) :=
  safe_seq (safe_action _)
    (safe_seq safe_starSpace
    (safe_seq (safe_lit (by decide))
    (safe_seq safe_starSpace
    (safe_seq (safe_capture _ safe_inlineValue)
    (safe_seq (safe_action _) safe_ruleSpaceComment)))))

theorem safe_inlineValueLine : Safe inlineValueLine :=
  safe_capture _ (safe_seq safe_starSpace
    (safe_seq (safe_capture _ safe_ruleIdentifier) safe_valueLineTail))

theorem adv_inlineValueLine : Adv inlineValueLine :=
  adv_capture _ (adv_seq_right safe_starSpace
    (adv_seq_left (safe_capture _ safe_ruleIdentifier) (adv_capture _ adv_ruleIdentifier)
      safe_valueLineTail))

theorem safe_inlineSectionID : Safe inlineSectionID :=
  safe_opt
    (safe_seq safe_ruleSpace
    (safe_seq safe_starSpace
    (safe_seq (safe_lit (by decide))
    (safe_seq (safe_capture _ safe_ruleIdentifier)
    (safe_seq (safe_action _) (safe_lit (by decide)))))))

theorem safe_sectionTail :
    Safe (seq (star rules_ruleSpace)
      (seq (capture pegRule.rulePegText rules_ruleIdentifier)
      (seq (action pegRule.ruleAction0)
      (seq inlineSectionID
      (seq (star rules_ruleSpace)
      (seq (lit 93)
      (seq rules_ruleSpaceComment (star inlineValueLine)))))))) :=
  safe_seq safe_starSpace
    (safe_seq (safe_capture _ safe_ruleIdentifier)
    (safe_seq (safe_action _)
    (safe_seq safe_inlineSectionID
    (safe_seq safe_starSpace
    (safe_seq (safe_lit (by decide))
    (safe_seq safe_ruleSpaceComment (safe_star safe_inlineValueLine adv_inlineValueLine)))))))

theorem safe_inlineSection : Safe inlineSection :=
  safe_capture _ (safe_seq safe_starSpace (safe_seq (safe_lit (by decide)) safe_sectionTail))

theorem adv_inlineSection : Adv inlineSection :=
  adv_capture _ (adv_seq_right safe_starSpace
    (adv_seq_left (safe_lit (by decide)) (adv_lit (by decide)) safe_sectionTail))

theorem safe_grammarItem : Safe (alt rules_ruleSpaceComment inlineSection) :=
  safe_alt safe_ruleSpaceComment safe_inlineSection

theorem adv_grammarItem : Adv (alt rules_ruleSpaceComment inlineSection) :=
  adv_alt safe_ruleSpaceComment adv_ruleSpaceComment adv_inlineSection

theorem safe_ruleGrammar : Safe rules_ruleGrammar :=
  safe_ruleFn (safe_capture _
    (safe_seq safe_grammarItem (safe_star safe_grammarItem adv_grammarItem)))

/-! ## The committed tokens -/

theorem committed_restore {s s0 : Matcher} (hs : Inv s) (hf : Frame s s0) :
    (restore s0 s).committed = s.committed := by
  show s0.tree.cells.take s.tokenIndex = s.tree.cells.take s.tokenIndex
  apply List.ext_getElem?
  intro i
  simp only [List.getElem?_take]
  split
  · rename_i hi
    have h1 := hf.below i hi
    have h2 : i < s.tree.cells.length := Nat.lt_of_lt_of_le hi hs.index_le
    have h3 : i < s0.tree.cells.length := Nat.lt_of_lt_of_le h2 hf.cells_le
    simp only [List.getD_eq_getElem?_getD, List.getElem?_eq_getElem h2,
      List.getElem?_eq_getElem h3, Option.getD_some] at h1
    rw [List.getElem?_eq_getElem h2, List.getElem?_eq_getElem h3, h1]
  · rfl

theorem committed_add {s s1 : Matcher} {rule : pegRule} {begin : Nat} (hs : Inv s)
    (h : add rule begin s = .ok s1) :
    s1.committed = s.committed ++ [⟨rule, begin, s.position, s.depth⟩] := by
  rw [add_ok] at h
  obtain ⟨_, rfl⟩ := h
  show (putAt _ _ _).take (s.tokenIndex + 1) = _
  rw [Expand_cells, putAt_take _ _ _ hs.index_le]
  rfl

theorem committed_set_depth (s : Matcher) (d : Nat) :
    Matcher.committed { s with depth := d } = s.committed := rfl

theorem committed_length {s : Matcher} (hs : Inv s) : s.committed.length = s.tokenIndex := by
  show (s.tree.cells.take s.tokenIndex).length = _
  rw [List.length_take]
  exact Nat.min_eq_left hs.index_le

/-! ## A Hoare logic on the committed tokens -/

theorem hoare_weaken {P P1 Q Q1 : List token32 → Prop} {f : Rule} (h : Hoare P f Q)
    (hp : ∀ l, P1 l → P l) (hq : ∀ l, Q l → Q1 l) : Hoare P1 f Q1 :=
  fun s s1 hs hP hr => hq _ (h s s1 hs (hp _ hP) hr)

theorem hoare_matchDot (P : List token32 → Prop) : Hoare P matchDot P := by
  intro s s1 hs hP h
  unfold matchDot at h
  split at h
  · simp at h
  · split at h <;> simp at h
    rw [← h]
    exact hP

theorem hoare_lit (P : List token32 → Prop) (c : Nat) : Hoare P (lit c) P := by
  intro s s1 hs hP h
  unfold lit at h
  split at h
  · simp at h
  · split at h <;> simp at h
    rw [← h]
    exact hP

theorem hoare_range (P : List token32 → Prop) (lo hi : Nat) : Hoare P (range lo hi) P := by
  intro s s1 hs hP h
  unfold range at h
  split at h
  · simp at h
  · split at h <;> simp at h
    rw [← h]
    exact hP

theorem hoare_seq {P Q R : List token32 → Prop} {f g : Rule} (sf : Safe f)
    (hf : Hoare P f Q) (hg : Hoare Q g R) : Hoare P (seq f g) R := by
  intro s s1 hs hP h
  rw [seq_ok] at h
  rcases h with ⟨s0, h0, h1⟩ | ⟨hb, _⟩
  · exact hg s0 s1 (sf.result hs h0).1 (hf s s0 hs hP h0) h1
  · simp at hb

theorem hoare_alt {P Q : List token32 → Prop} {f g : Rule} (sf : Safe f)
    (hf : Hoare P f Q) (hg : Hoare P g Q) : Hoare P (alt f g) Q := by
  intro s s1 hs hP h
  rw [alt_ok] at h
  rcases h with ⟨_, h0⟩ | ⟨s0, h0, h1⟩
  · exact hf s s1 hs hP h0
  · have r0 := sf.result hs h0
    refine hg (restore s0 s) s1 (Inv.rewind (s := s) (t := s0) hs r0.1 r0.2.1) ?_ h1
    rw [committed_restore hs r0.2.1]
    exact hP

theorem hoare_opt {P : List token32 → Prop} {f : Rule} (sf : Safe f) (hf : Hoare P f P) :
    Hoare P (opt f) P := by
  intro s s1 hs hP h
  rw [opt_ok] at h
  rcases h with ⟨_, h0 | ⟨s0, h0, rfl⟩⟩
  · exact hf s s1 hs hP h0
  · rw [committed_restore hs (sf.result hs h0).2.1]
    exact hP

theorem hoare_notP {P : List token32 → Prop} {f : Rule} (sf : Safe f) :
    Hoare P (notP f) P := by
  intro s s1 hs hP h
  rw [notP_ok] at h
  rcases h with ⟨hb, _⟩ | ⟨_, s0, h0, rfl⟩
  · simp at hb
  · rw [committed_restore hs (sf.result hs h0).2.1]
    exact hP

theorem hoare_ruleFn {P Q : List token32 → Prop} {f : Rule} (hf : Hoare P f Q) :
    Hoare P (ruleFn f) Q := by
  intro s s1 hs hP h
  rw [ruleFn_ok] at h
  rcases h with ⟨_, h0⟩ | ⟨hb, _⟩
  · exact hf s s1 hs hP h0
  · simp at hb

theorem hoare_starLoop {P : List token32 → Prop} {f : Rule} (sf : Safe f) (hf : Hoare P f P)
    (fuel : Nat) :
    ∀ s s1, Inv s → P s.committed → starLoop f fuel s = .ok (true, s1) → P s1.committed := by
  induction fuel with
  | zero => intro s s1 _ _ h; simp [starLoop] at h
  | succ n ih =>
    intro s s1 hs hP h
    rw [starLoop_succ_ok] at h
    rcases h with ⟨s0, h0, h1⟩ | ⟨_, s0, h0, rfl⟩
    · exact ih s0 s1 (sf.result hs h0).1 (hf s s0 hs hP h0) h1
    · rw [committed_restore hs (sf.result hs h0).2.1]
      exact hP

theorem hoare_star {P : List token32 → Prop} {f : Rule} (sf : Safe f) (hf : Hoare P f P) :
    Hoare P (star f) P :=
  fun s s1 hs hP h => hoare_starLoop sf hf _ s s1 hs hP h

theorem hoare_capture {P Q R : List token32 → Prop} {f : Rule} (rule : pegRule) (sf : Safe f)
    (hf : Hoare P f Q) (hc : ∀ l t, t.pegRule = rule → Q l → R (l ++ [t])) :
    Hoare P (capture rule f) R := by
  intro s s1 hs hP h
  rw [capture_ok] at h
  rcases h with ⟨hb, _⟩ | ⟨_, s0, h0, h1⟩
  · simp at hb
  · have r0 := sf.result (hs.set_depth (inc s.depth)) h0
    have hQ : Q s0.committed := hf _ s0 (hs.set_depth (inc s.depth)) hP h0
    have hc1 := hc s0.committed (token32.mk rule s.position s0.position (dec s0.depth)) rfl hQ
    have hc2 := committed_add (r0.1.set_depth (dec s0.depth)) h1
    rw [hc2, committed_set_depth]
    exact hc1

theorem hoare_action {P R : List token32 → Prop} (rule : pegRule)
    (hc : ∀ l t, t.pegRule = rule → P l → R (l ++ [t])) : Hoare P (action rule) R := by
  intro s s1 hs hP h
  rw [action_ok] at h
  rw [committed_add hs h.2]
  exact hc s.committed ⟨rule, s.position, s.position, s.depth⟩ rfl hP

/-! ## Which rules write which tokens -/

theorem keeps_ruleSpace {Q : List token32 → Prop} (hq : QuietClosed Q) :
    Hoare Q rules_ruleSpace Q :=
  hoare_ruleFn (hoare_capture _ (safe_alt (safe_lit (by decide)) (safe_lit (by decide)))
    (hoare_alt (safe_lit (by decide)) (hoare_lit Q _) (hoare_lit Q _))
    (hq _ (by decide) (by decide)))

theorem keeps_starSpace {Q : List token32 → Prop} (hq : QuietClosed Q) :
    Hoare Q (star rules_ruleSpace) Q :=
  hoare_star safe_ruleSpace (keeps_ruleSpace hq)

theorem keeps_ruleEndOfLine {Q : List token32 → Prop} (hq : QuietClosed Q) :
    Hoare Q rules_ruleEndOfLine Q :=
  hoare_ruleFn (hoare_capture _
    (safe_alt (safe_seq (safe_lit (by decide)) (safe_lit (by decide)))
      (safe_alt (safe_lit (by decide)) (safe_lit (by decide))))
    (hoare_alt (safe_seq (safe_lit (by decide)) (safe_lit (by decide)))
      (hoare_seq (safe_lit (by decide)) (hoare_lit Q _) (hoare_lit Q _))
      (hoare_alt (safe_lit (by decide)) (hoare_lit Q _) (hoare_lit Q _)))
    (hq _ (by decide) (by decide)))

theorem keeps_identChar (Q : List token32 → Prop) : Hoare Q identChar Q := by
  intro s s1 hs hP h
  unfold identChar at h
  split at h
  · simp at h
  · split_ifs at h
    · exact hoare_lit Q _ s s1 hs hP h
    · exact hoare_lit Q _ s s1 hs hP h
    · exact hoare_lit Q _ s s1 hs hP h
    · exact hoare_lit Q _ s s1 hs hP h
    · exact hoare_alt (safe_range (by decide)) (hoare_range Q _ _) (hoare_range Q _ _)
        s s1 hs hP h
    · exact hoare_range Q _ _ s s1 hs hP h
    · exact hoare_range Q _ _ s s1 hs hP h

theorem keeps_ruleIdentifier {Q : List token32 → Prop} (hq : QuietClosed Q) :
    Hoare Q rules_ruleIdentifier Q :=
  hoare_ruleFn (hoare_capture _ (safe_seq safe_identChar (safe_star safe_identChar adv_identChar))
    (hoare_seq safe_identChar (keeps_identChar Q) (hoare_star safe_identChar (keeps_identChar Q)))
    (hq _ (by decide) (by decide)))

theorem keeps_wordChar (Q : List token32 → Prop) : Hoare Q wordChar Q :=
  hoare_seq (safe_notP safe_stopChar) (hoare_notP safe_stopChar) (hoare_matchDot Q)

theorem keeps_ruleWord {Q : List token32 → Prop} (hq : QuietClosed Q) :
    Hoare Q rules_ruleWord Q :=
  hoare_ruleFn (hoare_capture _ (safe_seq safe_wordChar (safe_star safe_wordChar adv_wordChar))
    (hoare_seq safe_wordChar (keeps_wordChar Q) (hoare_star safe_wordChar (keeps_wordChar Q)))
    (hq _ (by decide) (by decide)))

theorem keeps_inlineComment {Q : List token32 → Prop} (hq : QuietClosed Q) :
    Hoare Q inlineComment Q :=
  hoare_capture _ (safe_seq (safe_lit (by decide)) (safe_seq safe_commentBody safe_ruleEndOfLine))
    (hoare_seq (safe_lit (by decide)) (hoare_lit Q _)
      (hoare_seq safe_commentBody
        (hoare_star (safe_seq (safe_notP safe_ruleEndOfLine) safe_matchDot)
          (hoare_seq (safe_notP safe_ruleEndOfLine) (hoare_notP safe_ruleEndOfLine)
            (hoare_matchDot Q)))
        (keeps_ruleEndOfLine hq)))
    (hq _ (by decide) (by decide))

theorem keeps_spaceCommentSwitch {Q : List token32 → Prop} (hq : QuietClosed Q) :
    Hoare Q spaceCommentSwitch Q := by
  intro s s1 hs hP h
  unfold spaceCommentSwitch at h
  split at h
  · simp at h
  · split_ifs at h
    · exact keeps_ruleEndOfLine hq s s1 hs hP h
    · exact keeps_inlineComment hq s s1 hs hP h
    · exact hoare_seq safe_ruleSpace (keeps_ruleSpace hq) (keeps_starSpace hq) s s1 hs hP h

theorem keeps_ruleSpaceComment {Q : List token32 → Prop} (hq : QuietClosed Q) :
    Hoare Q rules_ruleSpaceComment Q :=
  hoare_ruleFn (hoare_capture _ safe_spaceCommentSwitch (keeps_spaceCommentSwitch hq)
    (hq _ (by decide) (by decide)))

theorem keeps_inlineValue {Q : List token32 → Prop} (hq : QuietClosed Q) :
    Hoare Q inlineValue Q :=
  hoare_capture _ (safe_seq safe_ruleWord safe_moreWords)
    (hoare_seq safe_ruleWord (keeps_ruleWord hq)
      (hoare_star (safe_seq safe_ruleSpace (safe_seq safe_starSpace safe_ruleWord))
        (hoare_seq safe_ruleSpace (keeps_ruleSpace hq)
          (hoare_seq safe_starSpace (keeps_starSpace hq) (keeps_ruleWord hq)))))
    (hq _ (by decide) (by decide))

theorem keeps_pegIdentifier {Q : List token32 → Prop} (hq : QuietClosed Q) :
    Hoare Q (capture pegRule.rulePegText rules_ruleIdentifier) Q :=
  hoare_capture _ safe_ruleIdentifier (keeps_ruleIdentifier hq) (hq _ (by decide) (by decide))

/-! ## Every `Action1` and `Action3` token follows an `Action0` token -/

theorem guarded_snoc (l : List token32) (t : token32) :
    ∀ seen, actionsGuarded seen (l ++ [t]) ↔
      actionsGuarded seen l ∧
        ((t.pegRule = pegRule.ruleAction1 ∨ t.pegRule = pegRule.ruleAction3) →
          seen = true ∨ ∃ u ∈ l, u.pegRule = pegRule.ruleAction0) := by
  induction l with
  | nil =>
    intro seen
    cases hr : t.pegRule <;> simp [actionsGuarded, hr]
  | cons u l ih =>
    intro seen
    cases hr : u.pegRule <;> simp [actionsGuarded, hr, ih] <;> tauto

theorem quiet_guarded : QuietClosed (actionsGuarded false) := by
  intro r h1 h3 l t ht hl
  rw [guarded_snoc]
  refine ⟨hl, ?_⟩
  rintro (h | h)
  · exact absurd (ht.symm.trans h) h1
  · exact absurd (ht.symm.trans h) h3

theorem open_snoc (l : List token32) (t : token32) (h : sectionOpen l) :
    sectionOpen (l ++ [t]) := by
  obtain ⟨h1, u, hu, hr⟩ := h
  refine ⟨?_, u, List.mem_append_left _ hu, hr⟩
  rw [guarded_snoc]
  exact ⟨h1, fun _ => Or.inr ⟨u, hu, hr⟩⟩

theorem all_open (r : pegRule) : ClosedUnder sectionOpen r :=
  fun l t _ h => open_snoc l t h

theorem quiet_open : QuietClosed sectionOpen := fun r _ _ => all_open r

theorem open_of_action0 (l : List token32) (t : token32)
    (ht : t.pegRule = pegRule.ruleAction0) (h : actionsGuarded false l) :
    sectionOpen (l ++ [t]) := by
  refine ⟨?_, t, by simp, ht⟩
  rw [guarded_snoc]
  refine ⟨h, ?_⟩
  rw [ht]
  simp

theorem keeps_inlineValueLine : Hoare sectionOpen inlineValueLine sectionOpen :=
  hoare_capture _
    (safe_seq safe_starSpace (safe_seq (safe_capture _ safe_ruleIdentifier) safe_valueLineTail))
    (hoare_seq safe_starSpace (keeps_starSpace quiet_open)
    (hoare_seq (safe_capture _ safe_ruleIdentifier) (keeps_pegIdentifier quiet_open)
    (hoare_seq (safe_action _) (hoare_action _ (all_open _))
    (hoare_seq safe_starSpace (keeps_starSpace quiet_open)
    (hoare_seq (safe_lit (by decide)) (hoare_lit _ _)
    (hoare_seq safe_starSpace (keeps_starSpace quiet_open)
    (hoare_seq (safe_capture _ safe_inlineValue)
      (hoare_capture _ safe_inlineValue (keeps_inlineValue quiet_open) (all_open _))
    (hoare_seq (safe_action _) (hoare_action _ (all_open _))
      (keeps_ruleSpaceComment quiet_open)))))))))
    (all_open _)

theorem keeps_inlineSectionID : Hoare sectionOpen inlineSectionID sectionOpen :=
  hoare_opt
    (safe_seq safe_ruleSpace
    (safe_seq safe_starSpace
    (safe_seq (safe_lit (by decide))
    (safe_seq (safe_capture _ safe_ruleIdentifier)
    (safe_seq (safe_action _) (safe_lit (by decide)))))))
    (hoare_seq safe_ruleSpace (keeps_ruleSpace quiet_open)
    (hoare_seq safe_starSpace (keeps_starSpace quiet_open)
    (hoare_seq (safe_lit (by decide)) (hoare_lit _ _)
    (hoare_seq (safe_capture _ safe_ruleIdentifier) (keeps_pegIdentifier quiet_open)
    (hoare_seq (safe_action _) (hoare_action _ (all_open _)) (hoare_lit _ _))))))

theorem keeps_inlineSection :
    Hoare (actionsGuarded false) inlineSection (actionsGuarded false) :=
  hoare_capture _ (safe_seq safe_starSpace (safe_seq (safe_lit (by decide)) safe_sectionTail))
    (hoare_seq safe_starSpace (keeps_starSpace quiet_guarded)
    (hoare_seq (safe_lit (by decide)) (hoare_lit _ _)
    (hoare_seq safe_starSpace (keeps_starSpace quiet_guarded)
    (hoare_seq (safe_capture _ safe_ruleIdentifier) (keeps_pegIdentifier quiet_guarded)
    (hoare_seq (safe_action _) (hoare_action _ open_of_action0)
    (hoare_seq safe_inlineSectionID keeps_inlineSectionID
    (hoare_seq safe_starSpace (keeps_starSpace quiet_open)
    (hoare_seq (safe_lit (by decide)) (hoare_lit _ _)
    (hoare_seq safe_ruleSpaceComment (keeps_ruleSpaceComment quiet_open)
      (hoare_star safe_inlineValueLine keeps_inlineValueLine))))))))))
    (fun l t _ h => (open_snoc l t h).1)

theorem keeps_grammarItem :
    Hoare (actionsGuarded false) (alt rules_ruleSpaceComment inlineSection)
      (actionsGuarded false) :=
  hoare_alt safe_ruleSpaceComment (keeps_ruleSpaceComment quiet_guarded) keeps_inlineSection

theorem keeps_ruleGrammar :
    Hoare (actionsGuarded false) rules_ruleGrammar (actionsGuarded false) :=
  hoare_ruleFn (hoare_capture _
    (safe_seq safe_grammarItem (safe_star safe_grammarItem adv_grammarItem))
    (hoare_seq safe_grammarItem keeps_grammarItem (hoare_star safe_grammarItem keeps_grammarItem))
    (quiet_guarded _ (by decide) (by decide)))

/-! ## The initial state -/

theorem char_toNat_lt (c : Char) : c.toNat < 1114112 := by
  have h := c.valid
  simp only [UInt32.isValidChar, Nat.isValidChar] at h
  show c.val.toNat < 1114112
  omega

theorem initBuffer_eq (data : String) :
    initBuffer data = data.toList.map Char.toNat ++ [end_symbol] := by
  unfold initBuffer
  simp only
  split
  · rfl
  · rename_i h
    exfalso
    apply h
    right
    intro hl
    rw [List.getLast?_eq_some_iff] at hl
    obtain ⟨ys, hys⟩ := hl
    have hm : end_symbol ∈ data.toList.map Char.toNat := by rw [hys]; simp
    obtain ⟨c, _, hc⟩ := List.mem_map.1 hm
    have := char_toNat_lt c
    rw [hc, end_symbol_eq] at this
    omega

theorem inv_init (p : config) (h : p.Buffer.length < u32) : Inv (Init p).2 := by
  unfold Init
  simp only [initBuffer_eq]
  refine ⟨?_, ?_, ?_, ?_, ?_, ?_, ?_, ?_⟩
  · simp
  · show (p.Buffer.toList.map Char.toNat ++ [end_symbol]).length ≤ u32
    rw [List.length_append, List.length_map]
    have h1 : p.Buffer.toList.length = p.Buffer.length := rfl
    rw [h1, List.length_singleton]
    omega
  · simp
  · exact Nat.le_refl _
  · exact Nat.zero_le _
  · show 0 < maxInt16; decide
  · intro t ht; simp [tokenSlice.make] at ht
  · intro t ht; simp at ht

/-! ## `Execute` on guarded tokens -/

theorem executeStep_total (p : config) (text : String) (t : token32)
    (hspan : t.begin ≤ t.end_ ∧ t.end_ ≤ p.buffer.length)
    (hg : (t.pegRule = pegRule.ruleAction1 ∨ t.pegRule = pegRule.ruleAction3) →
      p.curSection.isSome = true) :
    ∃ p1 text1, executeStep (p, text) t = .ok (p1, text1) ∧ p1.buffer = p.buffer ∧
      (p.curSection.isSome = true → p1.curSection.isSome = true) ∧
      (t.pegRule = pegRule.ruleAction0 → p1.curSection.isSome = true) := by
  cases hr : t.pegRule
  case rulePegText =>
    refine ⟨p, stringOfRunes ((p.buffer.take t.end_).drop t.begin), ?_, rfl, id, ?_⟩
    · simp [executeStep, hr, sliceRunes, hspan]
    · simp
  case ruleAction0 =>
    refine ⟨p.addSection text, text, ?_, rfl, fun _ => rfl, fun _ => rfl⟩
    simp [executeStep, hr]
  case ruleAction1 =>
    obtain ⟨i, hi⟩ := Option.isSome_iff_exists.1 (hg (Or.inl hr))
    refine ⟨{ p with sections := p.sections.modify (fun sec => { sec with ID := text }) i },
      text, ?_, rfl, ?_, ?_⟩
    · simp only [executeStep, hr, config.setID, hi]
    · intro _; simp [hi]
    · simp
  case ruleAction2 =>
    refine ⟨p.setKey text, text, ?_, rfl, id, ?_⟩
    · simp [executeStep, hr]
    · simp
  case ruleAction3 =>
    obtain ⟨i, hi⟩ := Option.isSome_iff_exists.1 (hg (Or.inr hr))
    refine ⟨{ p with
        sections := p.sections.modify
          (fun sec => { sec with Values := mapSet sec.Values p.curKey text }) i },
      text, ?_, rfl, ?_, ?_⟩
    · simp only [executeStep, hr, config.addValue, hi]
    · intro _; simp [hi]
    · simp
  all_goals
    refine ⟨p, text, ?_, rfl, id, ?_⟩
    · simp [executeStep, hr]
    · simp

theorem guarded_mono (l : List token32) :
    ∀ seen, actionsGuarded seen l → actionsGuarded true l := by
  induction l with
  | nil => intro _ _; trivial
  | cons t ts ih =>
    intro seen h
    cases hr : t.pegRule <;> simp only [actionsGuarded, hr] at h ⊢
    all_goals first
      | exact h
      | exact ih _ h
      | exact ⟨trivial, ih _ h.2⟩

theorem executeLoop_total (toks : List token32) :
    ∀ (p : config) (text : String),
      (∀ t ∈ toks, t.begin ≤ t.end_ ∧ t.end_ ≤ p.buffer.length) →
      actionsGuarded p.curSection.isSome toks →
      ∃ st, executeLoop toks (p, text) = .ok st := by
  induction toks with
  | nil => intro p text _ _; exact ⟨_, rfl⟩
  | cons t ts ih =>
    intro p text hspan hg
    have hg1 : (t.pegRule = pegRule.ruleAction1 ∨ t.pegRule = pegRule.ruleAction3) →
        p.curSection.isSome = true := by
      rintro (h | h) <;> simp only [actionsGuarded, h] at hg <;> exact hg.1
    obtain ⟨p1, text1, h1, hb, hmono, h0⟩ :=
      executeStep_total p text t (hspan t (List.mem_cons_self _ _)) hg1
    have hg2 : actionsGuarded p1.curSection.isSome ts := by
      by_cases hr0 : t.pegRule = pegRule.ruleAction0
      · rw [h0 hr0]
        simp only [actionsGuarded, hr0] at hg
        exact hg
      · have hts : actionsGuarded p.curSection.isSome ts := by
          cases hr : t.pegRule <;> simp only [actionsGuarded, hr] at hg
          all_goals first
            | exact hg
            | exact hg.2
            | exact absurd hr hr0
        by_cases hsome : p.curSection.isSome = true
        · rw [hmono hsome]
          rw [hsome] at hts
          exact hts
        · exact guarded_mono _ _ hts |> fun h => by
            cases hp1 : p1.curSection.isSome
            · simp only [Bool.not_eq_true] at hsome
              rw [hsome] at hts
              exact hts
            · exact h
    obtain ⟨st, hst⟩ := ih p1 text1 (fun u hu => by rw [hb]; exact hspan u (List.mem_cons_of_mem _ hu)) hg2
    exact ⟨st, by simp only [executeLoop, h1, hst]⟩

/-! ## The run of `Parse` -/

theorem toList_trim (cells : List token32) (n : Nat) (h : n ≤ cells.length) :
    (tokenSlice.mk (cells.take n) n).toList = cells.take n := by
  unfold tokenSlice.toList
  have h1 : (cells.take n).length = n := by
    rw [List.length_take]
    exact Nat.min_eq_left h
  simp only [h1, Nat.sub_self, List.replicate_zero, List.append_nil]
  rw [List.take_take, Nat.min_self]

/-- The start rule always returns on a text of fewer than `2 ^ 32` characters, in a
state of `Inv` whose committed tokens are guarded. -/
theorem grammar_runs (data : String) (h : data.length < u32) :
    ∃ b m1, rules_ruleGrammar (Init (config.new data)).2 = .ok (b, m1) ∧ Inv m1 ∧
      Frame (Init (config.new data)).2 m1 ∧ (b = true → actionsGuarded false m1.committed) := by
  have hi : Inv (Init (config.new data)).2 := inv_init _ h
  obtain ⟨b, m1, h1, hi1, hf1, _⟩ := safe_ruleGrammar _ hi
  refine ⟨b, m1, h1, hi1, hf1, ?_⟩
  intro hb
  subst hb
  exact keeps_ruleGrammar _ m1 hi trivial h1

theorem parseRun_total (data : String) (h : data.length < u32) :
    (∃ p, parseRun data = .ok (p, none)) ∨
    (∃ p, parseRun data = .ok (p, some ⟨p⟩) ∧ p.sections = [] ∧ p.curSection = none ∧
      p.curKey = "") := by
  obtain ⟨b, m1, h1, hi1, hf1, hg1⟩ := grammar_runs data h
  cases b
  · right
    refine ⟨{ (Init (config.new data)).1 with tokenTree := some ⟨m1.tree, none⟩ }, ?_, rfl, rfl,
      rfl⟩
    simp only [parseRun, config.Parse, h1]
  · left
    have hlen : m1.tokenIndex ≤ m1.tree.len := Nat.le_trans hi1.index_le hi1.cells_le
    have hbuf : m1.buffer = initBuffer data := hf1.buffer_eq
    have hspan : ∀ t ∈ m1.committed,
        t.begin ≤ t.end_ ∧ t.end_ ≤ (initBuffer data).length := by
      intro t ht
      have := hi1.cells_ok t (List.mem_of_mem_take ht)
      rw [hbuf] at this
      exact ⟨this.1, Nat.le_trans this.2 (Nat.sub_le _ _)⟩
    obtain ⟨st, hst⟩ := executeLoop_total m1.committed
      { (Init (config.new data)).1 with
        tokenTree := some ⟨⟨m1.tree.cells.take m1.tokenIndex, m1.tokenIndex⟩, none⟩ } ""
      hspan (hg1 rfl)
    refine ⟨st.1, ?_⟩
    simp only [parseRun, config.Parse, h1, tokens32.trim, hlen, if_true, config.Execute,
      toList_trim _ _ hi1.index_le]
    have hc : m1.committed = m1.tree.cells.take m1.tokenIndex := rfl
    rw [hc] at hst
    rw [hst]

/-- `Parse` returns on every text of fewer than `2 ^ 32` characters: with a nil error and
the slice of the sections that `Execute` has built (nil when it has built none), or with
nil sections and an error that holds a parser on which no callback has run. -/
theorem Parse_total (data : String) (h : data.length < u32) :
    (∃ p, parseRun data = .ok (p, none) ∧ Parse data = .ok (sectionSlice p.sections, none)) ∨
    (∃ err, Parse data = .ok (none, some err) ∧ err.p.sections = [] ∧
      err.p.curSection = none ∧ err.p.curKey = "") := by
  rcases parseRun_total data h with ⟨p, hp⟩ | ⟨p, hp, h1, h2, h3⟩
  · left
    exact ⟨p, hp, by simp only [Parse, hp]⟩
  · right
    exact ⟨⟨p⟩, by simp only [Parse, hp], h1, h2, h3⟩

/-- C6. `Parse` is all-or-nothing. On every text of fewer than `2 ^ 32` characters (the
range of the `uint32` cursor) `Parse` returns, without a panic, either sections with a
nil error or nil sections with an error. In the first case the sections are the slice
`conf.sections` of the parser after `Execute`, which is nil when no section was added:
on `# only a comment` followed by a newline `Parse` returns nil sections and a nil
error. In the second case the callbacks have not run: the parser the error holds has no
section, no current section and no current key. -/
theorem Parse_all_or_nothing (data : String) (h : data.length < 2 ^ 32) :
    ((∃ p, parseRun data = .ok (p, none) ∧
        Parse data = .ok (sectionSlice p.sections, none)) ∨
      (∃ err, Parse data = .ok (none, some err) ∧ err.p.sections = [] ∧
        err.p.curSection = none ∧ err.p.curKey = "")) ∧
    (∀ r, Parse data = .ok r → r.2 ≠ none → r.1 = none) ∧
    Parse "# only a comment\n" = .ok (none, none) ∧
    Parse "[a]\n" = .ok (some [⟨"a", "", []⟩], none) := by
  refine ⟨Parse_total data h, fun r hr hne => ?_, by decide!, by decide!⟩
  rcases Parse_total data h with ⟨p, _, hp⟩ | ⟨err, he, _⟩
  · rw [hp] at hr
    injection hr with hr
    subst hr
    exact absurd rfl hne
  · rw [he] at hr
    injection hr with hr
    subst hr
    rfl

theorem Parse_all_or_nothing_witness :
    "[core\n  a = 1\n".length < 2 ^ 32 ∧
    (((∃ p, parseRun "[core\n  a = 1\n" = .ok (p, none) ∧
        Parse "[core\n  a = 1\n" = .ok (sectionSlice p.sections, none)) ∨
      (∃ err, Parse "[core\n  a = 1\n" = .ok (none, some err) ∧ err.p.sections = [] ∧
        err.p.curSection = none ∧ err.p.curKey = "")) ∧
    (∀ r, Parse "[core\n  a = 1\n" = .ok r → r.2 ≠ none → r.1 = none) ∧
    Parse "# only a comment\n" = .ok (none, none) ∧
    Parse "[a]\n" = .ok (some [⟨"a", "", []⟩], none)) :=
  ⟨by decide, Parse_all_or_nothing "[core\n  a = 1\n" (by decide)⟩

/-- C8. Backtracking isolation. Whatever the matcher state, when one of the rule
functions Grammar, Identifier, Word, SpaceComment, Space, EndOfLine returns false, the
cursor, the token count and the depth are what they were before the call, and every
token that was below the token count is unchanged. -/
theorem backtracking_isolation (f : Rule)
    (hf : f ∈ [rules_ruleGrammar, rules_ruleIdentifier, rules_ruleWord,
      rules_ruleSpaceComment, rules_ruleSpace, rules_ruleEndOfLine])
    (s s1 : Matcher) (h : f s = .ok (false, s1)) :
    s1.position = s.position ∧ s1.tokenIndex = s.tokenIndex ∧ s1.depth = s.depth ∧
    ∀ i, i < s.tokenIndex → i < s.tree.len → s1.tree.get? i = s.tree.get? i := by
  have hfr : Framed f ∧ Restoring f := by
    simp only [List.mem_cons, List.mem_singleton, List.not_mem_nil, or_false] at hf
    rcases hf with rfl | rfl | rfl | rfl | rfl | rfl
    · exact ⟨framed_ruleGrammar, restoring_ruleFn _⟩
    · exact ⟨framed_ruleIdentifier, restoring_ruleFn _⟩
    · exact ⟨framed_ruleWord, restoring_ruleFn _⟩
    · exact ⟨framed_ruleSpaceComment, restoring_ruleFn _⟩
    · exact ⟨framed_ruleSpace, restoring_ruleFn _⟩
    · exact ⟨framed_ruleEndOfLine, restoring_ruleFn _⟩
  obtain ⟨h1, h2, h3⟩ := hfr.2 s s1 h
  have hframe := hfr.1 s false s1 h
  refine ⟨h1, h2, h3, ?_⟩
  intro i hi hlen
  have hlen1 : i < s1.tree.len := Nat.lt_of_lt_of_le hlen hframe.len_le
  simp only [tokenSlice.get?, hlen, hlen1, if_true]
  rw [hframe.below i hi]

theorem backtracking_isolation_witness :
    rules_ruleGrammar (Init (config.new "[core\n")).2 =
      .ok (false, { (Init (config.new "[core\n")).2 with
        tree := ⟨[⟨pegRule.ruleIdentifier, 1, 5, 3⟩, ⟨pegRule.rulePegText, 1, 5, 2⟩,
          ⟨pegRule.ruleAction0, 5, 5, 2⟩], 32767⟩
        appended := [⟨pegRule.ruleIdentifier, 1, 5, 3⟩, ⟨pegRule.rulePegText, 1, 5, 2⟩,
          ⟨pegRule.ruleAction0, 5, 5, 2⟩] }) ∧
    (0 = 0 ∧ 0 = 0 ∧ 0 = 0 ∧
      ∀ i, i < 0 → i < 32767 →
        (tokenSlice.mk [⟨pegRule.ruleIdentifier, 1, 5, 3⟩, ⟨pegRule.rulePegText, 1, 5, 2⟩,
          ⟨pegRule.ruleAction0, 5, 5, 2⟩] 32767).get? i = (tokenSlice.make 32767).get? i) :=
  ⟨by decide!, backtracking_isolation rules_ruleGrammar (by simp)
    (Init (config.new "[core\n")).2
    { (Init (config.new "[core\n")).2 with
      tree := ⟨[⟨pegRule.ruleIdentifier, 1, 5, 3⟩, ⟨pegRule.rulePegText, 1, 5, 2⟩,
        ⟨pegRule.ruleAction0, 5, 5, 2⟩], 32767⟩
      appended := [⟨pegRule.ruleIdentifier, 1, 5, 3⟩, ⟨pegRule.rulePegText, 1, 5, 2⟩,
        ⟨pegRule.ruleAction0, 5, 5, 2⟩] }
    (by decide!)⟩

/-- C9. Token spans stay inside the text. On every text of fewer than `2 ^ 32` characters
the start rule returns, and every token the matcher has appended on the way (kept or
overwritten later), as well as every token in the buffer afterwards, satisfies
`begin ≤ end ≤ length of the text`; so no span reaches the sentinel, which sits at index
`length`. -/
theorem token_spans_in_text (data : String) (h : data.length < 2 ^ 32) :
    ∃ b m1, rules_ruleGrammar (Init (config.new data)).2 = .ok (b, m1) ∧
      (∀ t ∈ m1.appended, t.begin ≤ t.end_ ∧ t.end_ ≤ data.length) ∧
      (∀ t ∈ m1.tree.toList, t.begin ≤ t.end_ ∧ t.end_ ≤ data.length) := by
  obtain ⟨b, m1, h1, hi1, hf1, _⟩ := grammar_runs data h
  have hbuf : m1.buffer.length - 1 = data.length := by
    rw [hf1.buffer_eq]
    show (initBuffer data).length - 1 = data.length
    rw [initBuffer_eq, List.length_append, List.length_map]
    rfl
  refine ⟨b, m1, h1, ?_, ?_⟩
  · intro t ht
    have := hi1.appended_ok t ht
    rw [hbuf] at this
    exact this
  · intro t ht
    unfold tokenSlice.toList at ht
    have ht1 := List.mem_of_mem_take ht
    rcases List.mem_append.1 ht1 with h2 | h2
    · have := hi1.cells_ok t h2
      rw [hbuf] at this
      exact this
    · rw [(List.mem_replicate.1 h2).2]
      exact zero_spanOk _

theorem token_spans_in_text_witness :
    "[core\n  a = 1\n".length < 2 ^ 32 ∧
    ∃ b m1, rules_ruleGrammar (Init (config.new "[core\n  a = 1\n")).2 = .ok (b, m1) ∧
      (∀ t ∈ m1.appended, t.begin ≤ t.end_ ∧ t.end_ ≤ "[core\n  a = 1\n".length) ∧
      (∀ t ∈ m1.tree.toList, t.begin ≤ t.end_ ∧ t.end_ ≤ "[core\n  a = 1\n".length) :=
  ⟨by decide, token_spans_in_text "[core\n  a = 1\n" (by decide)⟩

/-! ## The tree built by `AST` -/

theorem contained_nodes (n : node32) (h : n.contained) :
    ∀ P ∈ n.nodes, ∀ N ∈ P.children,
      P.token.begin ≤ N.token.begin ∧ N.token.end_ ≤ P.token.end_ := by
  induction n with
  | nil => intro P hP; simp [node32.nodes] at hP
  | mk tok up next ihu ihn =>
    obtain ⟨h1, h2, h3⟩ := h
    intro P hP
    simp only [node32.nodes, List.mem_cons, List.mem_append] at hP
    rcases hP with rfl | hP | hP
    · exact h1
    · exact ihu h2 P hP
    · exact ihn h3 P hP

theorem astPop_contained (token : token32) (stack : List (token32 × node32)) :
    ∀ up, stackContained stack → up.contained →
      (∀ c ∈ up.chain, token.begin ≤ c.token.begin ∧ c.token.end_ ≤ token.end_) →
      (astPop token stack up).1.contained ∧
      (∀ c ∈ (astPop token stack up).1.chain,
        token.begin ≤ c.token.begin ∧ c.token.end_ ≤ token.end_) ∧
      stackContained (astPop token stack up).2 := by
  induction stack with
  | nil =>
    intro up _ hu hc
    exact ⟨hu, hc, fun e he => by simp [astPop] at he⟩
  | cons e down ih =>
    intro up hs hu hc
    obtain ⟨tok, u⟩ := e
    have he := hs (tok, u) (List.mem_cons_self _ _)
    have hdown : stackContained down := fun x hx => hs x (List.mem_cons_of_mem _ hx)
    unfold astPop
    split
    · rename_i hin
      apply ih (node32.mk tok u up) hdown
      · exact ⟨he.2, he.1, hu⟩
      · intro c hcm
        simp only [node32.chain, List.mem_cons] at hcm
        rcases hcm with rfl | hcm
        · exact ⟨hin.1, hin.2⟩
        · exact hc c hcm
    · exact ⟨hu, hc, hs⟩

theorem astLoop_contained (tokens : List token32) :
    ∀ stack, stackContained stack → stackContained (astLoop tokens stack) := by
  induction tokens with
  | nil => intro stack hs; exact hs
  | cons token rest ih =>
    intro stack hs
    unfold astLoop
    split
    · exact ih stack hs
    · have h := astPop_contained token stack node32.nil hs trivial
        (fun c hc => by simp [node32.chain] at hc)
      apply ih
      intro e he
      rcases List.mem_cons.1 he with rfl | he
      · exact ⟨h.1, h.2.1⟩
      · exact h.2.2 e he

theorem AST_contained (t : tokens32) : t.AST.contained := by
  unfold tokens32.AST
  have h := astLoop_contained t.tree.toList.tail
    [(t.tree.toList.head?.getD token32.zero, node32.nil)]
    (fun e he => by
      rw [List.mem_singleton.1 he]
      exact ⟨trivial, fun c hc => by simp [node32.chain] at hc⟩)
  simp only
  split
  · rename_i tok up rest heq
    have := h (tok, up) (by rw [heq]; exact List.mem_cons_self _ _)
    exact ⟨this.2, this.1, trivial⟩
  · trivial

/-- C10. Containment invariant of `AST`: for every token sequence, every node `N` linked
as a child of a node `P` of the tree that `AST` returns (reached from `P.up` by
following `next`) satisfies `P.begin ≤ N.begin` and `N.end ≤ P.end`. -/
theorem AST_containment (t : tokens32) :
    ∀ P ∈ t.AST.nodes, ∀ N ∈ P.children,
      P.token.begin ≤ N.token.begin ∧ N.token.end_ ≤ P.token.end_ :=
  contained_nodes _ (AST_contained t)

theorem AST_containment_witness :
    node32.mk ⟨pegRule.rulePegText, 1, 2, 2⟩
        (node32.mk ⟨pegRule.ruleIdentifier, 1, 2, 3⟩ node32.nil node32.nil) node32.nil ∈
      (tokens32.AST ⟨⟨[⟨pegRule.ruleIdentifier, 1, 2, 3⟩, ⟨pegRule.rulePegText, 1, 2, 2⟩], 2⟩,
        none⟩).nodes ∧
    node32.mk ⟨pegRule.ruleIdentifier, 1, 2, 3⟩ node32.nil node32.nil ∈
      (node32.mk ⟨pegRule.rulePegText, 1, 2, 2⟩
        (node32.mk ⟨pegRule.ruleIdentifier, 1, 2, 3⟩ node32.nil node32.nil) node32.nil).children ∧
    (node32.mk ⟨pegRule.rulePegText, 1, 2, 2⟩
        (node32.mk ⟨pegRule.ruleIdentifier, 1, 2, 3⟩ node32.nil node32.nil)
        node32.nil).token.begin ≤
      (node32.mk ⟨pegRule.ruleIdentifier, 1, 2, 3⟩ node32.nil node32.nil).token.begin ∧
    (node32.mk ⟨pegRule.ruleIdentifier, 1, 2, 3⟩ node32.nil node32.nil).token.end_ ≤
      (node32.mk ⟨pegRule.rulePegText, 1, 2, 2⟩
        (node32.mk ⟨pegRule.ruleIdentifier, 1, 2, 3⟩ node32.nil node32.nil)
        node32.nil).token.end_ :=
  ⟨by decide!, by decide!,
    AST_containment ⟨⟨[⟨pegRule.ruleIdentifier, 1, 2, 3⟩, ⟨pegRule.rulePegText, 1, 2, 2⟩], 2⟩,
        none⟩
      (node32.mk ⟨pegRule.rulePegText, 1, 2, 2⟩
        (node32.mk ⟨pegRule.ruleIdentifier, 1, 2, 3⟩ node32.nil node32.nil) node32.nil)
      (by decide!)
      (node32.mk ⟨pegRule.ruleIdentifier, 1, 2, 3⟩ node32.nil node32.nil) (by decide!)⟩

/-! ## Exact behaviour: the logic of `Parses` and `Fails` -/

theorem peek_rest (s : Matcher) : s.buffer[s.position]? = s.rest.head? := by
  unfold Matcher.rest
  rw [List.head?_drop]

theorem rest_after {s s1 : Matcher} {w r : List Nat} (hb : s1.buffer = s.buffer)
    (hp : s1.position = s.position + w.length) (hr : s.rest = w ++ r) : s1.rest = r := by
  unfold Matcher.rest at hr ⊢
  rw [hb, hp, ← List.drop_drop, hr]
  simp

theorem opsOf_append (buffer : List Nat) (a b : List token32) :
    opsOf buffer (a ++ b) = opsOf buffer a ++ opsOf buffer b := by
  induction a with
  | nil => rfl
  | cons t ts ih =>
    simp only [List.cons_append, opsOf]
    split <;> simp [ih]

theorem opsOf_silent (buffer : List Nat) (t : token32) (h : t.pegRule.isExec = false) :
    opsOf buffer [t] = [] := by
  cases hr : t.pegRule <;> simp [hr, pegRule.isExec] at h <;> simp [opsOf, hr]

theorem slice_rest {s : Matcher} {w r : List Nat} (hr : s.rest = w ++ r) :
    (s.buffer.take (s.position + w.length)).drop s.position = w := by
  unfold Matcher.rest at hr
  rw [List.drop_take, Nat.add_sub_cancel_left, hr]
  simp

theorem step_refl {s : Matcher} (hs : Inv s) : Step s s [] [] s.rest :=
  ⟨hs, rfl, rfl, rfl, by simp⟩

theorem step_trans {s s1 s2 : Matcher} {w1 w2 r1 r2 : List Nat} {o1 o2 : List Op}
    (h1 : Step s s1 w1 o1 r1) (h2 : Step s1 s2 w2 o2 r2) :
    Step s s2 (w1 ++ w2) (o1 ++ o2) r2 := by
  refine ⟨h2.inv, by rw [h2.buffer_eq, h1.buffer_eq], ?_, h2.rest_eq, ?_⟩
  · rw [h2.position_eq, h1.position_eq, List.length_append, Nat.add_assoc]
  · have := h2.ops_eq
    rw [h1.buffer_eq] at this
    rw [this, h1.ops_eq, List.append_assoc]

theorem step_restore {s s0 : Matcher} (hs : Inv s) (h0 : Inv s0) (hf : Frame s s0) :
    Step s (restore s0 s) [] [] s.rest := by
  refine ⟨hs.rewind h0 hf, hf.buffer_eq, rfl, ?_, ?_⟩
  · show s0.buffer.drop s.position = s.buffer.drop s.position
    rw [hf.buffer_eq]
  · rw [committed_restore hs hf]
    simp

theorem step_advance {s : Matcher} {c : Nat} {r : List Nat} (hs : Inv s)
    (hr : s.rest = c :: r) (hc : c ≠ end_symbol) :
    Step s { s with position := inc s.position } [c] [] r := by
  have hpk : s.buffer[s.position]? = some c := by rw [peek_rest, hr]; rfl
  have hinc := hs.inc_eq hpk hc
  refine ⟨hs.advance hpk hc, rfl, hinc, ?_, by simp [Matcher.committed]⟩
  exact rest_after (s := s) (w := [c]) rfl hinc hr

theorem parses_mono {f : Rule} {w : List Nat} {ops : List Op} {C D : List Nat → Prop}
    (h : Parses f w ops C) (hcd : ∀ r, D r → C r) : Parses f w ops D :=
  fun s r hs hr hd => h s r hs hr (hcd r hd)

theorem fails_mono {f : Rule} {C D : List Nat → Prop} (h : Fails f C)
    (hcd : ∀ r, D r → C r) : Fails f D :=
  fun s hs hd => h s hs (hcd _ hd)

theorem parses_lit {c : Nat} (hc : c ≠ end_symbol) : Parses (lit c) [c] [] (fun _ => True) := by
  intro s r hs hr _
  have hpk : s.buffer[s.position]? = some c := by rw [peek_rest, hr]; rfl
  exact ⟨_, by simp [lit, hpk], step_advance hs hr hc⟩

theorem fails_lit (c : Nat) : Fails (lit c) (Next (fun d => d ≠ c)) := by
  intro s hs hn
  obtain ⟨d, t, hr, hd⟩ := hn
  have hpk : s.buffer[s.position]? = some d := by rw [peek_rest, hr]; rfl
  exact ⟨s, by simp [lit, hpk, hd]⟩

theorem parses_range {lo hi c : Nat} (hhi : hi < end_symbol) (h1 : lo ≤ c) (h2 : c ≤ hi) :
    Parses (range lo hi) [c] [] (fun _ => True) := by
  intro s r hs hr _
  have hpk : s.buffer[s.position]? = some c := by rw [peek_rest, hr]; rfl
  have hne : c ≠ end_symbol := by omega
  have hin : ¬ (c < lo ∨ c > hi) := by omega
  exact ⟨_, by simp [range, hpk, hin], step_advance hs hr hne⟩

theorem fails_range (lo hi : Nat) : Fails (range lo hi) (Next (fun d => d < lo ∨ d > hi)) := by
  intro s hs hn
  obtain ⟨d, t, hr, hd⟩ := hn
  have hpk : s.buffer[s.position]? = some d := by rw [peek_rest, hr]; rfl
  exact ⟨s, by simp [range, hpk, hd]⟩

theorem parses_matchDot {c : Nat} (hc : c ≠ end_symbol) :
    Parses matchDot [c] [] (fun _ => True) := by
  intro s r hs hr _
  have hpk : s.buffer[s.position]? = some c := by rw [peek_rest, hr]; rfl
  exact ⟨_, by simp [matchDot, hpk, hc], step_advance hs hr hc⟩

theorem parses_seq {f g : Rule} {u v : List Nat} {o1 o2 : List Op}
    {C1 C2 : List Nat → Prop} (hf : Parses f u o1 C1) (hg : Parses g v o2 C2)
    (hc : ∀ r, C2 r → C1 (v ++ r)) : Parses (seq f g) (u ++ v) (o1 ++ o2) C2 := by
  intro s r hs hr hC
  rw [List.append_assoc] at hr
  obtain ⟨s1, h1, st1⟩ := hf s (v ++ r) hs hr (hc r hC)
  obtain ⟨s2, h2, st2⟩ := hg s1 r st1.inv st1.rest_eq hC
  exact ⟨s2, (seq_ok _ _ _ _ _).2 (Or.inl ⟨s1, h1, h2⟩), step_trans st1 st2⟩

theorem fails_seq_left {f g : Rule} {C : List Nat → Prop} (hf : Fails f C) :
    Fails (seq f g) C := by
  intro s hs hC
  obtain ⟨s1, h1⟩ := hf s hs hC
  exact ⟨s1, (seq_ok _ _ _ _ _).2 (Or.inr ⟨rfl, h1⟩)⟩

theorem fails_seq_right {f g : Rule} {w : List Nat} {o : List Op} {C1 C2 : List Nat → Prop}
    (hf : Parses f w o C1) (hg : Fails g C2) :
    Fails (seq f g) (fun r0 => ∃ r, r0 = w ++ r ∧ C1 r ∧ C2 r) := by
  intro s hs hC
  obtain ⟨r, hr, h1, h2⟩ := hC
  obtain ⟨s1, hs1, st1⟩ := hf s r hs hr h1
  obtain ⟨s2, hs2⟩ := hg s1 st1.inv (by rw [st1.rest_eq]; exact h2)
  exact ⟨s2, (seq_ok _ _ _ _ _).2 (Or.inl ⟨s1, hs1, hs2⟩)⟩

theorem parses_alt_left {f g : Rule} {w : List Nat} {o : List Op} {C : List Nat → Prop}
    (hf : Parses f w o C) : Parses (alt f g) w o C := by
  intro s r hs hr hC
  obtain ⟨s1, h1, st1⟩ := hf s r hs hr hC
  exact ⟨s1, (alt_ok _ _ _ _ _).2 (Or.inl ⟨rfl, h1⟩), st1⟩

theorem parses_alt_right {f g : Rule} {w : List Nat} {o : List Op} {C D : List Nat → Prop}
    (sf : Safe f) (hf : Fails f D) (hg : Parses g w o C) (hd : ∀ r, C r → D (w ++ r)) :
    Parses (alt f g) w o C := by
  intro s r hs hr hC
  obtain ⟨s0, h0⟩ := hf s hs (by rw [hr]; exact hd r hC)
  have r0 := sf.result hs h0
  have st0 := step_restore hs r0.1 r0.2.1
  obtain ⟨s1, h1, st1⟩ := hg (restore s0 s) r st0.inv (by rw [st0.rest_eq]; exact hr) hC
  refine ⟨s1, (alt_ok _ _ _ _ _).2 (Or.inr ⟨s0, h0, h1⟩), ?_⟩
  have := step_trans st0 st1
  simpa using this

theorem fails_alt {f g : Rule} {C D : List Nat → Prop} (sf : Safe f) (hf : Fails f C)
    (hg : Fails g D) : Fails (alt f g) (fun r => C r ∧ D r) := by
  intro s hs hC
  obtain ⟨s0, h0⟩ := hf s hs hC.1
  have r0 := sf.result hs h0
  have st0 := step_restore hs r0.1 r0.2.1
  obtain ⟨s1, h1⟩ := hg (restore s0 s) st0.inv (by rw [st0.rest_eq]; exact hC.2)
  exact ⟨s1, (alt_ok _ _ _ _ _).2 (Or.inr ⟨s0, h0, h1⟩)⟩

theorem parses_opt_some {f : Rule} {w : List Nat} {o : List Op} {C : List Nat → Prop}
    (hf : Parses f w o C) : Parses (opt f) w o C := by
  intro s r hs hr hC
  obtain ⟨s1, h1, st1⟩ := hf s r hs hr hC
  exact ⟨s1, (opt_ok _ _ _ _).2 ⟨rfl, Or.inl h1⟩, st1⟩

theorem parses_opt_none {f : Rule} {C : List Nat → Prop} (sf : Safe f) (hf : Fails f C) :
    Parses (opt f) [] [] C := by
  intro s r hs hr hC
  have hr1 : s.rest = r := by simpa using hr
  obtain ⟨s0, h0⟩ := hf s hs (by rw [hr1]; exact hC)
  have r0 := sf.result hs h0
  have st0 := step_restore hs r0.1 r0.2.1
  rw [hr1] at st0
  exact ⟨_, (opt_ok _ _ _ _).2 ⟨rfl, Or.inr ⟨s0, h0, rfl⟩⟩, st0⟩

theorem parses_notP {f : Rule} {C : List Nat → Prop} (sf : Safe f) (hf : Fails f C) :
    Parses (notP f) [] [] C := by
  intro s r hs hr hC
  have hr1 : s.rest = r := by simpa using hr
  obtain ⟨s0, h0⟩ := hf s hs (by rw [hr1]; exact hC)
  have r0 := sf.result hs h0
  have st0 := step_restore hs r0.1 r0.2.1
  rw [hr1] at st0
  exact ⟨_, (notP_ok _ _ _ _).2 (Or.inr ⟨rfl, s0, h0, rfl⟩), st0⟩

theorem fails_notP {f : Rule} {w : List Nat} {o : List Op} {C : List Nat → Prop}
    (hf : Parses f w o C) : Fails (notP f) (fun r0 => ∃ r, r0 = w ++ r ∧ C r) := by
  intro s hs hC
  obtain ⟨r, hr, h1⟩ := hC
  obtain ⟨s1, hs1, _⟩ := hf s r hs hr h1
  exact ⟨s1, (notP_ok _ _ _ _).2 (Or.inl ⟨rfl, hs1⟩)⟩

theorem parses_ruleFn {f : Rule} {w : List Nat} {o : List Op} {C : List Nat → Prop}
    (hf : Parses f w o C) : Parses (ruleFn f) w o C := by
  intro s r hs hr hC
  obtain ⟨s1, h1, st1⟩ := hf s r hs hr hC
  exact ⟨s1, (ruleFn_ok _ _ _ _).2 (Or.inl ⟨rfl, h1⟩), st1⟩

theorem fails_ruleFn {f : Rule} {C : List Nat → Prop} (hf : Fails f C) :
    Fails (ruleFn f) C := by
  intro s hs hC
  obtain ⟨s0, h0⟩ := hf s hs hC
  exact ⟨_, (ruleFn_ok _ _ _ _).2 (Or.inr ⟨rfl, s0, h0, rfl⟩)⟩

theorem starLoop_mono (f : Rule) (n : Nat) :
    ∀ (m : Nat) (s : Matcher) (r : Bool × Matcher), n ≤ m → starLoop f n s = .ok r →
      starLoop f m s = .ok r := by
  induction n with
  | zero => intro m s r _ h; simp [starLoop] at h
  | succ n ih =>
    intro m s r hm h
    obtain ⟨k, rfl⟩ : ∃ k, m = k + 1 := ⟨m - 1, by omega⟩
    obtain ⟨b, s1⟩ := r
    rw [starLoop_succ_ok] at h ⊢
    rcases h with ⟨s0, h0, h1⟩ | h
    · exact Or.inl ⟨s0, h0, ih k s0 _ (by omega) h1⟩
    · exact Or.inr h

theorem star_stop {f : Rule} {s s0 : Matcher} (hs : Inv s) (h : f s = .ok (false, s0)) :
    star f s = .ok (true, restore s0 s) := by
  unfold star
  obtain ⟨k, hk⟩ : ∃ k, s.buffer.length = k + 1 := ⟨s.buffer.length - 1, by have := hs.pos_lt; omega⟩
  rw [hk]
  exact (starLoop_succ_ok _ _ _ _ _).2 (Or.inr ⟨rfl, s0, h, rfl⟩)

theorem star_unroll {f : Rule} (sf : Safe f) (af : Adv f) {s s0 : Matcher} (hs : Inv s)
    (h : f s = .ok (true, s0)) : star f s = star f s0 := by
  have r0 := sf.result hs h
  have hlt := af s s0 hs h
  have hb : s0.buffer = s.buffer := r0.2.1.buffer_eq
  unfold star
  rw [hb]
  obtain ⟨k, hk⟩ : ∃ k, s.buffer.length = k + 1 := ⟨s.buffer.length - 1, by have := hs.pos_lt; omega⟩
  rw [hk]
  obtain ⟨s1, h1, _⟩ := safe_starLoop sf af k s0 r0.1 (by rw [hb]; omega)
  rw [starLoop_mono f k (k + 1) s0 _ (Nat.le_succ _) h1]
  exact (starLoop_succ_ok _ _ _ _ _).2 (Or.inl ⟨s0, h, h1⟩)

theorem parses_star_nil {f : Rule} {C : List Nat → Prop} (sf : Safe f) (hf : Fails f C) :
    Parses (star f) [] [] C := by
  intro s r hs hr hC
  have hr1 : s.rest = r := by simpa using hr
  obtain ⟨s0, h0⟩ := hf s hs (by rw [hr1]; exact hC)
  have r0 := sf.result hs h0
  have st0 := step_restore hs r0.1 r0.2.1
  rw [hr1] at st0
  exact ⟨_, star_stop hs h0, st0⟩

theorem parses_star_cons {f : Rule} {w v : List Nat} {o1 o2 : List Op}
    {C1 C : List Nat → Prop} (sf : Safe f) (af : Adv f) (hf : Parses f w o1 C1)
    (hrest : Parses (star f) v o2 C) (hc : ∀ r, C r → C1 (v ++ r)) :
    Parses (star f) (w ++ v) (o1 ++ o2) C := by
  intro s r hs hr hC
  rw [List.append_assoc] at hr
  obtain ⟨s1, h1, st1⟩ := hf s (v ++ r) hs hr (hc r hC)
  obtain ⟨s2, h2, st2⟩ := hrest s1 r st1.inv st1.rest_eq hC
  refine ⟨s2, ?_, step_trans st1 st2⟩
  rw [star_unroll sf af hs h1]
  exact h2

theorem fails_capture {f : Rule} {C : List Nat → Prop} (rule : pegRule) (hf : Fails f C) :
    Fails (capture rule f) C := by
  intro s hs hC
  obtain ⟨s0, h0⟩ := hf { s with depth := inc s.depth } (hs.set_depth _) hC
  exact ⟨s0, (capture_ok _ _ _ _ _).2 (Or.inl ⟨rfl, h0⟩)⟩

/-- A capture around `f`: the token it adds spans exactly the text `f` consumed. -/
theorem parses_capture_gen {f : Rule} {w : List Nat} {o : List Op} {C : List Nat → Prop}
    (rule : pegRule) (hf : Parses f w o C) :
    ∀ s r, Inv s → s.rest = w ++ r → C r → ∃ s1 d, capture rule f s = .ok (true, s1) ∧
      Step s s1 w (o ++ opsOf s.buffer [⟨rule, s.position, s.position + w.length, d⟩]) r := by
  intro s r hs hr hC
  obtain ⟨s0, h0, st0⟩ := hf { s with depth := inc s.depth } r (hs.set_depth _) hr hC
  have hpos : s0.position = s.position + w.length := st0.position_eq
  obtain ⟨s1, h1, hi1, hp1, _⟩ :=
    (st0.inv.set_depth (dec s0.depth)).add_token rule s.position
      (by show s.position ≤ s0.position; omega)
  have hb0 : s0.buffer = s.buffer := st0.buffer_eq
  have hb : s1.buffer = s.buffer := (frame_add h1).buffer_eq.trans hb0
  have hp : s1.position = s.position + w.length := hp1.trans hpos
  refine ⟨s1, dec s0.depth, (capture_ok _ _ _ _ _).2 (Or.inr ⟨rfl, s0, h0, h1⟩),
    ⟨hi1, hb, hp, rest_after hb hp hr, ?_⟩⟩
  rw [committed_add (st0.inv.set_depth (dec s0.depth)) h1, committed_set_depth, opsOf_append]
  have h2 := st0.ops_eq
  have h3 : ({ s with depth := inc s.depth } : Matcher).committed = s.committed := rfl
  have h4 : ({ s with depth := inc s.depth } : Matcher).buffer = s.buffer := rfl
  rw [h3, h4] at h2
  rw [h2, List.append_assoc]
  show _ ++ (o ++ opsOf s.buffer [⟨rule, s.position, s0.position, dec s0.depth⟩]) = _
  rw [hpos]

theorem parses_capture {f : Rule} {w : List Nat} {o : List Op} {C : List Nat → Prop}
    (rule : pegRule) (hrule : rule.isExec = false) (hf : Parses f w o C) :
    Parses (capture rule f) w o C := by
  intro s r hs hr hC
  obtain ⟨s1, d, h1, st1⟩ := parses_capture_gen rule hf s r hs hr hC
  rw [opsOf_silent _ _ hrule, List.append_nil] at st1
  exact ⟨s1, h1, st1⟩

theorem parses_capture_text {f : Rule} {w : List Nat} {o : List Op} {C : List Nat → Prop}
    (hf : Parses f w o C) :
    Parses (capture pegRule.rulePegText f) w (o ++ [(pegRule.rulePegText, w)]) C := by
  intro s r hs hr hC
  obtain ⟨s1, d, h1, st1⟩ := parses_capture_gen pegRule.rulePegText hf s r hs hr hC
  have : opsOf s.buffer [⟨pegRule.rulePegText, s.position, s.position + w.length, d⟩] =
      [(pegRule.rulePegText, w)] := by
    simp only [opsOf]
    rw [slice_rest hr]
  rw [this] at st1
  exact ⟨s1, h1, st1⟩

theorem parses_action (rule : pegRule)
    (hrule : rule = pegRule.ruleAction0 ∨ rule = pegRule.ruleAction1 ∨
      rule = pegRule.ruleAction2 ∨ rule = pegRule.ruleAction3) :
    Parses (action rule) [] [(rule, [])] (fun _ => True) := by
  intro s r hs hr _
  have hr1 : s.rest = r := by simpa using hr
  obtain ⟨s1, h1, hi1, hp1, _⟩ := hs.add_token rule s.position (Nat.le_refl _)
  have hb : s1.buffer = s.buffer := (frame_add h1).buffer_eq
  refine ⟨s1, (action_ok _ _ _ _).2 ⟨rfl, h1⟩, ⟨hi1, hb, by simpa using hp1, ?_, ?_⟩⟩
  · unfold Matcher.rest at hr1 ⊢
    rw [hb, hp1, hr1]
  · rw [committed_add hs h1, opsOf_append]
    rcases hrule with rfl | rfl | rfl | rfl <;> rfl

/-! ## Exact behaviour of the lexical rules -/

theorem next_cons {P : Nat → Prop} {d : Nat} {t : List Nat} (h : P d) : Next P (d :: t) :=
  ⟨d, t, rfl, h⟩

theorem next_imp {P Q : Nat → Prop} {r : List Nat} (h : Next P r) (hpq : ∀ d, P d → Q d) :
    Next Q r := by
  obtain ⟨d, t, hr, hd⟩ := h
  exact ⟨d, t, hr, hpq d hd⟩

theorem parses_space : Parses rules_ruleSpace [32] [] (fun _ => True) :=
  parses_ruleFn (parses_capture _ rfl (parses_alt_left (parses_lit (by decide))))

theorem fails_space : Fails rules_ruleSpace (Next (fun d => d ≠ 32 ∧ d ≠ 9)) :=
  fails_ruleFn (fails_capture _
    (fails_mono (fails_alt (safe_lit (by decide)) (fails_lit 32) (fails_lit 9))
      (fun _ h => ⟨next_imp h (fun _ hd => hd.1), next_imp h (fun _ hd => hd.2)⟩)))

theorem parses_spaces (n : Nat) :
    Parses (star rules_ruleSpace) (List.replicate n 32) [] (Next (fun d => d ≠ 32 ∧ d ≠ 9)) := by
  induction n with
  | zero => exact parses_star_nil safe_ruleSpace fails_space
  | succ n ih =>
    have := parses_star_cons safe_ruleSpace adv_ruleSpace parses_space ih (fun _ _ => trivial)
    simpa [List.replicate_succ] using this

theorem parses_identChar {c : Nat} (hc : isIdentRune c = true) :
    Parses identChar [c] [] (fun _ => True) := by
  intro s r hs hr hC
  have hpk : s.buffer[s.position]? = some c := by rw [peek_rest, hr]; rfl
  unfold identChar
  simp only [hpk]
  split_ifs with h1 h2 h3 h4 h5 h6
  · subst h1; exact parses_lit (by decide) s r hs hr hC
  · subst h2; exact parses_lit (by decide) s r hs hr hC
  · subst h3; exact parses_lit (by decide) s r hs hr hC
  · subst h4; exact parses_lit (by decide) s r hs hr hC
  · exact parses_alt_left (parses_range (by decide) h5.1 h5.2) s r hs hr hC
  · exact parses_range (by decide) h6.1 h6.2 s r hs hr hC
  · have : 97 ≤ c ∧ c ≤ 122 := by
      simp only [isIdentRune, Bool.or_eq_true, beq_iff_eq, Bool.and_eq_true,
        decide_eq_true_eq] at hc
      omega
    exact parses_range (by decide) this.1 this.2 s r hs hr hC

theorem fails_identChar : Fails identChar (Next (fun d => isIdentRune d = false)) := by
  intro s hs hn
  obtain ⟨d, t, hr, hd⟩ := hn
  have hpk : s.buffer[s.position]? = some d := by rw [peek_rest, hr]; rfl
  simp only [isIdentRune, Bool.or_eq_false_iff, beq_eq_false_iff_ne, Bool.and_eq_false_iff,
    decide_eq_false_iff_not, ne_eq] at hd
  unfold identChar
  simp only [hpk]
  have h1 : ¬ d = 46 := hd.1.1.1.1.1.1
  have h2 : ¬ d = 64 := hd.1.1.1.1.1.2
  have h3 : ¬ d = 45 := hd.1.1.1.1.2
  have h4 : ¬ d = 95 := hd.1.1.1.2
  have h5 : ¬ (48 ≤ d ∧ d ≤ 57) := by have := hd.1.1.2; omega
  have h6 : ¬ (65 ≤ d ∧ d ≤ 90) := by have := hd.1.2; omega
  simp only [h1, h2, h3, h4, h5, h6, if_false]
  exact fails_range 97 122 s hs ⟨d, t, hr, by have := hd.2; omega⟩

theorem parses_identChars (w : List Nat) (hw : ∀ c ∈ w, isIdentRune c = true) :
    Parses (star identChar) w [] (Next (fun d => isIdentRune d = false)) := by
  induction w with
  | nil => exact parses_star_nil safe_identChar fails_identChar
  | cons c w ih =>
    exact parses_star_cons safe_identChar adv_identChar
      (parses_identChar (hw c (List.mem_cons_self _ _)))
      (ih (fun d hd => hw d (List.mem_cons_of_mem _ hd))) (fun _ _ => trivial)

theorem parses_identifier (w : List Nat) (hne : w ≠ []) (hw : ∀ c ∈ w, isIdentRune c = true) :
    Parses rules_ruleIdentifier w [] (Next (fun d => isIdentRune d = false)) := by
  obtain ⟨c, v, rfl⟩ := List.exists_cons_of_ne_nil hne
  exact parses_ruleFn (parses_capture _ rfl
    (parses_seq (u := [c]) (parses_identChar (hw c (List.mem_cons_self _ _)))
      (parses_identChars v (fun d hd => hw d (List.mem_cons_of_mem _ hd)))
      (fun _ _ => trivial)))

theorem fails_identifier :
    Fails rules_ruleIdentifier (Next (fun d => isIdentRune d = false)) :=
  fails_ruleFn (fails_capture _ (fails_seq_left fails_identChar))

theorem parses_pegIdentifier (w : List Nat) (hne : w ≠ [])
    (hw : ∀ c ∈ w, isIdentRune c = true) :
    Parses (capture pegRule.rulePegText rules_ruleIdentifier) w [(pegRule.rulePegText, w)]
      (Next (fun d => isIdentRune d = false)) := by
  have := parses_capture_text (parses_identifier w hne hw)
  simpa using this

theorem parses_stopChar {c : Nat} (hc : isStopRune c = true) :
    Parses stopChar [c] [] (fun _ => True) := by
  intro s r hs hr hC
  have hpk : s.buffer[s.position]? = some c := by rw [peek_rest, hr]; rfl
  unfold stopChar
  simp only [hpk]
  split_ifs with h1 h2 h3 h4
  · subst h1; exact parses_lit (by decide) s r hs hr hC
  · subst h2; exact parses_lit (by decide) s r hs hr hC
  · subst h3; exact parses_lit (by decide) s r hs hr hC
  · subst h4; exact parses_lit (by decide) s r hs hr hC
  · have : c = 32 := by
      simp only [isStopRune, Bool.or_eq_true, beq_iff_eq] at hc
      omega
    subst this
    exact parses_lit (by decide) s r hs hr hC

theorem fails_stopChar : Fails stopChar (Next (fun d => isStopRune d = false)) := by
  intro s hs hn
  obtain ⟨d, t, hr, hd⟩ := hn
  have hpk : s.buffer[s.position]? = some d := by rw [peek_rest, hr]; rfl
  simp only [isStopRune, Bool.or_eq_false_iff, beq_eq_false_iff_ne, ne_eq] at hd
  unfold stopChar
  simp only [hpk, hd.1.1.1.1, hd.1.1.1.2, hd.1.1.2, hd.1.2, if_false]
  exact fails_lit 32 s hs ⟨d, t, hr, hd.2⟩

theorem wordRune_ne_end {c : Nat} (hc : isWordRune c = true) : c ≠ end_symbol := by
  simp only [isWordRune, Bool.and_eq_true, bne_iff_ne, ne_eq] at hc
  exact hc.2

theorem wordRune_not_stop {c : Nat} (hc : isWordRune c = true) : isStopRune c = false := by
  simp only [isWordRune, Bool.and_eq_true, Bool.not_eq_true'] at hc
  exact hc.1

theorem parses_wordChar {c : Nat} (hc : isWordRune c = true) :
    Parses wordChar [c] [] (fun _ => True) := by
  have := parses_seq (parses_notP safe_stopChar fails_stopChar)
    (parses_matchDot (wordRune_ne_end hc))
    (fun r _ => next_cons (t := r) (wordRune_not_stop hc))
  simpa using this

theorem fails_wordChar : Fails wordChar (Next (fun d => isStopRune d = true)) := by
  intro s hs hn
  obtain ⟨d, t, hr, hd⟩ := hn
  exact fails_seq_left (fails_notP (parses_stopChar hd)) s hs ⟨t, hr, trivial⟩

theorem parses_wordChars (w : List Nat) (hw : ∀ c ∈ w, isWordRune c = true) :
    Parses (star wordChar) w [] (Next (fun d => isStopRune d = true)) := by
  induction w with
  | nil => exact parses_star_nil safe_wordChar fails_wordChar
  | cons c w ih =>
    exact parses_star_cons safe_wordChar adv_wordChar
      (parses_wordChar (hw c (List.mem_cons_self _ _)))
      (ih (fun d hd => hw d (List.mem_cons_of_mem _ hd))) (fun _ _ => trivial)

theorem parses_word (w : List Nat) (hne : w ≠ []) (hw : ∀ c ∈ w, isWordRune c = true) :
    Parses rules_ruleWord w [] (Next (fun d => isStopRune d = true)) := by
  obtain ⟨c, v, rfl⟩ := List.exists_cons_of_ne_nil hne
  exact parses_ruleFn (parses_capture _ rfl
    (parses_seq (u := [c]) (parses_wordChar (hw c (List.mem_cons_self _ _)))
      (parses_wordChars v (fun d hd => hw d (List.mem_cons_of_mem _ hd)))
      (fun _ _ => trivial)))

theorem fails_word : Fails rules_ruleWord (Next (fun d => isStopRune d = true)) :=
  fails_ruleFn (fails_capture _ (fails_seq_left fails_wordChar))

theorem parses_newline : Parses rules_ruleEndOfLine [10] [] (fun _ => True) :=
  parses_ruleFn (parses_capture _ rfl
    (parses_alt_right (safe_seq (safe_lit (by decide)) (safe_lit (by decide)))
      (fails_seq_left (fails_lit 13)) (parses_alt_left (parses_lit (by decide)))
      (fun r _ => next_cons (t := r) (by decide))))

theorem fails_endOfLine : Fails rules_ruleEndOfLine (Next (fun d => d ≠ 10 ∧ d ≠ 13)) :=
  fails_ruleFn (fails_capture _
    (fails_mono
      (fails_alt (safe_seq (safe_lit (by decide)) (safe_lit (by decide)))
        (fails_seq_left (fails_lit 13))
        (fails_alt (safe_lit (by decide)) (fails_lit 10) (fails_lit 13)))
      (fun _ h => ⟨next_imp h (fun _ hd => hd.2),
        next_imp h (fun _ hd => hd.1), next_imp h (fun _ hd => hd.2)⟩)))

theorem parses_spaceComment_newline :
    Parses rules_ruleSpaceComment [10] [] (fun _ => True) := by
  refine parses_ruleFn (parses_capture _ rfl ?_)
  intro s r hs hr hC
  have hpk : s.buffer[s.position]? = some 10 := by rw [peek_rest, hr]; rfl
  unfold spaceCommentSwitch
  simp only [hpk, true_or, if_true]
  exact parses_newline s r hs hr hC

theorem fails_spaceComment :
    Fails rules_ruleSpaceComment (Next (fun d => isStopRune d = false)) := by
  refine fails_ruleFn (fails_capture _ ?_)
  intro s hs hn
  obtain ⟨d, t, hr, hd⟩ := hn
  have hpk : s.buffer[s.position]? = some d := by rw [peek_rest, hr]; rfl
  simp only [isStopRune, Bool.or_eq_false_iff, beq_eq_false_iff_ne, ne_eq] at hd
  unfold spaceCommentSwitch
  simp only [hpk, hd.1.1.1.1, hd.1.1.1.2, hd.1.1.2, or_self, if_false]
  exact fails_seq_left fails_space s hs ⟨d, t, hr, hd.2, hd.1.2⟩

/-! ## Exact behaviour on value lines -/

theorem next_head {P : Nat → Prop} {w : List Nat} (hne : w ≠ []) (hw : ∀ c ∈ w, P c)
    (r : List Nat) : Next P (w ++ r) := by
  obtain ⟨c, v, rfl⟩ := List.exists_cons_of_ne_nil hne
  exact ⟨c, v ++ r, rfl, hw c (List.mem_cons_self _ _)⟩

theorem ident_not_blank {d : Nat} (h : isIdentRune d = true) : d ≠ 32 ∧ d ≠ 9 := by
  simp only [isIdentRune, Bool.or_eq_true, beq_iff_eq, Bool.and_eq_true,
    decide_eq_true_eq] at h
  omega

theorem not_stop_not_blank {d : Nat} (h : isStopRune d = false) : d ≠ 32 ∧ d ≠ 9 := by
  simp only [isStopRune, Bool.or_eq_false_iff, beq_eq_false_iff_ne, ne_eq] at h
  exact ⟨h.2, h.1.2⟩

theorem runes_append (a b : String) : runes (a ++ b) = runes a ++ runes b := by
  simp [runes]

theorem runes_blanks (n : Nat) : runes (String.mk (List.replicate n ' ')) = List.replicate n 32 := by
  simp [runes]

theorem char_ne_end (c : Char) : c.toNat ≠ end_symbol := by
  have := char_toNat_lt c
  rw [end_symbol_eq]
  omega

theorem ident_runes {s : String} (h : IsIdentifier s) :
    runes s ≠ [] ∧ ∀ c ∈ runes s, isIdentRune c = true := by
  refine ⟨?_, ?_⟩
  · intro hn
    exact h.1 (List.map_eq_nil_iff.1 hn)
  · intro c hc
    obtain ⟨d, hd, rfl⟩ := List.mem_map.1 hc
    exact h.2 d hd

theorem word_runes {s : String} (h : IsWord s) :
    runes s ≠ [] ∧ (∀ c ∈ runes s, isWordRune c = true) ∧
      ∀ c ∈ runes s, isStopRune c = false := by
  refine ⟨?_, ?_, ?_⟩
  · intro hn
    exact h.1 (List.map_eq_nil_iff.1 hn)
  · intro c hc
    obtain ⟨d, hd, rfl⟩ := List.mem_map.1 hc
    simp only [isWordRune, Bool.and_eq_true, Bool.not_eq_true', bne_iff_ne, ne_eq]
    exact ⟨h.2 d hd, char_ne_end d⟩
  · intro c hc
    obtain ⟨d, hd, rfl⟩ := List.mem_map.1 hc
    exact h.2 d hd

/-- The runes of the words after the first, each with the blank in front of it. -/
theorem runes_joinWords (w : String) (ws : List String) :
    runes (joinWords (w :: ws)) = runes w ++ (ws.map (fun v => 32 :: runes v)).flatten := by
  induction ws generalizing w with
  | nil => simp [joinWords]
  | cons v ws ih =>
    rw [joinWords, runes_append, runes_append, ih v]
    simp [List.append_assoc]
    rfl

theorem parses_moreWords (ws : List String) (hws : ∀ w ∈ ws, IsWord w) {C : List Nat → Prop}
    (hstop : Fails (seq rules_ruleSpace (seq (star rules_ruleSpace) rules_ruleWord)) C)
    (hC : ∀ r, C r → Next (fun d => isStopRune d = true) r) :
    Parses (star (seq rules_ruleSpace (seq (star rules_ruleSpace) rules_ruleWord)))
      (ws.map (fun v => 32 :: runes v)).flatten [] C := by
  induction ws with
  | nil => exact parses_star_nil (safe_seq safe_ruleSpace (safe_seq safe_starSpace safe_ruleWord)) hstop
  | cons w ws ih =>
    have hw := word_runes (hws w (List.mem_cons_self _ _))
    have hbody : Parses (seq rules_ruleSpace (seq (star rules_ruleSpace) rules_ruleWord))
        (32 :: runes w) [] (Next (fun d => isStopRune d = true)) := by
      have := parses_seq parses_space
        (parses_seq (parses_spaces 0) (parses_word (runes w) hw.1 hw.2.1)
          (fun r _ => next_head hw.1 (fun c hc => not_stop_not_blank (hw.2.2 c hc)) r))
        (fun _ _ => trivial)
      simpa using this
    have := parses_star_cons (safe_seq safe_ruleSpace (safe_seq safe_starSpace safe_ruleWord))
      (adv_seq_left safe_ruleSpace adv_ruleSpace (safe_seq safe_starSpace safe_ruleWord))
      hbody (ih (fun v hv => hws v (List.mem_cons_of_mem _ hv)))
      (fun r hr => by
        cases ws with
        | nil => simpa using hC r hr
        | cons v vs =>
          simp only [List.map_cons, List.flatten_cons, List.cons_append]
          exact next_cons (by decide))
    simpa using this

theorem parses_pegValue (words : List String) (hne : words ≠ []) (hws : ∀ w ∈ words, IsWord w)
    {C : List Nat → Prop}
    (hstop : Fails (seq rules_ruleSpace (seq (star rules_ruleSpace) rules_ruleWord)) C)
    (hC : ∀ r, C r → Next (fun d => isStopRune d = true) r) :
    Parses (capture pegRule.rulePegText inlineValue) (runes (joinWords words))
      [(pegRule.rulePegText, runes (joinWords words))] C := by
  obtain ⟨w, ws, rfl⟩ := List.exists_cons_of_ne_nil hne
  have hw := word_runes (hws w (List.mem_cons_self _ _))
  have h1 := parses_seq (parses_word (runes w) hw.1 hw.2.1)
    (parses_moreWords ws (fun v hv => hws v (List.mem_cons_of_mem _ hv)) hstop hC)
    (fun r hr => by
      cases ws with
      | nil => simpa using hC r hr
      | cons v vs =>
        simp only [List.map_cons, List.flatten_cons, List.cons_append]
        exact next_cons (by decide))
  have h2 := parses_capture_text (parses_capture pegRule.ruleValue rfl h1)
  rw [runes_joinWords]
  simpa using h2

/-- The body of the `(Space+ Word)*` loop fails at an end of line. -/
theorem fails_moreWords_newline :
    Fails (seq rules_ruleSpace (seq (star rules_ruleSpace) rules_ruleWord))
      (fun r0 => ∃ r, r0 = [10] ++ r ∧ True) := by
  intro s hs hC
  obtain ⟨r, hr, _⟩ := hC
  exact fails_seq_left fails_space s hs ⟨10, r, hr, by decide⟩

/-- A value line followed by the terminator `e`, which the line's SpaceComment consumes. -/
theorem parses_valueLine_gen (l : SrcLine) (hl : l.valid) (e : List Nat) {C : List Nat → Prop}
    (he : Parses rules_ruleSpaceComment e [] C)
    (hstop : Fails (seq rules_ruleSpace (seq (star rules_ruleSpace) rules_ruleWord))
      (fun r0 => ∃ r, r0 = e ++ r ∧ C r))
    (hhead : ∀ r, Next (fun d => isStopRune d = true) (e ++ r)) :
    Parses inlineValueLine
      (List.replicate l.indent 32 ++ (runes l.key ++ (32 :: 61 :: 32 :: (runes l.value ++ e))))
      l.ops C := by
  obtain ⟨hkey, hne, hws⟩ := hl
  have hk := ident_runes hkey
  obtain ⟨w, ws, hwords⟩ := List.exists_cons_of_ne_nil hne
  have hw := word_runes (hws w (by rw [hwords]; exact List.mem_cons_self _ _))
  have hvhead : ∀ r, Next (fun d => d ≠ 32 ∧ d ≠ 9) (runes l.value ++ r) := by
    intro r
    show Next _ (runes (joinWords l.words) ++ r)
    rw [hwords, runes_joinWords, List.append_assoc]
    exact next_head hw.1 (fun c hc => not_stop_not_blank (hw.2.2 c hc)) _
  have h8 := parses_seq (parses_action pegRule.ruleAction3 (by simp)) he (fun _ _ => trivial)
  have h7 := parses_seq
    (parses_pegValue l.words hne hws hstop (fun r hr => by
      obtain ⟨r1, rfl, _⟩ := hr
      exact hhead r1)) h8
    (fun r hr => ⟨r, by simp, hr⟩)
  have h6 := parses_seq (parses_spaces 1) h7 (fun r _ => by
    simpa [List.append_assoc] using hvhead (e ++ r))
  have h5 := parses_seq (parses_lit (c := 61) (by decide)) h6 (fun _ _ => trivial)
  have h4 := parses_seq (parses_spaces 1) h5 (fun r _ => next_cons (by decide))
  have h3 := parses_seq (parses_action pegRule.ruleAction2 (by simp)) h4 (fun _ _ => trivial)
  have h2 := parses_seq (parses_pegIdentifier (runes l.key) hk.1 hk.2) h3
    (fun r _ => by
      simp only [List.nil_append, List.replicate, List.cons_append]
      exact next_cons (by decide))
  have h1 := parses_seq (parses_spaces l.indent) h2
    (fun r _ => by
      simpa [List.append_assoc] using
        next_head hk.1 (fun c hc => ident_not_blank (hk.2 c hc)) _)
  have h0 := parses_capture pegRule.ruleValueLine rfl h1
  unfold inlineValueLine
  simpa [SrcLine.ops, SrcLine.value, List.replicate, List.append_assoc] using h0

theorem runes_line (l : SrcLine) :
    runes l.render =
      List.replicate l.indent 32 ++ (runes l.key ++ (32 :: 61 :: 32 :: (runes l.value ++ [10]))) := by
  unfold SrcLine.render
  rw [runes_append, runes_append, runes_append, runes_append, runes_blanks]
  simp [List.append_assoc]
  rfl

theorem parses_valueLine (l : SrcLine) (hl : l.valid) :
    Parses inlineValueLine (runes l.render) l.ops (fun _ => True) := by
  rw [runes_line]
  exact parses_valueLine_gen l hl [10] parses_spaceComment_newline fails_moreWords_newline
    (fun r => ⟨10, r, rfl, by decide⟩)

theorem fails_valueLine :
    Fails inlineValueLine (Next (fun d => (d ≠ 32 ∧ d ≠ 9) ∧ isIdentRune d = false)) := by
  refine fails_capture _ (fails_mono
    (fails_seq_right (parses_spaces 0)
      (fails_seq_left (fails_capture _ fails_identifier))) ?_)
  intro r hr
  exact ⟨r, by simp, next_imp hr (fun _ h => h.1), next_imp hr (fun _ h => h.2)⟩

theorem runes_concat_map {α : Type} (f : α → String) (xs : List α) :
    runes (concatStrings (xs.map f)) = (xs.map (fun x => runes (f x))).flatten := by
  induction xs with
  | nil => rfl
  | cons x xs ih => simp [concatStrings, runes_append, ih]

theorem parses_valueLines (lines : List SrcLine) (hl : ∀ l ∈ lines, l.valid) :
    Parses (star inlineValueLine) (runes (concatStrings (lines.map SrcLine.render)))
      (lines.map SrcLine.ops).flatten
      (Next (fun d => (d ≠ 32 ∧ d ≠ 9) ∧ isIdentRune d = false)) := by
  rw [runes_concat_map]
  induction lines with
  | nil => exact parses_star_nil safe_inlineValueLine fails_valueLine
  | cons l ls ih =>
    have := parses_star_cons safe_inlineValueLine adv_inlineValueLine
      (parses_valueLine l (hl l (List.mem_cons_self _ _)))
      (ih (fun x hx => hl x (List.mem_cons_of_mem _ hx))) (fun _ _ => trivial)
    simpa using this

/-! ## Exact behaviour on section headers, sections and the whole text -/

theorem parses_sectionID_none :
    Parses inlineSectionID [] [] (Next (fun d => d ≠ 32 ∧ d ≠ 9)) :=
  parses_opt_none
    (safe_seq safe_ruleSpace
    (safe_seq safe_starSpace
    (safe_seq (safe_lit (by decide))
    (safe_seq (safe_capture _ safe_ruleIdentifier)
    (safe_seq (safe_action _) (safe_lit (by decide)))))))
    (fails_seq_left fails_space)

theorem parses_sectionID_some (i : String) (hi : IsIdentifier i) :
    Parses inlineSectionID (32 :: 34 :: (runes i ++ [34]))
      [(pegRule.rulePegText, runes i), (pegRule.ruleAction1, [])] (fun _ => True) := by
  have hk := ident_runes hi
  have h5 := parses_seq (parses_action pegRule.ruleAction1 (by simp))
    (parses_lit (c := 34) (by decide)) (fun _ _ => trivial)
  have h4 := parses_seq (parses_pegIdentifier (runes i) hk.1 hk.2) h5
    (fun r _ => next_cons (by decide))
  have h3 := parses_seq (parses_lit (c := 34) (by decide)) h4 (fun _ _ => trivial)
  have h2 := parses_seq (parses_spaces 0) h3 (fun r _ => next_cons (by decide))
  have h1 := parses_seq parses_space h2 (fun _ _ => trivial)
  have h0 := parses_opt_some h1
  unfold inlineSectionID
  simpa [List.append_assoc] using h0

theorem runes_header (s : SrcSection) :
    runes s.header = match s.id with
      | none => 91 :: (runes s.type ++ [93, 10])
      | some i => 91 :: (runes s.type ++ (32 :: 34 :: (runes i ++ [34, 93, 10]))) := by
  unfold SrcSection.header
  cases s.id with
  | none =>
    simp only [runes_append]
    rfl
  | some i =>
    simp only [runes_append, List.append_assoc]
    rfl

/-- A section header followed by a text `body` on which the `ValueLine*` loop of the
section consumes exactly `body`. -/
theorem parses_section_gen (s : SrcSection) (htype : IsIdentifier s.type)
    (hid : ∀ i, s.id = some i → IsIdentifier i) (body : List Nat) (bops : List Op)
    {C : List Nat → Prop} (hbody : Parses (star inlineValueLine) body bops C) :
    Parses inlineSection (runes s.header ++ body) (s.headerOps ++ bops) C := by
  have hk := ident_runes htype
  have h9 := parses_seq parses_spaceComment_newline hbody (fun _ _ => trivial)
  have h8 := parses_seq (parses_lit (c := 93) (by decide)) h9 (fun _ _ => trivial)
  have h7 := parses_seq (parses_spaces 0) h8 (fun r _ => next_cons (by decide))
  rw [runes_header]
  unfold inlineSection SrcSection.headerOps
  cases hsid : s.id with
  | none =>
    have h6 := parses_seq parses_sectionID_none h7 (fun r _ => next_cons (by decide))
    have h5 := parses_seq (parses_action pegRule.ruleAction0 (by simp)) h6 (fun _ _ => trivial)
    have h4 := parses_seq (parses_pegIdentifier (runes s.type) hk.1 hk.2) h5
      (fun r _ => next_cons (by decide))
    have h3 := parses_seq (parses_spaces 0) h4
      (fun r _ => by
        simpa [List.append_assoc] using
          next_head hk.1 (fun c hc => ident_not_blank (hk.2 c hc)) _)
    have h2 := parses_seq (parses_lit (c := 91) (by decide)) h3 (fun _ _ => trivial)
    have h1 := parses_seq (parses_spaces 0) h2 (fun r _ => next_cons (by decide))
    have h0 := parses_capture pegRule.ruleSection rfl h1
    simpa [List.append_assoc] using h0
  | some i =>
    have h6 := parses_seq (parses_sectionID_some i (hid i hsid)) h7 (fun _ _ => trivial)
    have h5 := parses_seq (parses_action pegRule.ruleAction0 (by simp)) h6 (fun _ _ => trivial)
    have h4 := parses_seq (parses_pegIdentifier (runes s.type) hk.1 hk.2) h5
      (fun r _ => next_cons (by decide))
    have h3 := parses_seq (parses_spaces 0) h4
      (fun r _ => by
        simpa [List.append_assoc] using
          next_head hk.1 (fun c hc => ident_not_blank (hk.2 c hc)) _)
    have h2 := parses_seq (parses_lit (c := 91) (by decide)) h3 (fun _ _ => trivial)
    have h1 := parses_seq (parses_spaces 0) h2 (fun r _ => next_cons (by decide))
    have h0 := parses_capture pegRule.ruleSection rfl h1
    simpa [List.append_assoc] using h0

theorem parses_section (s : SrcSection) (hs : s.valid) :
    Parses inlineSection (runes s.render) s.ops
      (Next (fun d => (d ≠ 32 ∧ d ≠ 9) ∧ isIdentRune d = false)) := by
  unfold SrcSection.render SrcSection.ops
  rw [runes_append]
  exact parses_section_gen s hs.1 hs.2.1 _ _ (parses_valueLines s.lines hs.2.2)

theorem fails_section :
    Fails inlineSection (Next (fun d => (d ≠ 32 ∧ d ≠ 9) ∧ d ≠ 91)) := by
  refine fails_capture _ (fails_mono
    (fails_seq_right (parses_spaces 0) (fails_seq_left (fails_lit 91))) ?_)
  intro r hr
  exact ⟨r, by simp, next_imp hr (fun _ h => h.1), next_imp hr (fun _ h => h.2)⟩

theorem fails_grammarItem :
    Fails (alt rules_ruleSpaceComment inlineSection)
      (Next (fun d => isStopRune d = false ∧ d ≠ 91)) :=
  fails_mono (fails_alt safe_ruleSpaceComment fails_spaceComment fails_section)
    (fun _ h => ⟨next_imp h (fun _ hd => hd.1),
      next_imp h (fun _ hd => ⟨not_stop_not_blank hd.1, hd.2⟩)⟩)

theorem render_head (s : SrcSection) (r : List Nat) :
    ∃ t, runes s.render ++ r = 91 :: t := by
  unfold SrcSection.render
  rw [runes_append, runes_header]
  cases s.id <;> exact ⟨_, rfl⟩

theorem parses_grammarItem (s : SrcSection) (hs : s.valid) :
    Parses (alt rules_ruleSpaceComment inlineSection) (runes s.render) s.ops
      (Next (fun d => (d ≠ 32 ∧ d ≠ 9) ∧ isIdentRune d = false)) :=
  parses_alt_right safe_ruleSpaceComment fails_spaceComment (parses_section s hs)
    (fun r _ => by
      obtain ⟨t, ht⟩ := render_head s r
      rw [ht]
      exact next_cons (by decide))

theorem parses_grammarItems (secs : List SrcSection) (hs : ∀ s ∈ secs, s.valid) :
    Parses (star (alt rules_ruleSpaceComment inlineSection))
      (secs.map (fun s => runes s.render)).flatten (secs.map SrcSection.ops).flatten
      (Next (fun d => d = end_symbol)) := by
  induction secs with
  | nil =>
    exact parses_star_nil safe_grammarItem
      (fails_mono fails_grammarItem (fun _ h => next_imp h (fun d hd => by rw [hd]; decide)))
  | cons s ss ih =>
    have := parses_star_cons safe_grammarItem adv_grammarItem
      (parses_grammarItem s (hs s (List.mem_cons_self _ _)))
      (ih (fun x hx => hs x (List.mem_cons_of_mem _ hx)))
      (fun r hr => by
        cases ss with
        | nil => simpa using next_imp hr (fun d hd => by rw [hd]; decide)
        | cons x xs =>
          simp only [List.map_cons, List.flatten_cons, List.append_assoc]
          obtain ⟨t, ht⟩ := render_head x ((List.map (fun s => runes s.render) xs).flatten ++ r)
          rw [ht]
          exact next_cons (by decide))
    simpa using this

theorem parses_grammar (secs : List SrcSection) (hne : secs ≠ []) (hs : ∀ s ∈ secs, s.valid) :
    Parses rules_ruleGrammar (runes (renderSections secs)) (secs.map SrcSection.ops).flatten
      (Next (fun d => d = end_symbol)) := by
  obtain ⟨s, ss, rfl⟩ := List.exists_cons_of_ne_nil hne
  unfold renderSections
  rw [runes_concat_map]
  have h1 := parses_seq (parses_grammarItem s (hs s (List.mem_cons_self _ _)))
    (parses_grammarItems ss (fun x hx => hs x (List.mem_cons_of_mem _ hx)))
    (fun r hr => by
      cases ss with
      | nil => simpa using next_imp hr (fun d hd => by rw [hd]; decide)
      | cons x xs =>
        simp only [List.map_cons, List.flatten_cons, List.append_assoc]
        obtain ⟨t, ht⟩ := render_head x ((List.map (fun s => runes s.render) xs).flatten ++ r)
        rw [ht]
        exact next_cons (by decide))
  have h0 := parses_ruleFn (parses_capture pegRule.ruleGrammar rfl h1)
  simpa using h0

/-! ## `Execute` on the tokens of a rendering -/

theorem stringOfRunes_runes (s : String) : stringOfRunes (runes s) = s := by
  unfold stringOfRunes runes
  have h : ∀ l : List Char,
      (l.map Char.toNat).map
        (fun r => if r.isValidChar then Char.ofNat r else Char.ofNat 65533) = l := by
    intro l
    induction l with
    | nil => rfl
    | cons c cs ih =>
      have hv : c.toNat.isValidChar := c.valid
      simp only [List.map_cons, hv, if_true, Char.ofNat_toNat, ih]
  rw [h]
  rfl

theorem executeStep_ops (p : config) (text : String) (t : token32)
    (hspan : t.begin ≤ t.end_ ∧ t.end_ ≤ p.buffer.length) :
    executeStep (p, text) t = execOps (opsOf p.buffer [t]) (p, text) := by
  cases hr : t.pegRule <;>
    simp [executeStep, opsOf, execOps, execOp, hr, sliceRunes, hspan]
  all_goals
    split <;> rfl

theorem execOp_buffer {st st1 : config × String} {op : Op} (h : execOp st op = .ok st1) :
    st1.1.buffer = st.1.buffer := by
  unfold execOp at h
  split at h
  · simp only [Except.ok.injEq] at h; rw [← h]
  · simp only [Except.ok.injEq] at h; rw [← h]; rfl
  · unfold config.setID at h
    cases hc : st.1.curSection with
    | none => simp [hc] at h
    | some i =>
      simp only [hc, Except.ok.injEq] at h
      rw [← h]
  · simp only [Except.ok.injEq] at h; rw [← h]; rfl
  · unfold config.addValue at h
    cases hc : st.1.curSection with
    | none => simp [hc] at h
    | some i =>
      simp only [hc, Except.ok.injEq] at h
      rw [← h]
  · simp only [Except.ok.injEq] at h; rw [← h]

theorem execOps_append (a b : List Op) :
    ∀ st, execOps (a ++ b) st =
      match execOps a st with
      | .error e => .error e
      | .ok st1 => execOps b st1 := by
  induction a with
  | nil => intro st; rfl
  | cons op a ih =>
    intro st
    simp only [List.cons_append, execOps]
    cases h : execOp st op with
    | error e => rfl
    | ok st1 => exact ih st1

theorem execOps_buffer (ops : List Op) :
    ∀ st st1, execOps ops st = .ok st1 → st1.1.buffer = st.1.buffer := by
  induction ops with
  | nil => intro st st1 h; simp only [execOps, Except.ok.injEq] at h; rw [h]
  | cons op ops ih =>
    intro st st1 h
    simp only [execOps] at h
    cases h0 : execOp st op with
    | error e => simp [h0] at h
    | ok st0 =>
      simp only [h0] at h
      rw [ih st0 st1 h, execOp_buffer h0]

theorem executeLoop_ops (toks : List token32) :
    ∀ (p : config) (text : String),
      (∀ t ∈ toks, t.begin ≤ t.end_ ∧ t.end_ ≤ p.buffer.length) →
      executeLoop toks (p, text) = execOps (opsOf p.buffer toks) (p, text) := by
  induction toks with
  | nil => intro p text _; rfl
  | cons t ts ih =>
    intro p text hspan
    have h1 := executeStep_ops p text t (hspan t (List.mem_cons_self _ _))
    have h2 : opsOf p.buffer (t :: ts) = opsOf p.buffer [t] ++ opsOf p.buffer ts :=
      opsOf_append p.buffer [t] ts
    rw [h2, execOps_append, executeLoop, h1]
    cases h3 : execOps (opsOf p.buffer [t]) (p, text) with
    | error e => rfl
    | ok st1 =>
      have hb := execOps_buffer _ _ _ h3
      simp only at hb ⊢
      have := ih st1.1 st1.2 (fun u hu => by rw [hb]; exact hspan u (List.mem_cons_of_mem _ hu))
      rw [hb] at this
      exact this

theorem modify_last {α : Type} (f : α → α) (done : List α) (x : α) :
    (done ++ [x]).modify f done.length = done ++ [f x] := by
  induction done with
  | nil => rfl
  | cons a l ih => simp [ih]

/-- The value lines of a section write their values into the current section, which is
the last one. -/
theorem execOps_lines (lines : List SrcLine) :
    ∀ (p : config) (txt : String) (done : List Section) (sec : Section),
      p.sections = done ++ [sec] → p.curSection = some done.length →
      ∃ p1 txt1, execOps (lines.map SrcLine.ops).flatten (p, txt) = .ok (p1, txt1) ∧
        p1.sections = done ++ [{ sec with
          Values := lines.foldl (fun m l => mapSet m l.key l.value) sec.Values }] ∧
        p1.curSection = some done.length := by
  induction lines with
  | nil =>
    intro p txt done sec h1 h2
    exact ⟨p, txt, rfl, h1, h2⟩
  | cons l ls ih =>
    intro p txt done sec h1 h2
    have hstep : execOps l.ops (p, txt) =
        .ok ({ p with
          curKey := l.key
          sections := done ++ [{ sec with Values := mapSet sec.Values l.key l.value }] },
          l.value) := by
      simp only [SrcLine.ops, execOps, execOp, stringOfRunes_runes, config.setKey,
        config.addValue, h2, h1, modify_last]
    obtain ⟨p1, txt1, h3, h4, h5⟩ := ih
      { p with
        curKey := l.key
        sections := done ++ [{ sec with Values := mapSet sec.Values l.key l.value }] }
      l.value done { sec with Values := mapSet sec.Values l.key l.value } rfl h2
    refine ⟨p1, txt1, ?_, h4, h5⟩
    simp only [List.map_cons, List.flatten_cons, execOps_append, hstep]
    exact h3

theorem execOps_section (s : SrcSection) (p : config) (txt : String) :
    ∃ p1 txt1, execOps s.ops (p, txt) = .ok (p1, txt1) ∧
      p1.sections = p.sections ++ [s.expected] := by
  unfold SrcSection.ops SrcSection.headerOps SrcSection.expected valuesOf
  cases hid : s.id with
  | none =>
    obtain ⟨p1, txt1, h3, h4, _⟩ := execOps_lines s.lines
      (p.addSection s.type) s.type p.sections ⟨s.type, "", []⟩ rfl rfl
    refine ⟨p1, txt1, ?_, h4⟩
    simp only [execOps_append, execOps, execOp, stringOfRunes_runes]
    exact h3
  | some i =>
    obtain ⟨p1, txt1, h3, h4, _⟩ := execOps_lines s.lines
      { p.addSection s.type with sections := p.sections ++ [⟨s.type, i, []⟩] } i p.sections
      ⟨s.type, i, []⟩ rfl rfl
    refine ⟨p1, txt1, ?_, h4⟩
    simp only [execOps_append, execOps, execOp, stringOfRunes_runes, config.setID,
      config.addSection, modify_last]
    exact h3

theorem execOps_sections (secs : List SrcSection) :
    ∀ (p : config) (txt : String),
      ∃ p1 txt1, execOps (secs.map SrcSection.ops).flatten (p, txt) = .ok (p1, txt1) ∧
        p1.sections = p.sections ++ secs.map SrcSection.expected := by
  induction secs with
  | nil => intro p txt; exact ⟨p, txt, rfl, by simp⟩
  | cons s ss ih =>
    intro p txt
    obtain ⟨p0, txt0, h0, hs0⟩ := execOps_section s p txt
    obtain ⟨p1, txt1, h1, hs1⟩ := ih p0 txt0
    refine ⟨p1, txt1, ?_, ?_⟩
    · simp only [List.map_cons, List.flatten_cons, execOps_append, h0]
      exact h1
    · rw [hs1, hs0]
      simp

/-! ## `Parse` on a rendering -/

theorem init_rest (data : String) :
    (Init (config.new data)).2.rest = runes data ++ [end_symbol] := by
  show (initBuffer data).drop 0 = _
  rw [initBuffer_eq]
  rfl

/-- `Parse` returns the sections that `Execute` builds from the committed tokens of a
successful run of the start rule. -/
theorem Parse_of_grammar (data : String) (s1 : Matcher) (ops : List Op)
    (h1 : rules_ruleGrammar (Init (config.new data)).2 = .ok (true, s1)) (hinv : Inv s1)
    (hbuf : s1.buffer = initBuffer data)
    (hops : opsOf (initBuffer data) s1.committed = ops) (secs : List Section)
    (hexec : ∀ (p : config) (txt : String), p.sections = [] →
      ∃ p1 txt1, execOps ops (p, txt) = .ok (p1, txt1) ∧ p1.sections = secs) :
    Parse data = .ok (sectionSlice secs, none) := by
  have hlen : s1.tokenIndex ≤ s1.tree.len := Nat.le_trans hinv.index_le hinv.cells_le
  have hspan : ∀ t ∈ s1.committed,
      t.begin ≤ t.end_ ∧ t.end_ ≤ (initBuffer data).length := by
    intro t ht
    have := hinv.cells_ok t (List.mem_of_mem_take ht)
    rw [hbuf] at this
    exact ⟨this.1, Nat.le_trans this.2 (Nat.sub_le _ _)⟩
  obtain ⟨p1, txt1, hx, hsecs⟩ := hexec
    { (Init (config.new data)).1 with
      tokenTree := some ⟨⟨s1.tree.cells.take s1.tokenIndex, s1.tokenIndex⟩, none⟩ } "" rfl
  have hloop := executeLoop_ops s1.committed
    { (Init (config.new data)).1 with
      tokenTree := some ⟨⟨s1.tree.cells.take s1.tokenIndex, s1.tokenIndex⟩, none⟩ } "" hspan
  have hb : ({ (Init (config.new data)).1 with
      tokenTree := some ⟨⟨s1.tree.cells.take s1.tokenIndex, s1.tokenIndex⟩, none⟩ } :
      config).buffer = initBuffer data := rfl
  rw [hb, hops, hx] at hloop
  have hc : s1.committed = s1.tree.cells.take s1.tokenIndex := rfl
  rw [hc] at hloop
  simp only [Parse, parseRun, config.Parse, h1, tokens32.trim, hlen, if_true, config.Execute,
    toList_trim _ _ hinv.index_le, hloop, hsecs]

/-- The plain rendering of a non-empty list of valid sections parses into the sections it
stands for. -/
theorem Parse_renderSections (secs : List SrcSection) (hne : secs ≠ [])
    (hs : ∀ s ∈ secs, s.valid) (hlen : (renderSections secs).length < u32) :
    Parse (renderSections secs) = .ok (some (secs.map SrcSection.expected), none) := by
  have hinv := inv_init (config.new (renderSections secs)) hlen
  obtain ⟨s1, h1, st⟩ := parses_grammar secs hne hs _ [end_symbol] hinv
    (init_rest _) (next_cons rfl)
  have hbuf : s1.buffer = initBuffer (renderSections secs) := st.buffer_eq
  have hsl : sectionSlice (secs.map SrcSection.expected) =
      some (secs.map SrcSection.expected) := by
    cases secs with
    | nil => exact absurd rfl hne
    | cons s ss => rfl
  rw [← hsl]
  refine Parse_of_grammar _ s1 (secs.map SrcSection.ops).flatten h1 st.inv hbuf ?_ _ ?_
  · have := st.ops_eq
    simpa [Matcher.committed, Init, tokenSlice.make, opsOf] using this
  · intro p txt hp
    obtain ⟨p1, txt1, h2, h3⟩ := execOps_sections secs p txt
    exact ⟨p1, txt1, h2, by rw [h3, hp]; rfl⟩

/-! ## Maps built by value lines -/

theorem mapSet_fresh (m : List (String × String)) (k v : String)
    (h : k ∉ m.map Prod.fst) : mapSet m k v = m ++ [(k, v)] := by
  unfold mapSet
  have : m.any (fun p => p.1 == k) = false := by
    rw [List.any_eq_false]
    intro p hp hk
    exact h (List.mem_map.2 ⟨p, hp, by simpa using hk⟩)
  simp [this]

theorem foldl_mapSet_distinct (lines : List SrcLine) :
    ∀ m : List (String × String),
      (lines.map SrcLine.key).Nodup → (∀ l ∈ lines, l.key ∉ m.map Prod.fst) →
      lines.foldl (fun m l => mapSet m l.key l.value) m =
        m ++ lines.map (fun l => (l.key, l.value)) := by
  induction lines with
  | nil => intro m _ _; simp
  | cons l ls ih =>
    intro m hnd hm
    rw [List.map_cons, List.nodup_cons] at hnd
    rw [List.foldl_cons, mapSet_fresh m l.key l.value (hm l (List.mem_cons_self _ _)),
      ih _ hnd.2]
    · simp
    · intro x hx
      rw [List.map_append, List.mem_append]
      rintro (h | h)
      · exact hm x (List.mem_cons_of_mem _ hx) h
      · simp only [List.map_cons, List.map_nil, List.mem_singleton] at h
        exact hnd.1 (List.mem_map.2 ⟨x, hx, h⟩)

theorem valuesOf_distinct (lines : List SrcLine) (h : (lines.map SrcLine.key).Nodup) :
    valuesOf lines = lines.map (fun l => (l.key, l.value)) := by
  unfold valuesOf
  rw [foldl_mapSet_distinct lines [] h (fun _ _ => by simp)]
  rfl

theorem concatStrings_single (s : String) : concatStrings [s] = s := by
  simp [concatStrings]

/-! ## The claims on rendered sections -/

/-- C1 as stated fails at the empty list of sections: its rendering is the empty text, on
which `Parse` returns an error. -/
theorem parse_render_empty_list_fails :
    ¬ ∀ secs : List SrcSection,
      (∀ s ∈ secs, s.valid ∧ s.id = none ∧ (s.lines.map SrcLine.key).Nodup) →
      (renderSections secs).length < 2 ^ 32 →
      Parse (renderSections secs) =
        .ok (some (secs.map (fun s =>
          ⟨s.type, "", s.lines.map (fun l => (l.key, l.value))⟩)), none) := by
  intro h
  have h1 := h [] (by simp) (by decide)
  revert h1
  decide!

/-- C1 (amended). Parse undoes the plain rendering of sections: for every non-empty
list of sections, each with an identifier type, no id, and value lines with pairwise
distinct identifier keys and values of one or more words separated by single blanks, the
text made of a line `[type]` and one indented line `key = value` per entry (of fewer
than `2 ^ 32` characters) parses without error into exactly those sections, in source
order, each with that type, an empty id and the values in the order written. -/
theorem parse_render_plain (secs : List SrcSection) (hne : secs ≠ [])
    (hs : ∀ s ∈ secs, s.valid ∧ s.id = none ∧ (s.lines.map SrcLine.key).Nodup)
    (hlen : (renderSections secs).length < 2 ^ 32) :
    Parse (renderSections secs) =
      .ok (some (secs.map (fun s =>
        ⟨s.type, "", s.lines.map (fun l => (l.key, l.value))⟩)), none) := by
  rw [Parse_renderSections secs hne (fun s h => (hs s h).1) hlen]
  congr 3
  apply List.map_congr_left
  intro s h
  obtain ⟨_, hid, hnd⟩ := hs s h
  simp only [SrcSection.expected, hid, Option.getD_none, valuesOf_distinct _ hnd]

theorem parse_render_plain_witness :
    renderSections [⟨"user", none, [⟨2, "name", ["Ben", "Burkert"]⟩]⟩,
      ⟨"color", none, [⟨2, "ui", ["auto"]⟩]⟩] =
      "[user]\n  name = Ben Burkert\n[color]\n  ui = auto\n" ∧
    Parse (renderSections [⟨"user", none, [⟨2, "name", ["Ben", "Burkert"]⟩]⟩,
      ⟨"color", none, [⟨2, "ui", ["auto"]⟩]⟩]) =
      .ok (some [⟨"user", "", [("name", "Ben Burkert")]⟩, ⟨"color", "", [("ui", "auto")]⟩],
        none) :=
  ⟨by decide!, parse_render_plain _ (by simp) (by decide!) (by decide!)⟩

theorem parse_render_section_values (s : SrcSection) (hs : s.valid)
    (hlen : s.render.length < 2 ^ 32) :
    Parse s.render = .ok (some [⟨s.type, s.id.getD "", valuesOf s.lines⟩], none) := by
  have h := Parse_renderSections [s] (by simp) (by simpa using hs)
    (by simpa [renderSections, concatStrings_single] using hlen)
  simpa [renderSections, concatStrings_single, SrcSection.expected] using h

/-- C2. A header with an id: for every section with an identifier type, an optional
identifier id and valid value lines, the header line `[type "id"]` (or `[type]` without an
id) followed by the value lines parses into one section with that type, that id (the
empty string without one) and the map the lines write, a later line overwriting an
earlier one with the same key. -/
theorem parse_render_section (s : SrcSection) (hs : s.valid)
    (hlen : s.render.length < 2 ^ 32) :
    Parse s.render = .ok (some [⟨s.type, s.id.getD "", valuesOf s.lines⟩], none) := by
  have hr : renderSections [s] = s.render := by
    simp [renderSections, concatStrings_single]
  have h := Parse_renderSections [s] (by simp) (by simpa using hs) (by rw [hr]; exact hlen)
  rw [hr] at h
  rw [h]
  rfl

theorem parse_render_section_witness :
    (⟨"color", some "branch", [⟨2, "current", ["yellow", "reverse"]⟩]⟩ : SrcSection).render =
      "[color \"branch\"]\n  current = yellow reverse\n" ∧
    Parse (⟨"color", some "branch", [⟨2, "current", ["yellow", "reverse"]⟩]⟩ :
      SrcSection).render =
      .ok (some [⟨"color", "branch", [("current", "yellow reverse")]⟩], none) :=
  ⟨by decide!, parse_render_section _ (by decide!) (by decide!)⟩

/-! ## Last write wins -/

theorem mapSet_keys (m : List (String × String)) (k v : String) :
    (mapSet m k v).map Prod.fst =
      if k ∈ m.map Prod.fst then m.map Prod.fst else m.map Prod.fst ++ [k] := by
  unfold mapSet
  by_cases h : k ∈ m.map Prod.fst
  · have hany : m.any (fun p => p.1 == k) = true := by
      rw [List.any_eq_true]
      obtain ⟨p, hp, hk⟩ := List.mem_map.1 h
      exact ⟨p, hp, by simpa using hk⟩
    simp only [hany, if_true, h]
    rw [List.map_map]
    apply List.map_congr_left
    intro p _
    simp only [Function.comp]
    split
    · rename_i hpk
      have : p.1 = k := by simpa using hpk
      exact this.symm
    · rfl
  · have hany : m.any (fun p => p.1 == k) = false := by
      rw [List.any_eq_false]
      intro p hp hk
      exact h (List.mem_map.2 ⟨p, hp, by simpa using hk⟩)
    simp [hany, h]

theorem mapGet_replace (m : List (String × String)) (k v q : String) :
    mapGet (m.map (fun p => if p.1 == k then (k, v) else p)) q =
      if q = k then (if k ∈ m.map Prod.fst then some v else none) else mapGet m q := by
  induction m with
  | nil => simp [mapGet]
  | cons p ps ih =>
    unfold mapGet at ih ⊢
    simp only [List.map_cons, List.find?_cons, List.mem_cons]
    by_cases hpk : p.1 = k
    · by_cases hq : q = k
      · subst hq
        simp [hpk]
      · have h1 : ¬ k = q := fun h => hq h.symm
        have h2 : ¬ p.1 = q := by rw [hpk]; exact h1
        simp only [hpk, beq_self_eq_true, if_true, beq_iff_eq, h1, hq, if_false]
        have := ih
        simp only [hq, if_false] at this
        simp only [beq_eq_false_iff_ne.2 h1, beq_eq_false_iff_ne.2 h2]
        simpa using this
    · have hpk1 : (p.1 == k) = false := beq_eq_false_iff_ne.2 hpk
      simp only [hpk1, Bool.false_eq_true, if_false]
      by_cases hpq : p.1 = q
      · have hq : ¬ q = k := by rw [← hpq]; exact hpk
        simp [hpq, hq]
      · have hpq1 : (p.1 == q) = false := beq_eq_false_iff_ne.2 hpq
        simp only [hpq1]
        rw [ih]
        by_cases hq : q = k
        · have : ¬ k = p.1 := fun h => hpk h.symm
          simp only [hq, if_true, this, false_or]
        · simp only [hq, if_false]

theorem mapGet_mapSet (m : List (String × String)) (k v q : String) :
    mapGet (mapSet m k v) q = if q = k then some v else mapGet m q := by
  unfold mapSet
  by_cases hany : m.any (fun p => p.1 == k) = true
  · have hk : k ∈ m.map Prod.fst := by
      rw [List.any_eq_true] at hany
      obtain ⟨p, hp, hpk⟩ := hany
      exact List.mem_map.2 ⟨p, hp, by simpa using hpk⟩
    simp only [hany, if_true]
    rw [mapGet_replace]
    simp [hk]
  · simp only [Bool.not_eq_true] at hany
    have hk : ∀ p ∈ m, ¬ p.1 = k := by
      rw [List.any_eq_false] at hany
      intro p hp
      simpa using hany p hp
    simp only [hany, Bool.false_eq_true, if_false]
    unfold mapGet
    rw [List.find?_append]
    by_cases hq : q = k
    · subst hq
      have : m.find? (fun p => p.1 == q) = none := by
        rw [List.find?_eq_none]
        intro p hp
        simpa using hk p hp
      simp [this]
    · have h1 : ¬ k = q := fun h => hq h.symm
      simp [hq, h1]

theorem mapGet_foldl (lines : List SrcLine) (q : String) :
    ∀ m : List (String × String),
      mapGet (lines.foldl (fun m l => mapSet m l.key l.value) m) q =
        match lines.reverse.find? (fun x => x.key == q) with
        | some x => some x.value
        | none => mapGet m q := by
  induction lines with
  | nil => intro m; rfl
  | cons l ls ih =>
    intro m
    rw [List.foldl_cons, ih, List.reverse_cons, List.find?_append]
    cases h : ls.reverse.find? (fun x => x.key == q) with
    | some x => rfl
    | none =>
      simp only [Option.none_or, List.find?_cons, List.find?_nil]
      rw [mapGet_mapSet]
      by_cases hq : l.key = q
      · simp [hq]
      · have h1 : ¬ q = l.key := fun h => hq h.symm
        simp only [h1, if_false, beq_eq_false_iff_ne.2 hq]

theorem mapSet_nodup (m : List (String × String)) (k v : String)
    (h : (m.map Prod.fst).Nodup) : ((mapSet m k v).map Prod.fst).Nodup := by
  rw [mapSet_keys]
  split
  · exact h
  · rename_i hk
    rw [List.nodup_append]
    exact ⟨h, List.nodup_singleton _, by
      intro a ha hb
      rw [List.mem_singleton] at hb
      exact hk (hb ▸ ha)⟩

theorem foldl_mapSet_nodup (lines : List SrcLine) :
    ∀ m : List (String × String), (m.map Prod.fst).Nodup →
      ((lines.foldl (fun m l => mapSet m l.key l.value) m).map Prod.fst).Nodup := by
  induction lines with
  | nil => intro m h; exact h
  | cons l ls ih => intro m h; exact ih _ (mapSet_nodup m l.key l.value h)

theorem mapGet_mem {m : List (String × String)} {q v : String} (h : mapGet m q = some v) :
    q ∈ m.map Prod.fst := by
  unfold mapGet at h
  cases hf : m.find? (fun p => p.1 == q) with
  | none => simp [hf] at h
  | some p =>
    have h1 := List.find?_some hf
    have h2 := List.mem_of_find?_eq_some hf
    exact List.mem_map.2 ⟨p, h2, by simpa using h1⟩

/-- C3. Within one section a duplicate key overwrites the prior value: for every rendered
section and every key that occurs in its value lines (once or repeatedly), the parsed
section's `Values` maps that key to the value of the last line that has the key, and
holds the key exactly once. -/
theorem duplicate_key_last_wins (s : SrcSection) (hs : s.valid)
    (hlen : s.render.length < 2 ^ 32) (l : SrcLine) (hl : l ∈ s.lines) :
    ∃ sec, Parse s.render = .ok (some [sec], none) ∧ sec.Type_ = s.type ∧
      mapGet sec.Values l.key =
        (s.lines.reverse.find? (fun x => x.key == l.key)).map SrcLine.value ∧
      (sec.Values.map Prod.fst).count l.key = 1 := by
  refine ⟨_, parse_render_section_values s hs hlen, rfl, ?_, ?_⟩
  · show mapGet (valuesOf s.lines) l.key = _
    unfold valuesOf
    rw [mapGet_foldl]
    cases h : s.lines.reverse.find? (fun x => x.key == l.key) with
    | some x => rfl
    | none =>
      rw [List.find?_eq_none] at h
      have := h l (List.mem_reverse.2 hl)
      simp at this
  · show ((valuesOf s.lines).map Prod.fst).count l.key = 1
    have hnd : ((valuesOf s.lines).map Prod.fst).Nodup :=
      foldl_mapSet_nodup s.lines [] (by simp)
    have hget : ∃ v, mapGet (valuesOf s.lines) l.key = some v := by
      unfold valuesOf
      rw [mapGet_foldl]
      cases h : s.lines.reverse.find? (fun x => x.key == l.key) with
      | some x => exact ⟨x.value, rfl⟩
      | none =>
        rw [List.find?_eq_none] at h
        have := h l (List.mem_reverse.2 hl)
        simp at this
    obtain ⟨v, hv⟩ := hget
    exact List.count_eq_one_of_mem hnd (mapGet_mem hv)

theorem duplicate_key_last_wins_witness :
    (⟨"core", none, [⟨1, "a", ["1"]⟩, ⟨1, "a", ["2"]⟩]⟩ : SrcSection).render =
      "[core]\n a = 1\n a = 2\n" ∧
    Parse "[core]\n a = 1\n a = 2\n" = .ok (some [⟨"core", "", [("a", "2")]⟩], none) ∧
    ∃ sec, Parse (⟨"core", none, [⟨1, "a", ["1"]⟩, ⟨1, "a", ["2"]⟩]⟩ : SrcSection).render =
        .ok (some [sec], none) ∧ sec.Type_ = "core" ∧
      mapGet sec.Values "a" = some "2" ∧ (sec.Values.map Prod.fst).count "a" = 1 :=
  ⟨by decide!, by decide!,
    duplicate_key_last_wins ⟨"core", none, [⟨1, "a", ["1"]⟩, ⟨1, "a", ["2"]⟩]⟩ (by decide!)
      (by decide!) ⟨1, "a", ["1"]⟩ (by simp)⟩

/-! ## An unterminated header -/

/-- The inlined Section fails on `[`, an identifier, and an end of line where `]` should
be. -/
theorem fails_section_unterminated (t : List Nat) (hne : t ≠ [])
    (ht : ∀ c ∈ t, isIdentRune c = true) :
    Fails inlineSection
      (fun r0 => ∃ r, r0 = 91 :: (t ++ r) ∧ Next (fun d => d = 10 ∨ d = 13) r) := by
  have f8 : Fails (seq (lit 93) (seq rules_ruleSpaceComment (star inlineValueLine)))
      (Next (fun d => d ≠ 93)) := fails_seq_left (fails_lit 93)
  have f7 := fails_seq_right (parses_spaces 0) f8
  have f6 := fails_seq_right parses_sectionID_none f7
  have f5 := fails_seq_right (parses_action pegRule.ruleAction0 (by simp)) f6
  have f4 := fails_seq_right (parses_pegIdentifier t hne ht) f5
  have f3 := fails_seq_right (parses_spaces 0) f4
  have f2 := fails_seq_right (parses_lit (c := 91) (by decide)) f3
  have f1 := fails_seq_right (parses_spaces 0) f2
  refine fails_capture _ (fails_mono f1 ?_)
  rintro r0 ⟨r, rfl, hr⟩
  have hb : Next (fun d => d ≠ 32 ∧ d ≠ 9) r :=
    next_imp hr (fun d hd => by rcases hd with rfl | rfl <;> decide)
  have hi : Next (fun d => isIdentRune d = false) r :=
    next_imp hr (fun d hd => by rcases hd with rfl | rfl <;> decide)
  have h93 : Next (fun d => d ≠ 93) r :=
    next_imp hr (fun d hd => by rcases hd with rfl | rfl <;> decide)
  refine ⟨91 :: (t ++ r), rfl, next_cons (by decide), t ++ r, rfl, trivial, ?_⟩
  refine ⟨t ++ r, rfl, next_head hne (fun c hc => ident_not_blank (ht c hc)) r, ?_⟩
  refine ⟨r, rfl, hi, r, rfl, trivial, r, rfl, hb, r, rfl, hb, h93⟩

theorem fails_grammar_unterminated (t : List Nat) (hne : t ≠ [])
    (ht : ∀ c ∈ t, isIdentRune c = true) :
    Fails rules_ruleGrammar
      (fun r0 => ∃ r, r0 = 91 :: (t ++ r) ∧ Next (fun d => d = 10 ∨ d = 13) r) := by
  refine fails_ruleFn (fails_capture _ (fails_seq_left
    (fails_mono (fails_alt safe_ruleSpaceComment fails_spaceComment
      (fails_section_unterminated t hne ht)) ?_)))
  intro r0 h
  refine ⟨?_, h⟩
  obtain ⟨r, rfl, _⟩ := h
  exact next_cons (by decide)

/-- The runes of `[` followed by `t` and `r`, and what `r` starts with. -/
theorem unterminated_rest (t r : String)
    (hr : r.toList.head? = some '\n' ∨ r.toList.head? = some '\r') :
    ∃ q, (Init (config.new ("[" ++ t ++ r))).2.rest = 91 :: (runes t ++ q) ∧
      Next (fun d => d = 10 ∨ d = 13) q := by
  refine ⟨runes r ++ [end_symbol], ?_, ?_⟩
  · rw [init_rest, runes_append, runes_append, List.append_assoc]
    rfl
  · cases hl : r.toList with
    | nil => rw [hl] at hr; simp at hr
    | cons c cs =>
      rw [hl] at hr
      simp only [List.head?_cons, Option.some.injEq] at hr
      have : runes r = c.toNat :: cs.map Char.toNat := by
        unfold runes
        rw [hl]
        rfl
      rw [this]
      rcases hr with rfl | rfl
      · exact ⟨10, _, rfl, Or.inl rfl⟩
      · exact ⟨13, _, rfl, Or.inr rfl⟩

/-- C5. An unterminated first section header fails: for every identifier `t` and every
remainder `r` that starts with an end of line (`\n` or `\r`), `Parse` of `[` followed by
`t` and `r` (fewer than `2 ^ 32` characters) returns an error and no sections. -/
theorem unterminated_header_fails (t r : String) (ht : IsIdentifier t)
    (hr : r.toList.head? = some '\n' ∨ r.toList.head? = some '\r')
    (hlen : ("[" ++ t ++ r).length < 2 ^ 32) :
    ∃ err, Parse ("[" ++ t ++ r) = .ok (none, some err) := by
  have hinv := inv_init (config.new ("[" ++ t ++ r)) hlen
  obtain ⟨q, hq, hn⟩ := unterminated_rest t r hr
  have hk := ident_runes ht
  obtain ⟨s1, h1⟩ := fails_grammar_unterminated (runes t) hk.1 hk.2 _ hinv
    (by rw [hq]; exact ⟨q, rfl, hn⟩)
  refine ⟨⟨{ (Init (config.new ("[" ++ t ++ r))).1 with
    tokenTree := some ⟨s1.tree, none⟩ }⟩, ?_⟩
  simp only [Parse, parseRun, config.Parse, h1]

theorem unterminated_header_fails_witness :
    "[" ++ "core" ++ "\n  a = 1\n" = "[core\n  a = 1\n" ∧
    ∃ err, Parse ("[" ++ "core" ++ "\n  a = 1\n") = .ok (none, some err) :=
  ⟨by decide!, unterminated_header_fails "core" "\n  a = 1\n" (by decide!) (by decide!)
    (by decide!)⟩

/-! ## A trailing comment -/

theorem parses_spaceComment_blank :
    Parses rules_ruleSpaceComment [32] [] (Next (fun d => d = 35)) := by
  refine parses_ruleFn (parses_capture _ rfl ?_)
  intro s r hs hr hC
  have hpk : s.buffer[s.position]? = some 32 := by rw [peek_rest, hr]; rfl
  unfold spaceCommentSwitch
  simp only [hpk]
  have h := parses_seq parses_space (parses_spaces 0) (fun _ _ => trivial)
  exact h s r hs hr (next_imp hC (fun d hd => by rw [hd]; decide))

theorem fails_moreWords_comment :
    Fails (seq rules_ruleSpace (seq (star rules_ruleSpace) rules_ruleWord))
      (fun r0 => ∃ r, r0 = [32] ++ r ∧ Next (fun d => d = 35) r) := by
  refine fails_mono (fails_seq_right parses_space
    (fails_seq_right (parses_spaces 0) fails_word)) ?_
  rintro r0 ⟨r, rfl, hr⟩
  exact ⟨r, rfl, trivial, r, rfl, next_imp hr (fun d hd => by rw [hd]; decide),
    next_imp hr (fun d hd => by rw [hd]; decide)⟩

/-- The value line up to and including the blank in front of its comment. -/
theorem parses_valueLine_commented (l : SrcLine) (hl : l.valid) :
    Parses inlineValueLine
      (List.replicate l.indent 32 ++ (runes l.key ++ (32 :: 61 :: 32 :: (runes l.value ++ [32]))))
      l.ops (Next (fun d => d = 35)) :=
  parses_valueLine_gen l hl [32] parses_spaceComment_blank fails_moreWords_comment
    (fun r => ⟨32, r, rfl, by decide⟩)

theorem parses_commentChars (c : List Nat)
    (hc : ∀ x ∈ c, (x ≠ 10 ∧ x ≠ 13) ∧ x ≠ end_symbol) :
    Parses (star (seq (notP rules_ruleEndOfLine) matchDot)) c []
      (fun r0 => ∃ r, r0 = [10] ++ r ∧ True) := by
  induction c with
  | nil =>
    exact parses_star_nil (safe_seq (safe_notP safe_ruleEndOfLine) safe_matchDot)
      (fails_seq_left (fails_notP parses_newline))
  | cons x xs ih =>
    have hx := hc x (List.mem_cons_self _ _)
    have h1 : Parses (seq (notP rules_ruleEndOfLine) matchDot) [x] [] (fun _ => True) := by
      have := parses_seq (parses_notP safe_ruleEndOfLine fails_endOfLine)
        (parses_matchDot hx.2) (fun r _ => next_cons (t := r) hx.1)
      simpa using this
    exact parses_star_cons (safe_seq (safe_notP safe_ruleEndOfLine) safe_matchDot)
      (adv_seq_right (safe_notP safe_ruleEndOfLine) adv_matchDot) h1
      (ih (fun y hy => hc y (List.mem_cons_of_mem _ hy))) (fun _ _ => trivial)

theorem parses_spaceComment_comment (c : List Nat)
    (hc : ∀ x ∈ c, (x ≠ 10 ∧ x ≠ 13) ∧ x ≠ end_symbol) :
    Parses rules_ruleSpaceComment (35 :: (c ++ [10])) [] (fun _ => True) := by
  refine parses_ruleFn (parses_capture _ rfl ?_)
  intro s r hs hr hC
  have hpk : s.buffer[s.position]? = some 35 := by rw [peek_rest, hr]; rfl
  unfold spaceCommentSwitch
  simp only [hpk]
  have h2 := parses_seq (parses_commentChars c hc) parses_newline (fun r _ => ⟨r, rfl, trivial⟩)
  have h1 := parses_seq (parses_lit (c := 35) (by decide)) h2 (fun _ _ => trivial)
  have h0 := parses_capture pegRule.ruleComment rfl h1
  exact h0 s r hs hr hC

theorem parses_valueLines_commented (pre : List SrcLine) (hpre : ∀ x ∈ pre, x.valid)
    (l : SrcLine) (hl : l.valid) :
    Parses (star inlineValueLine)
      ((pre.map (fun x => runes x.render)).flatten ++
        (List.replicate l.indent 32 ++
          (runes l.key ++ (32 :: 61 :: 32 :: (runes l.value ++ [32])))))
      ((pre.map SrcLine.ops).flatten ++ l.ops) (Next (fun d => d = 35)) := by
  induction pre with
  | nil =>
    have := parses_star_cons safe_inlineValueLine adv_inlineValueLine
      (parses_valueLine_commented l hl)
      (parses_star_nil (C := Next (fun d => d = 35)) safe_inlineValueLine
        (fails_mono fails_valueLine
          (fun _ h => next_imp h (fun d hd => by rw [hd]; decide))))
      (fun r hr => by simpa using hr)
    simpa using this
  | cons x xs ih =>
    have := parses_star_cons safe_inlineValueLine adv_inlineValueLine
      (parses_valueLine x (hpre x (List.mem_cons_self _ _)))
      (ih (fun y hy => hpre y (List.mem_cons_of_mem _ hy))) (fun _ _ => trivial)
    simpa [List.append_assoc] using this

theorem runes_commented (s : SrcSection) (l : SrcLine) (comment : String) :
    runes (s.render ++ l.renderCommented comment) =
      (runes s.header ++
        ((s.lines.map (fun x => runes x.render)).flatten ++
          (List.replicate l.indent 32 ++
            (runes l.key ++ (32 :: 61 :: 32 :: (runes l.value ++ [32])))))) ++
        (35 :: (runes comment ++ [10])) := by
  unfold SrcSection.render SrcLine.renderCommented
  have h1 : runes " = " = [32, 61, 32] := rfl
  have h2 : runes " #" = [32, 35] := rfl
  have h3 : runes "\n" = [10] := rfl
  simp only [runes_append, runes_concat_map, runes_blanks, List.append_assoc, h1, h2, h3,
    List.cons_append, List.nil_append]

/-- The start rule on a section whose last value line carries a comment. -/
theorem parses_grammar_commented (s : SrcSection) (hs : s.valid) (l : SrcLine) (hl : l.valid)
    (comment : String) (hc : ∀ c ∈ comment.toList, c ≠ '\n' ∧ c ≠ '\r') :
    Parses rules_ruleGrammar (runes (s.render ++ l.renderCommented comment))
      (s.headerOps ++ ((s.lines.map SrcLine.ops).flatten ++ l.ops))
      (Next (fun d => d = end_symbol)) := by
  have hcr : ∀ x ∈ runes comment, (x ≠ 10 ∧ x ≠ 13) ∧ x ≠ end_symbol := by
    intro x hx
    obtain ⟨c, hcm, rfl⟩ := List.mem_map.1 hx
    have h1 := hc c hcm
    refine ⟨⟨?_, ?_⟩, char_ne_end c⟩
    · intro h
      apply h1.1
      apply Char.ext
      apply UInt32.ext
      exact h
    · intro h
      apply h1.2
      apply Char.ext
      apply UInt32.ext
      exact h
  have hsec := parses_section_gen s hs.1 hs.2.1 _ _
    (parses_valueLines_commented s.lines hs.2.2 l hl)
  have hitem : Parses (alt rules_ruleSpaceComment inlineSection) _ _ (Next (fun d => d = 35)) :=
    parses_alt_right safe_ruleSpaceComment fails_spaceComment hsec
      (fun r _ => by
        rw [runes_header]
        cases s.id <;> exact next_cons (by decide))
  have hrest : Parses (star (alt rules_ruleSpaceComment inlineSection))
      (35 :: (runes comment ++ [10])) [] (Next (fun d => d = end_symbol)) := by
    have := parses_star_cons safe_grammarItem adv_grammarItem
      (parses_alt_left (g := inlineSection) (parses_spaceComment_comment (runes comment) hcr))
      (parses_star_nil (C := Next (fun d => d = end_symbol)) safe_grammarItem
        (fails_mono fails_grammarItem
          (fun _ h => next_imp h (fun d hd => by rw [hd]; decide))))
      (fun _ _ => trivial)
    simpa using this
  have h1 := parses_seq hitem hrest (fun r _ => next_cons rfl)
  have h0 := parses_ruleFn (parses_capture pegRule.ruleGrammar rfl h1)
  rw [runes_commented]
  simpa using h0

/-! ## Sections with indented headers and commented last lines -/

theorem fails_valueLine_indented :
    Fails inlineValueLine (Indented (fun d => (d ≠ 32 ∧ d ≠ 9) ∧ isIdentRune d = false)) := by
  intro s hs hC
  obtain ⟨n, d, t, hr, hd⟩ := hC
  exact fails_capture pegRule.ruleValueLine
    (fails_seq_right (parses_spaces n) (fails_seq_left (fails_capture _ fails_identifier)))
    s hs ⟨d :: t, hr, next_cons hd.1, next_cons hd.2⟩

theorem parses_valueLines_gen (lines : List SrcLine) (hl : ∀ l ∈ lines, l.valid)
    {C : List Nat → Prop} (hstop : Fails inlineValueLine C) :
    Parses (star inlineValueLine) (lines.map (fun x => runes x.render)).flatten
      (lines.map SrcLine.ops).flatten C := by
  induction lines with
  | nil => exact parses_star_nil safe_inlineValueLine hstop
  | cons l ls ih =>
    have := parses_star_cons safe_inlineValueLine adv_inlineValueLine
      (parses_valueLine l (hl l (List.mem_cons_self _ _)))
      (ih (fun x hx => hl x (List.mem_cons_of_mem _ hx))) (fun _ _ => trivial)
    simpa using this

theorem parses_spaceComment_blanks (n : Nat) :
    Parses rules_ruleSpaceComment (List.replicate (n + 1) 32) []
      (Next (fun d => d ≠ 32 ∧ d ≠ 9)) := by
  refine parses_ruleFn (parses_capture _ rfl ?_)
  intro s r hs hr hC
  have hpk : s.buffer[s.position]? = some 32 := by rw [peek_rest, hr]; rfl
  unfold spaceCommentSwitch
  simp only [hpk]
  have h := parses_seq parses_space (parses_spaces n) (fun _ _ => trivial)
  exact h s r hs (by simpa [List.replicate_succ] using hr) hC

/-- One or more turns of a loop, from a run of the loop that consumes some text. -/
theorem parses_plus {f : Rule} {w : List Nat} {o : List Op} {C : List Nat → Prop}
    (sf : Safe f) (af : Adv f) (h : Parses (star f) w o C) (hw : w ≠ []) :
    Parses (seq f (star f)) w o C := by
  intro s r hs hr hC
  obtain ⟨s1, h1, st⟩ := h s r hs hr hC
  obtain ⟨b, s0, h0, _⟩ := sf s hs
  cases b
  · exfalso
    rw [star_stop hs h0] at h1
    injection h1 with h1
    injection h1 with _ h1
    have hp := st.position_eq
    rw [← h1] at hp
    have hlen : 0 < w.length := List.length_pos.2 hw
    have : (restore s0 s).position = s.position := rfl
    omega
  · refine ⟨s1, (seq_ok _ _ _ _ _).2 (Or.inl ⟨s0, h0, ?_⟩), st⟩
    rw [← star_unroll sf af hs h0]
    exact h1

theorem comment_runes (comment : String) (hc : ∀ c ∈ comment.toList, c ≠ '\n' ∧ c ≠ '\r') :
    ∀ x ∈ runes comment, (x ≠ 10 ∧ x ≠ 13) ∧ x ≠ end_symbol := by
  intro x hx
  obtain ⟨c, hcm, rfl⟩ := List.mem_map.1 hx
  have h1 := hc c hcm
  refine ⟨⟨?_, ?_⟩, char_ne_end c⟩
  · intro h
    apply h1.1
    apply Char.ext
    apply UInt32.ext
    exact h
  · intro h
    apply h1.2
    apply Char.ext
    apply UInt32.ext
    exact h

theorem header_head (s : SrcSection) (r : List Nat) : ∃ t, runes s.header ++ r = 91 :: t := by
  rw [runes_header]
  cases s.id <;> exact ⟨_, rfl⟩

theorem whole_ops_commented (s : SrcSection) (l : SrcLine) :
    (⟨s.type, s.id, s.lines ++ [l]⟩ : SrcSection).ops =
      s.headerOps ++ ((s.lines.map SrcLine.ops).flatten ++ l.ops) := by
  simp [SrcSection.ops, SrcSection.headerOps]

/-- The items of Grammar over the section of a block and its comment, followed by more
items. -/
theorem parses_blockSection (b : SrcBlock) (hb : b.valid) {more : List Nat} {ops : List Op}
    {C : List Nat → Prop}
    (hmore : Parses (star (alt rules_ruleSpaceComment inlineSection)) more ops C)
    (hplain : b.commented = none → ∀ r, C r →
      Indented (fun d => (d ≠ 32 ∧ d ≠ 9) ∧ isIdentRune d = false) (more ++ r)) :
    Parses (star (alt rules_ruleSpaceComment inlineSection))
      ((match b.commented with
        | none => runes b.plain.render
        | some (l, c) => runes (b.plain.render ++ l.renderCommented c)) ++ more)
      (b.whole.ops ++ ops) C := by
  obtain ⟨hs, hcv⟩ := hb
  cases hcm : b.commented with
  | none =>
    have hsec : Parses inlineSection (runes b.plain.render) b.plain.ops
        (Indented (fun d => (d ≠ 32 ∧ d ≠ 9) ∧ isIdentRune d = false)) := by
      unfold SrcSection.render SrcSection.ops
      rw [runes_append, runes_concat_map]
      exact parses_section_gen b.plain hs.1 hs.2.1 _ _
        (parses_valueLines_gen b.plain.lines hs.2.2 fails_valueLine_indented)
    have hitem := parses_alt_right safe_ruleSpaceComment fails_spaceComment hsec
      (fun r _ => by
        obtain ⟨t, ht⟩ := render_head b.plain r
        rw [ht]
        exact next_cons (by decide))
    have := parses_star_cons safe_grammarItem adv_grammarItem hitem hmore (hplain hcm)
    simpa [SrcBlock.whole, hcm] using this
  | some lc =>
    obtain ⟨l, c⟩ := lc
    rw [hcm] at hcv
    obtain ⟨hl, hc⟩ := hcv
    have hsec := parses_section_gen b.plain hs.1 hs.2.1 _ _
      (parses_valueLines_commented b.plain.lines hs.2.2 l hl)
    have hitem : Parses (alt rules_ruleSpaceComment inlineSection) _ _
        (Next (fun d => d = 35)) :=
      parses_alt_right safe_ruleSpaceComment fails_spaceComment hsec
        (fun r _ => by
          obtain ⟨t, ht⟩ := header_head b.plain
            (((b.plain.lines.map (fun x => runes x.render)).flatten ++
              (List.replicate l.indent 32 ++
                (runes l.key ++ (32 :: 61 :: 32 :: (runes l.value ++ [32]))))) ++ r)
          rw [List.append_assoc, ht]
          exact next_cons (by decide))
    have hcmt : Parses (alt rules_ruleSpaceComment inlineSection) (35 :: (runes c ++ [10])) []
        (fun _ => True) :=
      parses_alt_left (parses_spaceComment_comment (runes c) (comment_runes c hc))
    have h2 := parses_star_cons safe_grammarItem adv_grammarItem hcmt hmore
      (fun _ _ => trivial)
    have h1 := parses_star_cons safe_grammarItem adv_grammarItem hitem h2
      (fun r _ => next_cons rfl)
    simp only [SrcBlock.whole, hcm, whole_ops_commented, runes_commented]
    simpa [List.append_assoc] using h1

theorem runes_block (b : SrcBlock) :
    runes b.render = List.replicate b.indent 32 ++
      (match b.commented with
        | none => runes b.plain.render
        | some (l, c) => runes (b.plain.render ++ l.renderCommented c)) := by
  unfold SrcBlock.render
  rw [runes_append, runes_blanks]
  cases b.commented with
  | none => rfl
  | some lc => rfl

theorem block_head (b : SrcBlock) (r : List Nat) :
    ∃ t, (match b.commented with
        | none => runes b.plain.render
        | some (l, c) => runes (b.plain.render ++ l.renderCommented c)) ++ r = 91 :: t := by
  cases b.commented with
  | none => exact render_head b.plain r
  | some lc =>
    obtain ⟨l, c⟩ := lc
    simp only [runes_append, List.append_assoc]
    exact render_head b.plain _

/-- The items of Grammar over a block, followed by more items. -/
theorem parses_block (b : SrcBlock) (hb : b.valid) {more : List Nat} {ops : List Op}
    {C : List Nat → Prop}
    (hmore : Parses (star (alt rules_ruleSpaceComment inlineSection)) more ops C)
    (hplain : b.commented = none → ∀ r, C r →
      Indented (fun d => (d ≠ 32 ∧ d ≠ 9) ∧ isIdentRune d = false) (more ++ r)) :
    Parses (star (alt rules_ruleSpaceComment inlineSection)) (runes b.render ++ more)
      (b.whole.ops ++ ops) C := by
  have hsec := parses_blockSection b hb hmore hplain
  rw [runes_block]
  cases hn : b.indent with
  | zero => simpa using hsec
  | succ n =>
    have := parses_star_cons safe_grammarItem adv_grammarItem
      (parses_alt_left (g := inlineSection) (parses_spaceComment_blanks n)) hsec
      (fun r _ => by
        obtain ⟨t, ht⟩ := block_head b (more ++ r)
        rw [List.append_assoc, ht]
        exact next_cons (by decide))
    simpa [List.append_assoc] using this

theorem block_indented (b : SrcBlock) (r : List Nat) :
    Indented (fun d => (d ≠ 32 ∧ d ≠ 9) ∧ isIdentRune d = false) (runes b.render ++ r) := by
  obtain ⟨t, ht⟩ := block_head b r
  rw [runes_block, List.append_assoc, ht]
  exact ⟨b.indent, 91, t, rfl, by decide⟩

/-- The items of Grammar over a list of blocks, followed by more items that record
nothing. -/
theorem parses_blocks (bs : List SrcBlock) (hv : ∀ b ∈ bs, b.valid) {more : List Nat}
    {C : List Nat → Prop}
    (hmore : Parses (star (alt rules_ruleSpaceComment inlineSection)) more [] C)
    (hend : ∀ b, bs.getLast? = some b → b.commented = none → ∀ r, C r →
      Indented (fun d => (d ≠ 32 ∧ d ≠ 9) ∧ isIdentRune d = false) (more ++ r)) :
    Parses (star (alt rules_ruleSpaceComment inlineSection))
      ((bs.map (fun b => runes b.render)).flatten ++ more)
      (bs.map (fun b => b.whole.ops)).flatten C := by
  induction bs with
  | nil => simpa using hmore
  | cons b bs ih =>
    cases bs with
    | nil =>
      have := parses_block b (hv b (List.mem_cons_self _ _)) hmore (hend b rfl)
      simpa using this
    | cons x xs =>
      have hrest := ih (fun y hy => hv y (List.mem_cons_of_mem _ hy))
        (fun y hy => hend y (by rw [List.getLast?_cons_cons]; exact hy))
      have := parses_block b (hv b (List.mem_cons_self _ _)) hrest
        (fun _ r _ => by
          simp only [List.map_cons, List.flatten_cons, List.append_assoc]
          exact block_indented x _)
      simpa [List.append_assoc] using this

/-- The blanks that follow the last block, and the end of the run of items. -/
theorem parses_tailItems (k : Nat) :
    Parses (star (alt rules_ruleSpaceComment inlineSection)) (List.replicate k 32) []
      (Next (fun d => isStopRune d = false ∧ d ≠ 91)) := by
  have hnil := parses_star_nil safe_grammarItem fails_grammarItem
  cases k with
  | zero => exact hnil
  | succ n =>
    have := parses_star_cons safe_grammarItem adv_grammarItem
      (parses_alt_left (g := inlineSection) (parses_spaceComment_blanks n)) hnil
      (fun r hr => by
        simpa using next_imp hr (fun d hd => not_stop_not_blank hd.1))
    simpa using this

theorem render_ne_nil (b : SrcBlock) : runes b.render ≠ [] := by
  obtain ⟨t, ht⟩ := block_head b []
  rw [runes_block]
  intro h
  rw [List.append_eq_nil] at h
  have h2 := h.2
  rw [← List.append_nil (match b.commented with
    | none => runes b.plain.render
    | some (l, c) => runes (b.plain.render ++ l.renderCommented c)), ht] at h2
  exact List.cons_ne_nil _ _ h2

theorem junk_head (junk : String) (P : Nat → Prop) (hend : P end_symbol)
    (h : ∀ c ∈ junk.toList.head?, P c.toNat) : Next P (runes junk ++ [end_symbol]) := by
  unfold runes
  cases hj : junk.toList with
  | nil => exact next_cons hend
  | cons c cs =>
    rw [hj] at h
    exact next_cons (h c rfl)

/-- `Parse` on the text of a list of blocks followed by blanks and by a text at which the
run of items of Grammar stops. -/
theorem Parse_renderBlocks (bs : List SrcBlock) (hne : bs ≠ []) (hv : ∀ b ∈ bs, b.valid)
    (k : Nat) (junk : String)
    (hjunk : ∀ c ∈ junk.toList.head?, isStopRune c.toNat = false ∧ c.toNat ≠ 91)
    (hlast : (∃ b, bs.getLast? = some b ∧ b.commented.isSome = true) ∨
      ∀ c ∈ junk.toList.head?, isIdentRune c.toNat = false)
    (hlen : (renderBlocks bs ++ String.mk (List.replicate k ' ') ++ junk).length < u32) :
    Parse (renderBlocks bs ++ String.mk (List.replicate k ' ') ++ junk) =
      .ok (some (bs.map (fun b => b.whole.expected)), none) := by
  have hinv := inv_init
    (config.new (renderBlocks bs ++ String.mk (List.replicate k ' ') ++ junk)) hlen
  have hrunes : (Init (config.new
      (renderBlocks bs ++ String.mk (List.replicate k ' ') ++ junk))).2.rest =
      ((bs.map (fun b => runes b.render)).flatten ++ List.replicate k 32) ++
        (runes junk ++ [end_symbol]) := by
    rw [init_rest, runes_append, runes_append, runes_blanks]
    unfold renderBlocks
    rw [runes_concat_map]
    simp [List.append_assoc]
  have hw : (bs.map (fun b => runes b.render)).flatten ++ List.replicate k 32 ≠ [] := by
    obtain ⟨b, bs1, rfl⟩ := List.exists_cons_of_ne_nil hne
    intro h
    simp only [List.map_cons, List.flatten_cons, List.append_eq_nil] at h
    exact render_ne_nil b h.1.1
  have hgram : ∃ s1, rules_ruleGrammar (Init (config.new
      (renderBlocks bs ++ String.mk (List.replicate k ' ') ++ junk))).2 = .ok (true, s1) ∧
      Step (Init (config.new
        (renderBlocks bs ++ String.mk (List.replicate k ' ') ++ junk))).2 s1
        ((bs.map (fun b => runes b.render)).flatten ++ List.replicate k 32)
        (bs.map (fun b => b.whole.ops)).flatten (runes junk ++ [end_symbol]) := by
    rcases hlast with ⟨b, hb, hbc⟩ | hid
    · have hstar := parses_blocks bs hv (parses_tailItems k) (fun y hy hyc => by
        rw [hb] at hy
        injection hy with hy
        subst hy
        rw [hyc] at hbc
        simp at hbc)
      have h0 := parses_ruleFn (parses_capture pegRule.ruleGrammar rfl
        (parses_plus safe_grammarItem adv_grammarItem hstar hw))
      exact h0 _ _ hinv hrunes (junk_head junk _ (by decide) hjunk)
    · have hstar := parses_blocks bs hv
        (parses_mono (parses_tailItems k)
          (fun r (hr : Next (fun d => (isStopRune d = false ∧ d ≠ 91) ∧
            isIdentRune d = false) r) => next_imp hr (fun d hd => hd.1)))
        (fun _ _ _ r hr => by
          obtain ⟨d, t, rfl, hd⟩ := hr
          exact ⟨k, d, t, rfl, not_stop_not_blank hd.1.1, hd.2⟩)
      have h0 := parses_ruleFn (parses_capture pegRule.ruleGrammar rfl
        (parses_plus safe_grammarItem adv_grammarItem hstar hw))
      exact h0 _ _ hinv hrunes (junk_head junk _ (by decide)
        (fun c hc => ⟨hjunk c hc, hid c hc⟩))
  obtain ⟨s1, h1, st⟩ := hgram
  have hsl : sectionSlice (bs.map (fun b => b.whole.expected)) =
      some (bs.map (fun b => b.whole.expected)) := by
    cases bs with
    | nil => exact absurd rfl hne
    | cons b bs1 => rfl
  rw [← hsl]
  refine Parse_of_grammar _ s1 (bs.map (fun b => b.whole.ops)).flatten h1 st.inv st.buffer_eq
    ?_ _ ?_
  · have := st.ops_eq
    simpa [Matcher.committed, Init, tokenSlice.make, opsOf] using this
  · intro p txt hp
    obtain ⟨p1, txt1, h2, h3⟩ := execOps_sections (bs.map SrcBlock.whole) p txt
    refine ⟨p1, txt1, ?_, ?_⟩
    · simpa [List.map_map] using h2
    · rw [h3, hp]
      simp [List.map_map]
/-! ## The token chain of a failed parse -/

theorem restore_self (s : Matcher) (d : Nat) : restore { s with depth := d } s = s := rfl

theorem lit_eq_true {s : Matcher} {c : Nat} (h : s.buffer[s.position]? = some c) :
    lit c s = .ok (true, { s with position := inc s.position }) := by
  simp [lit, h]

theorem lit_eq_false {s : Matcher} {c d : Nat} (h : s.buffer[s.position]? = some d)
    (hd : d ≠ c) : lit c s = .ok (false, s) := by
  simp [lit, h, hd]

theorem space_eq_false {s : Matcher} {d : Nat} (h : s.buffer[s.position]? = some d)
    (h1 : d ≠ 32) (h2 : d ≠ 9) : rules_ruleSpace s = .ok (false, s) := by
  have ha : ({ s with depth := inc s.depth } : Matcher).buffer[
      ({ s with depth := inc s.depth } : Matcher).position]? = some d := h
  simp only [rules_ruleSpace, ruleFn, capture, alt, lit_eq_false ha h1]
  have hb : (restore { s with depth := inc s.depth } { s with depth := inc s.depth }).buffer[
      (restore { s with depth := inc s.depth } { s with depth := inc s.depth }).position]? =
      some d := h
  simp only [lit_eq_false hb h2]
  rfl

theorem starSpace_eq {s : Matcher} {d : Nat} (h : s.buffer[s.position]? = some d)
    (h1 : d ≠ 32) (h2 : d ≠ 9) : star rules_ruleSpace s = .ok (true, s) := by
  unfold star
  have hlt : s.position < s.buffer.length := by
    by_contra hc
    rw [List.getElem?_eq_none (by omega)] at h
    exact Option.noConfusion h
  obtain ⟨k, hk⟩ : ∃ k, s.buffer.length = k + 1 := ⟨s.buffer.length - 1, by omega⟩
  rw [hk, starLoop, space_eq_false h h1 h2]
  rfl

theorem spaceComment_eq_false {s : Matcher} {d : Nat} (h : s.buffer[s.position]? = some d)
    (hd : isStopRune d = false) : rules_ruleSpaceComment s = .ok (false, s) := by
  simp only [isStopRune, Bool.or_eq_false_iff, beq_eq_false_iff_ne, ne_eq] at hd
  have ha : ({ s with depth := inc s.depth } : Matcher).buffer[
      ({ s with depth := inc s.depth } : Matcher).position]? = some d := h
  simp only [rules_ruleSpaceComment, ruleFn, capture, spaceCommentSwitch, ha, hd.1.1.1.1,
    hd.1.1.1.2, hd.1.1.2, or_self, if_false, seq, space_eq_false ha hd.2 hd.1.2]
  rfl

theorem identChar_eq_true {s : Matcher} {c : Nat} (h : s.buffer[s.position]? = some c)
    (hc : isIdentRune c = true) :
    identChar s = .ok (true, { s with position := inc s.position }) := by
  unfold identChar
  simp only [h]
  split_ifs with h1 h2 h3 h4 h5 h6
  · subst h1; exact lit_eq_true h
  · subst h2; exact lit_eq_true h
  · subst h3; exact lit_eq_true h
  · subst h4; exact lit_eq_true h
  · have : ¬ (c < 48 ∨ c > 57) := by omega
    simp [alt, range, h, this]
  · have : ¬ (c < 65 ∨ c > 90) := by omega
    simp [range, h, this]
  · have : ¬ (c < 97 ∨ c > 122) := by
      simp only [isIdentRune, Bool.or_eq_true, beq_iff_eq, Bool.and_eq_true,
        decide_eq_true_eq] at hc
      omega
    simp [range, h, this]

theorem identChar_eq_false {s : Matcher} {d : Nat} (h : s.buffer[s.position]? = some d)
    (hd : isIdentRune d = false) : identChar s = .ok (false, s) := by
  simp only [isIdentRune, Bool.or_eq_false_iff, beq_eq_false_iff_ne, Bool.and_eq_false_iff,
    decide_eq_false_iff_not, ne_eq] at hd
  unfold identChar
  simp only [h]
  have h1 : ¬ d = 46 := hd.1.1.1.1.1.1
  have h2 : ¬ d = 64 := hd.1.1.1.1.1.2
  have h3 : ¬ d = 45 := hd.1.1.1.1.2
  have h4 : ¬ d = 95 := hd.1.1.1.2
  have h5 : ¬ (48 ≤ d ∧ d ≤ 57) := by have := hd.1.1.2; omega
  have h6 : ¬ (65 ≤ d ∧ d ≤ 90) := by have := hd.1.2; omega
  have h7 : d < 97 ∨ d > 122 := by have := hd.2; omega
  simp [h1, h2, h3, h4, h5, h6, range, h, h7]

theorem identChars_eq (w : List Nat) (hw : ∀ c ∈ w, isIdentRune c = true) :
    ∀ (s : Matcher) (r : List Nat), Inv s → s.rest = w ++ r →
      Next (fun d => isIdentRune d = false) r →
      star identChar s = .ok (true, { s with position := s.position + w.length }) := by
  induction w with
  | nil =>
    intro s r hs hr hn
    obtain ⟨d, t, rfl, hd⟩ := hn
    have hpk : s.buffer[s.position]? = some d := by rw [peek_rest, hr]; rfl
    rw [star_stop hs (identChar_eq_false hpk hd)]
    rfl
  | cons c w ih =>
    intro s r hs hr hn
    have hpk : s.buffer[s.position]? = some c := by rw [peek_rest, hr]; rfl
    have hc := hw c (List.mem_cons_self _ _)
    have hstep := identChar_eq_true hpk hc
    have hne : c ≠ end_symbol := by
      intro h; rw [h] at hc; revert hc; decide
    have hinc := hs.inc_eq hpk hne
    rw [star_unroll safe_identChar adv_identChar hs hstep]
    have hs1 := hs.advance hpk hne
    have hr1 : ({ s with position := inc s.position } : Matcher).rest = w ++ r :=
      rest_after (s := s) (w := [c]) rfl hinc hr
    rw [ih (fun x hx => hw x (List.mem_cons_of_mem _ hx)) _ r hs1 hr1 hn]
    simp only [hinc, List.length_cons]
    congr 3
    omega

theorem capture_eq_false {rule : pegRule} {f : Rule} {s s1 : Matcher}
    (h : f { s with depth := inc s.depth } = .ok (false, s1)) :
    capture rule f s = .ok (false, s1) := by
  simp only [capture, h]

theorem identBody_eq (w : List Nat) (hne : w ≠ []) (hw : ∀ c ∈ w, isIdentRune c = true)
    (s : Matcher) (r : List Nat) (hs : Inv s) (hr : s.rest = w ++ r)
    (hn : Next (fun d => isIdentRune d = false) r) :
    seq identChar (star identChar) s =
      .ok (true, { s with position := s.position + w.length }) := by
  obtain ⟨c, v, rfl⟩ := List.exists_cons_of_ne_nil hne
  have hpk : s.buffer[s.position]? = some c := by rw [peek_rest, hr]; rfl
  have hc := hw c (List.mem_cons_self _ _)
  have hne1 : c ≠ end_symbol := by
    intro h; rw [h] at hc; revert hc; decide
  have hinc := hs.inc_eq hpk hne1
  have hr1 : ({ s with position := inc s.position } : Matcher).rest = v ++ r :=
    rest_after (s := s) (w := [c]) rfl hinc hr
  rw [(seq_ok _ _ _ _ _).2 (Or.inl ⟨_, identChar_eq_true hpk hc,
    identChars_eq v (fun x hx => hw x (List.mem_cons_of_mem _ hx)) _ r
      (hs.advance hpk hne1) hr1 hn⟩)]
  simp only [hinc, List.length_cons]
  congr 3
  omega


/-- The closure state after the start rule has failed on `[`, an identifier of `n`
characters and an end of line. -/
theorem grammar_unterminated_eq (buf t q : List Nat) (hbuf : buf = 91 :: (t ++ q))
    (hne : t ≠ []) (ht : ∀ c ∈ t, isIdentRune c = true)
    (hq : Next (fun d => d = 10 ∨ d = 13) q) (hlen : buf.length ≤ u32)
    (hlast : buf[buf.length - 1]? = some end_symbol) :
    rules_ruleGrammar ⟨buf, 0, 0, 0, ⟨[], 32767⟩, []⟩ =
      .ok (false, ⟨buf, 0, 0, 0,
        ⟨[⟨pegRule.ruleIdentifier, 1, 1 + t.length, 3⟩,
          ⟨pegRule.rulePegText, 1, 1 + t.length, 2⟩,
          ⟨pegRule.ruleAction0, 1 + t.length, 1 + t.length, 2⟩], 32767⟩,
        [⟨pegRule.ruleIdentifier, 1, 1 + t.length, 3⟩,
          ⟨pegRule.rulePegText, 1, 1 + t.length, 2⟩,
          ⟨pegRule.ruleAction0, 1 + t.length, 1 + t.length, 2⟩]⟩) := by
  obtain ⟨d, q1, rfl, hd⟩ := hq
  obtain ⟨c, hc, hcons⟩ : ∃ c, isIdentRune c = true ∧ ∃ t1, t = c :: t1 := by
    obtain ⟨c, t1, rfl⟩ := List.exists_cons_of_ne_nil hne
    exact ⟨c, ht c (List.mem_cons_self _ _), t1, rfl⟩
  have hcb := ident_not_blank hc
  have hdb : d ≠ 32 ∧ d ≠ 9 ∧ d ≠ 93 ∧ isIdentRune d = false := by
    rcases hd with rfl | rfl <;> decide
  have pk0 : buf[0]? = some 91 := by rw [hbuf]; simp
  have pk1 : buf[1]? = some c := by
    obtain ⟨t1, rfl⟩ := hcons
    rw [hbuf]; simp
  have pkn : buf[1 + t.length]? = some d := by
    rw [hbuf, Nat.add_comm, List.getElem?_cons_succ, List.getElem?_append_right (Nat.le_refl _)]
    simp
  have hlen2 : 1 + t.length < buf.length := by
    rw [hbuf]; simp; omega
  -- the identifier
  have hinvE : Inv ⟨buf, 1, 4, 0, ⟨[], 32767⟩, []⟩ :=
    ⟨by show 1 < buf.length; omega, hlen, hlast, Nat.le_refl _, Nat.zero_le _,
      by show 0 < 32767; decide, by intro x hx; simp at hx, by intro x hx; simp at hx⟩
  have hrestE : (⟨buf, 1, 4, 0, ⟨[], 32767⟩, []⟩ : Matcher).rest = t ++ (d :: q1) := by
    show buf.drop 1 = _
    rw [hbuf]; rfl
  have hbody : seq identChar (star identChar) ⟨buf, 1, 4, 0, ⟨[], 32767⟩, []⟩ =
      .ok (true, ⟨buf, 1 + t.length, 4, 0, ⟨[], 32767⟩, []⟩) :=
    identBody_eq t hne ht _ _ hinvE hrestE (next_cons hdb.2.2.2)
  have i0 : inc 0 = 1 := by norm_num [inc, u32]
  have i1 : inc 1 = 2 := by norm_num [inc, u32]
  have i2 : inc 2 = 3 := by norm_num [inc, u32]
  have i3 : inc 3 = 4 := by norm_num [inc, u32]
  have d4 : dec 4 = 3 := by norm_num [dec, u32]
  have d3 : dec 3 = 2 := by norm_num [dec, u32]
  have hId : rules_ruleIdentifier ⟨buf, 1, 3, 0, ⟨[], 32767⟩, []⟩ =
      .ok (true, ⟨buf, 1 + t.length, 3, 1,
        ⟨[⟨pegRule.ruleIdentifier, 1, 1 + t.length, 3⟩], 32767⟩,
        [⟨pegRule.ruleIdentifier, 1, 1 + t.length, 3⟩]⟩) := by
    simp only [rules_ruleIdentifier, ruleFn, capture, i3, hbody, d4]
    simp [add, Add, Expand, putAt]
  have hPT : capture pegRule.rulePegText rules_ruleIdentifier ⟨buf, 1, 2, 0, ⟨[], 32767⟩, []⟩ =
      .ok (true, ⟨buf, 1 + t.length, 2, 2,
        ⟨[⟨pegRule.ruleIdentifier, 1, 1 + t.length, 3⟩,
          ⟨pegRule.rulePegText, 1, 1 + t.length, 2⟩], 32767⟩,
        [⟨pegRule.ruleIdentifier, 1, 1 + t.length, 3⟩,
          ⟨pegRule.rulePegText, 1, 1 + t.length, 2⟩]⟩) := by
    simp only [capture, i2, hId, d3]
    simp [add, Add, Expand, putAt]
  have hA : action pegRule.ruleAction0 ⟨buf, 1 + t.length, 2, 2,
        ⟨[⟨pegRule.ruleIdentifier, 1, 1 + t.length, 3⟩,
          ⟨pegRule.rulePegText, 1, 1 + t.length, 2⟩], 32767⟩,
        [⟨pegRule.ruleIdentifier, 1, 1 + t.length, 3⟩,
          ⟨pegRule.rulePegText, 1, 1 + t.length, 2⟩]⟩ =
      .ok (true, ⟨buf, 1 + t.length, 2, 3,
        ⟨[⟨pegRule.ruleIdentifier, 1, 1 + t.length, 3⟩,
          ⟨pegRule.rulePegText, 1, 1 + t.length, 2⟩,
          ⟨pegRule.ruleAction0, 1 + t.length, 1 + t.length, 2⟩], 32767⟩,
        [⟨pegRule.ruleIdentifier, 1, 1 + t.length, 3⟩,
          ⟨pegRule.rulePegText, 1, 1 + t.length, 2⟩,
          ⟨pegRule.ruleAction0, 1 + t.length, 1 + t.length, 2⟩]⟩) := by
    simp [action, add, Add, Expand, putAt]
  generalize hH : (⟨buf, 1 + t.length, 2, 3,
        ⟨[⟨pegRule.ruleIdentifier, 1, 1 + t.length, 3⟩,
          ⟨pegRule.rulePegText, 1, 1 + t.length, 2⟩,
          ⟨pegRule.ruleAction0, 1 + t.length, 1 + t.length, 2⟩], 32767⟩,
        [⟨pegRule.ruleIdentifier, 1, 1 + t.length, 3⟩,
          ⟨pegRule.rulePegText, 1, 1 + t.length, 2⟩,
          ⟨pegRule.ruleAction0, 1 + t.length, 1 + t.length, 2⟩]⟩ : Matcher) = H at hA
  have pkH : H.buffer[H.position]? = some d := by rw [← hH]; exact pkn
  have hSp : rules_ruleSpace H = .ok (false, H) := space_eq_false pkH hdb.1 hdb.2.1
  have hSID : inlineSectionID H = .ok (true, H) := by
    simp only [inlineSectionID, opt, seq, hSp]
    rfl
  have hSS : star rules_ruleSpace H = .ok (true, H) := starSpace_eq pkH hdb.1 hdb.2.1
  have hL : lit 93 H = .ok (false, H) := lit_eq_false pkH hdb.2.2.1
  have hS0 : star rules_ruleSpace ⟨buf, 0, 2, 0, ⟨[], 32767⟩, []⟩ =
      .ok (true, ⟨buf, 0, 2, 0, ⟨[], 32767⟩, []⟩) :=
    starSpace_eq (d := 91) pk0 (by decide) (by decide)
  have hL0 : lit 91 ⟨buf, 0, 2, 0, ⟨[], 32767⟩, []⟩ =
      .ok (true, ⟨buf, 1, 2, 0, ⟨[], 32767⟩, []⟩) := by
    rw [lit_eq_true (s := ⟨buf, 0, 2, 0, ⟨[], 32767⟩, []⟩) pk0]
    simp only [i0]
  have hS1 : star rules_ruleSpace ⟨buf, 1, 2, 0, ⟨[], 32767⟩, []⟩ =
      .ok (true, ⟨buf, 1, 2, 0, ⟨[], 32767⟩, []⟩) :=
    starSpace_eq (s := ⟨buf, 1, 2, 0, ⟨[], 32767⟩, []⟩) pk1 hcb.1 hcb.2
  have hSec : inlineSection ⟨buf, 0, 1, 0, ⟨[], 32767⟩, []⟩ = .ok (false, H) := by
    unfold inlineSection
    refine capture_eq_false ?_
    simp only [i1, seq, hS0, hL0, hS1, hPT, hA, hSID, hSS, hL]
  have hSC : rules_ruleSpaceComment ⟨buf, 0, 1, 0, ⟨[], 32767⟩, []⟩ =
      .ok (false, ⟨buf, 0, 1, 0, ⟨[], 32767⟩, []⟩) :=
    spaceComment_eq_false (s := ⟨buf, 0, 1, 0, ⟨[], 32767⟩, []⟩) pk0 (by decide)
  have hr0 : restore ⟨buf, 0, 1, 0, ⟨[], 32767⟩, []⟩ ⟨buf, 0, 1, 0, ⟨[], 32767⟩, []⟩ =
      ⟨buf, 0, 1, 0, ⟨[], 32767⟩, []⟩ := rfl
  simp only [rules_ruleGrammar, ruleFn, capture, i0, seq, alt, hSC, hr0, hSec]
  rw [← hH]
  rfl



theorem init_state (data : String) :
    (Init (config.new data)).2 = ⟨initBuffer data, 0, 0, 0, ⟨[], 32767⟩, []⟩ := rfl

theorem live_three (a : Nat) :
    tokenSlice.liveTokens ⟨[⟨pegRule.ruleIdentifier, 1, a, 3⟩, ⟨pegRule.rulePegText, 1, a, 2⟩,
        ⟨pegRule.ruleAction0, a, a, 2⟩], 32767⟩ =
      [⟨pegRule.ruleIdentifier, 1, a, 3⟩, ⟨pegRule.rulePegText, 1, a, 2⟩,
        ⟨pegRule.ruleAction0, a, a, 2⟩] := by
  simp [tokenSlice.liveTokens, List.takeWhile]

theorem count_three (a : Nat) :
    countDepths [⟨pegRule.ruleIdentifier, 1, a, 3⟩, ⟨pegRule.rulePegText, 1, a, 2⟩,
        ⟨pegRule.ruleAction0, a, a, 2⟩] [0] = .ok [0, 0, 2, 1] := by
  simp [countDepths, List.replicate, List.modify, List.modifyHead, List.modifyTailIdx, u32]

theorem tokens_three (p : config) (a : Nat)
    (h : p.tokenTree = some ⟨⟨[⟨pegRule.ruleIdentifier, 1, a, 3⟩, ⟨pegRule.rulePegText, 1, a, 2⟩,
        ⟨pegRule.ruleAction0, a, a, 2⟩], 32767⟩, none⟩) :
    parseError.tokens ⟨p⟩ = .ok [token32.zero, ⟨pegRule.ruleIdentifier, 1, a, 0⟩,
        ⟨pegRule.ruleAction0, a, a, 2⟩, token32.zero, token32.zero] := by
  simp only [parseError.tokens, h, tokens32.Error, tokens32.Order, live_three, count_three]
  simp [carve, int32Negative, scatter, List.replicate, u32]

/-- The token chain that `Error` reports after the failed parse of `[`, an identifier
`t` and a remainder that starts with an end of line. -/
theorem errorTokens_unterminated (t r : String) (ht : IsIdentifier t)
    (hr : r.toList.head? = some '\n' ∨ r.toList.head? = some '\r')
    (hlen : ("[" ++ t ++ r).length < 2 ^ 32) :
    errorTokens ("[" ++ t ++ r) = .ok (some
      [token32.zero, ⟨pegRule.ruleIdentifier, 1, 1 + t.length, 0⟩,
        ⟨pegRule.ruleAction0, 1 + t.length, 1 + t.length, 2⟩, token32.zero, token32.zero]) := by
  have hinv := inv_init (config.new ("[" ++ t ++ r)) hlen
  obtain ⟨q, hq, hn⟩ := unterminated_rest t r hr
  have hk := ident_runes ht
  generalize "[" ++ t ++ r = data at hinv hq ⊢
  rw [init_state] at hinv hq
  have hbuf : initBuffer data = 91 :: (runes t ++ q) := by
    simpa [Matcher.rest] using hq
  have hrun := grammar_unterminated_eq (initBuffer data) (runes t) q hbuf hk.1 hk.2
    hn hinv.len_le hinv.last
  have hl : (runes t).length = t.length := by
    unfold runes
    rw [List.length_map]
    rfl
  rw [hl] at hrun
  rw [← init_state] at hrun
  have hP : ∃ p : config, Parse data = .ok (none, some ⟨p⟩) ∧
      p.tokenTree = some ⟨⟨[⟨pegRule.ruleIdentifier, 1, 1 + t.length, 3⟩,
        ⟨pegRule.rulePegText, 1, 1 + t.length, 2⟩,
        ⟨pegRule.ruleAction0, 1 + t.length, 1 + t.length, 2⟩], 32767⟩, none⟩ := by
    refine ⟨{ (Init (config.new data)).1 with
      tokenTree := some ⟨⟨[⟨pegRule.ruleIdentifier, 1, 1 + t.length, 3⟩,
        ⟨pegRule.rulePegText, 1, 1 + t.length, 2⟩,
        ⟨pegRule.ruleAction0, 1 + t.length, 1 + t.length, 2⟩], 32767⟩, none⟩ }, ?_, rfl⟩
    simp only [Parse, parseRun, config.Parse, hrun]
  obtain ⟨p, hP, hp⟩ := hP
  unfold errorTokens
  rw [hP]
  simp only [tokens_three p (1 + t.length) hp]

/-- C7 as stated fails on the code: after the failed parse of `[core\n  a = 1\n` the token
chain that `Error` reports exists and none of its tokens has the rule Section. -/
theorem unterminated_chain_lacks_section :
    ∃ toks, errorTokens "[core\n  a = 1\n" = .ok (some toks) ∧
      ∀ tok ∈ toks, tok.pegRule ≠ pegRule.ruleSection :=
  ⟨[token32.zero, ⟨pegRule.ruleIdentifier, 1, 5, 0⟩, ⟨pegRule.ruleAction0, 5, 5, 2⟩,
      token32.zero, token32.zero],
    errorTokens_unterminated "core" "\n  a = 1\n" (by decide!) (by decide!) (by decide!),
    by decide⟩

/-- C7, amended. For every identifier `t` and every remainder `r` that starts with an end
of line, the token chain that `Error` reports after the failed parse of `[` followed by
`t` and `r` (fewer than `2 ^ 32` characters) is the zero token, the Identifier token of
`t` (characters `1` to `1 + |t|`), the Action0 token placed after it, and two zero tokens:
it names the identifier of the header, and no token of it has the rule Section. -/
theorem unterminated_header_chain (t r : String) (ht : IsIdentifier t)
    (hr : r.toList.head? = some '\n' ∨ r.toList.head? = some '\r')
    (hlen : ("[" ++ t ++ r).length < 2 ^ 32) :
    ∃ toks, errorTokens ("[" ++ t ++ r) = .ok (some toks) ∧
      toks = [token32.zero, ⟨pegRule.ruleIdentifier, 1, 1 + t.length, 0⟩,
        ⟨pegRule.ruleAction0, 1 + t.length, 1 + t.length, 2⟩, token32.zero, token32.zero] ∧
      ∀ tok ∈ toks, tok.pegRule ≠ pegRule.ruleSection := by
  refine ⟨_, errorTokens_unterminated t r ht hr hlen, rfl, ?_⟩
  intro tok htok
  simp only [List.mem_cons, List.mem_singleton, List.not_mem_nil, or_false] at htok
  rcases htok with rfl | rfl | rfl | rfl | rfl <;> simp [token32.zero]

theorem unterminated_header_chain_witness :
    "[" ++ "core" ++ "\n  a = 1\n" = "[core\n  a = 1\n" ∧
    ∃ toks, errorTokens ("[" ++ "core" ++ "\n  a = 1\n") = .ok (some toks) ∧
      toks = [token32.zero, ⟨pegRule.ruleIdentifier, 1, 1 + "core".length, 0⟩,
        ⟨pegRule.ruleAction0, 1 + "core".length, 1 + "core".length, 2⟩, token32.zero,
        token32.zero] ∧
      ∀ tok ∈ toks, tok.pegRule ≠ pegRule.ruleSection :=
  ⟨by decide!, unterminated_header_chain "core" "\n  a = 1\n" (by decide!) (by decide!)
    (by decide!)⟩
/-! ## The buckets of `Order` -/

theorem depthSpan_ge (toks : List token32) (n : Nat) : n ≤ depthSpan toks n := by
  induction toks generalizing n with
  | nil => exact Nat.le_refl _
  | cons t ts ih =>
    exact Nat.le_trans (Nat.le_max_left _ _) (ih _)

theorem depthSpan_mem (toks : List token32) (n : Nat) :
    ∀ t ∈ toks, t.next < depthSpan toks n := by
  induction toks generalizing n with
  | nil => intro t ht; simp at ht
  | cons x xs ih =>
    intro t ht
    rcases List.mem_cons.1 ht with rfl | h
    · exact Nat.lt_of_lt_of_le (Nat.lt_of_lt_of_le (Nat.lt_succ_self _) (Nat.le_max_right _ _))
        (depthSpan_ge xs _)
    · exact ih _ t h

theorem getD_modify (l : List Nat) (f : Nat → Nat) (i d : Nat) (hi : i < l.length) :
    (l.modify f i).getD d 0 = if d = i then f (l.getD d 0) else l.getD d 0 := by
  simp only [List.getD_eq_getElem?_getD, List.getElem?_modify]
  by_cases h : d = i
  · subst h
    simp [List.getElem?_eq_getElem hi]
  · have : ¬ i = d := fun e => h e.symm
    simp [h, this]

theorem getD_pad (l : List Nat) (k d : Nat) :
    (l ++ List.replicate k 0).getD d 0 = l.getD d 0 := by
  simp only [List.getD_eq_getElem?_getD]
  by_cases h : d < l.length
  · rw [List.getElem?_append_left h]
  · rw [List.getElem?_append_right (by omega), List.getElem?_eq_none (l := l) (by omega)]
    simp only [List.getElem?_replicate]
    split <;> rfl

theorem sum_modify (l : List Nat) (i : Nat) (hi : i < l.length) (g : Nat → Nat) :
    (l.modify g i).sum + l.getD i 0 = l.sum + g (l.getD i 0) := by
  induction l generalizing i with
  | nil => simp at hi
  | cons x xs ih =>
    cases i with
    | zero => simp [List.modify, List.modifyHead, List.modifyTailIdx]; omega
    | succ n =>
      have := ih n (by simpa using hi)
      simp only [List.modify_succ_cons, List.sum_cons, List.getD_cons_succ]
      omega

/-- The first loop of `Order` on tokens of depths below `math.MaxInt16`, fewer than
`2 ^ 32` of a kind: the result holds the counts, spans the depths, and sums up to the
number of tokens. -/
theorem countDepths_ok (toks : List token32) :
    ∀ depths : List Nat, (∀ t ∈ toks, t.next < 32767) →
      (∀ d, depths.getD d 0 + depthCount toks d < u32) →
      ∃ res, countDepths toks depths = .ok res ∧
        res.length = depthSpan toks depths.length ∧
        (∀ d, res.getD d 0 = depths.getD d 0 + depthCount toks d) ∧
        res.sum = depths.sum + toks.length := by
  induction toks with
  | nil =>
    intro depths _ _
    exact ⟨depths, rfl, rfl, fun d => by simp [depthCount], by simp⟩
  | cons t ts ih =>
    intro depths hb hw
    have ht := hb t (List.mem_cons_self _ _)
    have hcount : ∀ d, depthCount (t :: ts) d =
        depthCount ts d + (if d = t.next then 1 else 0) := by
      intro d
      unfold depthCount
      rw [List.countP_cons]
      by_cases h : d = t.next
      · simp [h]
      · have : ¬ t.next = d := fun e => h e.symm
        simp [h, this]
    have hwt := hw t.next
    rw [hcount] at hwt
    simp only [if_true] at hwt
    unfold countDepths
    simp only
    by_cases hlen : t.next ≥ depths.length
    · simp only [hlen, if_true, show t.next + 1 ≤ 32767 from ht]
      have hpl : t.next < (depths ++ List.replicate (t.next + 1 - depths.length) 0).length := by
        simp; omega
      obtain ⟨res, h1, h2, h3, h4⟩ := ih
        ((depths ++ List.replicate (t.next + 1 - depths.length) 0).modify
          (fun n => (n + 1) % u32) t.next)
        (fun x hx => hb x (List.mem_cons_of_mem _ hx))
        (fun d => by
          rw [getD_modify _ _ _ _ hpl, getD_pad]
          have := hw d
          rw [hcount] at this
          by_cases hd : d = t.next
          · simp only [hd, if_true] at this ⊢
            rw [Nat.mod_eq_of_lt (by omega)]
            omega
          · simp only [hd, if_false] at this ⊢
            omega)
      refine ⟨res, h1, ?_, ?_, ?_⟩
      · rw [h2]
        simp only [List.length_modify, List.length_append, List.length_replicate, depthSpan,
          List.foldl_cons]
        congr 1
        omega
      · intro d
        rw [h3, getD_modify _ _ _ _ hpl, getD_pad, hcount]
        by_cases hd : d = t.next
        · simp only [hd, if_true]
          rw [Nat.mod_eq_of_lt (by omega)]
          omega
        · simp only [hd, if_false]
          omega
      · rw [h4]
        have hs := sum_modify (depths ++ List.replicate (t.next + 1 - depths.length) 0) t.next hpl
          (fun n => (n + 1) % u32)
        rw [getD_pad] at hs
        rw [Nat.mod_eq_of_lt (by omega)] at hs
        simp only [List.sum_append, List.sum_replicate, smul_eq_mul, Nat.mul_zero,
          Nat.add_zero, List.length_cons] at hs ⊢
        omega
    · have hlt : t.next < depths.length := by omega
      simp only [hlen, if_false]
      obtain ⟨res, h1, h2, h3, h4⟩ := ih (depths.modify (fun n => (n + 1) % u32) t.next)
        (fun x hx => hb x (List.mem_cons_of_mem _ hx))
        (fun d => by
          rw [getD_modify _ _ _ _ hlt]
          have := hw d
          rw [hcount] at this
          by_cases hd : d = t.next
          · simp only [hd, if_true] at this ⊢
            rw [Nat.mod_eq_of_lt (by omega)]
            omega
          · simp only [hd, if_false] at this ⊢
            omega)
      refine ⟨res, h1, ?_, ?_, ?_⟩
      · rw [h2]
        simp only [List.length_modify, depthSpan, List.foldl_cons]
        congr 1
        omega
      · intro d
        rw [h3, getD_modify _ _ _ _ hlt, hcount]
        by_cases hd : d = t.next
        · simp only [hd, if_true]
          rw [Nat.mod_eq_of_lt (by omega)]
          omega
        · simp only [hd, if_false]
          omega
      · rw [h4]
        have hs := sum_modify depths t.next hlt (fun n => (n + 1) % u32)
        rw [Nat.mod_eq_of_lt (by omega)] at hs
        simp only [List.length_cons]
        omega
/-- The second loop of `Order` when no counter overflows and the pool is large enough. -/
theorem carve_ok (counts : List Nat) :
    ∀ pool, (∀ c ∈ counts, c + 1 < 2147483648) → (counts.map (fun c => c + 1)).sum ≤ pool →
      carve counts pool =
        .ok (counts.map (fun c => List.replicate (c + 1) token32.zero)) := by
  induction counts with
  | nil => intro pool _ _; rfl
  | cons c cs ih =>
    intro pool hc hp
    have h1 := hc c (List.mem_cons_self _ _)
    simp only [List.map_cons, List.sum_cons] at hp
    have hm : (c + 1) % u32 = c + 1 := Nat.mod_eq_of_lt (by unfold u32; omega)
    unfold carve
    simp only [hm]
    have hn : int32Negative (c + 1) = false := by
      unfold int32Negative
      simp only [decide_eq_false_iff_not]
      omega
    have hle : c + 1 ≤ pool := by omega
    simp only [hn, hle, and_self, if_true]
    rw [ih (pool - (c + 1)) (fun x hx => hc x (List.mem_cons_of_mem _ hx)) (by omega)]
    rfl

theorem bucketSpec_cons (i : Nat) (t : token32) (ts : List token32) (d : Nat) :
    bucketSpec i (t :: ts) d =
      if t.next = d then { t with next := i } :: bucketSpec (i + 1) ts d
      else bucketSpec (i + 1) ts d := by
  unfold bucketSpec
  simp only [List.enumFrom_cons, List.filter_cons]
  split <;> rename_i h <;> simp at h <;> simp [h]

/-- The third loop of `Order` from buckets that hold `pre d` followed by one zero token
more than there are tokens of depth `d` to come. -/
theorem scatter_ok (toks : List token32) :
    ∀ (i : Nat) (ordered : List (List token32)) (depths : List Nat)
      (pre : Nat → List token32),
      depths.length = ordered.length → (∀ t ∈ toks, t.next < ordered.length) →
      i + toks.length ≤ u32 →
      (∀ d, d < ordered.length →
        ordered[d]? = some (pre d ++ List.replicate (depthCount toks d + 1) token32.zero) ∧
        depths[d]? = some (pre d).length ∧ (pre d).length + depthCount toks d + 1 < u32) →
      ∃ res, scatter toks i ordered depths = .ok res ∧ res.length = ordered.length ∧
        ∀ d, d < ordered.length →
          res[d]? = some (pre d ++ bucketSpec i toks d ++ [token32.zero]) := by
  induction toks with
  | nil =>
    intro i ordered depths pre _ _ _ h
    refine ⟨ordered, rfl, rfl, fun d hd => ?_⟩
    rw [(h d hd).1]
    simp [bucketSpec, depthCount]
  | cons t ts ih =>
    intro i ordered depths pre hl hb hi h
    have ht := hb t (List.mem_cons_self _ _)
    obtain ⟨ho, hd, hw⟩ := h t.next ht
    have hcount : ∀ d, depthCount (t :: ts) d =
        depthCount ts d + (if d = t.next then 1 else 0) := by
      intro d
      unfold depthCount
      rw [List.countP_cons]
      by_cases h : d = t.next
      · simp [h]
      · have : ¬ t.next = d := fun e => h e.symm
        simp [h, this]
    rw [hcount] at ho hw
    simp only [if_true] at ho hw
    simp only [List.length_cons] at hi
    unfold scatter
    simp only [ho, hd]
    have hk : (pre t.next).length <
        (pre t.next ++ List.replicate (depthCount ts t.next + 1 + 1) token32.zero).length := by
      simp
    simp only [hk, if_true]
    have hi1 : i % u32 = i := Nat.mod_eq_of_lt (by omega)
    have hk1 : ((pre t.next).length + 1) % u32 = (pre t.next).length + 1 :=
      Nat.mod_eq_of_lt (by omega)
    rw [hi1, hk1]
    have hset : (pre t.next ++ List.replicate (depthCount ts t.next + 1 + 1) token32.zero).set
        (pre t.next).length { t with next := i } =
        (pre t.next ++ [{ t with next := i }]) ++
          List.replicate (depthCount ts t.next + 1) token32.zero := by
      rw [List.set_append_right _ _ (Nat.le_refl _), Nat.sub_self, List.replicate_succ,
        List.set_cons_zero, List.append_assoc]
      rfl
    rw [hset]
    obtain ⟨res, h1, h2, h3⟩ := ih (i + 1)
      (ordered.set t.next ((pre t.next ++ [{ t with next := i }]) ++
          List.replicate (depthCount ts t.next + 1) token32.zero))
      (depths.set t.next ((pre t.next).length + 1))
      (fun d => if d = t.next then pre d ++ [{ t with next := i }] else pre d)
      (by simp [hl]) (fun x hx => by simpa using hb x (List.mem_cons_of_mem _ hx))
      (by omega)
      (fun d hdl => by
        simp only [List.length_set] at hdl
        obtain ⟨ho1, hd1, hw1⟩ := h d hdl
        rw [hcount] at ho1 hw1
        by_cases he : d = t.next
        · subst he
          simp only [if_true] at hw1 ⊢
          refine ⟨?_, ?_, ?_⟩
          · rw [List.getElem?_set_self hdl]
          · rw [List.getElem?_set_self (by rw [hl]; exact hdl)]
            simp
          · simp only [List.length_append, List.length_singleton]
            omega
        · have he1 : ¬ t.next = d := fun e => he e.symm
          simp only [he, if_false, Nat.add_zero] at ho1 hw1 ⊢
          refine ⟨?_, ?_, hw1⟩
          · rw [List.getElem?_set_ne he1]
            exact ho1
          · rw [List.getElem?_set_ne he1]
            exact hd1)
    refine ⟨res, h1, by simpa using h2, fun d hdl => ?_⟩
    rw [h3 d (by simpa using hdl), bucketSpec_cons]
    by_cases he : d = t.next
    · subst he
      simp
    · have he1 : ¬ t.next = d := fun e => he e.symm
      simp [he, he1]
theorem depthCount_le (toks : List token32) (d : Nat) : depthCount toks d ≤ toks.length :=
  List.countP_le_length _

theorem depthCount_zero (toks : List token32) (d : Nat) (h : ∀ t ∈ toks, t.next < d) :
    depthCount toks d = 0 := by
  unfold depthCount
  rw [List.countP_eq_zero]
  intro t ht
  have := h t ht
  simp only [decide_eq_true_eq]
  omega

theorem sum_map_succ (l : List Nat) : (l.map (fun c => c + 1)).sum = l.sum + l.length := by
  induction l with
  | nil => rfl
  | cons x xs ih => simp only [List.map_cons, List.sum_cons, List.length_cons, ih]; omega

/-- `Order` on a store without cached buckets whose live tokens have depths below
`math.MaxInt16` and number fewer than `2 ^ 31 - 1`: it returns, with one bucket for every
depth up to the deepest and one more, every bucket holding the tokens of its depth in
emission order, their `next` set to the emission index, and then one zero token. -/
theorem Order_ok (t : tokens32) (hnone : t.ordered = none)
    (hb : ∀ tok ∈ t.tree.liveTokens, tok.next < 32767)
    (hn : t.tree.liveTokens.length < 2147483647) :
    ∃ ordered, t.Order = .ok (ordered,
        ⟨⟨t.tree.liveTokens, t.tree.liveTokens.length⟩, some ordered⟩) ∧
      ordered.length = depthSpan t.tree.liveTokens 1 + 1 ∧
      ∀ d, d < ordered.length →
        ordered[d]? = some (bucketSpec 0 t.tree.liveTokens d ++ [token32.zero]) := by
  generalize hlive : t.tree.liveTokens = live at hb hn ⊢
  obtain ⟨res, h1, h2, h3, h4⟩ := countDepths_ok live [0] hb (fun d => by
    have := depthCount_le live d
    have h0 : ([0] : List Nat).getD d 0 = 0 := by
      cases d <;> rfl
    rw [h0]
    unfold u32
    omega)
  have hres : ∀ d, res.getD d 0 = depthCount live d := by
    intro d
    rw [h3]
    have h0 : ([0] : List Nat).getD d 0 = 0 := by
      cases d <;> rfl
    rw [h0, Nat.zero_add]
  simp only [List.length_singleton, List.sum_singleton, Nat.zero_add] at h2 h4
  have hcarve := carve_ok (res ++ [0]) (live.length + (res ++ [0]).length)
    (fun c hc => by
      rcases List.mem_append.1 hc with h | h
      · obtain ⟨d, hd, rfl⟩ := List.getElem_of_mem h
        have := hres d
        rw [List.getD_eq_getElem?_getD, List.getElem?_eq_getElem hd, Option.getD_some] at this
        rw [this]
        have := depthCount_le live d
        omega
      · rw [List.mem_singleton.1 h]
        decide)
    (by
      rw [sum_map_succ, List.sum_append, List.sum_singleton, h4]
      omega)
  have hsc := scatter_ok live 0
    ((res ++ [0]).map (fun c => List.replicate (c + 1) token32.zero))
    ((res ++ [0]).map (fun _ => 0)) (fun _ => [])
    (by simp)
    (fun x hx => by
      have := depthSpan_mem live 1 x hx
      simp only [List.length_map, List.length_append, List.length_singleton, h2]
      omega)
    (by unfold u32; omega)
    (fun d hd => by
      simp only [List.length_map, List.length_append, List.length_singleton] at hd
      refine ⟨?_, ?_, ?_⟩
      · simp only [List.getElem?_map, List.nil_append]
        by_cases hlt : d < res.length
        · rw [List.getElem?_append_left hlt]
          have := hres d
          rw [List.getD_eq_getElem?_getD, List.getElem?_eq_getElem hlt,
            Option.getD_some] at this
          rw [List.getElem?_eq_getElem hlt, Option.map_some', this]
        · have hde : d = res.length := by omega
          subst hde
          rw [List.getElem?_append_right (Nat.le_refl _), Nat.sub_self]
          rw [depthCount_zero live res.length (fun x hx => by
            rw [h2]; exact depthSpan_mem live 1 x hx)]
          rfl
      · simp only [List.getElem?_map, List.length_nil]
        rw [List.getElem?_eq_getElem (by simp; omega)]
        rfl
      · have := depthCount_le live d
        simp only [List.length_nil]
        unfold u32
        omega)
  obtain ⟨ordered, hs1, hs2, hs3⟩ := hsc
  refine ⟨ordered, ?_, ?_, ?_⟩
  · unfold tokens32.Order
    simp only [hnone, hlive, h1, hcarve, hs1]
  · rw [hs2]
    simp [h2]
  · intro d hd
    rw [hs3 d (by rw [← hs2]; exact hd)]
    rfl
/-! ## Claims about `Order` and `Error` -/

theorem liveTokens_all (t : tokenSlice)
    (h : ∀ tok ∈ t.toList, tok.pegRule ≠ pegRule.ruleUnknown) :
    t.liveTokens = t.toList := by
  have hlen : t.len ≤ t.cells.length := by
    by_contra hc
    have hz : token32.zero ∈ t.toList := by
      unfold tokenSlice.toList
      rw [List.mem_iff_getElem?]
      refine ⟨t.cells.length, ?_⟩
      rw [List.getElem?_take_of_lt (by omega), List.getElem?_append_right (Nat.le_refl _),
        Nat.sub_self, List.getElem?_replicate]
      simp
      omega
    exact h _ hz rfl
  have htl : t.toList = t.cells.take t.len := by
    unfold tokenSlice.toList
    rw [List.take_append_of_le_length hlen]
  unfold tokenSlice.liveTokens
  rw [htl] at h ⊢
  rw [List.takeWhile_eq_self_iff]
  intro tok htok
  simpa using h tok htok

/-- C13. Bucketing idempotence: whenever a call of `Order` has returned buckets and left
the token store in some state, a second call of `Order` on that store returns the same
buckets and leaves the store as the first call left it. -/
theorem Order_idempotent (t t1 : tokens32) (ordered : List (List token32))
    (h : t.Order = .ok (ordered, t1)) : t1.Order = .ok (ordered, t1) := by
  unfold tokens32.Order at h
  cases ho : t.ordered with
  | some o =>
    rw [ho] at h
    simp only [Except.ok.injEq, Prod.mk.injEq] at h
    obtain ⟨rfl, rfl⟩ := h
    unfold tokens32.Order
    rw [ho]
  | none =>
    rw [ho] at h
    simp only at h
    split at h
    · simp at h
    · split at h
      · simp at h
      · split at h
        · simp at h
        · simp only [Except.ok.injEq, Prod.mk.injEq] at h
          obtain ⟨rfl, rfl⟩ := h
          rfl

theorem Order_idempotent_witness :
    tokens32.Order ⟨⟨[⟨pegRule.ruleIdentifier, 1, 2, 1⟩, ⟨pegRule.rulePegText, 1, 2, 0⟩], 2⟩,
        none⟩ =
      .ok ([[⟨pegRule.rulePegText, 1, 2, 1⟩, token32.zero],
          [⟨pegRule.ruleIdentifier, 1, 2, 0⟩, token32.zero], [token32.zero]],
        ⟨⟨[⟨pegRule.ruleIdentifier, 1, 2, 1⟩, ⟨pegRule.rulePegText, 1, 2, 0⟩], 2⟩,
          some [[⟨pegRule.rulePegText, 1, 2, 1⟩, token32.zero],
            [⟨pegRule.ruleIdentifier, 1, 2, 0⟩, token32.zero], [token32.zero]]⟩) ∧
    tokens32.Order ⟨⟨[⟨pegRule.ruleIdentifier, 1, 2, 1⟩, ⟨pegRule.rulePegText, 1, 2, 0⟩], 2⟩,
          some [[⟨pegRule.rulePegText, 1, 2, 1⟩, token32.zero],
            [⟨pegRule.ruleIdentifier, 1, 2, 0⟩, token32.zero], [token32.zero]]⟩ =
      .ok ([[⟨pegRule.rulePegText, 1, 2, 1⟩, token32.zero],
          [⟨pegRule.ruleIdentifier, 1, 2, 0⟩, token32.zero], [token32.zero]],
        ⟨⟨[⟨pegRule.ruleIdentifier, 1, 2, 1⟩, ⟨pegRule.rulePegText, 1, 2, 0⟩], 2⟩,
          some [[⟨pegRule.rulePegText, 1, 2, 1⟩, token32.zero],
            [⟨pegRule.ruleIdentifier, 1, 2, 0⟩, token32.zero], [token32.zero]]⟩) :=
  ⟨by decide!, Order_idempotent
    ⟨⟨[⟨pegRule.ruleIdentifier, 1, 2, 1⟩, ⟨pegRule.rulePegText, 1, 2, 0⟩], 2⟩, none⟩ _ _
    (by decide!)⟩
theorem mem_bucketSpec (toks : List token32) :
    ∀ (i d : Nat) (e : token32), e ∈ bucketSpec i toks d ↔
      ∃ (k : Nat) (tok : token32), toks[k]? = some tok ∧ tok.next = d ∧
        e = { tok with next := i + k } := by
  induction toks with
  | nil => intro i d e; simp [bucketSpec]
  | cons t ts ih =>
    intro i d e
    rw [bucketSpec_cons]
    constructor
    · intro h
      split at h
      · rename_i hd
        rcases List.mem_cons.1 h with rfl | h
        · exact ⟨0, t, by simp, hd, rfl⟩
        · obtain ⟨k, tok, h1, h2, h3⟩ := (ih _ _ _).1 h
          exact ⟨k + 1, tok, by simpa using h1, h2, by rw [h3]; congr 1; omega⟩
      · obtain ⟨k, tok, h1, h2, h3⟩ := (ih _ _ _).1 h
        exact ⟨k + 1, tok, by simpa using h1, h2, by rw [h3]; congr 1; omega⟩
    · rintro ⟨k, tok, h1, h2, h3⟩
      cases k with
      | zero =>
        simp only [List.getElem?_cons_zero, Option.some.injEq] at h1
        subst h1
        rw [if_pos h2, h3]
        exact List.mem_cons_self _ _
      | succ n =>
        simp only [List.getElem?_cons_succ] at h1
        have : e ∈ bucketSpec (i + 1) ts d :=
          (ih _ _ _).2 ⟨n, tok, h1, h2, by rw [h3]; congr 1; omega⟩
        split
        · exact List.mem_cons_of_mem _ this
        · exact this

theorem bucketSpec_sorted (toks : List token32) :
    ∀ (i d : Nat), (bucketSpec i toks d).Pairwise (fun a b => a.next < b.next) := by
  induction toks with
  | nil => intro i d; simp [bucketSpec]
  | cons t ts ih =>
    intro i d
    rw [bucketSpec_cons]
    split
    · refine List.Pairwise.cons ?_ (ih _ _)
      intro b hb
      obtain ⟨k, tok, _, _, rfl⟩ := (mem_bucketSpec ts _ _ _).1 hb
      show i < i + 1 + k
      omega
    · exact ih _ _

/-- C15. `Order` is a lossless regrouping by depth. For every token store without cached
buckets whose tokens are all tagged (none is `Unknown`), have depths below `math.MaxInt16`
and number fewer than `2 ^ 31 - 1`, `Order` returns and leaves the tokens as they are;
bucket `d` is, before its one trailing zero token, exactly the tokens of depth `d` in
emission order with rule, begin and end unchanged and `next` set to the emission index;
every token has a bucket for its depth; and the token of index `i` is found, under the
index `i`, in the bucket of its depth and in no other, the indices within a bucket
strictly increasing. -/
theorem Order_regroups (t : tokens32) (hnone : t.ordered = none)
    (hu : ∀ tok ∈ t.tree.toList, tok.pegRule ≠ pegRule.ruleUnknown)
    (hb : ∀ tok ∈ t.tree.toList, tok.next < 32767)
    (hn : t.tree.toList.length < 2147483647) :
    ∃ ordered t1, t.Order = .ok (ordered, t1) ∧ t1.tree.toList = t.tree.toList ∧
      (∀ d, d < ordered.length →
        ordered[d]? = some (bucketSpec 0 t.tree.toList d ++ [token32.zero])) ∧
      (∀ d, (bucketSpec 0 t.tree.toList d).Pairwise (fun a b => a.next < b.next)) ∧
      ∀ i tok, t.tree.toList[i]? = some tok →
        tok.next + 1 < ordered.length ∧
        { tok with next := i } ∈ bucketSpec 0 t.tree.toList tok.next ∧
        ∀ d e, e ∈ bucketSpec 0 t.tree.toList d → e.next = i →
          d = tok.next ∧ e = { tok with next := i } := by
  have hlive := liveTokens_all t.tree hu
  rw [← hlive] at hb hn
  obtain ⟨ordered, h1, h2, h3⟩ := Order_ok t hnone hb hn
  rw [hlive] at h1 h2 h3
  refine ⟨ordered, _, h1, ?_, h3, fun d => bucketSpec_sorted _ _ _, ?_⟩
  · show (t.tree.toList ++ List.replicate (t.tree.toList.length - t.tree.toList.length)
      token32.zero).take t.tree.toList.length = _
    simp
  · intro i tok hi
    refine ⟨?_, ?_, ?_⟩
    · rw [h2]
      have := depthSpan_mem t.tree.toList 1 tok (List.getElem?_mem hi)
      omega
    · exact (mem_bucketSpec _ _ _ _).2 ⟨i, tok, hi, rfl, by rw [Nat.zero_add]⟩
    · intro d e he hei
      obtain ⟨k, tok1, hk1, hk2, rfl⟩ := (mem_bucketSpec _ _ _ _).1 he
      have hki : k = i := by simpa using hei
      subst hki
      rw [hi] at hk1
      simp only [Option.some.injEq] at hk1
      subst hk1
      exact ⟨hk2.symm, by rw [Nat.zero_add]⟩

theorem Order_regroups_witness :
    ∃ ordered t1,
      tokens32.Order ⟨⟨[⟨pegRule.ruleIdentifier, 1, 2, 1⟩, ⟨pegRule.rulePegText, 1, 2, 0⟩], 2⟩,
        none⟩ = .ok (ordered, t1) ∧
      t1.tree.toList = [⟨pegRule.ruleIdentifier, 1, 2, 1⟩, ⟨pegRule.rulePegText, 1, 2, 0⟩] ∧
      ordered[0]? = some [⟨pegRule.rulePegText, 1, 2, 1⟩, token32.zero] ∧
      ordered[1]? = some [⟨pegRule.ruleIdentifier, 1, 2, 0⟩, token32.zero] := by
  obtain ⟨ordered, t1, h1, h2, h3, _, _⟩ := Order_regroups
    ⟨⟨[⟨pegRule.ruleIdentifier, 1, 2, 1⟩, ⟨pegRule.rulePegText, 1, 2, 0⟩], 2⟩, none⟩ rfl
    (by decide) (by decide) (by decide)
  have hl : ordered.length = 3 := by
    have := congrArg (fun r => match r with
      | Except.ok (o, _) => o.length
      | Except.error _ => 0) h1
    simpa [tokens32.Order, tokenSlice.liveTokens, countDepths, carve, scatter,
      int32Negative, u32, List.replicate, List.modify, List.modifyHead,
      List.modifyTailIdx] using this.symm
  refine ⟨ordered, t1, h1, h2, ?_, ?_⟩
  · rw [h3 0 (by omega)]; decide
  · rw [h3 1 (by omega)]; decide

/-- C19. `Error` reports one token for every bucket of `Order`, deepest first. `Order`
returns on every store without cached buckets whose live tokens have depths below
`math.MaxInt16` and number fewer than `2 ^ 31 - 1`; and whenever `Order` returns buckets,
`Error` returns as many tokens as there are buckets, the token at index `i` taken from
bucket `len(ordered) - 1 - i`: the second-to-last entry of that bucket, or the zero
token when the bucket has fewer than two entries. -/
theorem Error_per_depth (t : tokens32) :
    ((t.ordered = none ∧ (∀ tok ∈ t.tree.liveTokens, tok.next < 32767) ∧
        t.tree.liveTokens.length < 2147483647) →
      ∃ ordered t1, t.Order = .ok (ordered, t1)) ∧
    ∀ ordered t1, t.Order = .ok (ordered, t1) →
      ∃ toks, t.Error = .ok (toks, t1) ∧ toks.length = ordered.length ∧
        ∀ i, i < ordered.length →
          ∃ o, ordered[ordered.length - 1 - i]? = some o ∧
            toks[i]? = some (if o.length > 1 then o.getD (o.length - 2) token32.zero
              else token32.zero) := by
  refine ⟨fun h => ?_, fun ordered t1 h => ?_⟩
  · obtain ⟨ordered, h1, _⟩ := Order_ok t h.1 h.2.1 h.2.2
    exact ⟨ordered, _, h1⟩
  · refine ⟨ordered.reverse.map (fun o =>
      if o.length > 1 then o.getD (o.length - 2) token32.zero else token32.zero),
      by simp only [tokens32.Error, h], by simp, fun i hi => ?_⟩
    have hlt : ordered.length - 1 - i < ordered.length := by omega
    refine ⟨ordered[ordered.length - 1 - i], List.getElem?_eq_getElem hlt, ?_⟩
    rw [List.getElem?_map, List.getElem?_reverse hi, List.getElem?_eq_getElem hlt]
    rfl

theorem Error_per_depth_witness :
    (∃ ordered t1, tokens32.Order ⟨⟨[⟨pegRule.ruleIdentifier, 1, 5, 3⟩,
        ⟨pegRule.rulePegText, 1, 5, 2⟩, ⟨pegRule.ruleAction0, 5, 5, 2⟩], 32767⟩, none⟩ =
          .ok (ordered, t1)) ∧
    ∃ toks t1, tokens32.Error ⟨⟨[⟨pegRule.ruleIdentifier, 1, 5, 3⟩,
        ⟨pegRule.rulePegText, 1, 5, 2⟩, ⟨pegRule.ruleAction0, 5, 5, 2⟩], 32767⟩, none⟩ =
          .ok (toks, t1) ∧ toks.length = 5 ∧
      toks[1]? = some ⟨pegRule.ruleIdentifier, 1, 5, 0⟩ ∧
      toks[2]? = some ⟨pegRule.ruleAction0, 5, 5, 2⟩ := by
  have hw := Error_per_depth ⟨⟨[⟨pegRule.ruleIdentifier, 1, 5, 3⟩,
        ⟨pegRule.rulePegText, 1, 5, 2⟩, ⟨pegRule.ruleAction0, 5, 5, 2⟩], 32767⟩, none⟩
  refine ⟨hw.1 ⟨rfl, by decide, by decide⟩, ?_⟩
  obtain ⟨toks, h1, h2, h3⟩ := hw.2
    [[token32.zero], [token32.zero],
      [⟨pegRule.rulePegText, 1, 5, 1⟩, ⟨pegRule.ruleAction0, 5, 5, 2⟩, token32.zero],
      [⟨pegRule.ruleIdentifier, 1, 5, 0⟩, token32.zero], [token32.zero]]
    ⟨⟨[⟨pegRule.ruleIdentifier, 1, 5, 3⟩, ⟨pegRule.rulePegText, 1, 5, 2⟩,
        ⟨pegRule.ruleAction0, 5, 5, 2⟩], 3⟩,
      some [[token32.zero], [token32.zero],
        [⟨pegRule.rulePegText, 1, 5, 1⟩, ⟨pegRule.ruleAction0, 5, 5, 2⟩, token32.zero],
        [⟨pegRule.ruleIdentifier, 1, 5, 0⟩, token32.zero], [token32.zero]]⟩ (by decide!)
  refine ⟨toks, _, h1, h2, ?_, ?_⟩
  · obtain ⟨o, ho, ht⟩ := h3 1 (by decide)
    simp only [List.length_cons, List.length_nil] at ho
    simp at ho
    subst ho
    rw [ht]
    rfl
  · obtain ⟨o, ho, ht⟩ := h3 2 (by decide)
    simp at ho
    subst ho
    rw [ht]
    rfl
/-! ## Zero-width tokens in `AST` -/

theorem astPop_all (P : token32 → Prop) (token : token32) (stack : List (token32 × node32)) :
    ∀ up, (∀ e ∈ stack, P e.1 ∧ ∀ N ∈ e.2.nodes, P N.token) →
      (∀ N ∈ up.nodes, P N.token) →
      (∀ N ∈ (astPop token stack up).1.nodes, P N.token) ∧
      ∀ e ∈ (astPop token stack up).2, P e.1 ∧ ∀ N ∈ e.2.nodes, P N.token := by
  induction stack with
  | nil =>
    intro up _ hu
    exact ⟨hu, fun e he => by simp [astPop] at he⟩
  | cons e down ih =>
    intro up hs hu
    obtain ⟨tok, u⟩ := e
    have he := hs (tok, u) (List.mem_cons_self _ _)
    unfold astPop
    split
    · apply ih (node32.mk tok u up) (fun x hx => hs x (List.mem_cons_of_mem _ hx))
      intro N hN
      simp only [node32.nodes, List.mem_cons, List.mem_append] at hN
      rcases hN with rfl | hN | hN
      · exact he.1
      · exact he.2 N hN
      · exact hu N hN
    · exact ⟨hu, hs⟩

theorem astLoop_all (P : token32 → Prop) (tokens : List token32) :
    ∀ stack, (∀ tok ∈ tokens, tok.begin ≠ tok.end_ → P tok) →
      (∀ e ∈ stack, P e.1 ∧ ∀ N ∈ e.2.nodes, P N.token) →
      ∀ e ∈ astLoop tokens stack, P e.1 ∧ ∀ N ∈ e.2.nodes, P N.token := by
  induction tokens with
  | nil => intro stack _ hs; exact hs
  | cons token rest ih =>
    intro stack hp hs
    unfold astLoop
    split
    · exact ih stack (fun x hx => hp x (List.mem_cons_of_mem _ hx)) hs
    · rename_i hne
      have h := astPop_all P token stack node32.nil hs (fun N hN => by simp [node32.nodes] at hN)
      apply ih _ (fun x hx => hp x (List.mem_cons_of_mem _ hx))
      intro e he
      rcases List.mem_cons.1 he with rfl | he
      · exact ⟨hp token (List.mem_cons_self _ _) hne, h.1⟩
      · exact h.2 e he

/-- Every node of the tree of `AST` carries a token that satisfies `P`, when the first
token does and so does every later token that is not zero-width. -/
theorem AST_all (P : token32 → Prop) (t : tokens32)
    (h0 : P (t.tree.toList.head?.getD token32.zero))
    (hp : ∀ tok ∈ t.tree.toList.tail, tok.begin ≠ tok.end_ → P tok) :
    ∀ N ∈ t.AST.nodes, P N.token := by
  have h := astLoop_all P t.tree.toList.tail
    [(t.tree.toList.head?.getD token32.zero, node32.nil)] hp
    (fun e he => by
      rw [List.mem_singleton.1 he]
      exact ⟨h0, fun N hN => by simp [node32.nodes] at hN⟩)
  unfold tokens32.AST
  simp only
  split
  · rename_i tok up rest heq
    have := h (tok, up) (by rw [heq]; exact List.mem_cons_self _ _)
    intro N hN
    simp only [node32.nodes, List.mem_cons, List.mem_append, List.not_mem_nil, or_false] at hN
    rcases hN with rfl | hN
    · exact this.1
    · exact this.2 N hN
  · intro N hN
    simp [node32.nodes] at hN

/-- C18 as stated fails on the code: the first token is made a node without the
zero-width test, so the tree of the two tokens `Action0 [2,2)` and `Section [0,4)` has
a node with `begin = end`. -/
theorem AST_keeps_zero_width_first :
    ¬ ∀ t : tokens32, t.tree.toList ≠ [] →
      ∀ N ∈ t.AST.nodes, N.token.begin ≠ N.token.end_ := by
  intro h
  exact h ⟨⟨[⟨pegRule.ruleAction0, 2, 2, 2⟩, ⟨pegRule.ruleSection, 0, 4, 1⟩], 2⟩, none⟩
    (by decide)
    (node32.mk ⟨pegRule.ruleAction0, 2, 2, 2⟩ node32.nil node32.nil) (by decide!) rfl

/-- C18, amended. Zero-width tokens after the first are skipped by `AST`: for every
token sequence, a node of the returned tree with `begin = end` carries the first token
of the sequence; so when the first token is not zero-width, no node of the tree has
`begin = end`. -/
theorem AST_skips_zero_width (t : tokens32) :
    (∀ N ∈ t.AST.nodes, N.token.begin = N.token.end_ →
      N.token = t.tree.toList.head?.getD token32.zero) ∧
    ((t.tree.toList.head?.getD token32.zero).begin ≠
        (t.tree.toList.head?.getD token32.zero).end_ →
      ∀ N ∈ t.AST.nodes, N.token.begin ≠ N.token.end_) := by
  refine ⟨?_, fun h0 => ?_⟩
  · exact AST_all (fun tok => tok.begin = tok.end_ →
      tok = t.tree.toList.head?.getD token32.zero) t (fun _ => rfl)
      (fun tok _ hne he => absurd he hne)
  · exact AST_all (fun tok => tok.begin ≠ tok.end_) t h0 (fun tok _ hne => hne)

theorem AST_skips_zero_width_witness :
    (node32.mk ⟨pegRule.ruleAction0, 2, 2, 2⟩ node32.nil node32.nil).token =
      (tokenSlice.toList ⟨[⟨pegRule.ruleAction0, 2, 2, 2⟩, ⟨pegRule.ruleSection, 0, 4, 1⟩],
        2⟩).head?.getD token32.zero ∧
    ∀ N ∈ (tokens32.AST ⟨⟨[⟨pegRule.ruleIdentifier, 1, 2, 3⟩, ⟨pegRule.ruleAction0, 2, 2, 2⟩,
        ⟨pegRule.ruleSection, 0, 4, 1⟩], 3⟩, none⟩).nodes, N.token.begin ≠ N.token.end_ :=
  ⟨(AST_skips_zero_width
      ⟨⟨[⟨pegRule.ruleAction0, 2, 2, 2⟩, ⟨pegRule.ruleSection, 0, 4, 1⟩], 2⟩, none⟩).1
      (node32.mk ⟨pegRule.ruleAction0, 2, 2, 2⟩ node32.nil node32.nil) (by decide!) rfl,
    (AST_skips_zero_width
      ⟨⟨[⟨pegRule.ruleIdentifier, 1, 2, 3⟩, ⟨pegRule.ruleAction0, 2, 2, 2⟩,
        ⟨pegRule.ruleSection, 0, 4, 1⟩], 3⟩, none⟩).2 (by decide)⟩

/-! ## `translatePositions` -/

theorem get_set (m : textPositionMap) (k q : Int) (v : textPosition) :
    (m.set k v).get q = if q = k then v else m.get q := by
  unfold textPositionMap.set textPositionMap.get
  rw [List.find?_cons]
  by_cases h : q = k
  · subst h
    simp
  · have h1 : (k == q) = false := beq_eq_false_iff_ne.2 (fun e => h e.symm)
    simp only [h1, h, if_false]

theorem skipEqual_mem (i : Int) (ps : List Int) (hs : ps.Sorted (fun a b => a ≤ b))
    (hi : ∀ q ∈ ps, i ≤ q) : ∀ q, q ∈ skipEqual i ps ↔ q ∈ ps ∧ q ≠ i := by
  induction ps with
  | nil => intro q; simp [skipEqual]
  | cons x xs ih =>
    intro q
    unfold skipEqual
    have hx := hi x (List.mem_cons_self _ _)
    have hs1 := List.sorted_cons.1 hs
    by_cases h : i = x
    · subst h
      simp only [ne_eq, not_true_eq_false, if_false]
      rw [ih hs1.2 (fun q hq => hi q (List.mem_cons_of_mem _ hq))]
      simp only [List.mem_cons]
      constructor
      · rintro ⟨h1, h2⟩; exact ⟨Or.inr h1, h2⟩
      · rintro ⟨h1 | h1, h2⟩
        · exact absurd h1 h2
        · exact ⟨h1, h2⟩
    · simp only [ne_eq, h, not_false_eq_true, if_true]
      constructor
      · intro hq
        refine ⟨hq, ?_⟩
        rcases List.mem_cons.1 hq with rfl | hq
        · exact fun e => h e.symm
        · have := hs1.1 q hq
          omega
      · exact fun hq => hq.1

theorem skipEqual_sorted (i : Int) (ps : List Int) (hs : ps.Sorted (fun a b => a ≤ b)) :
    (skipEqual i ps).Sorted (fun a b => a ≤ b) := by
  induction ps with
  | nil => simp [skipEqual]
  | cons x xs ih =>
    unfold skipEqual
    split
    · exact hs
    · exact ih (List.sorted_cons.1 hs).2

theorem scanCounters_cons (line symbol : Int) (c : Char) (cs : List Char) (k : Nat) :
    scanCounters line symbol ((c :: cs).take (k + 1 + 1)) =
      scanCounters (if c = '\n' then line + 1 else line) (if c = '\n' then 0 else symbol + 1)
        (cs.take (k + 1)) := by
  unfold scanCounters
  rw [List.take_succ_cons, List.foldl_cons]
  split <;> rfl

/-- The loop `search` from a state in which the targets are sorted and none is behind
the cursor: it returns, every target inside the text is bound to the counters after the
rune at that offset has been read, and no other key changes. -/
theorem translateLoop_ok (cs : List Char) :
    ∀ (i : Int) (ps : List Int) (line symbol : Int) (tr : textPositionMap),
      ps.Sorted (fun a b => a ≤ b) → (∀ q ∈ ps, i ≤ q) → ps ≠ [] →
      ∃ m, translateLoop cs i ps line symbol tr = .ok m ∧
        (∀ q ∈ ps, q < i + cs.length →
          m.get q = ⟨(scanCounters line symbol (cs.take ((q - i).toNat + 1))).1,
            (scanCounters line symbol (cs.take ((q - i).toNat + 1))).2⟩) ∧
        ∀ k, k ∉ ps → m.get k = tr.get k := by
  induction cs with
  | nil =>
    intro i ps line symbol tr _ hi _
    refine ⟨tr, rfl, fun q hq hlt => ?_, fun _ _ => rfl⟩
    have := hi q hq
    simp at hlt
    omega
  | cons c cs ih =>
    intro i ps line symbol tr hs hi hne
    obtain ⟨p, ps1, rfl⟩ := List.exists_cons_of_ne_nil hne
    have hs1 := List.sorted_cons.1 hs
    have hp := hi p (List.mem_cons_self _ _)
    have hone : scanCounters line symbol ((c :: cs).take 1) =
        (if c = '\n' then line + 1 else line, if c = '\n' then 0 else symbol + 1) := by
      unfold scanCounters
      simp only [List.take_succ_cons, List.take_zero, List.foldl_cons, List.foldl_nil]
      split <;> rfl
    unfold translateLoop
    simp only
    by_cases hip : i = p
    · subst hip
      simp only [if_true]
      have hmem := skipEqual_mem i ps1 hs1.2 (fun q hq => hi q (List.mem_cons_of_mem _ hq))
      have hsort := skipEqual_sorted i ps1 hs1.2
      cases hrest : skipEqual i ps1 with
      | nil =>
        simp only
        rw [hrest] at hmem
        refine ⟨_, rfl, fun q hq _ => ?_, fun k hk => ?_⟩
        · have hqi : q = i := by
            rcases List.mem_cons.1 hq with h | h
            · exact h
            · by_contra hc
              exact absurd ((hmem q).2 ⟨h, hc⟩) (List.not_mem_nil _)
          subst hqi
          rw [get_set, if_pos rfl, Int.sub_self, Int.toNat_zero, hone]
        · rw [get_set, if_neg (fun e => hk (by rw [e]; exact List.mem_cons_self _ _))]
      | cons x xs =>
        simp only
        rw [hrest] at hmem hsort
        obtain ⟨m, h1, h2, h3⟩ := ih (i + 1) (x :: xs)
          (if c = '\n' then line + 1 else line) (if c = '\n' then 0 else symbol + 1)
          (tr.set i ⟨if c = '\n' then line + 1 else line, if c = '\n' then 0 else symbol + 1⟩)
          hsort
          (fun q hq => by
            have h := (hmem q).1 hq
            have := hi q (List.mem_cons_of_mem _ h.1)
            have := h.2
            omega)
          (List.cons_ne_nil _ _)
        refine ⟨m, h1, fun q hq hlt => ?_, fun k hk => ?_⟩
        · by_cases hqi : q = i
          · subst hqi
            rw [h3 q (fun hc => ((hmem q).1 hc).2 rfl), get_set, if_pos rfl, Int.sub_self,
              Int.toNat_zero, hone]
          · have hq1 : q ∈ x :: xs := by
              rcases List.mem_cons.1 hq with h | h
              · exact absurd h hqi
              · exact (hmem q).2 ⟨h, hqi⟩
            have hge := hi q hq
            have hlt1 : q < i + 1 + (cs.length : Int) := by
              simp only [List.length_cons, Nat.cast_add, Nat.cast_one] at hlt
              omega
            rw [h2 q hq1 hlt1]
            have hk : (q - i).toNat = (q - (i + 1)).toNat + 1 := by omega
            rw [hk, scanCounters_cons]
        · have hk1 : k ∉ x :: xs := fun hc => hk (List.mem_cons_of_mem _ ((hmem k).1 hc).1)
          rw [h3 k hk1, get_set,
            if_neg (fun e => hk (by rw [e]; exact List.mem_cons_self _ _))]
    · simp only [hip, if_false]
      obtain ⟨m, h1, h2, h3⟩ := ih (i + 1) (p :: ps1)
        (if c = '\n' then line + 1 else line) (if c = '\n' then 0 else symbol + 1) tr hs
        (fun q hq => by
          have : p ≤ q := by
            rcases List.mem_cons.1 hq with h | h
            · rw [h]
            · exact hs1.1 q h
          omega)
        (List.cons_ne_nil _ _)
      refine ⟨m, h1, fun q hq hlt => ?_, h3⟩
      have hge : p ≤ q := by
        rcases List.mem_cons.1 hq with h | h
        · rw [h]
        · exact hs1.1 q h
      have hlt1 : q < i + 1 + (cs.length : Int) := by
        simp only [List.length_cons, Nat.cast_add, Nat.cast_one] at hlt
        omega
      rw [h2 q hq hlt1]
      have hk : (q - i).toNat = (q - (i + 1)).toNat + 1 := by omega
      rw [hk, scanCounters_cons]
theorem scanCounters_spec (l : List Char) :
    scanCounters 1 0 l = (1 + ((l.count '\n' : Nat) : Int),
      (((l.reverse.takeWhile (fun c => decide (c ≠ '\n'))).length : Nat) : Int)) := by
  induction l using List.reverseRecOn with
  | nil => rfl
  | append_singleton xs x ih =>
    unfold scanCounters at ih ⊢
    rw [List.foldl_append, ih, List.foldl_cons, List.foldl_nil, List.reverse_append,
      List.reverse_singleton, List.singleton_append, List.count_append]
    by_cases hx : x = '\n'
    · subst hx
      simp only [if_true, List.count_singleton_self, Nat.cast_add, Nat.cast_one]
      rw [List.takeWhile_cons_of_neg (by simp)]
      simp only [List.length_nil, Nat.cast_zero, Prod.mk.injEq, and_true]
      omega
    · simp only [hx, if_false]
      rw [List.takeWhile_cons_of_pos (by simpa using hx)]
      have hc : List.count '\n' [x] = 0 := by
        rw [List.count_eq_zero]
        simpa using fun e => hx e.symm
      simp only [hc, Nat.add_zero, List.length_cons, Nat.cast_add, Nat.cast_one]

/-- C20 as stated fails on the code: the counters are updated before the position is
recorded, so offset 0 of the text `a` maps to line 1, symbol 1, not symbol 0. -/
theorem translatePositions_first_symbol :
    ∃ m, translatePositions "a" [0] = .ok m ∧ m.get 0 = ⟨1, 1⟩ ∧ m.get 0 ≠ ⟨1, 0⟩ :=
  ⟨[(0, ⟨1, 1⟩)], by decide, by decide, by decide⟩

/-- C20, amended. `translatePositions` records the counters after the rune at the offset
has been read: for every text, every list of non-negative targets and every target `p`
smaller than the length of the text, the call returns and the position recorded for `p`
has `line` = 1 + the number of newlines at the offsets up to and including `p`, and
`symbol` = the number of runes after the last of these newlines, up to and including
`p` (so 0 when the rune at `p` is a newline, and 1 for the first rune of a line). -/
theorem translatePositions_after (buffer : String) (positions : List Int) (p : Nat)
    (hpos : ∀ q ∈ positions, 0 ≤ q) (hp : (p : Int) ∈ positions)
    (hlt : p < buffer.length) :
    ∃ m, translatePositions buffer positions = .ok m ∧
      m.get p = ⟨lineAfter buffer p, symbolAfter buffer p⟩ := by
  have hperm := List.perm_insertionSort (fun a b : Int => a ≤ b) positions
  have hsorted := List.sorted_insertionSort (fun a b : Int => a ≤ b) positions
  have hp1 : (p : Int) ∈ positions.insertionSort (fun a b => a ≤ b) := hperm.mem_iff.2 hp
  obtain ⟨m, h1, h2, _⟩ := translateLoop_ok buffer.toList 0
    (positions.insertionSort (fun a b => a ≤ b)) 1 0 [] hsorted
    (fun q hq => hpos q (hperm.mem_iff.1 hq)) (List.ne_nil_of_mem hp1)
  refine ⟨m, h1, ?_⟩
  have hl : ((p : Int) < 0 + (buffer.toList.length : Int)) := by
    have : buffer.toList.length = buffer.length := rfl
    omega
  rw [h2 p hp1 hl]
  have hk : ((p : Int) - 0).toNat = p := by omega
  rw [hk, scanCounters_spec]
  rfl

theorem translatePositions_after_witness :
    (lineAfter "ab\ncd" 2 = 2 ∧ symbolAfter "ab\ncd" 2 = 0) ∧
    ∃ m, translatePositions "ab\ncd" [4, 0, 2, 2] = .ok m ∧
      m.get ((2 : Nat) : Int) = ⟨lineAfter "ab\ncd" 2, symbolAfter "ab\ncd" 2⟩ :=
  ⟨by decide, translatePositions_after "ab\ncd" [4, 0, 2, 2] 2 (by decide) (by decide)
    (by decide)⟩
/-! ## Depth and nesting of the tokens a rule commits -/

theorem Forest.bounds_le {d lo hi : Nat} {ts : List token32} (h : Forest d lo hi ts) : lo ≤ hi := by
  induction h with
  | nil h => exact h
  | snoc _ h2 h3 _ ih1 ih2 => omega

theorem Forest.mono_hi {d lo hi hi1 : Nat} {ts : List token32} (h : Forest d lo hi ts)
    (hh : hi ≤ hi1) : Forest d lo hi1 ts := by
  cases h with
  | nil h => exact Forest.nil (by omega)
  | snoc h1 h2 h3 h4 => exact Forest.snoc h1 h2 (by omega) h4

theorem Forest.mono_lo {d lo hi lo1 : Nat} {ts : List token32} (h : Forest d lo hi ts)
    (hh : lo1 ≤ lo) : Forest d lo1 hi ts := by
  induction h with
  | nil h => exact Forest.nil (by omega)
  | snoc _ h2 h3 h4 ih1 _ => exact Forest.snoc (ih1 hh) h2 h3 h4

theorem Forest.join {d lo m hi : Nat} {ts us : List token32} (h1 : Forest d lo m ts)
    (h2 : Forest d m hi us) : Forest d lo hi (ts ++ us) := by
  induction h2 with
  | nil h => rw [List.append_nil]; exact h1.mono_hi h
  | snoc _ g2 g3 g4 ih1 _ =>
    have := Forest.snoc (ih1 h1) g2 g3 g4
    simpa [List.append_assoc] using this

theorem Forest.single {d b e : Nat} {r : pegRule} {cs : List token32}
    (h : Forest (d + 1) b e cs) (hr : r ≠ pegRule.ruleUnknown) :
    Forest d b e (cs ++ [⟨r, b, e, d⟩]) := by
  have := Forest.snoc (Forest.nil (Nat.le_refl b)) h (Nat.le_refl e) hr
  simpa using this

theorem Forest.facts {d lo hi : Nat} {ts : List token32} (h : Forest d lo hi ts) :
    ∀ t ∈ ts, lo ≤ t.begin ∧ t.begin ≤ t.end_ ∧ t.end_ ≤ hi ∧ d ≤ t.next ∧
      t.pegRule ≠ pegRule.ruleUnknown := by
  induction h with
  | nil h => intro t ht; simp at ht
  | snoc g1 g2 g3 g4 ih1 ih2 =>
    intro t ht
    have l1 := g1.bounds_le
    have l2 := g2.bounds_le
    rcases List.mem_append.1 ht with h | h
    · rcases List.mem_append.1 h with h | h
      · have := ih1 t h
        exact ⟨this.1, this.2.1, by omega, this.2.2.2.1, this.2.2.2.2⟩
      · have := ih2 t h
        exact ⟨by omega, this.2.1, by omega, by omega, this.2.2.2.2⟩
    · rw [List.mem_singleton.1 h]
      exact ⟨l1, l2, g3, Nat.le_refl _, g4⟩

theorem Grow.chained {s s0 s1 : Matcher} {n0 n1 : List token32} (h0 : Grow s s0 n0)
    (h1 : Grow s0 s1 n1) : Grow s s1 (n0 ++ n1) := by
  refine ⟨by rw [h1.depth_eq, h0.depth_eq], Nat.le_trans h0.pos_le h1.pos_le,
    by rw [h1.committed_eq, h0.committed_eq, List.append_assoc], ?_, ?_, ?_⟩
  · rw [List.pairwise_append]
    refine ⟨h0.nested, h1.nested, fun a ha b hb => Or.inl ?_⟩
    have := (h0.inside a ha).2.2.1
    have := (h1.inside b hb).1
    omega
  · intro t ht
    rcases List.mem_append.1 ht with h | h
    · have hi := h0.inside t h
      have := h1.pos_le
      exact ⟨hi.1, hi.2.1, by omega, hi.2.2.2⟩
    · have hi := h1.inside t h
      have := h0.pos_le
      have := h0.depth_eq
      exact ⟨by omega, hi.2.1, hi.2.2.1, by omega⟩
  · have g1 := h1.forest
    rw [h0.depth_eq] at g1
    exact h0.forest.join g1

theorem Grow.quiet {s s1 : Matcher} (hd : s1.depth = s.depth) (hp : s.position ≤ s1.position)
    (hc : s1.committed = s.committed) : Grow s s1 [] :=
  ⟨hd, hp, by rw [hc, List.append_nil], List.Pairwise.nil, fun t ht => by simp at ht,
    Forest.nil hp⟩

theorem Grow.of_restore {s s0 s1 : Matcher} {n : List token32} (hs : Inv s) (hf : Frame s s0)
    (h : Grow (restore s0 s) s1 n) : Grow s s1 n :=
  ⟨h.depth_eq, h.pos_le, by rw [h.committed_eq, committed_restore hs hf], h.nested, h.inside,
    h.forest⟩

theorem deep_mono {h k : Nat} {f : Rule} (hk : h ≤ k) (hf : Deep h f) : Deep k f := by
  intro s b s1 hs hr B hB hu hc
  obtain ⟨h1, h2, h3⟩ := hf s b s1 hs hr B (by omega) hu hc
  exact ⟨h1, by omega, h3⟩

theorem tidy_mono {h k : Nat} {f : Rule} (hk : h ≤ k) (hf : Tidy h f) : Tidy k f :=
  ⟨hf.1, deep_mono hk hf.2⟩

/-- A rule function that writes no token and keeps the depth is of depth 0. -/
theorem deep_quiet {f : Rule} (sf : Safe f)
    (hq : ∀ s b s1, f s = .ok (b, s1) →
      s1.tree = s.tree ∧ s1.tokenIndex = s.tokenIndex ∧ s1.depth = s.depth) : Deep 0 f := by
  intro s b s1 hs hr B hB hu hc
  obtain ⟨h1, h2, h3⟩ := hq s b s1 hr
  refine ⟨by rw [h1]; exact hc, by omega, fun hb => ⟨[], Grow.quiet h3 ((sf.result hs hr).2.2 hb) ?_⟩⟩
  show s1.tree.cells.take s1.tokenIndex = s.tree.cells.take s.tokenIndex
  rw [h1, h2]

theorem tidy_matchDot : Tidy 0 matchDot := by
  refine ⟨safe_matchDot, deep_quiet safe_matchDot ?_⟩
  intro s b s1 h
  unfold matchDot at h
  split at h
  · simp at h
  · split at h <;> simp at h <;> obtain ⟨_, rfl⟩ := h <;> exact ⟨rfl, rfl, rfl⟩

theorem tidy_lit {c : Nat} (hc0 : c ≠ end_symbol) : Tidy 0 (lit c) := by
  refine ⟨safe_lit hc0, deep_quiet (safe_lit hc0) ?_⟩
  intro s b s1 h
  unfold lit at h
  split at h
  · simp at h
  · split at h <;> simp at h <;> obtain ⟨_, rfl⟩ := h <;> exact ⟨rfl, rfl, rfl⟩

theorem tidy_range {lo hi : Nat} (hhi : hi < end_symbol) : Tidy 0 (range lo hi) := by
  refine ⟨safe_range hhi, deep_quiet (safe_range hhi) ?_⟩
  intro s b s1 h
  unfold range at h
  split at h
  · simp at h
  · split at h <;> simp at h <;> obtain ⟨_, rfl⟩ := h <;> exact ⟨rfl, rfl, rfl⟩

theorem tidy_seq {h : Nat} {f g : Rule} (hf : Tidy h f) (hg : Tidy h g) : Tidy h (seq f g) := by
  refine ⟨safe_seq hf.1 hg.1, ?_⟩
  intro s b s1 hs hr B hB hu hc
  rw [seq_ok] at hr
  rcases hr with ⟨s0, h0, h1⟩ | ⟨rfl, h0⟩
  · obtain ⟨c0, d0, g0⟩ := hf.2 s true s0 hs h0 B hB hu hc
    obtain ⟨n0, g0⟩ := g0 rfl
    have hs0 := (hf.1.result hs h0).1
    obtain ⟨c1, d1, g1⟩ := hg.2 s0 b s1 hs0 h1 B (by rw [g0.depth_eq]; exact hB) hu c0
    refine ⟨c1, by rw [g0.depth_eq] at d1; exact d1, fun hb => ?_⟩
    obtain ⟨n1, g1⟩ := g1 hb
    exact ⟨n0 ++ n1, g0.chained g1⟩
  · obtain ⟨c0, d0, _⟩ := hf.2 s false s1 hs h0 B hB hu hc
    exact ⟨c0, d0, fun hb => by simp at hb⟩

theorem tidy_alt {h : Nat} {f g : Rule} (hf : Tidy h f) (hg : Tidy h g) : Tidy h (alt f g) := by
  refine ⟨safe_alt hf.1 hg.1, ?_⟩
  intro s b s1 hs hr B hB hu hc
  rw [alt_ok] at hr
  rcases hr with ⟨rfl, h0⟩ | ⟨s0, h0, h1⟩
  · exact hf.2 s true s1 hs h0 B hB hu hc
  · obtain ⟨c0, _, _⟩ := hf.2 s false s0 hs h0 B hB hu hc
    have r0 := hf.1.result hs h0
    have hs0 : Inv (restore s0 s) := Inv.rewind (s := s) (t := s0) hs r0.1 r0.2.1
    obtain ⟨c1, d1, g1⟩ := hg.2 (restore s0 s) b s1 hs0 h1 B hB hu c0
    exact ⟨c1, d1, fun hb => by
      obtain ⟨n, gn⟩ := g1 hb
      exact ⟨n, Grow.of_restore hs r0.2.1 gn⟩⟩

theorem grow_restore {s s0 : Matcher} (hs : Inv s) (hf : Frame s s0) :
    Grow s (restore s0 s) [] :=
  Grow.quiet rfl (Nat.le_refl _) (committed_restore hs hf)

theorem tidy_opt {h : Nat} {f : Rule} (hf : Tidy h f) : Tidy h (opt f) := by
  refine ⟨safe_opt hf.1, ?_⟩
  intro s b s1 hs hr B hB hu hc
  rw [opt_ok] at hr
  rcases hr with ⟨rfl, h0 | ⟨s0, h0, rfl⟩⟩
  · exact hf.2 s true s1 hs h0 B hB hu hc
  · obtain ⟨c0, _, _⟩ := hf.2 s false s0 hs h0 B hB hu hc
    exact ⟨c0, Nat.le_add_right _ _, fun _ => ⟨[], grow_restore hs (hf.1.result hs h0).2.1⟩⟩

theorem tidy_notP {h : Nat} {f : Rule} (hf : Tidy h f) : Tidy h (notP f) := by
  refine ⟨safe_notP hf.1, ?_⟩
  intro s b s1 hs hr B hB hu hc
  rw [notP_ok] at hr
  rcases hr with ⟨rfl, h0⟩ | ⟨rfl, s0, h0, rfl⟩
  · obtain ⟨c0, d0, _⟩ := hf.2 s true s1 hs h0 B hB hu hc
    exact ⟨c0, d0, fun hb => by simp at hb⟩
  · obtain ⟨c0, _, _⟩ := hf.2 s false s0 hs h0 B hB hu hc
    exact ⟨c0, Nat.le_add_right _ _, fun _ => ⟨[], grow_restore hs (hf.1.result hs h0).2.1⟩⟩

theorem tidy_ruleFn {h : Nat} {f : Rule} (hf : Tidy h f) : Tidy h (ruleFn f) := by
  refine ⟨safe_ruleFn hf.1, ?_⟩
  intro s b s1 hs hr B hB hu hc
  rw [ruleFn_ok] at hr
  rcases hr with ⟨rfl, h0⟩ | ⟨rfl, s0, h0, rfl⟩
  · exact hf.2 s true s1 hs h0 B hB hu hc
  · obtain ⟨c0, _, _⟩ := hf.2 s false s0 hs h0 B hB hu hc
    exact ⟨c0, Nat.le_add_right _ _, fun hb => by simp at hb⟩

theorem deep_starLoop {h : Nat} {f : Rule} (hf : Tidy h f) (fuel : Nat) :
    ∀ s b s1, Inv s → starLoop f fuel s = .ok (b, s1) → ∀ B, s.depth + h ≤ B → B < u32 →
      (∀ t ∈ s.tree.cells, t.next ≤ B) →
      (∀ t ∈ s1.tree.cells, t.next ≤ B) ∧ s1.depth ≤ s.depth + h ∧
      (b = true → ∃ new, Grow s s1 new) := by
  induction fuel with
  | zero => intro s b s1 _ hr; simp [starLoop] at hr
  | succ n ih =>
    intro s b s1 hs hr B hB hu hc
    rw [starLoop_succ_ok] at hr
    rcases hr with ⟨s0, h0, h1⟩ | ⟨rfl, s0, h0, rfl⟩
    · obtain ⟨c0, d0, g0⟩ := hf.2 s true s0 hs h0 B hB hu hc
      obtain ⟨n0, g0⟩ := g0 rfl
      have hs0 := (hf.1.result hs h0).1
      obtain ⟨c1, d1, g1⟩ := ih s0 b s1 hs0 h1 B (by rw [g0.depth_eq]; exact hB) hu c0
      refine ⟨c1, by rw [g0.depth_eq] at d1; exact d1, fun hb => ?_⟩
      obtain ⟨n1, g1⟩ := g1 hb
      exact ⟨n0 ++ n1, g0.chained g1⟩
    · obtain ⟨c0, _, _⟩ := hf.2 s false s0 hs h0 B hB hu hc
      exact ⟨c0, Nat.le_add_right _ _, fun _ => ⟨[], grow_restore hs (hf.1.result hs h0).2.1⟩⟩

theorem tidy_star {h : Nat} {f : Rule} (hf : Tidy h f) (ha : Adv f) : Tidy h (star f) :=
  ⟨safe_star hf.1 ha, fun s b s1 hs hr => deep_starLoop hf _ s b s1 hs hr⟩

theorem inc_of_lt {d : Nat} (h : d + 1 < u32) : inc d = d + 1 := Nat.mod_eq_of_lt h

theorem dec_succ {d : Nat} (h : d + 1 < u32) : dec (d + 1) = d := by
  unfold dec
  have : d + 1 + u32 - 1 = d + u32 := by omega
  rw [this, Nat.add_mod_right]
  exact Nat.mod_eq_of_lt (by omega)

/-- What `add` does to the cells, the depth, the cursor and the committed tokens. -/
theorem add_facts {s s1 : Matcher} {rule : pegRule} {begin : Nat} (hs : Inv s)
    (h : add rule begin s = .ok s1) :
    (∀ t ∈ s1.tree.cells, t ∈ s.tree.cells ∨ t = ⟨rule, begin, s.position, s.depth⟩ ∨
      t = token32.zero) ∧
    s1.depth = s.depth ∧ s1.position = s.position ∧
    s1.committed = s.committed ++ [⟨rule, begin, s.position, s.depth⟩] := by
  have hc := committed_add hs h
  rw [add_ok] at h
  obtain ⟨_, rfl⟩ := h
  refine ⟨fun t ht => ?_, rfl, rfl, hc⟩
  have := putAt_mem _ _ _ t ht
  rw [Expand_cells] at this
  exact this

theorem tidy_action (rule : pegRule) (hk : rule ≠ pegRule.ruleUnknown) :
    Tidy 0 (action rule) := by
  refine ⟨safe_action rule, ?_⟩
  intro s b s1 hs hr B hB hu hc
  rw [action_ok] at hr
  obtain ⟨rfl, ha⟩ := hr
  obtain ⟨f1, f2, f3, f4⟩ := add_facts hs ha
  refine ⟨fun t ht => ?_, by omega, fun _ => ⟨[⟨rule, s.position, s.position, s.depth⟩],
    f2, by omega, f4, List.pairwise_singleton _ _, fun t ht => ?_, ?_⟩⟩
  · rcases f1 t ht with h | rfl | rfl
    · exact hc t h
    · show s.depth ≤ B
      omega
    · exact Nat.zero_le _
  · rw [List.mem_singleton.1 ht]
    exact ⟨Nat.le_refl _, Nat.le_refl _, by rw [f3], Nat.le_refl _⟩
  · rw [f3]
    have := Forest.single (Forest.nil (Nat.le_refl s.position)) hk (d := s.depth)
    simpa using this

theorem tidy_capture {h : Nat} {f : Rule} (rule : pegRule) (hk : rule ≠ pegRule.ruleUnknown)
    (hf : Tidy h f) : Tidy (h + 1) (capture rule f) := by
  refine ⟨safe_capture rule hf.1, ?_⟩
  intro s b s1 hs hr B hB hu hc
  have hinc : inc s.depth = s.depth + 1 := inc_of_lt (by omega)
  have hs' : Inv { s with depth := inc s.depth } := hs.set_depth _
  rw [capture_ok] at hr
  rcases hr with ⟨rfl, h0⟩ | ⟨rfl, s0, h0, h1⟩
  · obtain ⟨c0, d0, _⟩ := hf.2 _ false s1 hs' h0 B
      (by show inc s.depth + h ≤ B; rw [hinc]; omega) hu hc
    refine ⟨c0, ?_, fun hb => by simp at hb⟩
    have : s1.depth ≤ inc s.depth + h := d0
    rw [hinc] at this
    omega
  · obtain ⟨c0, _, g0⟩ := hf.2 _ true s0 hs' h0 B
      (by show inc s.depth + h ≤ B; rw [hinc]; omega) hu hc
    obtain ⟨n0, g0⟩ := g0 rfl
    have hd0 : s0.depth = s.depth + 1 := by
      have : s0.depth = inc s.depth := g0.depth_eq
      rw [this, hinc]
    have hdec : dec s0.depth = s.depth := by
      rw [hd0]
      exact dec_succ (by omega)
    have hs0 := (hf.1.result hs' h0).1
    obtain ⟨f1, f2, f3, f4⟩ := add_facts (hs0.set_depth (dec s0.depth)) h1
    have hp0 : s.position ≤ s0.position := g0.pos_le
    have hcm : s0.committed = s.committed ++ n0 := g0.committed_eq
    have f2' : s1.depth = s.depth := by rw [f2]; exact hdec
    have f3' : s1.position = s0.position := f3
    have f4' : s1.committed = s.committed ++ (n0 ++ [⟨rule, s.position, s0.position, s.depth⟩]) := by
      rw [f4, committed_set_depth, hcm, List.append_assoc]
      show _ ++ (n0 ++ [(⟨rule, s.position, s0.position, dec s0.depth⟩ : token32)]) = _
      rw [hdec]
    have hin : ∀ t ∈ n0, s.position ≤ t.begin ∧ t.begin ≤ t.end_ ∧ t.end_ ≤ s0.position ∧
        s.depth + 1 ≤ t.next := by
      intro t ht
      have := g0.inside t ht
      have h4 : inc s.depth ≤ t.next := this.2.2.2
      rw [hinc] at h4
      exact ⟨this.1, this.2.1, this.2.2.1, h4⟩
    refine ⟨fun t ht => ?_, by omega, fun _ =>
      ⟨n0 ++ [⟨rule, s.position, s0.position, s.depth⟩], f2', by omega, f4', ?_, ?_, ?_⟩⟩
    · rcases f1 t ht with h | rfl | rfl
      · exact c0 t h
      · show dec s0.depth ≤ B
        rw [hdec]
        omega
      · exact Nat.zero_le _
    · rw [List.pairwise_append]
      refine ⟨g0.nested, List.pairwise_singleton _ _, fun a ha b hb => ?_⟩
      rw [List.mem_singleton.1 hb]
      have := hin a ha
      exact Or.inr ⟨this.1, this.2.2.1, by show s.depth < a.next; omega⟩
    · intro t ht
      rcases List.mem_append.1 ht with h | h
      · have := hin t h
        exact ⟨this.1, this.2.1, by omega, by omega⟩
      · rw [List.mem_singleton.1 h]
        exact ⟨Nat.le_refl _, hp0, by show s0.position ≤ s1.position; omega, Nat.le_refl _⟩
    · have g1 : Forest (inc s.depth) s.position s0.position n0 := g0.forest
      rw [hinc] at g1
      rw [f3']
      exact Forest.single g1 hk

/-! ## The depth of every rule of the table -/

theorem tidy_ruleSpace : Tidy 1 rules_ruleSpace :=
  tidy_ruleFn (tidy_capture _ (by decide) (tidy_alt (tidy_lit (by decide)) (tidy_lit (by decide))))

theorem tidy_starSpace : Tidy 1 (star rules_ruleSpace) := tidy_star tidy_ruleSpace adv_ruleSpace

theorem tidy_ruleEndOfLine : Tidy 1 rules_ruleEndOfLine :=
  tidy_ruleFn (tidy_capture _ (by decide)
    (tidy_alt (tidy_seq (tidy_lit (by decide)) (tidy_lit (by decide)))
      (tidy_alt (tidy_lit (by decide)) (tidy_lit (by decide)))))

theorem tidy_identChar : Tidy 0 identChar := by
  refine ⟨safe_identChar, ?_⟩
  intro s b s1 hs hr
  obtain ⟨c, hc⟩ := hs.peek
  unfold identChar at hr
  simp only [hc] at hr
  split_ifs at hr
  · exact (tidy_lit (by decide)).2 s b s1 hs hr
  · exact (tidy_lit (by decide)).2 s b s1 hs hr
  · exact (tidy_lit (by decide)).2 s b s1 hs hr
  · exact (tidy_lit (by decide)).2 s b s1 hs hr
  · exact (tidy_alt (tidy_range (by decide)) (tidy_range (by decide))).2 s b s1 hs hr
  · exact (tidy_range (by decide)).2 s b s1 hs hr
  · exact (tidy_range (by decide)).2 s b s1 hs hr

theorem tidy_ruleIdentifier : Tidy 1 rules_ruleIdentifier :=
  tidy_ruleFn (tidy_capture _ (by decide) (tidy_seq tidy_identChar (tidy_star tidy_identChar adv_identChar)))

theorem tidy_stopChar : Tidy 0 stopChar := by
  refine ⟨safe_stopChar, ?_⟩
  intro s b s1 hs hr
  obtain ⟨c, hc⟩ := hs.peek
  unfold stopChar at hr
  simp only [hc] at hr
  split_ifs at hr <;> exact (tidy_lit (by decide)).2 s b s1 hs hr

theorem tidy_wordChar : Tidy 0 wordChar := tidy_seq (tidy_notP tidy_stopChar) tidy_matchDot

theorem tidy_ruleWord : Tidy 1 rules_ruleWord :=
  tidy_ruleFn (tidy_capture _ (by decide) (tidy_seq tidy_wordChar (tidy_star tidy_wordChar adv_wordChar)))

theorem tidy_inlineComment : Tidy 2 inlineComment :=
  tidy_capture _ (by decide) (tidy_seq (tidy_mono (Nat.zero_le _) (tidy_lit (by decide)))
    (tidy_seq
      (tidy_star (tidy_seq (tidy_notP tidy_ruleEndOfLine) (tidy_mono (Nat.zero_le _) tidy_matchDot))
        (adv_seq_right (safe_notP safe_ruleEndOfLine) adv_matchDot))
      tidy_ruleEndOfLine))

theorem tidy_spaceCommentSwitch : Tidy 2 spaceCommentSwitch := by
  refine ⟨safe_spaceCommentSwitch, ?_⟩
  intro s b s1 hs hr
  obtain ⟨c, hc⟩ := hs.peek
  unfold spaceCommentSwitch at hr
  simp only [hc] at hr
  split_ifs at hr
  · exact (tidy_mono (by decide) tidy_ruleEndOfLine).2 s b s1 hs hr
  · exact tidy_inlineComment.2 s b s1 hs hr
  · exact (tidy_mono (by decide) (tidy_seq tidy_ruleSpace tidy_starSpace)).2 s b s1 hs hr

theorem tidy_ruleSpaceComment : Tidy 3 rules_ruleSpaceComment :=
  tidy_ruleFn (tidy_capture _ (by decide) tidy_spaceCommentSwitch)

theorem tidy_inlineValue : Tidy 2 inlineValue :=
  tidy_capture _ (by decide) (tidy_seq tidy_ruleWord
    (tidy_star (tidy_seq tidy_ruleSpace (tidy_seq tidy_starSpace tidy_ruleWord))
      (adv_seq_left safe_ruleSpace adv_ruleSpace (safe_seq safe_starSpace safe_ruleWord))))

theorem tidy_pegIdentifier : Tidy 3 (capture pegRule.rulePegText rules_ruleIdentifier) :=
  tidy_mono (by decide) (tidy_capture _ (by decide) tidy_ruleIdentifier)

theorem tidy_inlineValueLine : Tidy 4 inlineValueLine :=
  tidy_capture _ (by decide)
    (tidy_seq (tidy_mono (by decide) tidy_starSpace)
    (tidy_seq tidy_pegIdentifier
    (tidy_seq (tidy_mono (by decide) (tidy_action _ (by decide)))
    (tidy_seq (tidy_mono (by decide) tidy_starSpace)
    (tidy_seq (tidy_mono (by decide) (tidy_lit (by decide)))
    (tidy_seq (tidy_mono (by decide) tidy_starSpace)
    (tidy_seq (tidy_capture _ (by decide) tidy_inlineValue)
    (tidy_seq (tidy_mono (by decide) (tidy_action _ (by decide)))
      tidy_ruleSpaceComment))))))))

theorem tidy_inlineSectionID : Tidy 4 inlineSectionID :=
  tidy_opt
    (tidy_seq (tidy_mono (by decide) tidy_ruleSpace)
    (tidy_seq (tidy_mono (by decide) tidy_starSpace)
    (tidy_seq (tidy_mono (by decide) (tidy_lit (by decide)))
    (tidy_seq (tidy_mono (by decide) tidy_pegIdentifier)
    (tidy_seq (tidy_mono (by decide) (tidy_action _ (by decide)))
      (tidy_mono (by decide) (tidy_lit (by decide))))))))

theorem tidy_inlineSection : Tidy 5 inlineSection :=
  tidy_capture _ (by decide)
    (tidy_seq (tidy_mono (by decide) tidy_starSpace)
    (tidy_seq (tidy_mono (by decide) (tidy_lit (by decide)))
    (tidy_seq (tidy_mono (by decide) tidy_starSpace)
    (tidy_seq (tidy_mono (by decide) tidy_pegIdentifier)
    (tidy_seq (tidy_mono (by decide) (tidy_action _ (by decide)))
    (tidy_seq tidy_inlineSectionID
    (tidy_seq (tidy_mono (by decide) tidy_starSpace)
    (tidy_seq (tidy_mono (by decide) (tidy_lit (by decide)))
    (tidy_seq (tidy_mono (by decide) tidy_ruleSpaceComment)
      (tidy_star tidy_inlineValueLine adv_inlineValueLine))))))))))

theorem tidy_grammarItem : Tidy 5 (alt rules_ruleSpaceComment inlineSection) :=
  tidy_alt (tidy_mono (by decide) tidy_ruleSpaceComment) tidy_inlineSection

theorem tidy_ruleGrammar : Tidy 6 rules_ruleGrammar :=
  tidy_ruleFn (tidy_capture _ (by decide)
    (tidy_seq tidy_grammarItem (tidy_star tidy_grammarItem adv_grammarItem)))
/-! ## The tokens of a successful parse -/

theorem executeStep_tree (st st1 : config × String) (token : token32)
    (h : executeStep st token = .ok st1) : st1.1.tokenTree = st.1.tokenTree := by
  unfold executeStep at h
  split at h
  · split at h
    · simp at h
    · simp only [Except.ok.injEq] at h
      rw [← h]
  · simp only [Except.ok.injEq] at h
    rw [← h]
    rfl
  · unfold config.setID at h
    cases hc : st.1.curSection with
    | none => simp [hc] at h
    | some i =>
      simp only [hc, Except.ok.injEq] at h
      rw [← h]
  · simp only [Except.ok.injEq] at h
    rw [← h]
    rfl
  · unfold config.addValue at h
    cases hc : st.1.curSection with
    | none => simp [hc] at h
    | some i =>
      simp only [hc, Except.ok.injEq] at h
      rw [← h]
  · simp only [Except.ok.injEq] at h
    rw [← h]

theorem executeLoop_tree (toks : List token32) :
    ∀ st st1, executeLoop toks st = .ok st1 → st1.1.tokenTree = st.1.tokenTree := by
  induction toks with
  | nil =>
    intro st st1 h
    simp only [executeLoop, Except.ok.injEq] at h
    rw [h]
  | cons t ts ih =>
    intro st st1 h
    unfold executeLoop at h
    split at h
    · simp at h
    · rename_i st0 h0
      rw [ih st0 st1 h, executeStep_tree st st0 t h0]

theorem adv_ruleGrammar : Adv rules_ruleGrammar :=
  adv_ruleFn (adv_capture _ (adv_seq_left safe_grammarItem adv_grammarItem
    (safe_star safe_grammarItem adv_grammarItem)))

/-- The tokens a successful run of the start rule commits: nested tokens inside the text
read, the last of them the Grammar token, which spans that text at depth 0; and no cell
of the slice is deeper than 6. -/
theorem grammar_tokens (data : String) (h : data.length < u32) (b : Bool) (m1 : Matcher)
    (h1 : rules_ruleGrammar (Init (config.new data)).2 = .ok (b, m1)) :
    Inv m1 ∧ (∀ t ∈ m1.tree.cells, t.next ≤ 6) ∧
    (b = true → 0 < m1.position ∧
      ∃ n0, m1.committed = n0 ++ [⟨pegRule.ruleGrammar, 0, m1.position, 0⟩] ∧
        (n0 ++ [⟨pegRule.ruleGrammar, 0, m1.position, 0⟩]).Pairwise token32.before ∧
        ∀ t ∈ n0, t.begin ≤ t.end_ ∧ t.end_ ≤ m1.position) := by
  have hi : Inv (Init (config.new data)).2 := inv_init _ h
  have hr := safe_ruleGrammar.result hi h1
  obtain ⟨c1, _, g1⟩ := tidy_ruleGrammar.2 _ b m1 hi h1 6 (Nat.le_refl _) (by decide)
    (fun t ht => by simp [Init, tokenSlice.make] at ht)
  refine ⟨hr.1, c1, fun hb => ?_⟩
  subst hb
  obtain ⟨new, g⟩ := g1 rfl
  have hpos : 0 < m1.position := adv_ruleGrammar _ m1 hi h1
  have hc0 : (Init (config.new data)).2.committed = [] := rfl
  have hcm : m1.committed = new := by rw [g.committed_eq, hc0, List.nil_append]
  unfold rules_ruleGrammar at h1
  rw [ruleFn_ok] at h1
  rcases h1 with ⟨_, h1⟩ | ⟨hb, _⟩
  · rw [capture_ok] at h1
    rcases h1 with ⟨hb, _⟩ | ⟨_, s0, h0, h2⟩
    · simp at hb
    · have hs0 := ((safe_seq safe_grammarItem (safe_star safe_grammarItem adv_grammarItem)).result
        (hi.set_depth _) h0).1
      obtain ⟨_, f2, f3, f4⟩ := add_facts (hs0.set_depth (dec s0.depth)) h2
      have hd : m1.depth = 0 := g.depth_eq
      have hdec : dec s0.depth = 0 := by rw [← hd, f2]
      have hp : s0.position = m1.position := f3.symm
      have f4' : m1.committed = s0.committed ++ [⟨pegRule.ruleGrammar, 0, m1.position, 0⟩] := by
        rw [f4, committed_set_depth]
        show _ ++ [(⟨pegRule.ruleGrammar, 0, s0.position, dec s0.depth⟩ : token32)] = _
        rw [hdec, hp]
      refine ⟨hpos, s0.committed, f4', ?_, fun t ht => ?_⟩
      · rw [← f4', hcm]
        exact g.nested
      · have := g.inside t (by rw [← hcm, f4']; exact List.mem_append_left _ ht)
        exact ⟨this.2.1, this.2.2.1⟩
  · simp at hb

/-- The token tree of a successful `Parse`: the committed tokens of the start rule,
trimmed to their number. -/
theorem parseRun_tree (data : String) (p : config) (hp : parseRun data = .ok (p, none)) :
    ∃ m1, rules_ruleGrammar (Init (config.new data)).2 = .ok (true, m1) ∧
      (m1.tokenIndex ≤ m1.tree.len) ∧
      p.tokenTree = some ⟨⟨m1.tree.cells.take m1.tokenIndex, m1.tokenIndex⟩, none⟩ := by
  unfold parseRun config.Parse at hp
  simp only at hp
  cases hg : rules_ruleGrammar (Init (config.new data)).2 with
  | error e => simp [hg] at hp
  | ok r =>
    obtain ⟨b, m1⟩ := r
    cases b
    · simp [hg] at hp
    · simp only [hg, tokens32.trim] at hp
      by_cases hle : m1.tokenIndex ≤ m1.tree.len
      · simp only [hle, if_true] at hp
        refine ⟨m1, rfl, hle, ?_⟩
        unfold config.Execute at hp
        simp only at hp
        split at hp
        · simp at hp
        · rename_i p1 he
          simp only [Except.ok.injEq, Prod.mk.injEq, and_true] at hp
          subst hp
          split at he
          · simp at he
          · rename_i st hl
            simp only [Except.ok.injEq] at he
            rw [← he, executeLoop_tree _ _ _ hl]
      · simp [hle] at hp
/-- The tokens of a successful `Parse`, as `AST`, `Order` and `PreOrder` read them: nested
tokens inside the text read, none deeper than 6, the last of them the Grammar token,
which spans the text read at depth 0. -/
theorem parsed_tokens (data : String) (h : data.length < u32) (p : config)
    (hp : parseRun data = .ok (p, none)) :
    ∃ t n0 pos, p.tokenTree = some t ∧ t.ordered = none ∧
      t.tree.toList = n0 ++ [⟨pegRule.ruleGrammar, 0, pos, 0⟩] ∧ 0 < pos ∧
      (n0 ++ [⟨pegRule.ruleGrammar, 0, pos, 0⟩]).Pairwise token32.before ∧
      (∀ x ∈ n0, x.begin ≤ x.end_ ∧ x.end_ ≤ pos) ∧
      ∀ x ∈ n0 ++ [⟨pegRule.ruleGrammar, 0, pos, 0⟩], x.next ≤ 6 := by
  obtain ⟨m1, h1, _, ht⟩ := parseRun_tree data p hp
  obtain ⟨hi, hc, hg⟩ := grammar_tokens data h true m1 h1
  obtain ⟨hpos, n0, hn, hw, hin⟩ := hg rfl
  refine ⟨_, n0, m1.position, ht, rfl, ?_, hpos, hw, hin, fun x hx => ?_⟩
  · show (tokenSlice.mk (m1.tree.cells.take m1.tokenIndex) m1.tokenIndex).toList = _
    rw [toList_trim _ _ hi.index_le]
    exact hn
  · rw [← hn] at hx
    exact hc x (List.mem_of_mem_take hx)

/-- A `Parse` that returns sections is a run that ends without an error. -/
theorem parseRun_of_Parse (data : String) (secs : List Section)
    (h : Parse data = .ok (some secs, none)) : ∃ p, parseRun data = .ok (p, none) := by
  unfold Parse at h
  cases hr : parseRun data with
  | error e => simp [hr] at h
  | ok r =>
    obtain ⟨p, e⟩ := r
    cases e with
    | some err => simp [hr] at h
    | none => exact ⟨p, rfl⟩

/-- C16. Within a fixed depth the matcher commits tokens in source order: after a
successful `Parse` of a text of fewer than `2 ^ 32` characters, any two tokens of the
trimmed buffer at indices `i < j` that have the same depth satisfy
`end_i ≤ begin_j`. -/
theorem same_depth_in_source_order (data : String) (h : data.length < 2 ^ 32) (p : config)
    (hp : parseRun data = .ok (p, none)) :
    ∃ t, p.tokenTree = some t ∧
      ∀ (i j : Nat) (a b : token32), i < j → t.tree.toList[i]? = some a →
        t.tree.toList[j]? = some b → a.next = b.next → a.end_ ≤ b.begin := by
  obtain ⟨t, n0, pos, ht, _, hl, _, hw, _, _⟩ := parsed_tokens data h p hp
  refine ⟨t, ht, fun i j a b hij ha hb hd => ?_⟩
  rw [hl] at ha hb
  rw [List.pairwise_iff_getElem] at hw
  obtain ⟨hi, rfl⟩ := List.getElem?_eq_some_iff.1 ha
  obtain ⟨hj, rfl⟩ := List.getElem?_eq_some_iff.1 hb
  rcases hw i j hi hj hij with h1 | ⟨_, _, h3⟩
  · exact h1
  · omega

theorem same_depth_in_source_order_witness :
    ∃ p, parseRun "[a]\n b = c\n" = .ok (p, none) ∧
    ∃ t, p.tokenTree = some t ∧
      ∀ (i j : Nat) (a b : token32), i < j → t.tree.toList[i]? = some a →
        t.tree.toList[j]? = some b → a.next = b.next → a.end_ ≤ b.begin := by
  obtain ⟨p, hp⟩ := parseRun_of_Parse "[a]\n b = c\n" [⟨"a", "", [("b", "c")]⟩] (by decide!)
  exact ⟨p, hp, same_depth_in_source_order "[a]\n b = c\n" (by decide) p hp⟩
/-! ## The tree of a successful parse -/

theorem inOrder_chain (n : node32) (h : n.inOrder) :
    List.Chain' (fun a b : node32 => a.token.end_ ≤ b.token.begin) n.chain := by
  induction n with
  | nil => simp [node32.chain]
  | mk tok up next _ ihn =>
    obtain ⟨h1, _, h3⟩ := h
    have hc := ihn h3
    cases next with
    | nil => simp [node32.chain]
    | mk t2 u2 n2 =>
      simp only [node32.chain] at hc ⊢
      refine List.Chain'.cons ?_ hc
      rcases h1 with h1 | h1
      · exact absurd h1 (by simp)
      · exact h1

theorem inOrder_nodes (n : node32) (h : n.inOrder) :
    ∀ P ∈ n.nodes, List.Chain' (fun a b : node32 => a.token.end_ ≤ b.token.begin)
      P.children := by
  induction n with
  | nil => intro P hP; simp [node32.nodes] at hP
  | mk tok up next ihu ihn =>
    obtain ⟨_, h2, h3⟩ := h
    intro P hP
    simp only [node32.nodes, List.mem_cons, List.mem_append] at hP
    rcases hP with rfl | hP | hP
    · exact inOrder_chain up h2
    · exact ihu h2 P hP
    · exact ihn h3 P hP

/-- The inner loop of `AST` on a stack of disjoint entries in source order, every entry
before the token or inside it: the chain it builds is in order, what it leaves is the
part of the stack that ends before the token. -/
theorem astPop_inOrder (token : token32) (stack : List (token32 × node32)) :
    ∀ up, (stack.map Prod.fst).Pairwise (fun a b => b.end_ ≤ a.begin) →
      (∀ e ∈ stack, e.1.begin ≤ e.1.end_ ∧ e.2.inOrder ∧ token32.before e.1 token) →
      up.inOrder → (up = node32.nil ∨ ∀ e ∈ stack, e.1.end_ ≤ up.token.begin) →
      (astPop token stack up).1.inOrder ∧
      (∃ popped, stack = popped ++ (astPop token stack up).2) ∧
      ∀ e ∈ (astPop token stack up).2, e.1.end_ ≤ token.begin := by
  induction stack with
  | nil =>
    intro up _ _ hu _
    exact ⟨hu, ⟨[], rfl⟩, fun e he => by simp [astPop] at he⟩
  | cons e down ih =>
    intro up hp hs hu hh
    obtain ⟨tok, u⟩ := e
    have he := hs (tok, u) (List.mem_cons_self _ _)
    simp only [List.map_cons, List.pairwise_cons] at hp
    unfold astPop
    split
    · obtain ⟨r1, ⟨popped, r2⟩, r3⟩ := ih (node32.mk tok u up) hp.2
        (fun x hx => hs x (List.mem_cons_of_mem _ hx))
        ⟨by
          rcases hh with h | h
          · exact Or.inl h
          · exact Or.inr (h (tok, u) (List.mem_cons_self _ _)), he.2.1, hu⟩
        (Or.inr (fun x hx => hp.1 x.1 (List.mem_map_of_mem _ hx)))
      exact ⟨r1, ⟨(tok, u) :: popped, by rw [List.cons_append, ← r2]⟩, r3⟩
    · rename_i hnot
      refine ⟨hu, ⟨[], rfl⟩, fun x hx => ?_⟩
      have htop : tok.end_ ≤ token.begin := by
        rcases he.2.2 with h | ⟨h1, h2, _⟩
        · exact h
        · exact absurd ⟨h1, h2⟩ hnot
      rcases List.mem_cons.1 hx with rfl | hx
      · exact htop
      · have h1 : x.1.end_ ≤ tok.begin := hp.1 x.1 (List.mem_map_of_mem _ hx)
        have h2 : tok.begin ≤ tok.end_ := he.1
        omega

/-- The loop of `AST` over nested tokens keeps a stack of disjoint entries in source
order over forests that are in order. -/
theorem astLoop_inOrder (tokens : List token32) :
    ∀ stack, tokens.Pairwise token32.before → (∀ x ∈ tokens, x.begin ≤ x.end_) →
      (stack.map Prod.fst).Pairwise (fun a b => b.end_ ≤ a.begin) →
      (∀ e ∈ stack, e.1.begin ≤ e.1.end_ ∧ e.2.inOrder ∧
        ∀ x ∈ tokens, token32.before e.1 x) →
      ∀ e ∈ astLoop tokens stack, e.2.inOrder := by
  induction tokens with
  | nil => intro stack _ _ _ hs e he; exact (hs e he).2.1
  | cons token rest ih =>
    intro stack hw hb hp hs
    have hw1 := List.pairwise_cons.1 hw
    unfold astLoop
    split
    · exact ih stack hw1.2 (fun x hx => hb x (List.mem_cons_of_mem _ hx)) hp
        (fun e he => ⟨(hs e he).1, (hs e he).2.1,
          fun x hx => (hs e he).2.2 x (List.mem_cons_of_mem _ hx)⟩)
    · obtain ⟨r1, ⟨popped, r2⟩, r3⟩ := astPop_inOrder token stack node32.nil hp
        (fun e he => ⟨(hs e he).1, (hs e he).2.1, (hs e he).2.2 token (List.mem_cons_self _ _)⟩)
        trivial (Or.inl rfl)
      have hsub : ∀ e ∈ (astPop token stack node32.nil).2, e ∈ stack := by
        intro e he
        rw [r2]
        exact List.mem_append_right _ he
      apply ih _ hw1.2 (fun x hx => hb x (List.mem_cons_of_mem _ hx))
      · simp only [List.map_cons, List.pairwise_cons]
        refine ⟨fun a ha => ?_, ?_⟩
        · obtain ⟨e, he, rfl⟩ := List.mem_map.1 ha
          exact r3 e he
        · rw [r2, List.map_append, List.pairwise_append] at hp
          exact hp.2.1
      · intro e he
        rcases List.mem_cons.1 he with rfl | he
        · exact ⟨hb token (List.mem_cons_self _ _), r1, hw1.1⟩
        · have := hs e (hsub e he)
          exact ⟨this.1, this.2.1, fun x hx => this.2.2 x (List.mem_cons_of_mem _ hx)⟩

/-- The tree of `AST` over nested tokens is in order. -/
theorem AST_inOrder (t : tokens32) (hw : t.tree.toList.Pairwise token32.before)
    (hb : ∀ x ∈ t.tree.toList, x.begin ≤ x.end_) : t.AST.inOrder := by
  unfold tokens32.AST
  simp only
  cases hl : t.tree.toList with
  | nil =>
    simp only [List.tail_nil, List.head?_nil, Option.getD_none, astLoop]
    exact ⟨Or.inl rfl, trivial, trivial⟩
  | cons t0 rest =>
    rw [hl] at hw hb
    have hw1 := List.pairwise_cons.1 hw
    have h := astLoop_inOrder rest [(t0, node32.nil)] hw1.2
      (fun x hx => hb x (List.mem_cons_of_mem _ hx)) (by simp)
      (fun e he => by
        rw [List.mem_singleton.1 he]
        exact ⟨hb t0 (List.mem_cons_self _ _), trivial, hw1.1⟩)
    simp only [List.tail_cons, List.head?_cons, Option.getD_some]
    split
    · rename_i tok up rest2 heq
      exact ⟨Or.inl rfl, h (tok, up) (by rw [heq]; exact List.mem_cons_self _ _), trivial⟩
    · trivial
/-- C11. After a successful `Parse` of a text of fewer than `2 ^ 32` characters, the
children of every node of the tree that `AST` returns are chained in source order with
spans that do not overlap: every child ends where its next sibling begins or before. -/
theorem siblings_in_source_order (data : String) (h : data.length < 2 ^ 32) (p : config)
    (hp : parseRun data = .ok (p, none)) :
    ∃ t, p.tokenTree = some t ∧
      ∀ P ∈ t.AST.nodes,
        List.Chain' (fun a b : node32 => a.token.end_ ≤ b.token.begin) P.children := by
  obtain ⟨t, n0, pos, ht, _, hl, _, hw, hin, _⟩ := parsed_tokens data h p hp
  refine ⟨t, ht, inOrder_nodes _ (AST_inOrder t (by rw [hl]; exact hw) ?_)⟩
  intro x hx
  rw [hl] at hx
  rcases List.mem_append.1 hx with hx | hx
  · exact (hin x hx).1
  · rw [List.mem_singleton.1 hx]
    exact Nat.zero_le _

theorem siblings_in_source_order_witness :
    ∃ p, parseRun "[a]\n b = c\n" = .ok (p, none) ∧
    ∃ t, p.tokenTree = some t ∧
      ∀ P ∈ t.AST.nodes,
        List.Chain' (fun a b : node32 => a.token.end_ ≤ b.token.begin) P.children := by
  obtain ⟨p, hp⟩ := parseRun_of_Parse "[a]\n b = c\n" [⟨"a", "", [("b", "c")]⟩] (by decide!)
  exact ⟨p, hp, siblings_in_source_order "[a]\n b = c\n" (by decide) p hp⟩

theorem astLoop_append (a b : List token32) :
    ∀ stack, astLoop (a ++ b) stack = astLoop b (astLoop a stack) := by
  induction a with
  | nil => intro stack; rfl
  | cons x xs ih =>
    intro stack
    simp only [List.cons_append, astLoop]
    split
    · exact ih _
    · exact ih _

theorem astPop_empty (token : token32) (stack : List (token32 × node32)) :
    ∀ up, (∀ e ∈ stack, e.1.begin ≥ token.begin ∧ e.1.end_ ≤ token.end_) →
      (astPop token stack up).2 = [] := by
  induction stack with
  | nil => intro up _; rfl
  | cons e down ih =>
    intro up hs
    obtain ⟨tok, u⟩ := e
    unfold astPop
    rw [if_pos (hs (tok, u) (List.mem_cons_self _ _))]
    exact ih _ (fun x hx => hs x (List.mem_cons_of_mem _ hx))

theorem astPop_tokens (token : token32) (stack : List (token32 × node32)) :
    ∀ up x, (x ∈ stackTokens (astPop token stack up).2 ∨
        x ∈ (astPop token stack up).1.nodes.map node32.token) ↔
      (x ∈ stackTokens stack ∨ x ∈ up.nodes.map node32.token) := by
  induction stack with
  | nil => intro up x; rfl
  | cons e down ih =>
    intro up x
    obtain ⟨tok, u⟩ := e
    unfold astPop
    split
    · rw [ih]
      simp only [stackTokens, List.flatMap_cons, node32.nodes, List.map_cons, List.map_append,
        List.mem_cons, List.mem_append, node32.token]
      tauto
    · rfl

theorem astLoop_tokens (tokens : List token32) :
    ∀ stack x, x ∈ stackTokens (astLoop tokens stack) ↔
      (x ∈ stackTokens stack ∨ (x ∈ tokens ∧ x.begin ≠ x.end_)) := by
  induction tokens with
  | nil => intro stack x; simp [astLoop]
  | cons token rest ih =>
    intro stack x
    unfold astLoop
    split
    · rename_i hz
      rw [ih]
      simp only [List.mem_cons]
      constructor
      · rintro (h | ⟨h1, h2⟩)
        · exact Or.inl h
        · exact Or.inr ⟨Or.inr h1, h2⟩
      · rintro (h | ⟨h1 | h1, h2⟩)
        · exact Or.inl h
        · rw [h1] at h2
          exact absurd hz h2
        · exact Or.inr ⟨h1, h2⟩
    · rename_i hz
      rw [ih]
      have hp := astPop_tokens token stack node32.nil x
      simp only [node32.nodes, List.map_nil, List.not_mem_nil, or_false] at hp
      have hs : x ∈ stackTokens ((token, (astPop token stack node32.nil).1) ::
          (astPop token stack node32.nil).2) ↔
          (x = token ∨ x ∈ stackTokens stack) := by
        rw [← hp]
        simp only [stackTokens, List.flatMap_cons, List.mem_cons, List.mem_append]
        tauto
      rw [hs]
      simp only [List.mem_cons]
      constructor
      · rintro ((h | h) | ⟨h1, h2⟩)
        · exact Or.inr ⟨Or.inl h, by rw [h]; exact hz⟩
        · exact Or.inl h
        · exact Or.inr ⟨Or.inr h1, h2⟩
      · rintro (h | ⟨h1 | h1, h2⟩)
        · exact Or.inl (Or.inr h)
        · exact Or.inl (Or.inl h1)
        · exact Or.inr ⟨h1, h2⟩
/-- C17. After a successful `Parse` of a text of fewer than `2 ^ 32` characters, the loop
of `AST` ends with exactly one stack entry, and the node `AST` returns carries the
Grammar token: that token begins at 0, has depth 0 and is the last token of the trimmed
buffer, and every other token of the buffer that is not zero-width is the token of a
node below it. -/
theorem AST_root_is_Grammar (data : String) (h : data.length < 2 ^ 32) (p : config)
    (hp : parseRun data = .ok (p, none)) :
    ∃ t pos up, p.tokenTree = some t ∧ 0 < pos ∧
      t.tree.toList.getLast? = some ⟨pegRule.ruleGrammar, 0, pos, 0⟩ ∧
      astLoop t.tree.toList.tail [(t.tree.toList.head?.getD token32.zero, node32.nil)] =
        [(⟨pegRule.ruleGrammar, 0, pos, 0⟩, up)] ∧
      t.AST = node32.mk ⟨pegRule.ruleGrammar, 0, pos, 0⟩ up node32.nil ∧
      ∀ x ∈ t.tree.toList.dropLast, x.begin ≠ x.end_ → ∃ N ∈ up.nodes, N.token = x := by
  obtain ⟨t, n0, pos, ht, _, hl, hpos, hw, hin, _⟩ := parsed_tokens data h p hp
  have hne : (0 : Nat) ≠ pos := by omega
  have hloop : ∃ up,
      astLoop t.tree.toList.tail [(t.tree.toList.head?.getD token32.zero, node32.nil)] =
        [(⟨pegRule.ruleGrammar, 0, pos, 0⟩, up)] := by
    rw [hl]
    cases n0 with
    | nil => exact ⟨node32.nil, rfl⟩
    | cons t0 r =>
      simp only [List.cons_append, List.tail_cons, List.head?_cons, Option.getD_some]
      rw [astLoop_append]
      have hall := astLoop_all (fun tok => tok.end_ ≤ pos) r [(t0, node32.nil)]
        (fun tok htok _ => (hin tok (List.mem_cons_of_mem _ htok)).2)
        (fun e he => by
          rw [List.mem_singleton.1 he]
          exact ⟨(hin t0 (List.mem_cons_self _ _)).2, fun N hN => by simp [node32.nodes] at hN⟩)
      refine ⟨(astPop ⟨pegRule.ruleGrammar, 0, pos, 0⟩ (astLoop r [(t0, node32.nil)])
        node32.nil).1, ?_⟩
      simp only [astLoop]
      rw [if_neg hne, astPop_empty _ _ _ (fun e he => ⟨Nat.zero_le _, (hall e he).1⟩)]
  obtain ⟨up, hup⟩ := hloop
  refine ⟨t, pos, up, ht, hpos, by rw [hl]; simp, hup, ?_, fun x hx hz => ?_⟩
  · unfold tokens32.AST
    simp only [hup]
  · rw [hl, List.dropLast_concat] at hx
    have hmem : x ∈ stackTokens (astLoop t.tree.toList.tail
        [(t.tree.toList.head?.getD token32.zero, node32.nil)]) := by
      rw [astLoop_tokens, hl]
      cases n0 with
      | nil => simp at hx
      | cons t0 r =>
        simp only [List.cons_append, List.tail_cons, List.head?_cons, Option.getD_some]
        rcases List.mem_cons.1 hx with rfl | hx
        · left
          simp [stackTokens]
        · exact Or.inr ⟨List.mem_append_left _ hx, hz⟩
    rw [hup] at hmem
    simp only [stackTokens, List.flatMap_cons, List.flatMap_nil, List.append_nil,
      List.mem_cons, List.mem_map] at hmem
    rcases hmem with rfl | ⟨N, hN, rfl⟩
    · have hb := (List.pairwise_append.1 hw).2.2 _ hx _ (List.mem_singleton_self _)
      rcases hb with hb | ⟨_, _, hb⟩
      · exact absurd hb (by simp at hz ⊢; omega)
      · simp at hb
    · exact ⟨N, hN, rfl⟩

theorem AST_root_is_Grammar_witness :
    ∃ p, parseRun "[a]\n b = c\n" = .ok (p, none) ∧
    ∃ t pos up, p.tokenTree = some t ∧ 0 < pos ∧
      t.tree.toList.getLast? = some ⟨pegRule.ruleGrammar, 0, pos, 0⟩ ∧
      astLoop t.tree.toList.tail [(t.tree.toList.head?.getD token32.zero, node32.nil)] =
        [(⟨pegRule.ruleGrammar, 0, pos, 0⟩, up)] ∧
      t.AST = node32.mk ⟨pegRule.ruleGrammar, 0, pos, 0⟩ up node32.nil ∧
      ∀ x ∈ t.tree.toList.dropLast, x.begin ≠ x.end_ → ∃ N ∈ up.nodes, N.token = x := by
  obtain ⟨p, hp⟩ := parseRun_of_Parse "[a]\n b = c\n" [⟨"a", "", [("b", "c")]⟩] (by decide!)
  exact ⟨p, hp, AST_root_is_Grammar "[a]\n b = c\n" (by decide) p hp⟩
/-! ## The derived views after a failed parse -/

theorem liveTokens_sub (t : tokenSlice) : ∀ x ∈ t.liveTokens, x ∈ t.cells := by
  intro x hx
  unfold tokenSlice.liveTokens at hx
  exact List.mem_of_mem_take ((List.takeWhile_sublist _).subset hx)

theorem liveTokens_length (t : tokenSlice) : t.liveTokens.length ≤ t.len := by
  unfold tokenSlice.liveTokens
  refine Nat.le_trans (List.takeWhile_sublist _).length_le ?_
  rw [List.length_take]
  exact Nat.min_le_left _ _

theorem astLoop_ne_nil (tokens : List token32) :
    ∀ stack, stack ≠ [] → astLoop tokens stack ≠ [] := by
  induction tokens with
  | nil => intro stack h; exact h
  | cons token rest ih =>
    intro stack h
    unfold astLoop
    split
    · exact ih stack h
    · exact ih _ (List.cons_ne_nil _ _)

theorem AST_ne_nil (t : tokens32) : t.AST ≠ node32.nil := by
  unfold tokens32.AST
  simp only
  split
  · simp
  · rename_i heq
    exact absurd heq (astLoop_ne_nil _ _ (List.cons_ne_nil _ _))

/-- The outer loop of `AST` ends with the last token that is not zero-width on top of the
stack, or with the entry that was on top when there is no such token. -/
theorem astLoop_top (tokens : List token32) :
    ∀ (e : token32 × node32) (down : List (token32 × node32)),
      ∃ up rest, astLoop tokens (e :: down) =
        (((tokens.filter (fun t => t.begin != t.end_)).getLast?).getD e.1, up) :: rest := by
  induction tokens with
  | nil => intro e down; exact ⟨e.2, down, rfl⟩
  | cons t ts ih =>
    intro e down
    unfold astLoop
    split
    · rename_i hz
      rw [List.filter_cons_of_neg (by simp [hz])]
      exact ih e down
    · rename_i hz
      obtain ⟨up, rest, h⟩ := ih (t, (astPop t (e :: down) node32.nil).1)
        (astPop t (e :: down) node32.nil).2
      refine ⟨up, rest, ?_⟩
      rw [h, List.filter_cons_of_pos (by simp [hz])]
      congr 2
      cases (ts.filter (fun t => t.begin != t.end_)) with
      | nil => rfl
      | cons a l =>
        simp only [List.getLast?_cons_cons]
        rw [List.getLast?_eq_getLast _ (List.cons_ne_nil a l)]
        rfl

theorem AST_root (t : tokens32) :
    ∃ up, t.AST = node32.mk (astRoot t.tree.toList) up node32.nil := by
  obtain ⟨up, rest, h⟩ := astLoop_top t.tree.toList.tail
    (t.tree.toList.head?.getD token32.zero, node32.nil) []
  refine ⟨up, ?_⟩
  unfold tokens32.AST
  simp only [h]
  rfl

theorem toList_ne_nil (t : tokenSlice) (h : 0 < t.len) : t.toList ≠ [] := by
  intro hnil
  have := congrArg List.length hnil
  unfold tokenSlice.toList at this
  rw [List.length_take, List.length_append, List.length_replicate, List.length_nil] at this
  omega

/-- Every node of the tree of `AST` carries an entry of the slice. -/
theorem AST_from_slice (t : tokens32) (h : 0 < t.tree.len) :
    ∀ N ∈ t.AST.nodes, N.token ∈ t.tree.toList := by
  apply AST_all (fun tok => tok ∈ t.tree.toList) t
  · cases hl : t.tree.toList with
    | nil => exact absurd hl (toList_ne_nil _ h)
    | cons x xs => simp
  · intro tok htok _
    exact List.mem_of_mem_tail htok

/-- After a `Parse` that returns an error the start rule has returned false and the parser
holds the untrimmed token slice of that attempt; `Order` on it returns the buckets of
its live tokens and `AST` a tree of its entries. -/
theorem failed_tree_orders (data : String) (h : data.length < u32) (err : parseError)
    (hp : Parse data = .ok (none, some err)) :
    ∃ m1, rules_ruleGrammar (Init (config.new data)).2 = .ok (false, m1) ∧
      err.p.tokenTree = some ⟨m1.tree, none⟩ ∧
      (m1.tree.len < 2147483647 →
        ∃ ordered, tokens32.Order ⟨m1.tree, none⟩ =
            .ok (ordered, ⟨⟨m1.tree.liveTokens, m1.tree.liveTokens.length⟩, some ordered⟩) ∧
          ordered.length = depthSpan m1.tree.liveTokens 1 + 1 ∧
          ∀ d, d < ordered.length →
            ordered[d]? = some (bucketSpec 0 m1.tree.liveTokens d ++ [token32.zero])) ∧
      (∃ up, tokens32.AST ⟨m1.tree, none⟩ =
        node32.mk (astRoot m1.tree.toList) up node32.nil) ∧
      ∀ N ∈ (tokens32.AST ⟨m1.tree, none⟩).nodes, N.token ∈ m1.tree.toList := by
  unfold Parse parseRun config.Parse at hp
  simp only at hp
  cases hg : rules_ruleGrammar (Init (config.new data)).2 with
  | error e => simp [hg] at hp
  | ok r =>
    obtain ⟨b, m1⟩ := r
    obtain ⟨hi1, hc, _⟩ := grammar_tokens data h b m1 hg
    cases b
    · simp only [hg, Except.ok.injEq, Prod.mk.injEq, Option.some.injEq, true_and] at hp
      subst hp
      refine ⟨m1, rfl, rfl, fun hlen => ?_, AST_root _, AST_from_slice _ hi1.len_pos⟩
      exact Order_ok ⟨m1.tree, none⟩ rfl
        (fun tok htok => by
          have := hc tok (liveTokens_sub _ tok htok)
          omega)
        (Nat.lt_of_le_of_lt (liveTokens_length _) hlen)
    · simp only [hg, tokens32.trim] at hp
      by_cases hle : m1.tokenIndex ≤ m1.tree.len
      · simp only [hle, if_true] at hp
        split at hp
        · simp at hp
        · rename_i heq
          split at heq <;> simp at heq
        · simp at hp
      · simp [hle] at hp

/-- After the failed parse of `[core\n  a = 1\n`, `PreOrder` on the parser's token tree
runs on the buckets of the failed attempt and faults with an index out of range. -/
theorem failed_tree_preorder :
    ∃ err t, Parse "[core\n  a = 1\n" = .ok (none, some err) ∧
      err.p.tokenTree = some t ∧ t.PreOrder = .error Fault.indexOutOfRange := by
  have h : (match Parse "[core\n  a = 1\n" with
    | .ok (none, some err) => (match err.p.tokenTree with
        | some t => decide (t.PreOrder = .error Fault.indexOutOfRange)
        | none => false)
    | _ => false) = true := by decide!
  split at h
  · rename_i err heq
    split at h
    · rename_i t ht
      exact ⟨err, t, heq, ht, of_decide_eq_true h⟩
    · simp at h
  · simp at h

/-- A token chain reported by `Error` after a failed `Parse` comes from buckets that
`Order` returned on the parser's token tree. -/
theorem order_of_errorTokens (data : String) (toks : List token32)
    (h : errorTokens data = .ok (some toks)) :
    ∃ err t ordered t1, Parse data = .ok (none, some err) ∧ err.p.tokenTree = some t ∧
      t.Order = .ok (ordered, t1) := by
  unfold errorTokens at h
  cases hP : Parse data with
  | error e => simp [hP] at h
  | ok r =>
    obtain ⟨x, e⟩ := r
    cases e with
    | none => simp [hP] at h
    | some err =>
      have hx : x = none := by
        unfold Parse at hP
        split at hP
        · simp at hP
        · simp only [Except.ok.injEq, Prod.mk.injEq] at hP
          exact hP.1.symm
        · simp at hP
      subst hx
      simp only [hP, parseError.tokens] at h
      cases ht : err.p.tokenTree with
      | none => simp [ht] at h
      | some t =>
        simp only [ht, tokens32.Error] at h
        cases ho : t.Order with
        | error e => simp [ho] at h
        | ok r =>
          obtain ⟨ordered, t1⟩ := r
          exact ⟨err, t, ordered, t1, rfl, ht, ho⟩

/-- C14 as stated fails on the code: after the failed `Parse` of `[core\n  a = 1\n` a
call of `Order` on the parser's token tree returns buckets, not an error. -/
theorem failed_parse_still_orders :
    ∃ err t ordered t1, Parse "[core\n  a = 1\n" = .ok (none, some err) ∧
      err.p.tokenTree = some t ∧ t.Order = .ok (ordered, t1) :=
  order_of_errorTokens "[core\n  a = 1\n" _
    (errorTokens_unterminated "core" "\n  a = 1\n" (by decide!) (by decide!) (by decide!))

/-- C14, amended. Nothing rejects a request for the buckets or the tree after a failed
parse. For every text of fewer than `2 ^ 32` characters on which `Parse` returns an
error, the start rule has returned false and the parser holds the untrimmed token slice
`m1.tree` of that attempt. `Order` on it returns (when the slice has fewer than
`2 ^ 31 - 1` entries, the range of the `int32` counters) the buckets of the tokens the
attempt left in the slice before its first `Unknown` entry: one bucket for every depth
up to the deepest and one more, bucket `d` holding the tokens of depth `d` in the order
of the slice with `next` set to their index, then one zero token; and it caches them.
`AST` on it returns a tree, not nil, whose root carries the last entry of the slice
after the first that is not zero-width (the first entry when there is none), and every
node of which carries an entry of the slice. `PreOrder` is not guarded either: after the
failed parse of `[core\n  a = 1\n` it runs on the buckets of the failed attempt and
faults with an index out of range. -/
theorem failed_parse_not_rejected (data : String) (h : data.length < 2 ^ 32)
    (err : parseError) (hp : Parse data = .ok (none, some err)) :
    (∃ m1, rules_ruleGrammar (Init (config.new data)).2 = .ok (false, m1) ∧
      err.p.tokenTree = some ⟨m1.tree, none⟩ ∧
      (m1.tree.len < 2147483647 →
        ∃ ordered, tokens32.Order ⟨m1.tree, none⟩ =
            .ok (ordered, ⟨⟨m1.tree.liveTokens, m1.tree.liveTokens.length⟩, some ordered⟩) ∧
          ordered.length = depthSpan m1.tree.liveTokens 1 + 1 ∧
          ∀ d, d < ordered.length →
            ordered[d]? = some (bucketSpec 0 m1.tree.liveTokens d ++ [token32.zero])) ∧
      (∃ up, tokens32.AST ⟨m1.tree, none⟩ =
        node32.mk (astRoot m1.tree.toList) up node32.nil) ∧
      ∀ N ∈ (tokens32.AST ⟨m1.tree, none⟩).nodes, N.token ∈ m1.tree.toList) ∧
    ∃ err1 t, Parse "[core\n  a = 1\n" = .ok (none, some err1) ∧
      err1.p.tokenTree = some t ∧ t.PreOrder = .error Fault.indexOutOfRange :=
  ⟨failed_tree_orders data h err hp, failed_tree_preorder⟩

theorem failed_parse_not_rejected_witness :
    ∃ err, Parse "[core\n  a = 1\n" = .ok (none, some err) ∧
      ((∃ m1, rules_ruleGrammar (Init (config.new "[core\n  a = 1\n")).2 = .ok (false, m1) ∧
        m1.tree.len < 2147483647 ∧
        err.p.tokenTree = some ⟨m1.tree, none⟩ ∧
        (m1.tree.len < 2147483647 →
          ∃ ordered, tokens32.Order ⟨m1.tree, none⟩ =
              .ok (ordered,
                ⟨⟨m1.tree.liveTokens, m1.tree.liveTokens.length⟩, some ordered⟩) ∧
            ordered.length = depthSpan m1.tree.liveTokens 1 + 1 ∧
            ∀ d, d < ordered.length →
              ordered[d]? = some (bucketSpec 0 m1.tree.liveTokens d ++ [token32.zero])) ∧
        (∃ up, tokens32.AST ⟨m1.tree, none⟩ =
          node32.mk (astRoot m1.tree.toList) up node32.nil) ∧
        ∀ N ∈ (tokens32.AST ⟨m1.tree, none⟩).nodes, N.token ∈ m1.tree.toList) ∧
      ∃ err1 t, Parse "[core\n  a = 1\n" = .ok (none, some err1) ∧
        err1.p.tokenTree = some t ∧ t.PreOrder = .error Fault.indexOutOfRange) := by
  obtain ⟨err, _, _, _, h1, _, _⟩ := order_of_errorTokens "[core\n  a = 1\n" _
    (errorTokens_unterminated "core" "\n  a = 1\n" (by decide!) (by decide!) (by decide!))
  obtain ⟨⟨m1, hg, hrest⟩, hpre⟩ :=
    failed_parse_not_rejected "[core\n  a = 1\n" (by decide) err h1
  have hlen : (match rules_ruleGrammar (Init (config.new "[core\n  a = 1\n")).2 with
      | .ok (_, m) => m.tree.len
      | .error _ => 0) < 2147483647 := by decide!
  rw [hg] at hlen
  exact ⟨err, h1, ⟨m1, hg, hlen, hrest⟩, hpre⟩
/-! ## The tokens of a successful parse as a forest -/

/-- A successful capture has committed at least its own token. -/
theorem capture_grows {f : Rule} (rule : pegRule) (s s1 : Matcher)
    (h : capture rule f s = .ok (true, s1)) : 0 < s1.tokenIndex := by
  rw [capture_ok] at h
  rcases h with ⟨hb, _⟩ | ⟨_, s0, _, h1⟩
  · simp at hb
  · rw [add_ok] at h1
    obtain ⟨_, rfl⟩ := h1
    exact Nat.succ_pos _

/-- The tokens of a successful `Parse` as a forest: the trimmed buffer is the tokens of a
non-empty forest of depth 1 over the text read, followed by the Grammar token, which
spans that text at depth 0; no token is deeper than 6. -/
theorem parsed_forest (data : String) (h : data.length < u32) (p : config)
    (hp : parseRun data = .ok (p, none)) :
    ∃ t n0 pos, p.tokenTree = some t ∧ t.ordered = none ∧
      t.tree.toList = n0 ++ [⟨pegRule.ruleGrammar, 0, pos, 0⟩] ∧
      Forest 1 0 pos n0 ∧ n0 ≠ [] ∧
      ∀ x ∈ n0 ++ [⟨pegRule.ruleGrammar, 0, pos, 0⟩], x.next ≤ 6 := by
  obtain ⟨m1, h1, _, ht⟩ := parseRun_tree data p hp
  obtain ⟨hi1, hc, _⟩ := grammar_tokens data h true m1 h1
  have hi : Inv (Init (config.new data)).2 := inv_init _ h
  have hc0 : (Init (config.new data)).2.committed = [] := rfl
  have hgo := h1
  unfold rules_ruleGrammar at h1
  rw [ruleFn_ok] at h1
  rcases h1 with ⟨_, h1⟩ | ⟨hb, _⟩
  · rw [capture_ok] at h1
    rcases h1 with ⟨hb, _⟩ | ⟨_, s0, h0, h2⟩
    · simp at hb
    · have hi' := hi.set_depth (inc (Init (config.new data)).2.depth)
      have hs0 := ((safe_seq safe_grammarItem (safe_star safe_grammarItem adv_grammarItem)).result
        hi' h0).1
      obtain ⟨_, _, g0⟩ := (tidy_seq tidy_grammarItem
        (tidy_star tidy_grammarItem adv_grammarItem)).2 _ true s0 hi' h0 6 (by show inc 0 + 5 ≤ 6; decide) (by decide)
        (fun t ht => by simp [Init, tokenSlice.make] at ht)
      obtain ⟨n0, g0⟩ := g0 rfl
      obtain ⟨_, f2, f3, f4⟩ := add_facts (hs0.set_depth (dec s0.depth)) h2
      have hd0 : s0.depth = 1 := g0.depth_eq
      have hcm : s0.committed = n0 := by
        have := g0.committed_eq
        rw [this]
        exact List.nil_append _
      have f4' : m1.committed = n0 ++ [⟨pegRule.ruleGrammar, 0, m1.position, 0⟩] := by
        rw [f4, committed_set_depth, hcm, f3]
        show _ ++ [(⟨pegRule.ruleGrammar, 0, s0.position, dec s0.depth⟩ : token32)] = _
        rw [hd0]
        rfl
      have hfo : Forest 1 0 s0.position n0 := g0.forest
      refine ⟨_, n0, m1.position, ht, rfl, ?_, ?_, ?_, fun x hx => ?_⟩
      · show (tokenSlice.mk (m1.tree.cells.take m1.tokenIndex) m1.tokenIndex).toList = _
        rw [toList_trim _ _ hi1.index_le]
        exact f4'
      · rw [f3]
        exact hfo
      · intro hn
        rw [seq_ok] at h0
        rcases h0 with ⟨s2, h3, h4⟩ | ⟨hb, _⟩
        · have hs2 := (safe_grammarItem.result hi' h3)
          have hfr := ((safe_star safe_grammarItem adv_grammarItem).result hs2.1 h4).2.1
          have hlen := committed_length hs0
          rw [hcm, hn] at hlen
          have h5 : s2.tokenIndex ≤ s0.tokenIndex := hfr.index_le
          have h6 : 0 < s2.tokenIndex := by
            rw [alt_ok] at h3
            rcases h3 with ⟨_, h3⟩ | ⟨s3, h3, h7⟩
            · unfold rules_ruleSpaceComment at h3
              rw [ruleFn_ok] at h3
              rcases h3 with ⟨_, h3⟩ | ⟨hb, _⟩
              · exact capture_grows _ _ _ h3
              · simp at hb
            · exact capture_grows _ _ _ h7
          simp at hlen
          omega
        · simp at hb
      · rw [← f4'] at hx
        exact hc x (List.mem_of_mem_take hx)
  · simp at hb

/-! ## Reading the buckets of `Order` -/

theorem bucketSpec_nil (i d : Nat) : bucketSpec i [] d = [] := rfl

theorem bucketSpec_hit (i : Nat) (t : token32) (ts : List token32) (d : Nat) (h : t.next = d) :
    bucketSpec i (t :: ts) d = t.filed i :: bucketSpec (i + 1) ts d := by
  rw [bucketSpec_cons, if_pos h]
  rfl

theorem bucketSpec_miss (i : Nat) (t : token32) (ts : List token32) (d : Nat) (h : t.next ≠ d) :
    bucketSpec i (t :: ts) d = bucketSpec (i + 1) ts d := by
  rw [bucketSpec_cons, if_neg h]

theorem bucketSpec_append (a b : List token32) (d : Nat) :
    ∀ i, bucketSpec i (a ++ b) d = bucketSpec i a d ++ bucketSpec (i + a.length) b d := by
  induction a with
  | nil => intro i; rfl
  | cons t ts ih =>
    intro i
    by_cases h : t.next = d
    · rw [List.cons_append, bucketSpec_hit _ _ _ _ h, bucketSpec_hit _ _ _ _ h, ih,
        List.length_cons, List.cons_append]
      congr 3
      omega
    · rw [List.cons_append, bucketSpec_miss _ _ _ _ h, bucketSpec_miss _ _ _ _ h, ih,
        List.length_cons]
      congr 2
      omega

theorem bucketSpec_length (a : List token32) (d : Nat) :
    ∀ i, (bucketSpec i a d).length = depthCount a d := by
  induction a with
  | nil => intro i; rfl
  | cons t ts ih =>
    intro i
    by_cases h : t.next = d
    · rw [bucketSpec_hit _ _ _ _ h, List.length_cons, ih]
      simp [depthCount, List.countP_cons, h]
    · rw [bucketSpec_miss _ _ _ _ h, ih]
      simp [depthCount, List.countP_cons, h]

theorem bucketSpec_none (a : List token32) (d : Nat) (h : ∀ t ∈ a, t.next ≠ d) :
    ∀ i, bucketSpec i a d = [] := by
  induction a with
  | nil => intro i; rfl
  | cons t ts ih =>
    intro i
    rw [bucketSpec_miss _ _ _ _ (h t (List.mem_cons_self _ _))]
    exact ih (fun x hx => h x (List.mem_cons_of_mem _ hx)) _

theorem depthCount_append (a b : List token32) (d : Nat) :
    depthCount (a ++ b) d = depthCount a d + depthCount b d := by
  simp [depthCount, List.countP_append]

theorem depthCount_none (a : List token32) (d : Nat) (h : ∀ t ∈ a, t.next ≠ d) :
    depthCount a d = 0 := by
  rw [← bucketSpec_length a d 0, bucketSpec_none a d h]
  rfl

theorem depthCount_single (t : token32) (d : Nat) :
    depthCount [t] d = if t.next = d then 1 else 0 := by
  simp [depthCount, List.countP_cons]

/-- Every token of a bucket of `bucketSpec` is a token of the list, filed under an index
from `i` on and within the list. -/
theorem bucketSpec_mem (a : List token32) (d : Nat) :
    ∀ i, ∀ c ∈ bucketSpec i a d, ∃ t ∈ a, ∃ k, c = t.filed k ∧ i ≤ k ∧ k < i + a.length := by
  induction a with
  | nil => intro i c hc; simp [bucketSpec_nil] at hc
  | cons t ts ih =>
    intro i c hc
    by_cases h : t.next = d
    · rw [bucketSpec_hit _ _ _ _ h] at hc
      rcases List.mem_cons.1 hc with rfl | hc
      · exact ⟨t, List.mem_cons_self _ _, i, rfl, Nat.le_refl _, by simp⟩
      · obtain ⟨x, hx, k, hk, h1, h2⟩ := ih _ c hc
        exact ⟨x, List.mem_cons_of_mem _ hx, k, hk, by omega, by simp; omega⟩
    · rw [bucketSpec_miss _ _ _ _ h] at hc
      obtain ⟨x, hx, k, hk, h1, h2⟩ := ih _ c hc
      exact ⟨x, List.mem_cons_of_mem _ hx, k, hk, by omega, by simp; omega⟩

/-- The cell of bucket `d` at the count of depth `d` among the tokens `pre`: the first
token of depth `d` after `pre`, filed. -/
theorem Buckets.cell_of {toks : List token32} {ordered : List (List token32)}
    (hb : Buckets toks ordered) (pre mid post : List token32) (x : token32)
    (ht : toks = pre ++ mid ++ x :: post) (hm : ∀ t ∈ mid, t.next ≠ x.next) :
    bucketAt ordered x.next (depthCount pre x.next) =
      .ok (x.filed (pre.length + mid.length)) := by
  have hx : x ∈ toks := by rw [ht]; simp
  have hd : x.next < ordered.length := by
    have := hb.depth_lt x hx
    omega
  unfold bucketAt
  rw [hb.get _ hd]
  simp only
  rw [ht, List.append_assoc, bucketSpec_append, bucketSpec_append, bucketSpec_none mid _ hm,
    List.nil_append, bucketSpec_hit _ _ _ _ rfl, Nat.zero_add, List.append_assoc,
    List.getElem?_append_right (by rw [bucketSpec_length])]
  simp [bucketSpec_length]

/-- The cell of bucket `d` at the count of depth `d` among the tokens `pre` exists: it is
the zero token or a token filed under an index not before the end of `pre`. -/
theorem Buckets.next {toks : List token32} {ordered : List (List token32)}
    (hb : Buckets toks ordered) (pre post : List token32) (d : Nat)
    (ht : toks = pre ++ post) (hd : d < ordered.length) :
    ∃ c, bucketAt ordered d (depthCount pre d) = .ok c ∧
      (c.pegRule = pegRule.ruleUnknown ∨ pre.length ≤ c.next) := by
  unfold bucketAt
  rw [hb.get _ hd]
  simp only
  rw [ht, bucketSpec_append, Nat.zero_add, List.append_assoc,
    List.getElem?_append_right (by rw [bucketSpec_length]), bucketSpec_length, Nat.sub_self]
  cases hp : bucketSpec pre.length post d with
  | nil => exact ⟨token32.zero, by simp, Or.inl rfl⟩
  | cons c cs =>
    refine ⟨c, by simp, Or.inr ?_⟩
    obtain ⟨t, _, k, hk, h1, _⟩ := bucketSpec_mem post d pre.length c (by rw [hp]; simp)
    rw [hk]
    exact h1

/-- The cell of bucket `d` before the count of depth `d` among the tokens `pre`, when
that count is not 0: a token of `pre`, filed under its index. -/
theorem Buckets.prev {toks : List token32} {ordered : List (List token32)}
    (hb : Buckets toks ordered) (pre post : List token32) (d : Nat)
    (ht : toks = pre ++ post) (hd : d < ordered.length) (hc : 0 < depthCount pre d) :
    ∃ c, bucketAt ordered d (depthCount pre d - 1) = .ok c ∧
      ∃ t ∈ pre, ∃ k, c = t.filed k ∧ k < pre.length := by
  unfold bucketAt
  rw [hb.get _ hd]
  simp only
  rw [ht, bucketSpec_append, Nat.zero_add, List.append_assoc]
  have hl := bucketSpec_length pre d 0
  have hlt : depthCount pre d - 1 < (bucketSpec 0 pre d).length := by omega
  rw [List.getElem?_append_left hlt, List.getElem?_eq_getElem hlt]
  refine ⟨_, rfl, ?_⟩
  obtain ⟨t, h1, k, h2, _, h3⟩ := bucketSpec_mem pre d 0 _ (List.getElem_mem hlt)
  exact ⟨t, h1, k, h2, by omega⟩

/-! ## Items that tile a span -/

theorem Tiled.depth_ge {d lo hi : Nat} {l : List state32} (h : Tiled d lo hi l) :
    ∀ x ∈ l, d ≤ x.next := by
  induction h with
  | done => intro x hx; simp at hx
  | leaf h1 _ _ ih =>
    intro y hy
    rcases List.mem_cons.1 hy with rfl | hy
    · omega
    · exact ih y hy
  | node h1 _ _ _ _ ih1 ih2 =>
    intro y hy
    rcases List.mem_cons.1 hy with rfl | hy
    · omega
    · rcases List.mem_append.1 hy with hy | hy
      · have := ih1 y hy
        omega
      · exact ih2 y hy

theorem Tiled.head {d lo hi : Nat} {l : List state32} (h : Tiled d lo hi l) :
    ∀ y, l.head? = some y → y.next = d := by
  cases h with
  | done => intro y hy; simp at hy
  | leaf h1 _ _ => intro y hy; simp at hy; rw [← hy]; exact h1
  | node h1 _ _ _ _ => intro y hy; simp at hy; rw [← hy]; exact h1

theorem Tiled.concat {d lo m hi : Nat} {l1 l2 : List state32} (h1 : Tiled d lo m l1)
    (h2 : Tiled d m hi l2) : Tiled d lo hi (l1 ++ l2) := by
  induction h1 with
  | done => exact h2
  | leaf g1 g2 _ ih => exact Tiled.leaf g1 g2 (ih h2)
  | node g1 g2 g3 g4 _ _ ih2 =>
    have := Tiled.node g1 g2 g3 g4 (ih2 h2)
    simpa [List.append_assoc] using this

theorem tiles_append {lo m hi : Nat} {l1 l2 : List state32} :
    tiles lo m l1 → tiles m hi l2 → tiles lo hi (l1 ++ l2) := by
  induction l1 generalizing lo with
  | nil => intro h1 h2; simp only [tiles] at h1; subst h1; exact h2
  | cons x xs ih => intro h1 h2; exact ⟨h1.1, ih h1.2 h2⟩

/-- The items of depth `d` of a walk over a forest of depth `d` tile its span. -/
theorem Tiled.level {d lo hi : Nat} {l : List state32} (h : Tiled d lo hi l) :
    tiles lo hi (l.filter (fun s => decide (s.next = d))) := by
  induction h with
  | done => exact rfl
  | leaf h1 _ _ ih =>
    rw [List.filter_cons_of_pos (by simpa using h1)]
    exact ⟨rfl, ih⟩
  | @node d hi x sub rest h1 _ _ h4 _ _ ih2 =>
    rw [List.filter_cons_of_pos (by simpa using h1), List.filter_append]
    have : sub.filter (fun s => decide (s.next = d)) = [] := by
      rw [List.filter_eq_nil_iff]
      intro y hy
      have := h4.depth_ge y hy
      simp
      omega
    rw [this, List.nil_append]
    exact ⟨rfl, ih2⟩

theorem takeWhile_append_stop {α : Type} (p : α → Bool) (a b : List α)
    (h : ∀ y, b.head? = some y → p y = false) :
    (a ++ b).takeWhile p = a.takeWhile p := by
  induction a with
  | nil =>
    cases b with
    | nil => rfl
    | cons y ys => simp [List.takeWhile_cons, h y rfl]
  | cons x xs ih =>
    simp only [List.cons_append, List.takeWhile_cons, ih]

theorem takeWhile_all {α : Type} (p : α → Bool) (a : List α) (h : ∀ y ∈ a, p y = true) :
    a.takeWhile p = a := by
  induction a with
  | nil => rfl
  | cons x xs ih =>
    rw [List.takeWhile_cons, h x (List.mem_cons_self _ _)]
    simp only [if_true]
    rw [ih (fun y hy => h y (List.mem_cons_of_mem _ hy))]

/-- In a walk that tiles, the items sent for a non-leaf item are not none and tile its
span, whatever follows the walk at its depth or above. -/
theorem Tiled.children {d lo hi : Nat} {l : List state32} (h : Tiled d lo hi l) :
    ∀ (tail : List state32), (∀ y, tail.head? = some y → y.next ≤ d) →
    ∀ (pre post : List state32) (x : state32), l = pre ++ x :: post → x.leaf = false →
      childItems x.next (post ++ tail) ≠ [] ∧
      tiles x.begin x.end_ (childItems x.next (post ++ tail)) := by
  induction h with
  | done => intro tail _ pre post x hl; simp at hl
  | leaf h1 h2 _ ih =>
    intro tail ht pre post x hl hx
    cases pre with
    | nil =>
      simp at hl
      rw [hl.1, hx] at h2
      simp at h2
    | cons p ps =>
      simp at hl
      exact ih tail ht ps post x hl.2 hx
  | @node d hi x0 sub rest h1 h2 h3 h4 h5 ih1 ih2 =>
    intro tail ht pre post x hl hx
    have hstop : ∀ y, (rest ++ tail).head? = some y → y.next ≤ d := by
      intro y hy
      cases rest with
      | nil => exact ht y hy
      | cons r rs =>
        have := h5.head r rfl
        simp at hy
        rw [← hy]
        omega
    cases pre with
    | nil =>
      simp at hl
      obtain ⟨rfl, rfl⟩ := hl
      have htw : ((sub ++ rest) ++ tail).takeWhile (fun s => decide (x0.next < s.next)) = sub := by
        rw [List.append_assoc, takeWhile_append_stop _ _ _ (fun y hy => by
          have := hstop y hy
          simp
          omega)]
        exact takeWhile_all _ _ (fun y hy => by
          have := h4.depth_ge y hy
          simp
          omega)
      unfold childItems
      rw [htw, h1]
      refine ⟨?_, h4.level⟩
      cases sub with
      | nil => exact absurd rfl h3
      | cons s ss =>
        have := h4.head s rfl
        rw [List.filter_cons_of_pos (by simpa using this)]
        simp
    | cons p ps =>
      simp at hl
      obtain ⟨_, hl⟩ := hl
      rcases List.append_eq_append_iff.1 hl with ⟨a, h6, h7⟩ | ⟨c, h6, h7⟩
      · -- the item is in `rest`
        have := ih2 tail ht a post x h7 hx
        exact this
      · -- the item is in `sub`
        cases c with
        | nil =>
          simp at h7 h6
          exact ih2 tail ht [] post x (by simpa using h7.symm) hx
        | cons c0 cs =>
          simp at h7
          obtain ⟨rfl, rfl⟩ := h7
          have := ih1 (rest ++ tail) (fun y hy => by
            have := hstop y hy
            omega) ps cs x h6 hx
          simpa [List.append_assoc] using this

/-! ## The steps of the walk of `PreOrder` -/

theorem counterAt_ok (depths : List Nat) (d n : Nat) :
    counterAt depths d = .ok n ↔ depths[d]? = some n := by
  unfold counterAt
  cases depths[d]? <;> simp

theorem Walk.out_nil (w : Walk) : { w with out := w.out ++ [] } = w := by
  cases w
  simp

/-- The second inner loop when `c` is a child of `a`: the next turn is for `c`. -/
theorem ascend_found (ordered : List (List token32)) (d : Nat) (w : Walk) (c : token32)
    (parent : Bool) (hk : c.pegRule ≠ pegRule.ruleUnknown) (hp : w.a.isParentOf c = true) :
    ascend ordered d w c parent = .ok (true, { w with b := c }) := by
  cases d <;> rw [ascend] <;> simp [hk, hp]

/-- The second inner loop when `c` is no child of `a`, at a level above 1: a `_Suf` item
for what is left of `a` after `b`, and one level up. -/
theorem ascend_up (ordered : List (List token32)) (d : Nat) (w : Walk) (c : token32)
    (k n : Nat) (a1 c1 : token32)
    (hc : c.pegRule = pegRule.ruleUnknown ∨ w.a.isParentOf c = false) (hd : 0 < d)
    (hk : counterAt w.depths (d - 1) = .ok k) (hk0 : 0 < k) (hkn : k < 2147483648)
    (ha : bucketAt ordered (d - 1) (k - 1) = .ok a1)
    (hn : counterAt w.depths d = .ok n) (hc1 : bucketAt ordered d n = .ok c1) :
    ascend ordered (d + 1) w c true =
      ascend ordered d ⟨w.depths, d, a1, w.a, w.out ++
        (if w.b.end_ ≠ w.a.end_ then
          [⟨pegRule.rule_Suf, w.b.end_, w.a.end_, w.depth % u32, w.depths, true⟩] else [])⟩
        c1 (a1.isParentOf w.a) := by
  rw [ascend]
  have h0 : (decide (c.pegRule ≠ pegRule.ruleUnknown) && w.a.isParentOf c) = false := by
    rcases hc with h | h <;> simp [h]
  have hk1 : ¬ (k = 0 ∨ int32Negative k = true) := by
    unfold int32Negative
    simp
    omega
  by_cases he : w.b.end_ ≠ w.a.end_
  · simp only [h0, he, Walk.write, hd, if_true, hk, hk1, if_false, ha, hn, hc1, true_and,
      ne_eq, not_false_eq_true, Bool.false_eq_true]
  · simp only [h0, he, Walk.write, hd, if_true, hk, hk1, if_false, ha, hn, hc1, true_and,
      ne_eq, not_false_eq_true, Bool.false_eq_true, List.append_nil, and_false]

/-- The second inner loop when `c` is no child of `a`, at level 1: a `_Suf` item for
what is left of `a` after `b`, and the walk is over. -/
theorem ascend_end (ordered : List (List token32)) (w : Walk) (c : token32)
    (hc : c.pegRule = pegRule.ruleUnknown ∨ w.a.isParentOf c = false) :
    ascend ordered 1 w c true =
      .ok (false, ⟨w.depths, 0, w.a, w.b, w.out ++
        (if w.b.end_ ≠ w.a.end_ then
          [⟨pegRule.rule_Suf, w.b.end_, w.a.end_, w.depth % u32, w.depths, true⟩] else [])⟩) := by
  rw [ascend]
  have h0 : (decide (c.pegRule ≠ pegRule.ruleUnknown) && w.a.isParentOf c) = false := by
    rcases hc with h | h <;> simp [h]
  by_cases he : w.b.end_ ≠ w.a.end_
  · simp only [h0, he, Walk.write, if_true, if_false, true_and, Nat.lt_irrefl,
      ne_eq, not_false_eq_true, Bool.false_eq_true]
  · simp only [h0, he, Walk.write, if_true, if_false, true_and, Nat.lt_irrefl,
      ne_eq, not_false_eq_true, Bool.false_eq_true, List.append_nil, and_false]

/-- A turn of `depthFirstSearch` for a token `b` without children: `b` is sent as a leaf
and the second inner loop is entered. -/
theorem dfs_leaf (ordered : List (List token32)) (fuel : Nat) (w : Walk) (g : List state32)
    (n i : Nat) (c c2 : token32)
    (hg : w.gap ordered = .ok { w with out := w.out ++ g })
    (hn : counterAt w.depths (w.depth + 1) = .ok n)
    (hc : bucketAt ordered (w.depth + 1) n = .ok c)
    (hno : c.pegRule = pegRule.ruleUnknown ∨ w.b.isParentOf c = false)
    (hi : counterAt w.depths w.depth = .ok i) (hiu : i + 1 < u32)
    (hm : bucketAt ordered w.depth (i + 1) = .ok c2) :
    depthFirstSearch ordered (fuel + 1) w =
      resume ordered fuel (ascend ordered w.depth
        ⟨w.depths.set w.depth (i + 1), w.depth, w.a, w.b, w.out ++ g ++
          [⟨w.b.pegRule, w.b.begin, w.b.end_, w.depth % u32, w.depths, true⟩]⟩ c2 true) := by
  rw [depthFirstSearch]
  have h0 : (decide (c.pegRule ≠ pegRule.ruleUnknown) && w.b.isParentOf c) = false := by
    rcases hno with h | h <;> simp [h]
  have hi1 := (counterAt_ok _ _ _).1 hi
  have hlt : w.depth < w.depths.length := by
    by_contra hh
    rw [List.getElem?_eq_none (by omega)] at hi1
    simp at hi1
  have hmod : (i + 1) % u32 = i + 1 := Nat.mod_eq_of_lt hiu
  have hset : counterAt (w.depths.set w.depth (i + 1)) w.depth = .ok (i + 1) := by
    rw [counterAt_ok, List.getElem?_set_self hlt]
  simp only [hg, hn, hc, h0, Walk.write, Walk.bump, hi1, hmod, hset, hm, Bool.false_eq_true,
    if_false]
  unfold resume
  rfl

/-- A turn of `depthFirstSearch` for a token `b` with a child `c`: `b` is sent as a
non-leaf and the next turn is for `c`, one level down. -/
theorem dfs_node (ordered : List (List token32)) (fuel : Nat) (w : Walk) (g : List state32)
    (n i : Nat) (c : token32)
    (hg : w.gap ordered = .ok { w with out := w.out ++ g })
    (hn : counterAt w.depths (w.depth + 1) = .ok n)
    (hc : bucketAt ordered (w.depth + 1) n = .ok c)
    (hk : c.pegRule ≠ pegRule.ruleUnknown) (hp : w.b.isParentOf c = true)
    (hi : counterAt w.depths w.depth = .ok i) (hiu : i + 1 < u32) :
    depthFirstSearch ordered (fuel + 1) w =
      depthFirstSearch ordered fuel
        ⟨w.depths.set w.depth (i + 1), w.depth + 1, w.b, c, w.out ++ g ++
          [⟨w.b.pegRule, w.b.begin, w.b.end_, w.depth % u32, w.depths, false⟩]⟩ := by
  rw [depthFirstSearch]
  have h0 : (decide (c.pegRule ≠ pegRule.ruleUnknown) && w.b.isParentOf c) = true := by
    simp [hk, hp]
  have hi1 := (counterAt_ok _ _ _).1 hi
  have hmod : (i + 1) % u32 = i + 1 := Nat.mod_eq_of_lt hiu
  simp only [hg, hn, hc, h0, Walk.write, Walk.bump, hi1, hmod, if_true]

theorem Tiled.gapItem (d lo hi : Nat) (r : pegRule) (ds : List Nat) (h : lo ≤ hi) :
    Tiled d lo hi (if lo ≠ hi then [⟨r, lo, hi, d, ds, true⟩] else []) := by
  by_cases he : lo = hi
  · subst he
    simp only [ne_eq, not_true_eq_false, if_false]
    exact Tiled.done
  · simp only [ne_eq, he, not_false_eq_true, if_true]
    exact Tiled.leaf (x := ⟨r, lo, hi, d, ds, true⟩) rfl rfl Tiled.done

/-- The first inner loop in front of a first child `b` of `a`: whichever way it takes, an
item for the text between the begin of `a` and the begin of `b` when there is some. -/
theorem gap_first (ordered : List (List token32)) (w : Walk) (i : Nat)
    (hi : counterAt w.depths w.depth = .ok i) (hab : w.a.begin ≤ w.b.begin)
    (hprev : 0 < i → ∃ c j, bucketAt ordered w.depth (i - 1) = .ok c ∧ w.depth ≠ 0 ∧
      counterAt w.depths (w.depth - 1) = .ok j ∧ c.begin ≤ c.end_ ∧ c.end_ ≤ w.a.begin ∧
      (2 ≤ j → ∃ z, bucketAt ordered (w.depth - 1) (j - 2) = .ok z)) :
    ∃ g, w.gap ordered = .ok { w with out := w.out ++ g } ∧
      Tiled (w.depth % u32) w.a.begin w.b.begin g := by
  have hpre : ∃ g, (if w.a.begin < w.b.begin then
      w.write ⟨pegRule.rulePre_, w.a.begin, w.b.begin, 0⟩ true else w) =
        { w with out := w.out ++ g } ∧ Tiled (w.depth % u32) w.a.begin w.b.begin g := by
    refine ⟨_, ?_, Tiled.gapItem _ _ _ pegRule.rulePre_ w.depths hab⟩
    by_cases hlt : w.a.begin < w.b.begin
    · have : w.a.begin ≠ w.b.begin := by omega
      simp only [hlt, this, if_true, Walk.write, ne_eq, not_false_eq_true]
    · have hne : ¬ (w.a.begin ≠ w.b.begin) := by omega
      rw [if_neg hlt, if_neg hne, Walk.out_nil]
  unfold Walk.gap
  simp only [hi]
  by_cases h0 : 0 < i ∧ int32Negative i = false
  · obtain ⟨c, j, h1, h2, h3, h4, h5, h6⟩ := hprev h0.1
    simp only [h0, and_self, if_true, h1, h2, if_false, h3]
    have hin : ∀ hpar : w.a.isParentOf c = true, ∃ g, (if c.end_ ≠ w.b.begin then
        w.write ⟨pegRule.rule_In_, c.end_, w.b.begin, 0⟩ true else w) =
          { w with out := w.out ++ g } ∧ Tiled (w.depth % u32) w.a.begin w.b.begin g := by
      intro hpar
      have hce : c.end_ = w.a.begin := by
        unfold token32.isParentOf at hpar
        simp at hpar
        omega
      refine ⟨_, ?_, Tiled.gapItem _ _ _ pegRule.rule_In_ w.depths hab⟩
      rw [hce]
      by_cases hne : w.a.begin ≠ w.b.begin
      · simp only [hne, if_true, Walk.write, ne_eq, not_false_eq_true]
      · simp only [hne, if_false, Walk.out_nil]
    by_cases hpar : w.a.isParentOf c = true
    · simp only [hpar, if_true]
      by_cases hj : j < 2 ∨ int32Negative j = true
      · simp only [hj, if_true]
        obtain ⟨g, hg, ht⟩ := hin hpar
        exact ⟨g, by rw [hg], ht⟩
      · simp only [hj, if_false]
        obtain ⟨z, hz⟩ := h6 (by omega)
        simp only [hz]
        by_cases hzp : z.isParentOf c = true
        · simp only [hzp, if_true]
          obtain ⟨g, hg, ht⟩ := hpre
          exact ⟨g, by rw [hg], ht⟩
        · have hzf : z.isParentOf c = false := by simpa using hzp
          simp only [hzf, Bool.false_eq_true, if_false]
          obtain ⟨g, hg, ht⟩ := hin hpar
          exact ⟨g, by rw [hg], ht⟩
    · have hpf : w.a.isParentOf c = false := by simpa using hpar
      simp only [hpf, Bool.false_eq_true, if_false]
      obtain ⟨g, hg, ht⟩ := hpre
      exact ⟨g, by rw [hg], ht⟩
  · simp only [h0, if_false]
    obtain ⟨g, hg, ht⟩ := hpre
    exact ⟨g, by rw [hg], ht⟩

/-- The first inner loop in front of a token `b` that follows a child `c` of `a` in its
bucket: an item for the text between the end of `c` and the begin of `b` when there is
some. -/
theorem gap_next (ordered : List (List token32)) (w : Walk) (i j : Nat) (c : token32)
    (hi : counterAt w.depths w.depth = .ok i) (hi0 : 0 < i) (hin : i < 2147483648)
    (hc : bucketAt ordered w.depth (i - 1) = .ok c) (hd : w.depth ≠ 0)
    (hj : counterAt w.depths (w.depth - 1) = .ok j) (hjn : j < 2147483648)
    (hpar : w.a.isParentOf c = true) (hcb : c.end_ ≤ w.b.begin)
    (hz : 2 ≤ j → ∃ z, bucketAt ordered (w.depth - 1) (j - 2) = .ok z ∧
      z.isParentOf c = false) :
    ∃ g, w.gap ordered = .ok { w with out := w.out ++ g } ∧
      Tiled (w.depth % u32) c.end_ w.b.begin g := by
  have hres : ∃ g, (if c.end_ ≠ w.b.begin then
      w.write ⟨pegRule.rule_In_, c.end_, w.b.begin, 0⟩ true else w) =
        { w with out := w.out ++ g } ∧ Tiled (w.depth % u32) c.end_ w.b.begin g := by
    refine ⟨_, ?_, Tiled.gapItem _ _ _ pegRule.rule_In_ w.depths hcb⟩
    by_cases hne : c.end_ ≠ w.b.begin
    · simp only [hne, if_true, Walk.write, ne_eq, not_false_eq_true]
    · simp only [hne, if_false, Walk.out_nil]
  have hneg : int32Negative i = false := by
    unfold int32Negative
    simp
    omega
  have hnegj : int32Negative j = false := by
    unfold int32Negative
    simp
    omega
  unfold Walk.gap
  simp only [hi, hi0, hneg, and_self, if_true, hc, hd, if_false, hj, hpar, hnegj,
    Bool.false_eq_true, or_false]
  by_cases hj2 : j < 2
  · simp only [hj2, if_true]
    obtain ⟨g, hg, ht⟩ := hres
    exact ⟨g, by rw [hg], ht⟩
  · obtain ⟨z, hz1, hz2⟩ := hz (by omega)
    simp only [hj2, if_false, hz1, hz2, Bool.false_eq_true]
    obtain ⟨g, hg, ht⟩ := hres
    exact ⟨g, by rw [hg], ht⟩

/-! ## Real items and pre-order lists -/

theorem realItems_append (a b : List state32) :
    realItems (a ++ b) = realItems a ++ realItems b := by
  simp [realItems]

theorem visits_append (a b : List token32) : visits (a ++ b) = visits a ++ visits b := by
  simp [visits]

/-- The item of a token whose rule is not synthetic is real unless it is zero-width. -/
theorem realItems_token (r : pegRule) (b e d : Nat) (ds : List Nat) (leaf : Bool)
    (hr : r.isSynthetic = false) :
    realItems [⟨r, b, e, d, ds, leaf⟩] = visits [⟨r, b, e, d⟩] := by
  by_cases hbe : b = e
  · simp [realItems, visits, state32.isReal, hbe]
  · simp [realItems, visits, state32.isReal, hr, hbe]

/-- The item of a gap is not real. -/
theorem realItems_gap (d lo hi : Nat) (r : pegRule) (ds : List Nat)
    (hr : r.isSynthetic = true) :
    realItems (if lo ≠ hi then [(⟨r, lo, hi, d, ds, true⟩ : state32)] else []) = [] := by
  split <;> simp [realItems, state32.isReal, hr]

/-- The first inner loop of `depthFirstSearch` sends no real item. -/
theorem gap_quiet (ordered : List (List token32)) (w w1 : Walk) (g : List state32)
    (h : w.gap ordered = .ok w1) (hg : w1.out = w.out ++ g) : realItems g = [] := by
  have hw : ∀ (r : pegRule) (lo hi : Nat), r.isSynthetic = true →
      w.write ⟨r, lo, hi, 0⟩ true = w1 → realItems g = [] := by
    intro r lo hi hr he
    subst he
    simp only [Walk.write] at hg
    rw [← List.append_cancel_left hg]
    simp [realItems, state32.isReal, hr]
  have hsame : w = w1 → realItems g = [] := by
    intro he
    subst he
    have : g = [] := by simpa using hg
    rw [this]
    rfl
  unfold Walk.gap at h
  simp only at h
  repeat' split at h
  all_goals first
    | exact hw _ _ _ (by decide) (Except.ok.inj h)
    | exact hsame (Except.ok.inj h)
    | cases h

theorem Walks.forest {d lo hi : Nat} {ts ps : List token32} (h : Walks d lo hi ts ps) :
    Forest d lo hi ts := by
  induction h with
  | nil h => exact Forest.nil h
  | snoc _ _ h3 h4 ih1 ih2 => exact Forest.snoc ih1 ih2 h3 h4

theorem Forest.walks {d lo hi : Nat} {ts : List token32} (h : Forest d lo hi ts) :
    ∃ ps, Walks d lo hi ts ps := by
  induction h with
  | nil h => exact ⟨[], Walks.nil h⟩
  | snoc _ _ h3 h4 ih1 ih2 =>
    obtain ⟨ps, h1⟩ := ih1
    obtain ⟨qs, h2⟩ := ih2
    exact ⟨_, Walks.snoc h1 h2 h3 h4⟩

theorem Walks.of_nil {d lo hi : Nat} {ts ps : List token32} (h : Walks d lo hi ts ps) :
    ts = [] → ps = [] := by
  cases h with
  | nil _ => intro _; rfl
  | snoc _ _ _ _ => intro h; simp at h

/-! ## The walk of `PreOrder` over a forest -/

/-- The first root of a forest that is not empty: a token of the depth of the forest
after tokens that are deeper. -/
theorem Forest.first_root {d lo hi : Nat} {ts : List token32} (h : Forest d lo hi ts) :
    ts ≠ [] → ∃ mid x rest, ts = mid ++ x :: rest ∧ (∀ t ∈ mid, t.next ≠ d) ∧ x.next = d ∧
      lo ≤ x.begin ∧ x.end_ ≤ hi ∧ x.pegRule ≠ pegRule.ruleUnknown := by
  induction h with
  | nil _ => intro h; exact absurd rfl h
  | @snoc d lo hi b e r ts cs h1 h2 h3 h4 ih1 _ =>
    intro _
    have l1 := h1.bounds_le
    have l2 := h2.bounds_le
    by_cases hts : ts = []
    · subst hts
      refine ⟨cs, ⟨r, b, e, d⟩, [], by simp, fun t ht => ?_, rfl, l1, h3, h4⟩
      have := (h2.facts t ht).2.2.2.1
      omega
    · obtain ⟨mid, x, rest, g1, g2, g3, g4, g5, g6⟩ := ih1 hts
      refine ⟨mid, x, rest ++ cs ++ [⟨r, b, e, d⟩], by rw [g1]; simp, g2, g3, g4, ?_, g6⟩
      omega

theorem isParentOf_true (t u : token32) (h1 : t.begin ≤ u.begin) (h2 : u.end_ ≤ t.end_)
    (h3 : u.next < t.next) : t.isParentOf u = true := by
  unfold token32.isParentOf
  simp
  exact ⟨h1, h2, h3⟩

theorem isParentOf_false (t u : token32) (h : t.next ≤ u.next) : t.isParentOf u = false := by
  unfold token32.isParentOf
  simp
  intro _ _
  exact h

theorem depthCount_lt {toks : List token32} {ordered : List (List token32)}
    (hb : Buckets toks ordered) (pre post : List token32) (ht : toks = pre ++ post) (d : Nat) :
    depthCount pre d + 1 < 2147483648 := by
  have h1 := depthCount_le pre d
  have h2 := hb.count
  rw [ht, List.length_append] at h2
  omega

theorem depthCount_snoc_hit (a : List token32) (x : token32) :
    depthCount (a ++ [x]) x.next = depthCount a x.next + 1 := by
  rw [depthCount_append, depthCount_single, if_pos rfl]

theorem depthCount_snoc_miss (a : List token32) (x : token32) (d : Nat) (h : x.next ≠ d) :
    depthCount (a ++ [x]) d = depthCount a d := by
  rw [depthCount_append, depthCount_single, if_neg h, Nat.add_zero]

/-- The turns of `depthFirstSearch` for a token `b` of depth `d` and the forest `cs` of
its children, which the walk is taken to cross as `Walked` says: after the gap in front
of `b`, `b` is sent, as a leaf when `cs` is empty, else as a non-leaf followed by the
items of `cs` and of what is left of `b` after its last child; the walk comes to its
second inner loop at level `d`, and the items from `b` on tile the span of `b`; when
no token has a synthetic rule, those that are real are `b` and the tokens `qs` of `cs` in
pre-order, without the zero-width ones. -/
theorem walk_tree {toks : List token32} {ordered : List (List token32)}
    (hb : Buckets toks ordered) {d b e : Nat} {r : pegRule} {cs qs pre post : List token32}
    (wds : List Nat) (wout : List state32) (P : token32) (g : List state32) (f cP : Nat)
    (hd : 0 < d) (htoks : toks = pre ++ cs ++ ⟨r, b, e, d⟩ :: post)
    (h2 : Forest (d + 1) b e cs) (hq : Walks (d + 1) b e cs qs)
    (ih2 : cs ≠ [] → ∀ (pre1 post1 : List token32) (w : Walk) (f1 cP1 : Nat),
      Ready toks ordered (d + 1) b e cs pre1 post1 w cP1 →
      Walked ordered (d + 1) b e cs qs pre1 w f1)
    (hgap : Walk.gap ordered ⟨wds, d, P, ⟨r, b, e, pre.length + cs.length⟩, wout⟩ =
      .ok ⟨wds, d, P, ⟨r, b, e, pre.length + cs.length⟩, wout ++ g⟩)
    (hPb : P.begin ≤ b) (hPe : e ≤ P.end_) (hPn : pre.length + cs.length < P.next)
    (hsize : wds.length = ordered.length)
    (hup : wds[d - 1]? = some cP) (hup0 : 0 < cP) (hupn : cP < 2147483648)
    (hparent : bucketAt ordered (d - 1) (cP - 1) = .ok P)
    (hcur : ∀ k, d ≤ k → k < ordered.length → wds[k]? = some (depthCount pre k))
    (hbefore : ∀ t ∈ pre, t.end_ ≤ b) :
    ∃ (ds : List Nat) (items : List state32) (c : token32),
      depthFirstSearch ordered (f + (cs.length + 1))
          ⟨wds, d, P, ⟨r, b, e, pre.length + cs.length⟩, wout⟩ =
        resume ordered f (ascend ordered d
          ⟨ds, d, P, ⟨r, b, e, pre.length + cs.length⟩, wout ++ g ++ items⟩ c true) ∧
      bucketAt ordered d (depthCount (pre ++ cs ++ [⟨r, b, e, d⟩]) d) = .ok c ∧
      ds.length = ordered.length ∧
      (∀ k, k < d → ds[k]? = wds[k]?) ∧
      (∀ k, d ≤ k → k < ordered.length →
        ds[k]? = some (depthCount (pre ++ cs ++ [⟨r, b, e, d⟩]) k)) ∧
      Tiled d b e items ∧ items ≠ [] ∧
      ((∀ t ∈ cs ++ [(⟨r, b, e, d⟩ : token32)], t.pegRule.isSynthetic = false) →
        realItems items = visits (⟨r, b, e, d⟩ :: qs)) := by
  have hX0 : (⟨r, b, e, d⟩ : token32) ∈ toks := by rw [htoks]; simp
  have hdL : d + 1 < ordered.length := hb.depth_lt _ hX0
  have hL := hb.levels
  have hmod : d % u32 = d := Nat.mod_eq_of_lt (by omega)
  have hmod1 : (d + 1) % u32 = d + 1 := Nat.mod_eq_of_lt (by omega)
  have hbe : b ≤ e := h2.bounds_le
  have hdeep : ∀ t ∈ cs, d < t.next := fun t ht => (h2.facts t ht).2.2.2.1
  have hcsd : depthCount cs d = 0 := depthCount_none cs d (fun t ht => by
    have := hdeep t ht
    omega)
  have hi : counterAt wds d = .ok (depthCount pre d) :=
    (counterAt_ok _ _ _).2 (hcur d (Nat.le_refl _) (by omega))
  have hn : counterAt wds (d + 1) = .ok (depthCount pre (d + 1)) :=
    (counterAt_ok _ _ _).2 (hcur (d + 1) (by omega) hdL)
  have hiu : depthCount pre d + 1 < u32 := by
    have := depthCount_lt hb pre _ (by rw [htoks, List.append_assoc]) d
    unfold u32
    omega
  have hlt : d < wds.length := by omega
  -- the cell at the counter of level `d` once the tree is crossed
  obtain ⟨c2, hc2, _⟩ := hb.next (pre ++ cs ++ [⟨r, b, e, d⟩]) post d
    (by rw [htoks]; simp) (by omega)
  have hcnt : depthCount (pre ++ cs ++ [⟨r, b, e, d⟩]) d = depthCount pre d + 1 := by
    rw [depthCount_snoc_hit (pre ++ cs) ⟨r, b, e, d⟩, depthCount_append, hcsd, Nat.add_zero]
  have hcntk : ∀ k, d < k →
      depthCount (pre ++ cs ++ [⟨r, b, e, d⟩]) k = depthCount (pre ++ cs) k := by
    intro k hk
    exact depthCount_snoc_miss _ _ _ (by show d ≠ k; omega)
  by_cases hcs : cs = []
  · -- a leaf
    subst hcs
    obtain ⟨c, hc, hcn⟩ := hb.next (pre ++ [⟨r, b, e, d⟩]) post (d + 1)
      (by rw [htoks]; simp) hdL
    rw [depthCount_snoc_miss _ _ _ (by show d ≠ d + 1; omega)] at hc
    have hno : c.pegRule = pegRule.ruleUnknown ∨
        (⟨r, b, e, pre.length + ([] : List token32).length⟩ : token32).isParentOf c = false := by
      rcases hcn with h | h
      · exact Or.inl h
      · refine Or.inr (isParentOf_false _ _ ?_)
        simp at h ⊢
        omega
    have hc2' := hc2
    rw [hcnt] at hc2'
    simp only [List.append_nil] at hc2' hcnt hcntk hc2
    have := dfs_leaf ordered f ⟨wds, d, P, ⟨r, b, e, pre.length + ([] : List token32).length⟩, wout⟩
      g (depthCount pre (d + 1)) (depthCount pre d) c c2 hgap hn hc hno hi hiu hc2'
    simp only [hmod] at this
    have hqs : qs = [] := hq.of_nil rfl
    subst hqs
    refine ⟨wds.set d (depthCount pre d + 1), [⟨r, b, e, d, wds, true⟩], c2, ?_,
      by simpa using hc2, ?_, ?_, ?_, ?_, ?_, ?_⟩
    · rw [List.length_nil, Nat.zero_add]
      exact this
    · rw [List.length_set]
      exact hsize
    · intro k hk
      rw [List.getElem?_set_ne (by omega)]
    · intro k hk hkL
      by_cases hkd : k = d
      · subst hkd
        rw [List.getElem?_set_self hlt]
        simp only [List.append_nil]
        rw [hcnt]
      · rw [List.getElem?_set_ne (by omega), hcur k hk hkL]
        simp only [List.append_nil] at hcntk ⊢
        rw [hcntk k (by omega)]
    · exact Tiled.leaf (x := ⟨r, b, e, d, wds, true⟩) rfl rfl Tiled.done
    · simp
    · intro hreal
      exact realItems_token r b e d wds true (hreal ⟨r, b, e, d⟩ (by simp))
  · -- a token with children
    obtain ⟨mid, c1, rest, hcs1, hmid, hc1d, hc1b, hc1e, hc1k⟩ := h2.first_root hcs
    have hc : bucketAt ordered (d + 1) (depthCount pre (d + 1)) =
        .ok (c1.filed (pre.length + mid.length)) := by
      have := hb.cell_of pre mid (rest ++ ⟨r, b, e, d⟩ :: post) c1
        (by rw [htoks, hcs1]; simp) (by rw [hc1d]; exact hmid)
      rw [hc1d] at this
      exact this
    have hpar : (⟨r, b, e, pre.length + cs.length⟩ : token32).isParentOf
        (c1.filed (pre.length + mid.length)) = true :=
      isParentOf_true _ _ hc1b hc1e (by
        show pre.length + mid.length < pre.length + cs.length
        rw [hcs1]
        simp)
    have hstep := dfs_node ordered (f + cs.length)
      ⟨wds, d, P, ⟨r, b, e, pre.length + cs.length⟩, wout⟩ g _ _ _ hgap hn hc hc1k hpar hi hiu
    simp only [hmod] at hstep
    have hready : Ready toks ordered (d + 1) b e cs pre (⟨r, b, e, d⟩ :: post)
        ⟨wds.set d (depthCount pre d + 1), d + 1, ⟨r, b, e, pre.length + cs.length⟩,
          c1.filed (pre.length + mid.length), wout ++ g ++ [⟨r, b, e, d, wds, false⟩]⟩
        (depthCount pre d + 1) := by
      refine ⟨htoks, rfl, rfl, Nat.le_refl _, Nat.le_refl _, hbefore,
        by rw [List.length_set]; exact hsize, ?_, Nat.succ_pos _, ?_, ?_, ?_, ?_, hc⟩
      · show (wds.set d _)[d + 1 - 1]? = _
        rw [Nat.add_sub_cancel, List.getElem?_set_self hlt]
      · exact depthCount_lt hb pre _ (by rw [htoks, List.append_assoc]) d
      · show bucketAt ordered (d + 1 - 1) (depthCount pre d + 1 - 1) = _
        rw [Nat.add_sub_cancel, Nat.add_sub_cancel]
        exact hb.cell_of pre cs post ⟨r, b, e, d⟩ htoks (fun t ht => by
          have := hdeep t ht
          show t.next ≠ d
          omega)
      · intro h2le
        obtain ⟨z, hz, t, _, k, hk, hkl⟩ := hb.prev pre (cs ++ ⟨r, b, e, d⟩ :: post) d
          (by rw [htoks]; simp) (by omega) (by omega)
        refine ⟨z, ?_, ?_⟩
        · show bucketAt ordered (d + 1 - 1) (depthCount pre d + 1 - 2) = _
          rw [Nat.add_sub_cancel]
          exact hz
        · rw [hk]
          exact hkl
      · intro k hk hkL
        show (wds.set d _)[k]? = _
        rw [List.getElem?_set_ne (by omega)]
        exact hcur k (by omega) hkL
    obtain ⟨ds3, items2, last2, c3, e1, e2, e3, e4, e5, e6, e7, e8, _, _, _, _, _, e12⟩ :=
      ih2 hcs pre _ _ f _ hready
    obtain ⟨c3n, hc3, hc3n⟩ := hb.next (pre ++ cs ++ [⟨r, b, e, d⟩]) post (d + 1)
      (by rw [htoks]; simp) hdL
    rw [hcntk (d + 1) (by omega), e2] at hc3
    injection hc3 with hc3
    subst hc3
    have hno : c3.pegRule = pegRule.ruleUnknown ∨
        (⟨r, b, e, pre.length + cs.length⟩ : token32).isParentOf c3 = false := by
      rcases hc3n with h | h
      · exact Or.inl h
      · refine Or.inr (isParentOf_false _ _ ?_)
        simp at h ⊢
        omega
    have hk : counterAt ds3 (d - 1) = .ok cP := by
      rw [counterAt_ok, e4 (d - 1) (by omega)]
      show (wds.set d _)[d - 1]? = _
      rw [List.getElem?_set_ne (by omega)]
      exact hup
    have hn3 : counterAt ds3 d = .ok (depthCount pre d + 1) := by
      rw [counterAt_ok, e4 d (by omega)]
      show (wds.set d _)[d]? = _
      exact List.getElem?_set_self hlt
    have hc2' := hc2
    rw [hcnt] at hc2'
    have hasc := ascend_up ordered d
      ⟨ds3, d + 1, ⟨r, b, e, pre.length + cs.length⟩, last2,
        wout ++ g ++ [⟨r, b, e, d, wds, false⟩] ++ items2⟩ c3 cP (depthCount pre d + 1) P c2
      hno hd hk hup0 hupn hparent hn3 hc2'
    have hPX : P.isParentOf ⟨r, b, e, pre.length + cs.length⟩ = true :=
      isParentOf_true _ _ hPb hPe hPn
    simp only [hPX, hmod1] at hasc
    refine ⟨ds3, ⟨r, b, e, d, wds, false⟩ :: (items2 ++
      (if last2.end_ ≠ e then [⟨pegRule.rule_Suf, last2.end_, e, d + 1, ds3, true⟩] else [])),
      c2, ?_, hc2, e3, ?_, ?_, ?_, by simp, ?_⟩
    · have hfu : f + (cs.length + 1) = f + cs.length + 1 := rfl
      rw [hfu, hstep, e1, hasc]
      simp only [List.append_assoc, List.singleton_append, List.cons_append, List.nil_append]
    · intro k hk
      rw [e4 k (by omega)]
      show (wds.set d _)[k]? = _
      rw [List.getElem?_set_ne (by omega)]
    · intro k hk hkL
      by_cases hkd : k = d
      · subst hkd
        rw [e4 k (by omega)]
        show (wds.set k _)[k]? = _
        rw [List.getElem?_set_self hlt, hcnt]
      · rw [e5 k (by omega) hkL, hcntk k (by omega)]
    · have hdone : Tiled d (state32.mk r b e d wds false).end_ e [] := Tiled.done
      have := Tiled.node (x := ⟨r, b, e, d, wds, false⟩) rfl rfl
        (fun hnil => e7 (List.append_eq_nil.1 hnil).1)
        (Tiled.concat e6 (Tiled.gapItem (d + 1) last2.end_ e pegRule.rule_Suf ds3 e8))
        hdone
      simpa using this
    · intro hreal
      have hx := realItems_token r b e d wds false (hreal ⟨r, b, e, d⟩ (by simp))
      have hsub := e12 (fun t ht => hreal t (List.mem_append_left _ ht))
      have hsuf := realItems_gap (d + 1) last2.end_ e pegRule.rule_Suf ds3 (by decide)
      rw [← List.singleton_append, realItems_append, realItems_append, hx, hsub, hsuf,
        List.append_nil, ← visits_append]
      rfl

/-- The walk of `PreOrder` over a forest that is not empty, from its first root: see
`Ready` and `Walked`. -/
theorem walk_forest {toks : List token32} {ordered : List (List token32)}
    (hb : Buckets toks ordered) {d lo hi : Nat} {ts ps : List token32}
    (hW : Walks d lo hi ts ps) :
    ts ≠ [] → 0 < d → ∀ (pre post : List token32) (w : Walk) (f cP : Nat),
      Ready toks ordered d lo hi ts pre post w cP → Walked ordered d lo hi ts ps pre w f := by
  induction hW with
  | nil _ => intro h; exact absurd rfl h
  | @snoc d lo hi b e r ts cs ps qs w1 w2 h3 h4 ih1 ih2 =>
    intro _ hd pre post w f cP hR
    have h1 := w1.forest
    have h2 := w2.forest
    obtain ⟨wds, wdepth, wa, wb, wout⟩ := w
    obtain ⟨htoks, hdep, hlo, hhi, hafter, hbefore, hsize, hup, hup0, hupn, hparent, huncle,
      hcur, hfirst⟩ := hR
    simp only at hdep hlo hhi hafter hsize hup hparent hcur hfirst
    subst hdep
    have htoks1 : toks = (pre ++ ts) ++ cs ++ ⟨r, b, e, wdepth⟩ :: post := by
      rw [htoks]
      simp
    have hX0 : (⟨r, b, e, wdepth⟩ : token32) ∈ toks := by rw [htoks]; simp
    have hdL : wdepth + 1 < ordered.length := hb.depth_lt _ hX0
    have hL := hb.levels
    have hmod : wdepth % u32 = wdepth := Nat.mod_eq_of_lt (by omega)
    have hlob : lo ≤ b := h1.bounds_le
    have hbe : b ≤ e := h2.bounds_le
    have hdeep : ∀ t ∈ cs, wdepth < t.next := fun t ht => (h2.facts t ht).2.2.2.1
    have hlen : (ts ++ cs ++ [(⟨r, b, e, wdepth⟩ : token32)]).length =
        ts.length + cs.length + 1 := by
      simp only [List.length_append, List.length_singleton]
    have hXat : bucketAt ordered wdepth (depthCount (pre ++ ts) wdepth) =
        .ok ⟨r, b, e, (pre ++ ts).length + cs.length⟩ :=
      hb.cell_of (pre ++ ts) cs post ⟨r, b, e, wdepth⟩ htoks1 (fun t ht => by
        have := hdeep t ht
        show t.next ≠ wdepth
        omega)
    have stepA : ∃ (xds : List Nat) (items1 g : List state32),
        depthFirstSearch ordered (f + (cs.length + 1) + ts.length) ⟨wds, wdepth, wa, wb, wout⟩ =
          depthFirstSearch ordered (f + (cs.length + 1))
            ⟨xds, wdepth, wa, ⟨r, b, e, (pre ++ ts).length + cs.length⟩, wout ++ items1⟩ ∧
        Walk.gap ordered
            ⟨xds, wdepth, wa, ⟨r, b, e, (pre ++ ts).length + cs.length⟩, wout ++ items1⟩ =
          .ok ⟨xds, wdepth, wa, ⟨r, b, e, (pre ++ ts).length + cs.length⟩,
            wout ++ items1 ++ g⟩ ∧
        Tiled wdepth lo b (items1 ++ g) ∧ xds.length = ordered.length ∧
        (∀ k, k < wdepth → xds[k]? = wds[k]?) ∧
        (∀ k, wdepth ≤ k → k < ordered.length → xds[k]? = some (depthCount (pre ++ ts) k)) ∧
        ((∀ t ∈ ts, t.pegRule.isSynthetic = false) → realItems (items1 ++ g) = visits ps) := by
      by_cases hts : ts = []
      · subst hts
        simp only [List.append_nil] at hXat htoks1
        rw [hXat] at hfirst
        injection hfirst with hfirst
        subst hfirst
        obtain ⟨g, hg, htile⟩ := gap_first ordered
          ⟨wds, wdepth, wa, ⟨r, b, e, pre.length + cs.length⟩, wout⟩ (depthCount pre wdepth)
          ((counterAt_ok _ _ _).2 (hcur wdepth (Nat.le_refl _) (by omega)))
          (by show wa.begin ≤ b; omega)
          (fun h0 => by
            obtain ⟨c, hc, t, ht, k, hk, _⟩ := hb.prev pre _ wdepth
              (by rw [htoks1, List.append_assoc]) (by omega) h0
            refine ⟨c, cP, hc, by show wdepth ≠ 0; omega, (counterAt_ok _ _ _).2 hup, ?_, ?_,
              fun h2 => (huncle h2).imp (fun z hz => hz.1)⟩
            · rw [hk]
              exact hb.span t (by rw [htoks1]; simp [ht])
            · rw [hk]
              show t.end_ ≤ wa.begin
              rw [hlo]
              exact hbefore t ht)
        simp only [hmod] at htile
        rw [hlo] at htile
        have hps := w1.of_nil rfl
        subst hps
        refine ⟨wds, [], g, by simp, by simpa using hg, by simpa using htile, hsize,
          fun k _ => rfl, by simpa using hcur, fun _ => ?_⟩
        rw [List.nil_append]
        exact gap_quiet ordered _ _ g hg rfl
      · have hR1 : Ready toks ordered wdepth lo b ts pre (cs ++ ⟨r, b, e, wdepth⟩ :: post)
            ⟨wds, wdepth, wa, wb, wout⟩ cP :=
          ⟨by rw [htoks]; simp, rfl, hlo, by show b ≤ wa.end_; omega,
            by show pre.length + ts.length ≤ wa.next; rw [hlen] at hafter; omega, hbefore,
            hsize, hup, hup0, hupn, hparent, huncle, hcur, hfirst⟩
        obtain ⟨ds1, items1, last1, c1, e1, e2, e3, e4, e5, e6, e7, e8, init, y, e9, e10, e11,
            e12⟩ := ih1 hts hd pre _ _ (f + (cs.length + 1)) cP hR1
        rw [hXat] at e2
        injection e2 with e2
        subst e2
        have hy : y ∈ ts := by rw [e9]; simp
        have hyf := h1.facts y hy
        have hpX : wa.isParentOf ⟨r, b, e, (pre ++ ts).length + cs.length⟩ = true :=
          isParentOf_true _ _ (by show wa.begin ≤ b; omega) (by show e ≤ wa.end_; omega) (by
            show (pre ++ ts).length + cs.length < wa.next
            rw [hlen] at hafter
            simp only [List.length_append]
            omega)
        rw [ascend_found ordered wdepth _ _ true h4 hpX] at e1
        have hcy : depthCount (pre ++ ts) wdepth = depthCount (pre ++ init) wdepth + 1 := by
          have := depthCount_snoc_hit (pre ++ init) y
          rw [e10] at this
          rw [e9, ← List.append_assoc]
          exact this
        obtain ⟨g, hg, htile⟩ := gap_next ordered
          ⟨ds1, wdepth, wa, ⟨r, b, e, (pre ++ ts).length + cs.length⟩, wout ++ items1⟩
          (depthCount (pre ++ ts) wdepth) cP last1
          ((counterAt_ok _ _ _).2 (e5 wdepth (Nat.le_refl _) (by omega)))
          (by omega)
          (by
            have := depthCount_lt hb (pre ++ ts) (cs ++ ⟨r, b, e, wdepth⟩ :: post)
              (by rw [htoks1, List.append_assoc]) wdepth
            omega)
          (by
            rw [hcy, Nat.add_sub_cancel, e11]
            have := hb.cell_of (pre ++ init) [] (cs ++ ⟨r, b, e, wdepth⟩ :: post) y
              (by rw [htoks, e9]; simp) (fun t ht => by simp at ht)
            rw [e10] at this
            simpa using this)
          (by show wdepth ≠ 0; omega)
          ((counterAt_ok _ _ _).2 (by
            show ds1[wdepth - 1]? = some cP
            rw [e4 (wdepth - 1) (by omega)]
            exact hup))
          hupn
          (by
            rw [e11]
            exact isParentOf_true _ _ (by show wa.begin ≤ y.begin; omega)
              (by show y.end_ ≤ wa.end_; omega) (by
                show pre.length + init.length < wa.next
                rw [hlen, e9] at hafter
                simp only [List.length_append, List.length_singleton] at hafter
                omega))
          e8
          (fun h2 => by
            obtain ⟨z, hz1, hz2⟩ := huncle h2
            refine ⟨z, hz1, isParentOf_false _ _ ?_⟩
            rw [e11]
            show z.next ≤ pre.length + init.length
            omega)
        simp only [hmod] at htile
        refine ⟨ds1, items1, g, ?_, hg, Tiled.concat e6 htile, e3, e4, e5, fun hreal => ?_⟩
        · rw [e1]
          rfl
        · rw [realItems_append, e12 hreal, gap_quiet ordered _ _ g hg rfl, List.append_nil]
    obtain ⟨xds, items1, g, s1, s2, s3, s4, s5, s6, s7⟩ := stepA
    obtain ⟨ds, items2, c, t1, t2, t3, t4, t5, t6, t7, t8⟩ := walk_tree hb xds (wout ++ items1)
      wa g f cP hd htoks1 h2 w2 (fun h => ih2 h (Nat.succ_pos _)) s2 (by omega) (by omega)
      (by
        rw [hlen] at hafter
        simp only [List.length_append]
        omega)
      s4 (by rw [s5 (wdepth - 1) (by omega)]; exact hup) hup0 hupn hparent s6
      (fun t ht => by
        rcases List.mem_append.1 ht with h | h
        · have := hbefore t h
          omega
        · exact (h1.facts t h).2.2.1)
    refine ⟨ds, items1 ++ g ++ items2, ⟨r, b, e, (pre ++ ts).length + cs.length⟩, c, ?_, ?_, t3,
      fun k hk => by rw [t4 k hk, s5 k hk], ?_, Tiled.concat s3 t6, ?_, h3,
      ts ++ cs, ⟨r, b, e, wdepth⟩, rfl, rfl, ?_, fun hreal => ?_⟩
    · have hfu : f + (ts ++ cs ++ [(⟨r, b, e, wdepth⟩ : token32)]).length =
          f + (cs.length + 1) + ts.length := by
        rw [hlen]
        omega
      rw [hfu, s1, t1]
      simp only [List.append_assoc]
    · simp only [List.append_assoc] at t2 ⊢
      exact t2
    · simp only [List.append_assoc] at t5 ⊢
      exact t5
    · intro hnil
      exact t7 (List.append_eq_nil.1 hnil).2
    · show (⟨r, b, e, (pre ++ ts).length + cs.length⟩ : token32) =
        ⟨r, b, e, pre.length + (ts ++ cs).length⟩
      simp only [List.length_append, Nat.add_assoc]
    · rw [realItems_append, s7 (fun t ht => hreal t (by simp [ht])),
        t8 (fun t ht => hreal t (by
          rcases List.mem_append.1 ht with h | h
          · simp [h]
          · simp [List.mem_singleton.1 h])), ← visits_append]
/-! ## The items of `PreOrder` after a successful parse -/

theorem depthSpan_le (toks : List token32) (B : Nat) (h : ∀ t ∈ toks, t.next + 1 ≤ B) :
    ∀ n, n ≤ B → depthSpan toks n ≤ B := by
  induction toks with
  | nil => intro n hn; exact hn
  | cons x xs ih =>
    intro n hn
    unfold depthSpan
    rw [List.foldl_cons]
    exact ih (fun t ht => h t (List.mem_cons_of_mem _ ht)) _
      (Nat.max_le.2 ⟨hn, h x (List.mem_cons_self _ _)⟩)

/-- `PreOrder` on the tokens of a forest of depth 1 under a Grammar token: it returns,
and the items it sends tile the span of the Grammar token at depth 1; when no token has
a synthetic rule, the items that are real are the tokens of the forest that are not
zero-width, in pre-order. -/
theorem PreOrder_tiled (t : tokens32) (n0 : List token32) (pos : Nat)
    (hnone : t.ordered = none)
    (hl : t.tree.toList = n0 ++ [⟨pegRule.ruleGrammar, 0, pos, 0⟩])
    (hF : Forest 1 0 pos n0) (hne : n0 ≠ [])
    (hdeep : ∀ x ∈ n0 ++ [⟨pegRule.ruleGrammar, 0, pos, 0⟩], x.next ≤ 6)
    (hn : t.tree.len < 2147483647) :
    ∃ out ordered t1, t.PreOrder = .ok (out, ordered, t1) ∧ Tiled 1 0 pos out ∧
      ∃ ps, Walks 1 0 pos n0 ps ∧
        ((∀ x ∈ n0, x.pegRule.isSynthetic = false) → realItems out = visits ps) := by
  have hfacts := hF.facts
  have hknown : ∀ tok ∈ t.tree.toList, tok.pegRule ≠ pegRule.ruleUnknown := by
    intro tok htok
    rw [hl] at htok
    rcases List.mem_append.1 htok with h | h
    · exact (hfacts tok h).2.2.2.2
    · rw [List.mem_singleton.1 h]
      show pegRule.ruleGrammar ≠ pegRule.ruleUnknown
      decide
  have hlive := liveTokens_all t.tree hknown
  have hlen : t.tree.liveTokens.length ≤ t.tree.len := liveTokens_length _
  rw [hlive, hl] at hlen
  obtain ⟨ordered, hord, hL, hget⟩ := Order_ok t hnone
    (fun tok htok => by
      rw [hlive, hl] at htok
      have := hdeep tok htok
      omega)
    (by rw [hlive, hl]; omega)
  rw [hlive, hl] at hord hL hget
  have hspan : depthSpan (n0 ++ [⟨pegRule.ruleGrammar, 0, pos, 0⟩]) 1 ≤ 7 :=
    depthSpan_le _ 7 (fun x hx => by
      have := hdeep x hx
      omega) 1 (by decide)
  have hb : Buckets (n0 ++ [⟨pegRule.ruleGrammar, 0, pos, 0⟩]) ordered := by
    refine ⟨hget, fun x hx => ?_, fun x hx => ?_, fun x hx => ?_, by omega, ?_⟩
    · have := depthSpan_mem _ 1 x hx
      omega
    · exact hknown x (by rw [hl]; exact hx)
    · rcases List.mem_append.1 hx with h | h
      · exact (hfacts x h).2.1
      · rw [List.mem_singleton.1 h]
        exact Nat.zero_le _
    · rw [hL]
      unfold u32
      omega
  have hroot : bucketAt ordered 0 0 = .ok ⟨pegRule.ruleGrammar, 0, pos, n0.length⟩ := by
    have := hb.cell_of [] n0 [] ⟨pegRule.ruleGrammar, 0, pos, 0⟩ (by simp) (fun x hx => by
      have := (hfacts x hx).2.2.2.1
      show x.next ≠ 0
      omega)
    simpa [token32.filed, depthCount] using this
  obtain ⟨mid, x, rest, hn0, hmid, hx1, _, _, _⟩ := hF.first_root hne
  have hfirst : bucketAt ordered 1 0 = .ok (x.filed mid.length) := by
    have := hb.cell_of [] mid (rest ++ [⟨pegRule.ruleGrammar, 0, pos, 0⟩]) x
      (by rw [hn0]; simp) (by rw [hx1]; exact hmid)
    rw [hx1] at this
    simpa [depthCount] using this
  have hposL : 1 < ordered.length := by
    have := hb.depth_lt x (by rw [hn0]; simp)
    omega
  have hready : Ready (n0 ++ [⟨pegRule.ruleGrammar, 0, pos, 0⟩]) ordered 1 0 pos n0 []
      [⟨pegRule.ruleGrammar, 0, pos, 0⟩]
      ⟨(ordered.map (fun _ => 0)).set 0 1, 1, ⟨pegRule.ruleGrammar, 0, pos, n0.length⟩,
        x.filed mid.length, []⟩ 1 := by
    refine ⟨by simp, rfl, rfl, Nat.le_refl _, by simp, fun x hx => by simp at hx, by simp, ?_,
      by decide, by decide, hroot, fun h => by omega, ?_, by simpa [depthCount] using hfirst⟩
    · show ((ordered.map (fun _ => 0)).set 0 1)[1 - 1]? = some 1
      rw [List.getElem?_set_self (by simp; omega)]
    · intro k hk hkL
      show ((ordered.map (fun _ => 0)).set 0 1)[k]? = _
      rw [List.getElem?_set_ne (by omega), List.getElem?_map, List.getElem?_eq_getElem hkL]
      rfl
  obtain ⟨ps, hW⟩ := hF.walks
  obtain ⟨ds, items, last, c, e1, e2, _, _, _, e6, _, e8, _, _, _, _, _, e12⟩ :=
    walk_forest hb hW hne (by decide) [] _ _ ((ordered.map List.length).sum + 2) 1 hready
  obtain ⟨c0, hc0, hc0n⟩ := hb.next (n0 ++ [⟨pegRule.ruleGrammar, 0, pos, 0⟩]) [] 1
    (by simp) hposL
  rw [depthCount_snoc_miss _ _ _ (by show (0 : Nat) ≠ 1; decide)] at hc0
  rw [List.nil_append, hc0] at e2
  injection e2 with e2
  subst e2
  have hno : c0.pegRule = pegRule.ruleUnknown ∨
      (⟨pegRule.ruleGrammar, 0, pos, n0.length⟩ : token32).isParentOf c0 = false := by
    rcases hc0n with h | h
    · exact Or.inl h
    · refine Or.inr (isParentOf_false _ _ ?_)
      simp at h ⊢
      omega
  rw [ascend_end ordered (Walk.mk ds 1 ⟨pegRule.ruleGrammar, 0, pos, n0.length⟩ last
    ([] ++ items)) c0 hno] at e1
  have h1u : 1 % u32 = 1 := by decide
  simp only [h1u, List.nil_append] at e1
  refine ⟨_, ordered, tokens32.mk (tokenSlice.mk (n0 ++ [(⟨pegRule.ruleGrammar, 0, pos, 0⟩ : token32)])
    (n0 ++ [(⟨pegRule.ruleGrammar, 0, pos, 0⟩ : token32)]).length) (some ordered), ?_,
    Tiled.concat e6 (Tiled.gapItem 1 last.end_ pos pegRule.rule_Suf ds e8), ps, hW,
    fun hreal => by
      rw [realItems_append, e12 hreal,
        realItems_gap 1 last.end_ pos pegRule.rule_Suf ds (by decide), List.append_nil]⟩
  unfold tokens32.PreOrder
  simp only [hord, hroot, hfirst]
  have hfu : (ordered.map List.length).sum +
      (tokenSlice.mk (n0 ++ [(⟨pegRule.ruleGrammar, 0, pos, 0⟩ : token32)])
        (n0 ++ [(⟨pegRule.ruleGrammar, 0, pos, 0⟩ : token32)]).length).len + 1 =
      (ordered.map List.length).sum + 2 + n0.length := by
    simp only [List.length_append, List.length_singleton]
    omega
  rw [hfu, e1]
  rfl

/-! ## Claim about `PreOrder` -/

/-- C12. Gap coverage of `PreOrder`: after a successful `Parse` of a text of fewer than
`2 ^ 32` characters whose trimmed buffer holds fewer than `2 ^ 31 - 1` tokens, `PreOrder`
returns, and for every item `x` it sends as a non-leaf, the items sent for it at depth
`x.next + 1` (those of that depth among the items that follow `x` up to the next item
not deeper than `x`) are not none and their spans tile the span of `x` in emission
order: the first begins at `x.begin`, each begins where the one before it ended, and
the last ends at `x.end_`. -/
theorem PreOrder_gap_coverage (data : String) (h : data.length < 2 ^ 32) (p : config)
    (hp : parseRun data = .ok (p, none)) (t : tokens32) (ht : p.tokenTree = some t)
    (hn : t.tree.len < 2147483647) :
    ∃ out ordered t1, t.PreOrder = .ok (out, ordered, t1) ∧
      ∀ (pre post : List state32) (x : state32), out = pre ++ x :: post → x.leaf = false →
        childItems x.next post ≠ [] ∧ tiles x.begin x.end_ (childItems x.next post) := by
  obtain ⟨t0, n0, pos, ht0, hnone, hl, hF, hne, hdeep⟩ := parsed_forest data h p hp
  rw [ht] at ht0
  injection ht0 with ht0
  subst ht0
  obtain ⟨out, ordered, t1, hpre, htile, _⟩ := PreOrder_tiled t n0 pos hnone hl hF hne hdeep hn
  refine ⟨out, ordered, t1, hpre, fun pre post x ho hx => ?_⟩
  have := htile.children [] (fun y hy => by simp at hy) pre post x ho hx
  simpa using this

theorem PreOrder_gap_coverage_witness :
    ∃ p t, parseRun "[a]\n b = c\n" = .ok (p, none) ∧ p.tokenTree = some t ∧
      t.tree.len < 2147483647 ∧
      ∃ out ordered t1, t.PreOrder = .ok (out, ordered, t1) ∧
        ∀ (pre post : List state32) (x : state32), out = pre ++ x :: post → x.leaf = false →
          childItems x.next post ≠ [] ∧ tiles x.begin x.end_ (childItems x.next post) := by
  obtain ⟨p, hp⟩ := parseRun_of_Parse "[a]\n b = c\n" [⟨"a", "", [("b", "c")]⟩] (by decide!)
  obtain ⟨m1, h1, _, ht⟩ := parseRun_tree "[a]\n b = c\n" p hp
  have hidx : (match rules_ruleGrammar (Init (config.new "[a]\n b = c\n")).2 with
      | .ok (_, m) => m.tokenIndex
      | .error _ => 0) < 2147483647 := by decide!
  rw [h1] at hidx
  have hlen : m1.tokenIndex < 2147483647 := hidx
  exact ⟨p, _, hp, ht, hlen, PreOrder_gap_coverage "[a]\n b = c\n" (by decide) p hp _ ht hlen⟩

/-! ## Claims about `translatePositions`, `Expand` and single texts -/

/-- C21 fails on the code at the offset that equals the length of the text: the loop of
`translatePositions` runs over the runes of the text, so it never reaches that offset
and the map it returns has no entry for it. For the text `a` and the offset 1 the map
is empty; and after the failed parse of `[a` the offsets that `parseError.Error` asks
for include 2, the end of the Action0 token, for which the map has no entry. -/
theorem translatePositions_misses_length :
    (∃ m, translatePositions "a" [1] = .ok m ∧ m.has 1 = false) ∧
    ∃ toks m, errorTokens "[a" = .ok (some toks) ∧ (2 : Int) ∈ errorPositions toks ∧
      translatePositions "[a" (errorPositions toks) = .ok m ∧ m.has 2 = false :=
  ⟨⟨[], by decide, by decide⟩,
    ⟨[token32.zero, ⟨pegRule.ruleIdentifier, 1, 2, 0⟩, ⟨pegRule.ruleAction0, 2, 2, 2⟩,
        token32.zero, token32.zero],
      [(1, ⟨1, 2⟩), (0, ⟨1, 1⟩)], by decide!, by decide, by decide, by decide⟩⟩

/-- C22. `Expand` doubles the slice without losing tokens: for every slice of `n` entries
(held as its leading entries and its length), when `index ≥ n` the slice afterwards is
the old entries followed by `n` zero tokens, so it has `2 * n` entries of which the
first `n` are unchanged; when `index < n` the slice is unchanged. -/
theorem Expand_doubles (t : tokenSlice) (index : Nat) (hwf : t.cells.length ≤ t.len) :
    (t.toList.length ≤ index →
      (Expand t index).toList = t.toList ++ List.replicate t.toList.length token32.zero) ∧
    (index < t.toList.length → Expand t index = t) := by
  have hlen : t.toList.length = t.len := by
    unfold tokenSlice.toList
    rw [List.length_take, List.length_append, List.length_replicate]
    omega
  rw [hlen]
  constructor
  · intro h
    unfold Expand tokenSlice.toList
    simp only [ge_iff_le, h, if_true]
    rw [List.take_of_length_le (by simp; omega), List.take_of_length_le (by simp; omega),
      List.append_assoc, ← List.replicate_add]
    congr 2
    omega
  · intro h
    unfold Expand
    rw [if_neg (by omega)]

theorem Expand_doubles_witness :
    (Expand ⟨[⟨pegRule.ruleSpace, 0, 1, 1⟩], 2⟩ 2).toList =
        [⟨pegRule.ruleSpace, 0, 1, 1⟩, token32.zero, token32.zero, token32.zero] ∧
      Expand ⟨[⟨pegRule.ruleSpace, 0, 1, 1⟩], 2⟩ 1 = ⟨[⟨pegRule.ruleSpace, 0, 1, 1⟩], 2⟩ :=
  ⟨(Expand_doubles ⟨[⟨pegRule.ruleSpace, 0, 1, 1⟩], 2⟩ 2 (by decide)).1 (by decide),
    (Expand_doubles ⟨[⟨pegRule.ruleSpace, 0, 1, 1⟩], 2⟩ 1 (by decide)).2 (by decide)⟩

/-- C25. The value lines of a section end at the first line that is not a value line
right away: on `[core]\n a = 1 #c\n b = 2\n` the start rule succeeds and stops at offset
18, in front of `b`; the blank before `#` is the SpaceComment that ends the value line
(offsets 13 to 14), the value line and the section end there (offset 14), the comment
and the blank after it are items of the Grammar loop; and `Parse` returns no error and
the one section `core` whose values are exactly `a = 1`, without the key `b`. -/
theorem later_value_line_dropped :
    (rules_ruleGrammar (Init (config.new "[core]\n a = 1 #c\n b = 2\n")).2).map
        (fun r => (r.1, r.2.position, r.2.committed.drop 14)) =
      .ok (true, 18,
        [⟨pegRule.ruleAction3, 13, 13, 3⟩, ⟨pegRule.ruleSpace, 13, 14, 4⟩,
          ⟨pegRule.ruleSpaceComment, 13, 14, 3⟩, ⟨pegRule.ruleValueLine, 7, 14, 2⟩,
          ⟨pegRule.ruleSection, 0, 14, 1⟩, ⟨pegRule.ruleEndOfLine, 16, 17, 3⟩,
          ⟨pegRule.ruleComment, 14, 17, 2⟩, ⟨pegRule.ruleSpaceComment, 14, 17, 1⟩,
          ⟨pegRule.ruleSpace, 17, 18, 2⟩, ⟨pegRule.ruleSpaceComment, 17, 18, 1⟩,
          ⟨pegRule.ruleGrammar, 0, 18, 0⟩]) ∧
    Parse "[core]\n a = 1 #c\n b = 2\n" =
      .ok (some [⟨"core", "", [("a", "1")]⟩], none) ∧
    mapGet [("a", "1")] "b" = none := by
  refine ⟨by decide!, by decide!, by decide⟩
/-! ## The start rule and its first item -/

/-- The start rule succeeds exactly when its first item does. -/
theorem grammar_iff_item (s : Matcher) (hs : Inv s) :
    (∃ s1, rules_ruleGrammar s = .ok (true, s1)) ↔
      ∃ s0, alt rules_ruleSpaceComment inlineSection { s with depth := inc s.depth } =
        .ok (true, s0) := by
  have hs' := hs.set_depth (inc s.depth)
  constructor
  · rintro ⟨s1, h1⟩
    unfold rules_ruleGrammar at h1
    rw [ruleFn_ok] at h1
    rcases h1 with ⟨_, h1⟩ | ⟨hb, _⟩
    · rw [capture_ok] at h1
      rcases h1 with ⟨hb, _⟩ | ⟨_, s0, h0, _⟩
      · simp at hb
      · rw [seq_ok] at h0
        rcases h0 with ⟨s2, h2, _⟩ | ⟨hb, _⟩
        · exact ⟨s2, h2⟩
        · simp at hb
    · simp at hb
  · rintro ⟨s0, h0⟩
    have r0 := safe_grammarItem.result hs' h0
    obtain ⟨s2, h2, hi2, _, hp2⟩ :=
      safe_starLoop safe_grammarItem adv_grammarItem s0.buffer.length s0 r0.1 (Nat.sub_le _ _)
    have hpos : s.position ≤ s2.position := Nat.le_trans (r0.2.2 rfl) hp2
    obtain ⟨s3, h3, _⟩ := (hi2.set_depth (dec s2.depth)).add_token pegRule.ruleGrammar
      s.position hpos
    refine ⟨s3, ?_⟩
    unfold rules_ruleGrammar
    rw [ruleFn_ok]
    refine Or.inl ⟨rfl, ?_⟩
    rw [capture_ok]
    refine Or.inr ⟨rfl, s2, ?_, h3⟩
    rw [seq_ok]
    exact Or.inl ⟨s0, h0, h2⟩

/-- A successful start rule makes `Parse` return no error. -/
theorem Parse_of_grammar_true (data : String) (h : data.length < u32) (m1 : Matcher)
    (h1 : rules_ruleGrammar (Init (config.new data)).2 = .ok (true, m1)) :
    ∃ secs, Parse data = .ok (secs, none) := by
  have hi : Inv (Init (config.new data)).2 := inv_init _ h
  have hi1 := (safe_ruleGrammar.result hi h1).1
  have hlen : m1.tokenIndex ≤ m1.tree.len := Nat.le_trans hi1.index_le hi1.cells_le
  rcases parseRun_total data h with ⟨p, hp⟩ | ⟨p, hp, _⟩
  · exact ⟨sectionSlice p.sections, by simp only [Parse, hp]⟩
  · exfalso
    simp only [parseRun, config.Parse, h1, tokens32.trim, hlen, if_true] at hp
    split at hp <;> simp at hp

/-- C24. The outcome of `Parse` depends only on the first item of the text: on every
text of fewer than `2 ^ 32` characters `Parse` returns, and it returns no error exactly
when the ordered choice SpaceComment / Section, tried at offset 0 as the start rule
tries it, matches. So the empty text gives an error, and `[a]\n[b\n`, whose second
header is not closed, gives no error and exactly one section, of type `a`: the run of
items stops at offset 4 and what follows is left unread. -/
theorem Parse_first_item (data : String) (h : data.length < 2 ^ 32) :
    (∃ r, Parse data = .ok r ∧
      (r.2 = none ↔
        ∃ s0, alt rules_ruleSpaceComment inlineSection
          { (Init (config.new data)).2 with depth := inc (Init (config.new data)).2.depth } =
            .ok (true, s0))) ∧
    (∃ err, Parse "" = .ok (none, some err)) ∧
    Parse "[a]\n[b\n" = .ok (some [⟨"a", "", []⟩], none) ∧
    (rules_ruleGrammar (Init (config.new "[a]\n[b\n")).2).map (fun r => (r.1, r.2.position)) =
      .ok (true, 4) := by
  have hi : Inv (Init (config.new data)).2 := inv_init _ h
  refine ⟨?_, ?_, by decide!, by decide!⟩
  · rw [← grammar_iff_item _ hi]
    rcases Parse_total data h with ⟨p, hp, hs⟩ | ⟨err, he, _⟩
    · refine ⟨_, hs, fun _ => ?_, fun _ => rfl⟩
      obtain ⟨m1, h1, _⟩ := parseRun_tree data p hp
      exact ⟨m1, h1⟩
    · refine ⟨_, he, fun hn => by simp at hn, fun hg => ?_⟩
      obtain ⟨m1, h1⟩ := hg
      obtain ⟨secs, hs⟩ := Parse_of_grammar_true data h m1 h1
      rw [hs] at he
      simp at he
  · rcases Parse_total "" (by decide) with ⟨p, _, hs⟩ | ⟨err, he, _⟩
    · exfalso
      have hv : (Parse "").map (fun r => r.2.isSome) = .ok true := by decide!
      rw [hs] at hv
      simp [Except.map] at hv
    · exact ⟨err, he⟩

theorem Parse_first_item_witness :
    (∃ r, Parse "\n" = .ok r ∧
      (r.2 = none ↔
        ∃ s0, alt rules_ruleSpaceComment inlineSection
          { (Init (config.new "\n")).2 with depth := inc (Init (config.new "\n")).2.depth } =
            .ok (true, s0))) ∧
    (∃ err, Parse "" = .ok (none, some err)) ∧
    Parse "[a]\n[b\n" = .ok (some [⟨"a", "", []⟩], none) ∧
    (rules_ruleGrammar (Init (config.new "[a]\n[b\n")).2).map (fun r => (r.1, r.2.position)) =
      .ok (true, 4) :=
  Parse_first_item "\n" (by decide)

/-! ## Termination and index bounds of the matcher -/

theorem loopEnds_of {f : Rule} (sf : Safe f) (ha : Adv f) : LoopEnds f := by
  refine ⟨fun s hs => ?_, fun s hs => ?_⟩
  · obtain ⟨b, s1, h1, hi1, _, _⟩ := sf s hs
    refine ⟨b, s1, h1, hi1, fun hb => ?_⟩
    subst hb
    exact ha s s1 hs h1
  · obtain ⟨s1, h1, _⟩ := safe_starLoop sf ha (s.buffer.length - s.position) s hs (Nat.le_refl _)
    exact ⟨s1, h1⟩

theorem initBuffer_length (data : String) : (initBuffer data).length = data.length + 1 := by
  rw [initBuffer_eq, List.length_append, List.length_map]
  rfl

/-- C27. The matcher terminates. Every repetition loop of the grammar ends (`LoopEnds`):
the Grammar item loop, `Space*`, `ValueLine*`, the word loop of Value, the character
loops of Identifier and Word, and the body loop of Comment; each turn either returns
false, which leaves the loop, or moves the cursor forward by at least one character.
So on every text of fewer than `2 ^ 32` characters the start rule returns, the budget
of no loop used up, with the cursor inside the text. -/
theorem matcher_terminates (data : String) (h : data.length < 2 ^ 32) :
    LoopEnds (alt rules_ruleSpaceComment inlineSection) ∧
    LoopEnds rules_ruleSpace ∧
    LoopEnds inlineValueLine ∧
    LoopEnds (seq rules_ruleSpace (seq (star rules_ruleSpace) rules_ruleWord)) ∧
    LoopEnds identChar ∧
    LoopEnds wordChar ∧
    LoopEnds (seq (notP rules_ruleEndOfLine) matchDot) ∧
    ∃ b m1, rules_ruleGrammar (Init (config.new data)).2 = .ok (b, m1) ∧
      m1.position ≤ data.length := by
  refine ⟨loopEnds_of safe_grammarItem adv_grammarItem, loopEnds_of safe_ruleSpace adv_ruleSpace,
    loopEnds_of safe_inlineValueLine adv_inlineValueLine,
    loopEnds_of (safe_seq safe_ruleSpace (safe_seq safe_starSpace safe_ruleWord))
      (adv_seq_left safe_ruleSpace adv_ruleSpace (safe_seq safe_starSpace safe_ruleWord)),
    loopEnds_of safe_identChar adv_identChar, loopEnds_of safe_wordChar adv_wordChar,
    loopEnds_of (safe_seq (safe_notP safe_ruleEndOfLine) safe_matchDot)
      (adv_seq_right (safe_notP safe_ruleEndOfLine) adv_matchDot), ?_⟩
  obtain ⟨b, m1, h1, hi1, hf1, _⟩ := safe_ruleGrammar _ (inv_init (config.new data) h)
  refine ⟨b, m1, h1, ?_⟩
  have hp := hi1.pos_lt
  rw [hf1.buffer_eq] at hp
  have hl : (initBuffer data).length = data.length + 1 := initBuffer_length data
  have hp1 : m1.position < (initBuffer data).length := hp
  omega

theorem matcher_terminates_witness :
    LoopEnds (alt rules_ruleSpaceComment inlineSection) ∧
    LoopEnds rules_ruleSpace ∧
    LoopEnds inlineValueLine ∧
    LoopEnds (seq rules_ruleSpace (seq (star rules_ruleSpace) rules_ruleWord)) ∧
    LoopEnds identChar ∧
    LoopEnds wordChar ∧
    LoopEnds (seq (notP rules_ruleEndOfLine) matchDot) ∧
    ∃ b m1, rules_ruleGrammar (Init (config.new "[a]\n b = c\n")).2 = .ok (b, m1) ∧
      m1.position ≤ "[a]\n b = c\n".length :=
  matcher_terminates "[a]\n b = c\n" (by decide)

/-- C28. No index goes out of range while parsing. In the embedding a read of
`buffer[position]` outside the buffer and a write `Add(…, tokenIndex)` outside the token
slice are faults, and every rule function takes states of `Inv` to states of `Inv`; in
every such state the cursor is at an index of the buffer, the token count is at most
the length of the token slice, and after `Expand(tokenIndex)` it is an index of the
slice, so that `add` returns. So on every text of fewer than `2 ^ 32` characters the
start rule returns without a fault, with `position ≤` the length of the text (the
index of the sentinel), and at every call of `add` on the way the cursor was at most
that length. -/
theorem parse_indices_in_range (data : String) (h : data.length < 2 ^ 32) :
    (∀ s, Inv s → (∃ c, s.buffer[s.position]? = some c) ∧ s.tokenIndex ≤ s.tree.len ∧
      s.tokenIndex < (Expand s.tree s.tokenIndex).len ∧
      ∀ rule, ∃ s1, add rule s.position s = .ok s1) ∧
    Inv (Init (config.new data)).2 ∧
    ∃ b m1, rules_ruleGrammar (Init (config.new data)).2 = .ok (b, m1) ∧ Inv m1 ∧
      m1.position ≤ data.length ∧ m1.tokenIndex ≤ m1.tree.len ∧
      ∀ t ∈ m1.appended, t.end_ ≤ data.length := by
  have hi := inv_init (config.new data) h
  refine ⟨fun s hs => ⟨hs.peek, Nat.le_trans hs.index_le hs.cells_le,
    Expand_index_lt _ _ (Nat.le_trans hs.index_le hs.cells_le) hs.len_pos, fun rule => ?_⟩, hi, ?_⟩
  · obtain ⟨s1, h1, _⟩ := hs.add_token rule s.position (Nat.le_refl _)
    exact ⟨s1, h1⟩
  · obtain ⟨b, m1, h1, hi1, hf1, _⟩ := safe_ruleGrammar _ hi
    have hl : m1.buffer.length = data.length + 1 := by
      rw [hf1.buffer_eq]
      exact initBuffer_length data
    refine ⟨b, m1, h1, hi1, ?_, Nat.le_trans hi1.index_le hi1.cells_le, fun t ht => ?_⟩
    · have := hi1.pos_lt
      omega
    · have := (hi1.appended_ok t ht).2
      omega

theorem parse_indices_in_range_witness :
    (∀ s, Inv s → (∃ c, s.buffer[s.position]? = some c) ∧ s.tokenIndex ≤ s.tree.len ∧
      s.tokenIndex < (Expand s.tree s.tokenIndex).len ∧
      ∀ rule, ∃ s1, add rule s.position s = .ok s1) ∧
    Inv (Init (config.new "[a]\n b = c\n")).2 ∧
    ∃ b m1, rules_ruleGrammar (Init (config.new "[a]\n b = c\n")).2 = .ok (b, m1) ∧ Inv m1 ∧
      m1.position ≤ "[a]\n b = c\n".length ∧ m1.tokenIndex ≤ m1.tree.len ∧
      ∀ t ∈ m1.appended, t.end_ ≤ "[a]\n b = c\n".length :=
  parse_indices_in_range "[a]\n b = c\n" (by decide)

/-! ## The Hoare logic on tokens and cursor -/

theorem hoareOn_of {buf : List Nat} {P Q : List token32 → Prop} {f : Rule} (h : Hoare P f Q) :
    HoareOn buf (Still P) f (Still Q) :=
  fun s s1 hs _ hP hr => h s s1 hs hP hr

theorem hoareOn_weaken {buf : List Nat} {P P1 Q Q1 : List token32 → Nat → Prop} {f : Rule}
    (h : HoareOn buf P f Q) (hp : ∀ l n, P1 l n → P l n) (hq : ∀ l n, Q l n → Q1 l n) :
    HoareOn buf P1 f Q1 :=
  fun s s1 hs hb hP hr => hq _ _ (h s s1 hs hb (hp _ _ hP) hr)

theorem hoareOn_seq {buf : List Nat} {P Q R : List token32 → Nat → Prop} {f g : Rule}
    (sf : Safe f) (hf : HoareOn buf P f Q) (hg : HoareOn buf Q g R) :
    HoareOn buf P (seq f g) R := by
  intro s s1 hs hb hP h
  rw [seq_ok] at h
  rcases h with ⟨s0, h0, h1⟩ | ⟨hb1, _⟩
  · have r0 := sf.result hs h0
    exact hg s0 s1 r0.1 (r0.2.1.buffer_eq.trans hb) (hf s s0 hs hb hP h0) h1
  · simp at hb1

theorem hoareOn_alt {buf : List Nat} {P Q : List token32 → Nat → Prop} {f g : Rule}
    (sf : Safe f) (hf : HoareOn buf P f Q) (hg : HoareOn buf P g Q) :
    HoareOn buf P (alt f g) Q := by
  intro s s1 hs hb hP h
  rw [alt_ok] at h
  rcases h with ⟨_, h0⟩ | ⟨s0, h0, h1⟩
  · exact hf s s1 hs hb hP h0
  · have r0 := sf.result hs h0
    refine hg (restore s0 s) s1 (Inv.rewind (s := s) (t := s0) hs r0.1 r0.2.1)
      (r0.2.1.buffer_eq.trans hb) ?_ h1
    rw [committed_restore hs r0.2.1]
    exact hP

theorem hoareOn_opt {buf : List Nat} {P : List token32 → Nat → Prop} {f : Rule}
    (sf : Safe f) (hf : HoareOn buf P f P) : HoareOn buf P (opt f) P := by
  intro s s1 hs hb hP h
  rw [opt_ok] at h
  rcases h with ⟨_, h0 | ⟨s0, h0, rfl⟩⟩
  · exact hf s s1 hs hb hP h0
  · rw [committed_restore hs (sf.result hs h0).2.1]
    exact hP

theorem hoareOn_ruleFn {buf : List Nat} {P Q : List token32 → Nat → Prop} {f : Rule}
    (hf : HoareOn buf P f Q) : HoareOn buf P (ruleFn f) Q := by
  intro s s1 hs hb hP h
  rw [ruleFn_ok] at h
  rcases h with ⟨_, h0⟩ | ⟨hb1, _⟩
  · exact hf s s1 hs hb hP h0
  · simp at hb1

theorem hoareOn_starLoop {buf : List Nat} {P : List token32 → Nat → Prop} {f : Rule}
    (sf : Safe f) (hf : HoareOn buf P f P) (fuel : Nat) :
    ∀ s s1, Inv s → s.buffer = buf → P s.committed s.position →
      starLoop f fuel s = .ok (true, s1) → P s1.committed s1.position := by
  induction fuel with
  | zero => intro s s1 _ _ _ h; simp [starLoop] at h
  | succ n ih =>
    intro s s1 hs hb hP h
    rw [starLoop_succ_ok] at h
    rcases h with ⟨s0, h0, h1⟩ | ⟨_, s0, h0, rfl⟩
    · have r0 := sf.result hs h0
      exact ih s0 s1 r0.1 (r0.2.1.buffer_eq.trans hb) (hf s s0 hs hb hP h0) h1
    · rw [committed_restore hs (sf.result hs h0).2.1]
      exact hP

theorem hoareOn_star {buf : List Nat} {P : List token32 → Nat → Prop} {f : Rule}
    (sf : Safe f) (hf : HoareOn buf P f P) : HoareOn buf P (star f) P :=
  fun s s1 hs hb hP h => hoareOn_starLoop sf hf _ s s1 hs hb hP h

/-- A capture that consumes text: its token is not zero-width and ends at the cursor. -/
theorem hoareOn_capture {buf : List Nat} {P Q R : List token32 → Nat → Prop} {f : Rule}
    (rule : pegRule) (sf : Safe f) (ha : Adv (capture rule f)) (hf : HoareOn buf P f Q)
    (hc : ∀ l pos t, t.pegRule = rule → t.begin < t.end_ → t.end_ = pos → Q l pos →
      R (l ++ [t]) pos) :
    HoareOn buf P (capture rule f) R := by
  intro s s1 hs hb hP h
  have hadv := ha s s1 hs h
  rw [capture_ok] at h
  rcases h with ⟨hb1, _⟩ | ⟨_, s0, h0, h1⟩
  · simp at hb1
  · have hs' := hs.set_depth (inc s.depth)
    have r0 := sf.result hs' h0
    have hlt : s.position < s0.position := by
      rw [add_ok] at h1
      obtain ⟨_, rfl⟩ := h1
      exact hadv
    have hQ : Q s0.committed s0.position := hf _ s0 hs' hb hP h0
    have hc2 := committed_add (r0.1.set_depth (dec s0.depth)) h1
    rw [add_ok] at h1
    obtain ⟨_, rfl⟩ := h1
    rw [hc2, committed_set_depth]
    exact hc s0.committed s0.position ⟨rule, s.position, s0.position, dec s0.depth⟩ rfl hlt rfl hQ

/-- An action: its token stands at the cursor. -/
theorem hoareOn_action {buf : List Nat} {P R : List token32 → Nat → Prop} (rule : pegRule)
    (hc : ∀ l pos t, t.pegRule = rule → t.begin = pos → t.end_ = pos → P l pos →
      R (l ++ [t]) pos) :
    HoareOn buf P (action rule) R := by
  intro s s1 hs hb hP h
  rw [action_ok] at h
  have hc2 := committed_add hs h.2
  have h2 := h.2
  rw [add_ok] at h2
  obtain ⟨_, rfl⟩ := h2
  rw [hc2]
  exact hc s.committed s.position ⟨rule, s.position, s.position, s.depth⟩ rfl rfl rfl hP

theorem adv_of_ruleFn {f : Rule} (ha : Adv (ruleFn f)) : Adv f :=
  fun s s1 hs h => ha s s1 hs ((ruleFn_ok _ _ _ _).2 (Or.inl ⟨rfl, h⟩))

/-! ## The rules that write captures only -/

theorem wide_ruleSpace {buf : List Nat} {Q : List token32 → Prop} (hq : WideClosed Q) :
    HoareOn buf (Still Q) rules_ruleSpace (Still Q) :=
  hoareOn_ruleFn (hoareOn_capture _ (safe_alt (safe_lit (by decide)) (safe_lit (by decide)))
    (adv_of_ruleFn adv_ruleSpace)
    (hoareOn_of (hoare_alt (safe_lit (by decide)) (hoare_lit Q _) (hoare_lit Q _)))
    (fun l _ t ht hw _ hQ => hq l t (by rw [ht]; rfl) hw hQ))

theorem wide_starSpace {buf : List Nat} {Q : List token32 → Prop} (hq : WideClosed Q) :
    HoareOn buf (Still Q) (star rules_ruleSpace) (Still Q) :=
  hoareOn_star safe_ruleSpace (wide_ruleSpace hq)

theorem wide_ruleEndOfLine {buf : List Nat} {Q : List token32 → Prop} (hq : WideClosed Q) :
    HoareOn buf (Still Q) rules_ruleEndOfLine (Still Q) :=
  hoareOn_ruleFn (hoareOn_capture _
    (safe_alt (safe_seq (safe_lit (by decide)) (safe_lit (by decide)))
      (safe_alt (safe_lit (by decide)) (safe_lit (by decide))))
    (adv_of_ruleFn adv_ruleEndOfLine)
    (hoareOn_of (hoare_alt (safe_seq (safe_lit (by decide)) (safe_lit (by decide)))
      (hoare_seq (safe_lit (by decide)) (hoare_lit Q _) (hoare_lit Q _))
      (hoare_alt (safe_lit (by decide)) (hoare_lit Q _) (hoare_lit Q _))))
    (fun l _ t ht hw _ hQ => hq l t (by rw [ht]; rfl) hw hQ))

theorem wide_ruleIdentifier {buf : List Nat} {Q : List token32 → Prop} (hq : WideClosed Q) :
    HoareOn buf (Still Q) rules_ruleIdentifier (Still Q) :=
  hoareOn_ruleFn (hoareOn_capture _
    (safe_seq safe_identChar (safe_star safe_identChar adv_identChar))
    (adv_of_ruleFn adv_ruleIdentifier)
    (hoareOn_of (hoare_seq safe_identChar (keeps_identChar Q)
      (hoare_star safe_identChar (keeps_identChar Q))))
    (fun l _ t ht hw _ hQ => hq l t (by rw [ht]; rfl) hw hQ))

theorem wide_ruleWord {buf : List Nat} {Q : List token32 → Prop} (hq : WideClosed Q) :
    HoareOn buf (Still Q) rules_ruleWord (Still Q) :=
  hoareOn_ruleFn (hoareOn_capture _
    (safe_seq safe_wordChar (safe_star safe_wordChar adv_wordChar))
    (adv_of_ruleFn adv_ruleWord)
    (hoareOn_of (hoare_seq safe_wordChar (keeps_wordChar Q)
      (hoare_star safe_wordChar (keeps_wordChar Q))))
    (fun l _ t ht hw _ hQ => hq l t (by rw [ht]; rfl) hw hQ))

theorem wide_inlineComment {buf : List Nat} {Q : List token32 → Prop} (hq : WideClosed Q) :
    HoareOn buf (Still Q) inlineComment (Still Q) :=
  hoareOn_capture _
    (safe_seq (safe_lit (by decide)) (safe_seq safe_commentBody safe_ruleEndOfLine))
    adv_inlineComment
    (hoareOn_seq (safe_lit (by decide)) (hoareOn_of (hoare_lit Q _))
      (hoareOn_seq safe_commentBody
        (hoareOn_of (hoare_star (safe_seq (safe_notP safe_ruleEndOfLine) safe_matchDot)
          (hoare_seq (safe_notP safe_ruleEndOfLine) (hoare_notP safe_ruleEndOfLine)
            (hoare_matchDot Q))))
        (wide_ruleEndOfLine hq)))
    (fun l _ t ht hw _ hQ => hq l t (by rw [ht]; rfl) hw hQ)

theorem wide_spaceCommentSwitch {buf : List Nat} {Q : List token32 → Prop}
    (hq : WideClosed Q) : HoareOn buf (Still Q) spaceCommentSwitch (Still Q) := by
  intro s s1 hs hb hP h
  unfold spaceCommentSwitch at h
  split at h
  · simp at h
  · split_ifs at h
    · exact wide_ruleEndOfLine hq s s1 hs hb hP h
    · exact wide_inlineComment hq s s1 hs hb hP h
    · exact hoareOn_seq safe_ruleSpace (wide_ruleSpace hq) (wide_starSpace hq) s s1 hs hb hP h

theorem wide_ruleSpaceComment {buf : List Nat} {Q : List token32 → Prop} (hq : WideClosed Q) :
    HoareOn buf (Still Q) rules_ruleSpaceComment (Still Q) :=
  hoareOn_ruleFn (hoareOn_capture _ safe_spaceCommentSwitch (adv_of_ruleFn adv_ruleSpaceComment)
    (wide_spaceCommentSwitch hq)
    (fun l _ t ht hw _ hQ => hq l t (by rw [ht]; rfl) hw hQ))

theorem adv_inlineValue : Adv inlineValue :=
  adv_capture _ (adv_seq_left safe_ruleWord adv_ruleWord safe_moreWords)

theorem wide_inlineValue {buf : List Nat} {Q : List token32 → Prop} (hq : WideClosed Q) :
    HoareOn buf (Still Q) inlineValue (Still Q) :=
  hoareOn_capture _ (safe_seq safe_ruleWord safe_moreWords) adv_inlineValue
    (hoareOn_seq safe_ruleWord (wide_ruleWord hq)
      (hoareOn_star (safe_seq safe_ruleSpace (safe_seq safe_starSpace safe_ruleWord))
        (hoareOn_seq safe_ruleSpace (wide_ruleSpace hq)
          (hoareOn_seq safe_starSpace (wide_starSpace hq) (wide_ruleWord hq)))))
    (fun l _ t ht hw _ hQ => hq l t (by rw [ht]; rfl) hw hQ)

theorem text_pegIdentifier {buf : List Nat} {Q : List token32 → Prop} (hq : WideClosed Q) :
    HoareOn buf (Still Q) (capture pegRule.rulePegText rules_ruleIdentifier) (afterText Q) :=
  hoareOn_capture _ safe_ruleIdentifier (adv_capture _ adv_ruleIdentifier)
    (wide_ruleIdentifier hq) (fun l _ t ht hw he hQ => ⟨l, t, rfl, ht, hw, he, hQ⟩)

theorem text_pegValue {buf : List Nat} {Q : List token32 → Prop} (hq : WideClosed Q) :
    HoareOn buf (Still Q) (capture pegRule.rulePegText inlineValue) (afterText Q) :=
  hoareOn_capture _ safe_inlineValue (adv_capture _ adv_inlineValue)
    (wide_inlineValue hq) (fun l _ t ht hw he hQ => ⟨l, t, rfl, ht, hw, he, hQ⟩)

/-! ## Every action follows its capture, inside a section -/

theorem snoc_split {α : Type} {l pre post : List α} {t tok : α}
    (h : l ++ [t] = pre ++ tok :: post) :
    (post = [] ∧ pre = l ∧ tok = t) ∨ ∃ post1, post = post1 ++ [t] ∧ l = pre ++ tok :: post1 := by
  rcases List.eq_nil_or_concat post with rfl | ⟨post1, x, rfl⟩
  · left
    obtain ⟨h1, h2⟩ := List.append_inj' h rfl
    exact ⟨rfl, h1.symm, (List.singleton_inj.1 h2).symm⟩
  · right
    have h3 : l ++ [t] = (pre ++ tok :: post1) ++ [x] := by simpa using h
    obtain ⟨h1, h2⟩ := List.append_inj' h3 rfl
    refine ⟨post1, ?_, h1⟩
    rw [List.singleton_inj.1 h2, List.concat_eq_append]

theorem paired_snoc {l : List token32} {t : token32} (h : actionsPaired l)
    (ht : t.pegRule.isAction = true →
      ∃ l0 u, l = l0 ++ [u] ∧ u.pegRule = pegRule.rulePegText ∧ u.end_ = t.begin) :
    actionsPaired (l ++ [t]) := by
  intro pre tok post he ha
  rcases snoc_split he with ⟨_, rfl, rfl⟩ | ⟨post1, _, rfl⟩
  · exact ht ha
  · exact h pre tok post1 rfl ha

theorem sectioned_snoc {l : List token32} {t : token32} (h : actionsSectioned l)
    (ht : t.pegRule = pegRule.ruleAction1 ∨ t.pegRule = pegRule.ruleAction2 ∨
      t.pegRule = pegRule.ruleAction3 → ∃ u ∈ l, u.pegRule = pegRule.ruleAction0) :
    actionsSectioned (l ++ [t]) := by
  intro pre tok post he ha
  rcases snoc_split he with ⟨_, rfl, rfl⟩ | ⟨post1, _, rfl⟩
  · exact ht ha
  · exact h pre tok post1 rfl ha

theorem plain_snoc {l : List token32} {t : token32} (h : tokensPlain l)
    (ht : (t.pegRule.isAction = true ∧ t.begin = t.end_) ∨
      ((t.pegRule.isCapture = true ∨ t.pegRule = pegRule.rulePegText) ∧ t.begin < t.end_)) :
    tokensPlain (l ++ [t]) := by
  intro x hx
  rcases List.mem_append.1 hx with hx | hx
  · exact h x hx
  · rw [List.mem_singleton.1 hx]
    exact ht

theorem ordered_nil : actionsOrdered [] := by
  refine ⟨?_, ?_, ?_⟩
  · intro pre tok post he
    simp at he
  · intro pre tok post he
    simp at he
  · intro t ht
    simp at ht

theorem capture_not_action (r : pegRule)
    (h : r.isCapture = true ∨ r = pegRule.rulePegText) : r.isAction = false := by
  rcases h with h | h
  · revert h
    cases r <;> decide
  · rw [h]
    rfl

theorem later_is_action (r : pegRule)
    (h : r = pegRule.ruleAction1 ∨ r = pegRule.ruleAction2 ∨ r = pegRule.ruleAction3) :
    r.isAction = true := by
  rcases h with h | h | h <;> rw [h] <;> rfl

theorem ordered_snoc_wide {l : List token32} {t : token32} (h : actionsOrdered l)
    (hr : t.pegRule.isCapture = true ∨ t.pegRule = pegRule.rulePegText)
    (hw : t.begin < t.end_) : actionsOrdered (l ++ [t]) := by
  obtain ⟨h1, h2, h3⟩ := h
  have hna := capture_not_action _ hr
  refine ⟨paired_snoc h1 ?_, sectioned_snoc h2 ?_, plain_snoc h3 (Or.inr ⟨hr, hw⟩)⟩
  · intro ha
    rw [hna] at ha
    exact absurd ha (by decide)
  · intro ha
    rw [later_is_action _ ha] at hna
    exact absurd hna (by decide)

theorem wide_ordered : WideClosed actionsOrdered :=
  fun _ _ hr hw h => ordered_snoc_wide h (Or.inl hr) hw

theorem open_snoc_wide {l : List token32} {t : token32} (h : actionsOpen l)
    (hr : t.pegRule.isCapture = true ∨ t.pegRule = pegRule.rulePegText)
    (hw : t.begin < t.end_) : actionsOpen (l ++ [t]) := by
  obtain ⟨h1, u, hu, hu0⟩ := h
  exact ⟨ordered_snoc_wide h1 hr hw, u, List.mem_append_left _ hu, hu0⟩

theorem wide_open : WideClosed actionsOpen :=
  fun _ _ hr hw h => open_snoc_wide h (Or.inl hr) hw

theorem ordered_snoc_action {l0 : List token32} {u t : token32} (h : actionsOrdered l0)
    (hu : u.pegRule = pegRule.rulePegText) (hw : u.begin < u.end_)
    (ha : t.pegRule.isAction = true) (hb : t.begin = u.end_) (he : t.end_ = u.end_)
    (h0 : t.pegRule = pegRule.ruleAction0 ∨ ∃ v ∈ l0, v.pegRule = pegRule.ruleAction0) :
    actionsOpen (l0 ++ [u] ++ [t]) := by
  obtain ⟨h1, h2, h3⟩ := ordered_snoc_wide h (Or.inr hu) hw
  refine ⟨⟨paired_snoc h1 (fun _ => ⟨l0, u, rfl, hu, hb.symm⟩), sectioned_snoc h2 ?_,
    plain_snoc h3 (Or.inl ⟨ha, hb.trans he.symm⟩)⟩, ?_⟩
  · intro hk
    rcases h0 with h0 | ⟨v, hv, hv0⟩
    · rw [h0] at hk
      exact absurd hk (by decide)
    · exact ⟨v, List.mem_append_left _ hv, hv0⟩
  · rcases h0 with h0 | ⟨v, hv, hv0⟩
    · exact ⟨t, by simp, h0⟩
    · exact ⟨v, by simp [hv], hv0⟩

theorem opens_action0 {buf : List Nat} :
    HoareOn buf (afterText actionsOrdered) (action pegRule.ruleAction0) (Still actionsOpen) :=
  hoareOn_action _ (fun l pos t ht hb he hP => by
    obtain ⟨l0, u, rfl, hu, hw, hpos, hQ⟩ := hP
    exact ordered_snoc_action hQ hu hw (by rw [ht]; rfl) (hb.trans hpos.symm)
      (he.trans hpos.symm) (Or.inl ht))

theorem open_action {buf : List Nat} (rule : pegRule) (hr : rule.isAction = true) :
    HoareOn buf (afterText actionsOpen) (action rule) (Still actionsOpen) :=
  hoareOn_action _ (fun l pos t ht hb he hP => by
    obtain ⟨l0, u, rfl, hu, hw, hpos, hQ, v, hv, hv0⟩ := hP
    exact ordered_snoc_action hQ hu hw (by rw [ht]; exact hr) (hb.trans hpos.symm)
      (he.trans hpos.symm) (Or.inr ⟨v, hv, hv0⟩))

theorem ordered_inlineValueLine {buf : List Nat} :
    HoareOn buf (Still actionsOpen) inlineValueLine (Still actionsOpen) :=
  hoareOn_capture _
    (safe_seq safe_starSpace (safe_seq (safe_capture _ safe_ruleIdentifier) safe_valueLineTail))
    adv_inlineValueLine
    (hoareOn_seq safe_starSpace (wide_starSpace wide_open)
    (hoareOn_seq (safe_capture _ safe_ruleIdentifier) (text_pegIdentifier wide_open)
    (hoareOn_seq (safe_action _) (open_action _ (by decide))
    (hoareOn_seq safe_starSpace (wide_starSpace wide_open)
    (hoareOn_seq (safe_lit (by decide)) (hoareOn_of (hoare_lit _ _))
    (hoareOn_seq safe_starSpace (wide_starSpace wide_open)
    (hoareOn_seq (safe_capture _ safe_inlineValue) (text_pegValue wide_open)
    (hoareOn_seq (safe_action _) (open_action _ (by decide))
      (wide_ruleSpaceComment wide_open)))))))))
    (fun l _ t ht hw _ hQ => wide_open l t (by rw [ht]; rfl) hw hQ)

theorem ordered_inlineSectionID {buf : List Nat} :
    HoareOn buf (Still actionsOpen) inlineSectionID (Still actionsOpen) :=
  hoareOn_opt
    (safe_seq safe_ruleSpace
    (safe_seq safe_starSpace
    (safe_seq (safe_lit (by decide))
    (safe_seq (safe_capture _ safe_ruleIdentifier)
    (safe_seq (safe_action _) (safe_lit (by decide)))))))
    (hoareOn_seq safe_ruleSpace (wide_ruleSpace wide_open)
    (hoareOn_seq safe_starSpace (wide_starSpace wide_open)
    (hoareOn_seq (safe_lit (by decide)) (hoareOn_of (hoare_lit _ _))
    (hoareOn_seq (safe_capture _ safe_ruleIdentifier) (text_pegIdentifier wide_open)
    (hoareOn_seq (safe_action _) (open_action _ (by decide))
      (hoareOn_of (hoare_lit _ _)))))))

theorem ordered_inlineSection {buf : List Nat} :
    HoareOn buf (Still actionsOrdered) inlineSection (Still actionsOrdered) :=
  hoareOn_capture _ (safe_seq safe_starSpace (safe_seq (safe_lit (by decide)) safe_sectionTail))
    adv_inlineSection
    (hoareOn_seq safe_starSpace (wide_starSpace wide_ordered)
    (hoareOn_seq (safe_lit (by decide)) (hoareOn_of (hoare_lit _ _))
    (hoareOn_seq safe_starSpace (wide_starSpace wide_ordered)
    (hoareOn_seq (safe_capture _ safe_ruleIdentifier) (text_pegIdentifier wide_ordered)
    (hoareOn_seq (safe_action _) opens_action0
    (hoareOn_seq safe_inlineSectionID ordered_inlineSectionID
    (hoareOn_seq safe_starSpace (wide_starSpace wide_open)
    (hoareOn_seq (safe_lit (by decide)) (hoareOn_of (hoare_lit _ _))
    (hoareOn_seq safe_ruleSpaceComment (wide_ruleSpaceComment wide_open)
      (hoareOn_star safe_inlineValueLine ordered_inlineValueLine))))))))))
    (fun l _ t ht hw _ hQ => (wide_open l t (by rw [ht]; rfl) hw hQ).1)

theorem ordered_grammarItem {buf : List Nat} :
    HoareOn buf (Still actionsOrdered) (alt rules_ruleSpaceComment inlineSection)
      (Still actionsOrdered) :=
  hoareOn_alt safe_ruleSpaceComment (wide_ruleSpaceComment wide_ordered) ordered_inlineSection

theorem ordered_ruleGrammar {buf : List Nat} :
    HoareOn buf (Still actionsOrdered) rules_ruleGrammar (Still actionsOrdered) :=
  hoareOn_ruleFn (hoareOn_capture _
    (safe_seq safe_grammarItem (safe_star safe_grammarItem adv_grammarItem))
    (adv_of_ruleFn adv_ruleGrammar)
    (hoareOn_seq safe_grammarItem ordered_grammarItem
      (hoareOn_star safe_grammarItem ordered_grammarItem))
    (fun l _ t ht hw _ hQ => wide_ordered l t (by rw [ht]; rfl) hw hQ))


/-! ## What `Execute` holds when it reaches an action -/

theorem executeLoop_snoc (l : List token32) (t : token32) :
    ∀ st, executeLoop (l ++ [t]) st =
      match executeLoop l st with
      | .error e => .error e
      | .ok st1 => executeStep st1 t := by
  induction l with
  | nil =>
    intro st
    simp only [List.nil_append, executeLoop]
    cases executeStep st t <;> rfl
  | cons u l ih =>
    intro st
    simp only [List.cons_append, executeLoop]
    cases executeStep st u with
    | error e => rfl
    | ok st1 => exact ih st1

theorem sectioned_left {a b : List token32} (h : actionsSectioned (a ++ b)) :
    actionsSectioned a :=
  fun pre tok post he ha => h pre tok (post ++ b) (by rw [he]; simp) ha

theorem executeLoop_trace (p0 : config) (l : List token32) :
    (∀ t ∈ l, t.begin ≤ t.end_ ∧ t.end_ ≤ p0.buffer.length) → actionsSectioned l →
    ∃ st, executeLoop l (p0, "") = .ok st ∧ st.1.buffer = p0.buffer ∧
      ((∃ u ∈ l, u.pegRule = pegRule.ruleAction0) → st.1.curSection.isSome = true) ∧
      ∀ l0 u, l = l0 ++ [u] → u.pegRule = pegRule.rulePegText →
        st.2 = stringOfRunes ((p0.buffer.take u.end_).drop u.begin) := by
  induction l using List.reverseRecOn with
  | nil =>
    intro _ _
    refine ⟨(p0, ""), rfl, rfl, ?_, ?_⟩
    · rintro ⟨u, hu, _⟩
      simp at hu
    · intro l0 u he
      simp at he
  | append_singleton l t ih =>
    intro hspan hsec
    obtain ⟨st, hst, hbuf, hcur, _⟩ :=
      ih (fun x hx => hspan x (List.mem_append_left _ hx)) (sectioned_left hsec)
    obtain ⟨p, text⟩ := st
    have ht := hspan t (by simp)
    rw [← hbuf] at ht
    obtain ⟨p1, text1, h1, hb1, hmono, h0⟩ := executeStep_total p text t ht (by
      intro hr
      obtain ⟨u, hu, hu0⟩ := hsec l t [] rfl (by
        rcases hr with hr | hr
        · exact Or.inl hr
        · exact Or.inr (Or.inr hr))
      exact hcur ⟨u, hu, hu0⟩)
    refine ⟨(p1, text1), ?_, hb1.trans hbuf, ?_, ?_⟩
    · rw [executeLoop_snoc, hst]
      exact h1
    · rintro ⟨u, hu, hu0⟩
      rcases List.mem_append.1 hu with hu | hu
      · exact hmono (hcur ⟨u, hu, hu0⟩)
      · rw [List.mem_singleton.1 hu] at hu0
        exact h0 hu0
    · intro l0 u he hu
      obtain ⟨_, h2⟩ := List.append_inj' he rfl
      have htu : t = u := List.singleton_inj.1 h2
      subst htu
      have : executeStep (p, text) t =
          .ok (p, stringOfRunes ((p.buffer.take t.end_).drop t.begin)) := by
        simp [executeStep, hu, sliceRunes, ht]
      rw [this] at h1
      simp only [Except.ok.injEq, Prod.mk.injEq] at h1
      rw [← h1.2]
      show _ = stringOfRunes ((p0.buffer.take t.end_).drop t.begin)
      rw [← hbuf]

theorem grammar_ordered (data : String) (h : data.length < u32) (m1 : Matcher)
    (h1 : rules_ruleGrammar (Init (config.new data)).2 = .ok (true, m1)) :
    actionsOrdered m1.committed :=
  ordered_ruleGrammar (Init (config.new data)).2 m1 (inv_init _ h) rfl ordered_nil h1

/-- C29. Actions see their own capture and a current section. When the start rule
succeeds on a text of fewer than `2 ^ 32` characters, every action token among the
committed tokens (the trimmed token sequence) comes right after a `PegText` token that
ends where the action stands, and every `Action1`, `Action2` and `Action3` token comes
after an `Action0` token. Hence `Execute` runs to its end on these tokens, and when its
loop reaches an action token the variable `text` holds the text of the capture right
before it and, unless the action is `Action0`, the current section is not nil. -/
theorem actions_see_their_capture (data : String) (h : data.length < 2 ^ 32) (m1 : Matcher)
    (h1 : rules_ruleGrammar (Init (config.new data)).2 = .ok (true, m1)) :
    actionsPaired m1.committed ∧ actionsSectioned m1.committed ∧
    ∃ p0 p, config.Parse (Init (config.new data)).1 (Init (config.new data)).2 =
        .ok (p0, none, m1) ∧
      (∃ t, p0.tokenTree = some t ∧ t.tree.toList = m1.committed) ∧
      p0.Execute = .ok p ∧ parseRun data = .ok (p, none) ∧
      ∀ pre tok post, m1.committed = pre ++ tok :: post → tok.pegRule.isAction = true →
        ∃ pre1 u st rs, pre = pre1 ++ [u] ∧ u.pegRule = pegRule.rulePegText ∧
          u.end_ = tok.begin ∧ executeLoop pre (p0, "") = .ok st ∧
          sliceRunes p0.buffer u.begin u.end_ = .ok rs ∧ st.2 = stringOfRunes rs ∧
          (tok.pegRule ≠ pegRule.ruleAction0 → st.1.curSection.isSome = true) := by
  have hi : Inv (Init (config.new data)).2 := inv_init _ h
  have hr := safe_ruleGrammar.result hi h1
  have hi1 := hr.1
  obtain ⟨hpair, hsec, _⟩ := grammar_ordered data h m1 h1
  have hlen : m1.tokenIndex ≤ m1.tree.len := Nat.le_trans hi1.index_le hi1.cells_le
  have hbuf : m1.buffer = initBuffer data := hr.2.1.buffer_eq
  have hspan : ∀ t ∈ m1.committed, t.begin ≤ t.end_ ∧ t.end_ ≤ (initBuffer data).length := by
    intro t ht
    have := hi1.cells_ok t (List.mem_of_mem_take ht)
    rw [hbuf] at this
    exact ⟨this.1, Nat.le_trans this.2 (Nat.sub_le _ _)⟩
  have hp0 : config.Parse (Init (config.new data)).1 (Init (config.new data)).2 =
      .ok ({ (Init (config.new data)).1 with
        tokenTree := some ⟨⟨m1.tree.cells.take m1.tokenIndex, m1.tokenIndex⟩, none⟩ },
        none, m1) := by
    simp only [config.Parse, h1, tokens32.trim, hlen, if_true]
  have hl : (tokenSlice.mk (m1.tree.cells.take m1.tokenIndex) m1.tokenIndex).toList =
      m1.committed := toList_trim _ _ hi1.index_le
  obtain ⟨st, hst, _⟩ := executeLoop_trace
    { (Init (config.new data)).1 with
      tokenTree := some ⟨⟨m1.tree.cells.take m1.tokenIndex, m1.tokenIndex⟩, none⟩ }
    m1.committed hspan hsec
  refine ⟨hpair, hsec, _, st.1, hp0, ⟨_, rfl, hl⟩, ?_, ?_, ?_⟩
  · simp only [config.Execute, hl, hst]
  · simp only [parseRun, hp0, config.Execute, hl, hst]
  · intro pre tok post he ha
    obtain ⟨pre1, u, hpre, hu, hue⟩ := hpair pre tok post he ha
    have hsp : ∀ t ∈ pre, t.begin ≤ t.end_ ∧ t.end_ ≤ (initBuffer data).length :=
      fun t ht => hspan t (by rw [he]; exact List.mem_append_left _ ht)
    obtain ⟨st1, hst1, _, hcur, htext⟩ := executeLoop_trace
      { (Init (config.new data)).1 with
        tokenTree := some ⟨⟨m1.tree.cells.take m1.tokenIndex, m1.tokenIndex⟩, none⟩ }
      pre hsp (sectioned_left (b := tok :: post) (by rw [← he]; exact hsec))
    have hus := hsp u (by rw [hpre]; simp)
    refine ⟨pre1, u, st1, ((initBuffer data).take u.end_).drop u.begin, hpre, hu, hue, hst1, ?_,
      htext pre1 u hpre hu, ?_⟩
    · show sliceRunes (initBuffer data) u.begin u.end_ = _
      simp [sliceRunes, hus]
    · intro hne
      apply hcur
      apply hsec pre tok post he
      revert ha hne
      cases tok.pegRule <;> simp [pegRule.isAction]

theorem actions_see_their_capture_witness :
    ∃ m1, rules_ruleGrammar (Init (config.new "[a]\n b = c\n")).2 = .ok (true, m1) ∧
    (actionsPaired m1.committed ∧ actionsSectioned m1.committed ∧
    ∃ p0 p, config.Parse (Init (config.new "[a]\n b = c\n")).1
        (Init (config.new "[a]\n b = c\n")).2 = .ok (p0, none, m1) ∧
      (∃ t, p0.tokenTree = some t ∧ t.tree.toList = m1.committed) ∧
      p0.Execute = .ok p ∧ parseRun "[a]\n b = c\n" = .ok (p, none) ∧
      ∀ pre tok post, m1.committed = pre ++ tok :: post → tok.pegRule.isAction = true →
        ∃ pre1 u st rs, pre = pre1 ++ [u] ∧ u.pegRule = pegRule.rulePegText ∧
          u.end_ = tok.begin ∧ executeLoop pre (p0, "") = .ok st ∧
          sliceRunes p0.buffer u.begin u.end_ = .ok rs ∧ st.2 = stringOfRunes rs ∧
          (tok.pegRule ≠ pegRule.ruleAction0 → st.1.curSection.isSome = true)) := by
  obtain ⟨p, hp⟩ := parseRun_of_Parse "[a]\n b = c\n" [⟨"a", "", [("b", "c")]⟩] (by decide!)
  obtain ⟨m1, h1, _⟩ := parseRun_tree _ p hp
  exact ⟨m1, h1, actions_see_their_capture "[a]\n b = c\n" (by decide) m1 h1⟩


/-! ## Recorded values are followed by a stop rune -/

theorem spaceComment_starts {s s1 : Matcher} (hs : Inv s)
    (h : rules_ruleSpaceComment s = .ok (true, s1)) :
    ∃ c, s.buffer[s.position]? = some c ∧ isStopRune c = true := by
  obtain ⟨c, hc⟩ := hs.peek
  refine ⟨c, hc, ?_⟩
  cases hd : isStopRune c
  · rw [spaceComment_eq_false hc hd] at h
    simp at h
  · rfl

theorem terminated_snoc {buf : List Nat} {l : List token32} {t : token32}
    (h : valuesTerminated buf l) (ht : t.pegRule ≠ pegRule.ruleAction3) :
    valuesTerminated buf (l ++ [t]) := by
  intro x hx hr
  rcases List.mem_append.1 hx with hx | hx
  · exact h x hx hr
  · rw [List.mem_singleton.1 hx] at hr
    exact absurd hr ht

theorem wide_terminated (buf : List Nat) : WideClosed (valuesTerminated buf) := by
  intro l t hr _ h
  apply terminated_snoc h
  intro h3
  rw [h3] at hr
  exact absurd hr (by decide)

theorem terminated_capture {buf : List Nat} {f : Rule} (sf : Safe f) (ha : Adv f)
    (hf : HoareOn buf (Still (valuesTerminated buf)) f (Still (valuesTerminated buf))) :
    HoareOn buf (Still (valuesTerminated buf)) (capture pegRule.rulePegText f)
      (Still (valuesTerminated buf)) :=
  hoareOn_capture _ sf (adv_capture _ ha) hf
    (fun _ _ t ht _ _ hQ => terminated_snoc hQ (by rw [ht]; decide))

theorem terminated_action {buf : List Nat} (rule : pegRule)
    (hr : rule ≠ pegRule.ruleAction3) :
    HoareOn buf (Still (valuesTerminated buf)) (action rule) (Still (valuesTerminated buf)) :=
  hoareOn_action _ (fun _ _ t ht _ _ hQ => terminated_snoc hQ (by rw [ht]; exact hr))

theorem pending_action3 {buf : List Nat} :
    HoareOn buf (Still (valuesTerminated buf)) (action pegRule.ruleAction3)
      (fun l pos => (∃ c, buf[pos]? = some c ∧ isStopRune c = true) → valuesTerminated buf l) :=
  hoareOn_action _ (fun l pos t _ _ he hQ hc => by
    intro x hx hr
    rcases List.mem_append.1 hx with hx | hx
    · exact hQ x hx hr
    · rw [List.mem_singleton.1 hx, he]
      exact hc)

theorem settles_spaceComment {buf : List Nat} :
    HoareOn buf
      (fun l pos => (∃ c, buf[pos]? = some c ∧ isStopRune c = true) → valuesTerminated buf l)
      rules_ruleSpaceComment (Still (valuesTerminated buf)) := by
  intro s s1 hs hb hP h
  have hc := spaceComment_starts hs h
  rw [hb] at hc
  exact wide_ruleSpaceComment (wide_terminated buf) s s1 hs hb (hP hc) h

theorem terminated_inlineValueLine {buf : List Nat} :
    HoareOn buf (Still (valuesTerminated buf)) inlineValueLine (Still (valuesTerminated buf)) :=
  hoareOn_capture _
    (safe_seq safe_starSpace (safe_seq (safe_capture _ safe_ruleIdentifier) safe_valueLineTail))
    adv_inlineValueLine
    (hoareOn_seq safe_starSpace (wide_starSpace (wide_terminated buf))
    (hoareOn_seq (safe_capture _ safe_ruleIdentifier)
      (terminated_capture safe_ruleIdentifier adv_ruleIdentifier
        (wide_ruleIdentifier (wide_terminated buf)))
    (hoareOn_seq (safe_action _) (terminated_action _ (by decide))
    (hoareOn_seq safe_starSpace (wide_starSpace (wide_terminated buf))
    (hoareOn_seq (safe_lit (by decide)) (hoareOn_of (hoare_lit _ _))
    (hoareOn_seq safe_starSpace (wide_starSpace (wide_terminated buf))
    (hoareOn_seq (safe_capture _ safe_inlineValue)
      (terminated_capture safe_inlineValue adv_inlineValue
        (wide_inlineValue (wide_terminated buf)))
    (hoareOn_seq (safe_action _) pending_action3 settles_spaceComment))))))))
    (fun l _ t ht hw _ hQ => wide_terminated buf l t (by rw [ht]; rfl) hw hQ)

theorem terminated_inlineSectionID {buf : List Nat} :
    HoareOn buf (Still (valuesTerminated buf)) inlineSectionID (Still (valuesTerminated buf)) :=
  hoareOn_opt
    (safe_seq safe_ruleSpace
    (safe_seq safe_starSpace
    (safe_seq (safe_lit (by decide))
    (safe_seq (safe_capture _ safe_ruleIdentifier)
    (safe_seq (safe_action _) (safe_lit (by decide)))))))
    (hoareOn_seq safe_ruleSpace (wide_ruleSpace (wide_terminated buf))
    (hoareOn_seq safe_starSpace (wide_starSpace (wide_terminated buf))
    (hoareOn_seq (safe_lit (by decide)) (hoareOn_of (hoare_lit _ _))
    (hoareOn_seq (safe_capture _ safe_ruleIdentifier)
      (terminated_capture safe_ruleIdentifier adv_ruleIdentifier
        (wide_ruleIdentifier (wide_terminated buf)))
    (hoareOn_seq (safe_action _) (terminated_action _ (by decide))
      (hoareOn_of (hoare_lit _ _)))))))

theorem terminated_inlineSection {buf : List Nat} :
    HoareOn buf (Still (valuesTerminated buf)) inlineSection (Still (valuesTerminated buf)) :=
  hoareOn_capture _ (safe_seq safe_starSpace (safe_seq (safe_lit (by decide)) safe_sectionTail))
    adv_inlineSection
    (hoareOn_seq safe_starSpace (wide_starSpace (wide_terminated buf))
    (hoareOn_seq (safe_lit (by decide)) (hoareOn_of (hoare_lit _ _))
    (hoareOn_seq safe_starSpace (wide_starSpace (wide_terminated buf))
    (hoareOn_seq (safe_capture _ safe_ruleIdentifier)
      (terminated_capture safe_ruleIdentifier adv_ruleIdentifier
        (wide_ruleIdentifier (wide_terminated buf)))
    (hoareOn_seq (safe_action _) (terminated_action _ (by decide))
    (hoareOn_seq safe_inlineSectionID terminated_inlineSectionID
    (hoareOn_seq safe_starSpace (wide_starSpace (wide_terminated buf))
    (hoareOn_seq (safe_lit (by decide)) (hoareOn_of (hoare_lit _ _))
    (hoareOn_seq safe_ruleSpaceComment (wide_ruleSpaceComment (wide_terminated buf))
      (hoareOn_star safe_inlineValueLine terminated_inlineValueLine))))))))))
    (fun l _ t ht hw _ hQ => wide_terminated buf l t (by rw [ht]; rfl) hw hQ)

theorem terminated_ruleGrammar {buf : List Nat} :
    HoareOn buf (Still (valuesTerminated buf)) rules_ruleGrammar
      (Still (valuesTerminated buf)) :=
  hoareOn_ruleFn (hoareOn_capture _
    (safe_seq safe_grammarItem (safe_star safe_grammarItem adv_grammarItem))
    (adv_of_ruleFn adv_ruleGrammar)
    (hoareOn_seq safe_grammarItem
      (hoareOn_alt safe_ruleSpaceComment (wide_ruleSpaceComment (wide_terminated buf))
        terminated_inlineSection)
      (hoareOn_star safe_grammarItem
        (hoareOn_alt safe_ruleSpaceComment (wide_ruleSpaceComment (wide_terminated buf))
          terminated_inlineSection)))
    (fun l _ t ht hw _ hQ => wide_terminated buf l t (by rw [ht]; rfl) hw hQ))

theorem stop_in_text (data : String) (q c : Nat) (h : (initBuffer data)[q]? = some c)
    (hc : isStopRune c = true) : q < data.length ∧ (runes data)[q]? = some c := by
  rw [initBuffer_eq] at h
  have hlen : (data.toList.map Char.toNat).length = data.length := by simp
  by_cases hq : q < data.length
  · refine ⟨hq, ?_⟩
    rw [List.getElem?_append_left (by rw [hlen]; exact hq)] at h
    exact h
  · exfalso
    rw [List.getElem?_append_right (by rw [hlen]; omega)] at h
    rw [hlen] at h
    by_cases h0 : q - data.length = 0
    · rw [h0] at h
      simp at h
      subst h
      revert hc
      decide
    · have : [end_symbol][q - data.length]? = none := by
        apply List.getElem?_eq_none
        simp
        omega
      rw [this] at h
      simp at h

/-- C26 as stated fails: the text ends with the line `x = 2`, which nothing follows, and
the key `x` is in the result, set by the terminated line before it. The second part
shows that the last line is a `key = value` line that runs to the end of the text: the
items of a value line up to `Action3` match from offset 10 to offset 15. -/
theorem unterminated_key_present :
    Parse "[a]\nx = 1\nx = 2" = .ok (some [⟨"a", "", [("x", "1")]⟩], none) ∧
    mapGet [("x", "1")] "x" = some "1" ∧
    "[a]\nx = 1\nx = 2".length = 15 ∧
    ((seq (star rules_ruleSpace)
      (seq (capture pegRule.rulePegText rules_ruleIdentifier)
      (seq (action pegRule.ruleAction2)
      (seq (star rules_ruleSpace)
      (seq (lit 61)
      (seq (star rules_ruleSpace)
      (seq (capture pegRule.rulePegText inlineValue)
        (action pegRule.ruleAction3)))))))
      { (Init (config.new "[a]\nx = 1\nx = 2")).2 with position := 10 }).map
        (fun r => (r.1, r.2.position))) = .ok (true, 15) := by
  refine ⟨by decide!, by decide, by decide, by decide!⟩

/-- C26, amended. A value line must be terminated to be recorded. When the start rule
succeeds on a text of fewer than `2 ^ 32` characters, every `Action3` token (the call of
`addValue`) comes right after the `PegText` token of its value, and the text of that
capture ends before the end of the input, at a blank, a tab, an end-of-line character or
`#`: a `key = value` line that runs to the end of the input records nothing, so its key
is in the result only if an earlier line set it. For the input `[a]\nx = 1` `Parse`
returns no error and one section of type `a` whose `Values` is empty. -/
theorem recorded_values_are_terminated (data : String) (h : data.length < 2 ^ 32)
    (m1 : Matcher) (h1 : rules_ruleGrammar (Init (config.new data)).2 = .ok (true, m1)) :
    (∀ pre tok post, m1.committed = pre ++ tok :: post → tok.pegRule = pegRule.ruleAction3 →
      ∃ pre1 u c, pre = pre1 ++ [u] ∧ u.pegRule = pegRule.rulePegText ∧
        u.end_ = tok.begin ∧ u.end_ < data.length ∧ (runes data)[u.end_]? = some c ∧
        isStopRune c = true) ∧
    Parse "[a]\nx = 1" = .ok (some [⟨"a", "", []⟩], none) := by
  refine ⟨?_, by decide!⟩
  intro pre tok post he hr
  have hi : Inv (Init (config.new data)).2 := inv_init _ h
  obtain ⟨hpair, _, hplain⟩ := grammar_ordered data h m1 h1
  have hterm : valuesTerminated (initBuffer data) m1.committed :=
    terminated_ruleGrammar (Init (config.new data)).2 m1 hi rfl
      (fun t ht => by simp [Init, Matcher.committed] at ht) h1
  obtain ⟨pre1, u, hpre, hu, hue⟩ := hpair pre tok post he (by rw [hr]; rfl)
  have hmem : tok ∈ m1.committed := by rw [he]; simp
  obtain ⟨c, hc, hs⟩ := hterm tok hmem hr
  have hzero : tok.begin = tok.end_ := by
    rcases hplain tok hmem with ⟨_, hz⟩ | ⟨hk, _⟩
    · exact hz
    · have := capture_not_action _ hk
      rw [hr] at this
      exact absurd this (by decide)
  rw [← hzero, ← hue] at hc
  obtain ⟨hlt, hrune⟩ := stop_in_text data _ c hc hs
  exact ⟨pre1, u, c, hpre, hu, hue, hlt, hrune, hs⟩

theorem recorded_values_are_terminated_witness :
    ∃ m1, rules_ruleGrammar (Init (config.new "[a]\n b = c\n")).2 = .ok (true, m1) ∧
    ((∀ pre tok post, m1.committed = pre ++ tok :: post → tok.pegRule = pegRule.ruleAction3 →
      ∃ pre1 u c, pre = pre1 ++ [u] ∧ u.pegRule = pegRule.rulePegText ∧
        u.end_ = tok.begin ∧ u.end_ < "[a]\n b = c\n".length ∧
        (runes "[a]\n b = c\n")[u.end_]? = some c ∧ isStopRune c = true) ∧
    Parse "[a]\nx = 1" = .ok (some [⟨"a", "", []⟩], none)) := by
  obtain ⟨p, hp⟩ := parseRun_of_Parse "[a]\n b = c\n" [⟨"a", "", [("b", "c")]⟩] (by decide!)
  obtain ⟨m1, h1, _⟩ := parseRun_tree _ p hp
  exact ⟨m1, h1, recorded_values_are_terminated "[a]\n b = c\n" (by decide) m1 h1⟩

/-! ## The stack of `AST` over a forest -/

/-- The inner loop of `AST` pops the entries `E` that lie inside the token and stops at
the entry below them, which does not; the nodes popped hang from the link returned,
oldest first, before what hung from `up`. -/
theorem astPop_nodes (token : token32) (stack : List (token32 × node32))
    (hstop : ∀ e ∈ stack.head?, ¬ (e.1.begin ≥ token.begin ∧ e.1.end_ ≤ token.end_)) :
    ∀ (E : List (token32 × node32)) (up : node32),
      (∀ e ∈ E, token.begin ≤ e.1.begin ∧ e.1.end_ ≤ token.end_) →
      ∃ n, astPop token (E ++ stack) up = (n, stack) ∧
        ∀ d, n.walk d = stackWalk E d ++ up.walk d := by
  intro E
  induction E with
  | nil =>
    intro up _
    refine ⟨up, ?_, fun d => by simp [stackWalk]⟩
    cases stack with
    | nil => rfl
    | cons e down =>
      obtain ⟨tok, u⟩ := e
      have := hstop (tok, u) (by simp)
      simp only [List.nil_append, astPop, this, if_false]
  | cons e E ih =>
    intro up hE
    obtain ⟨tok, u⟩ := e
    have he := hE (tok, u) (List.mem_cons_self _ _)
    obtain ⟨n, hn, hw⟩ := ih (node32.mk tok u up) (fun x hx => hE x (List.mem_cons_of_mem _ hx))
    refine ⟨n, ?_, fun d => ?_⟩
    · have hc : tok.begin ≥ token.begin ∧ tok.end_ ≤ token.end_ := ⟨he.1, he.2⟩
      simp only [List.cons_append, astPop, hc, and_self, if_true]
      exact hn
    · rw [hw d]
      simp [stackWalk, node32.walk]

theorem visits_wide (r : pegRule) (b e d : Nat) (h : b ≠ e) (qs : List token32) :
    visits (⟨r, b, e, d⟩ :: qs) = (r, b, e, d) :: visits qs := by
  simp [visits, h]

theorem visits_flat (r : pegRule) (b d : Nat) : visits [⟨r, b, b, d⟩] = [] := by
  simp [visits]

/-- The outer loop of `AST` over the tokens of a forest, above entries that end before
it: it pushes one entry for each root that is not zero-width, and the nodes pushed,
walked oldest first, are the tokens of the forest that are not zero-width, in
pre-order. -/
theorem astLoop_walks {d lo hi : Nat} {ts ps : List token32} (hW : Walks d lo hi ts ps) :
    ts.Chain' token32.apart → ∀ stack : List (token32 × node32),
      (∀ e ∈ stack, e.1.begin < e.1.end_ ∧ e.1.end_ ≤ lo) →
      ∃ E, astLoop ts stack = E ++ stack ∧
        (∀ e ∈ E, e.1.begin < e.1.end_ ∧ lo ≤ e.1.begin ∧ e.1.end_ ≤ hi) ∧
        stackWalk E d = visits ps := by
  induction hW with
  | nil _ =>
    intro _ stack _
    exact ⟨[], rfl, fun e he => by simp at he, rfl⟩
  | @snoc d lo hi b e r ts cs ps qs w1 w2 h3 h4 ih1 ih2 =>
    intro hch stack hst
    have hlob : lo ≤ b := w1.forest.bounds_le
    have hbe : b ≤ e := w2.forest.bounds_le
    have hch1 : ts.Chain' token32.apart := hch.left_of_append.left_of_append
    have hch2 : cs.Chain' token32.apart := hch.left_of_append.right_of_append
    obtain ⟨E1, a1, b1, c1⟩ := ih1 hch1 stack hst
    have hst1 : ∀ x ∈ E1 ++ stack, x.1.begin < x.1.end_ ∧ x.1.end_ ≤ b := by
      intro x hx
      rcases List.mem_append.1 hx with h | h
      · exact ⟨(b1 x h).1, (b1 x h).2.2⟩
      · exact ⟨(hst x h).1, Nat.le_trans (hst x h).2 hlob⟩
    by_cases hz : b = e
    · subst hz
      have hcs : cs = [] := by
        rcases List.eq_nil_or_concat cs with h | ⟨cs1, y, h⟩
        · exact h
        · exfalso
          rw [List.concat_eq_append] at h
          have hy : y ∈ cs := by rw [h]; simp
          have hf := w2.forest.facts y hy
          have hlast := (List.chain'_append.1 hch).2.2 y (by rw [h]; simp)
            ⟨r, b, b, d⟩ (by simp) rfl
          omega
      subst hcs
      have hqs := w2.of_nil rfl
      subst hqs
      refine ⟨E1, ?_, fun x hx => ⟨(b1 x hx).1, (b1 x hx).2.1, by
        have := (b1 x hx).2.2
        omega⟩, ?_⟩
      · rw [List.append_nil, astLoop_append, a1]
        simp [astLoop]
      · rw [visits_append, visits_flat, List.append_nil]
        exact c1
    · obtain ⟨E2, a2, b2, c2⟩ := ih2 hch2 (E1 ++ stack) hst1
      obtain ⟨n, hn, hw⟩ := astPop_nodes ⟨r, b, e, d⟩ (E1 ++ stack)
        (fun x hx => by
          have := hst1 x (List.mem_of_mem_head? hx)
          show ¬ (x.1.begin ≥ b ∧ x.1.end_ ≤ e)
          omega)
        E2 node32.nil (fun x hx => ⟨(b2 x hx).2.1, (b2 x hx).2.2⟩)
      refine ⟨(⟨r, b, e, d⟩, n) :: E1, ?_, ?_, ?_⟩
      · rw [astLoop_append, astLoop_append, a1, a2]
        simp only [astLoop, hz, if_false, hn]
        rfl
      · intro x hx
        rcases List.mem_cons.1 hx with h | h
        · rw [h]
          exact ⟨by show b < e; omega, hlob, h3⟩
        · have := b1 x h
          exact ⟨this.1, this.2.1, by omega⟩
      · show stackWalk E1 d ++ (r, b, e, d) :: n.walk (d + 1) = _
        rw [hw (d + 1), c1, c2, visits_append, visits_wide r b e d hz]
        simp [node32.walk]

/-! ## The tokens of a parse are apart -/

theorem paired_left {a b : List token32} (h : actionsPaired (a ++ b)) : actionsPaired a :=
  fun pre tok post he ha => h pre tok (post ++ b) (by rw [he]; simp) ha

theorem ordered_apart (l : List token32) (hp : actionsPaired l) (hk : tokensPlain l) :
    l.Chain' token32.apart := by
  induction l using List.reverseRecOn with
  | nil => exact List.chain'_nil
  | append_singleton l t ih =>
    rw [List.chain'_append]
    refine ⟨ih (paired_left hp) (fun x hx => hk x (List.mem_append_left _ hx)),
      List.chain'_singleton _, fun x hx y hy hz => ?_⟩
    have hyt : y = t := by simpa using hy.symm
    subst hyt
    have hact : y.pegRule.isAction = true := by
      rcases hk y (by simp) with ⟨h, _⟩ | ⟨_, h⟩
      · exact h
      · omega
    obtain ⟨pre1, u, hl, hu, _⟩ := hp l y [] rfl hact
    have hxu : x = u := by
      rw [hl] at hx
      simpa using hx.symm
    subst hxu
    rcases hk x (by rw [hl]; simp) with ⟨h, _⟩ | ⟨_, h⟩
    · rw [hu] at h
      exact absurd h (by decide)
    · exact h

theorem plain_real (t : token32)
    (h : (t.pegRule.isAction = true ∧ t.begin = t.end_) ∨
      ((t.pegRule.isCapture = true ∨ t.pegRule = pegRule.rulePegText) ∧ t.begin < t.end_)) :
    t.pegRule.isSynthetic = false := by
  rcases h with ⟨h, _⟩ | ⟨h | h, _⟩
  · revert h
    cases t.pegRule <;> decide
  · revert h
    cases t.pegRule <;> decide
  · rw [h]
    rfl

/-- `AST` on the tokens of a forest of depth 1 under a Grammar token, the first of which
is not zero-width: the root is the Grammar token, and the walk from its `up` link is the
tokens of the forest that are not zero-width, in pre-order. -/
theorem AST_walks (t : tokens32) (n0 ps : List token32) (pos : Nat)
    (hl : t.tree.toList = n0 ++ [⟨pegRule.ruleGrammar, 0, pos, 0⟩])
    (hW : Walks 1 0 pos n0 ps) (hch : n0.Chain' token32.apart)
    (hfirst : ∀ x ∈ n0.head?, x.begin < x.end_) (hne : n0 ≠ []) :
    ∃ up, t.AST = node32.mk ⟨pegRule.ruleGrammar, 0, pos, 0⟩ up node32.nil ∧
      up.walk 1 = visits ps := by
  obtain ⟨x, rest, hn0⟩ := List.exists_cons_of_ne_nil hne
  have hx : x.begin < x.end_ := hfirst x (by rw [hn0]; rfl)
  have hxf := hW.forest.facts x (by rw [hn0]; simp)
  have hpos : (0 : Nat) ≠ pos := by omega
  have hstart : astLoop (rest ++ [⟨pegRule.ruleGrammar, 0, pos, 0⟩]) [(x, node32.nil)] =
      astLoop (n0 ++ [⟨pegRule.ruleGrammar, 0, pos, 0⟩]) [] := by
    have hxne : x.begin ≠ x.end_ := by omega
    rw [hn0]
    simp only [List.cons_append, astLoop, hxne, if_false, astPop]
    rfl
  obtain ⟨E, a1, b1, c1⟩ := astLoop_walks hW hch [] (fun e he => by simp at he)
  obtain ⟨n, hn, hw⟩ := astPop_nodes ⟨pegRule.ruleGrammar, 0, pos, 0⟩ []
    (fun e he => by simp at he) E node32.nil (fun e he => ⟨(b1 e he).2.1, (b1 e he).2.2⟩)
  refine ⟨n, ?_, ?_⟩
  · unfold tokens32.AST
    simp only [hl]
    have h1 : (n0 ++ [(⟨pegRule.ruleGrammar, 0, pos, 0⟩ : token32)]).tail =
        rest ++ [⟨pegRule.ruleGrammar, 0, pos, 0⟩] := by rw [hn0]; rfl
    have h2 : (n0 ++ [(⟨pegRule.ruleGrammar, 0, pos, 0⟩ : token32)]).head?.getD token32.zero =
        x := by rw [hn0]; rfl
    rw [h1, h2, hstart, astLoop_append, a1]
    simp only [astLoop, hpos, if_false, hn]
  · rw [hw 1, c1]
    simp [node32.walk]

/-! ## Claim about `PreOrder` and `AST` -/

/-- C23. The two reconstructions agree. After a successful `Parse` of a text of fewer
than `2 ^ 32` characters whose trimmed buffer holds fewer than `2 ^ 31 - 1` tokens,
`PreOrder` returns, `AST` returns a tree whose root is the Grammar token, and the items
`PreOrder` sends that are neither synthetic (`Pre_`, `_In_`, `_Suf`) nor zero-width,
in emission order and each with its depth, are the depth-first pre-order walk of that
tree below its root: every node once, from the first child of the root, at its depth
in the tree. -/
theorem PreOrder_agrees_with_AST (data : String) (h : data.length < 2 ^ 32) (p : config)
    (hp : parseRun data = .ok (p, none)) (t : tokens32) (ht : p.tokenTree = some t)
    (hn : t.tree.len < 2147483647) :
    ∃ out ordered t1 root up, t.PreOrder = .ok (out, ordered, t1) ∧
      t.AST = node32.mk root up node32.nil ∧ root.pegRule = pegRule.ruleGrammar ∧
      realItems out = up.walk 1 := by
  obtain ⟨t0, n0, pos, ht0, hnone, hl, hF, hne, hdeep⟩ := parsed_forest data h p hp
  rw [ht] at ht0
  injection ht0 with ht0
  subst ht0
  obtain ⟨m1, h1, _, htree⟩ := parseRun_tree data p hp
  have hi1 := (safe_ruleGrammar.result (inv_init _ h) h1).1
  obtain ⟨hpair, _, hplain⟩ := grammar_ordered data h m1 h1
  have hcom : t.tree.toList = m1.committed := by
    rw [ht] at htree
    injection htree with htree
    rw [htree]
    exact toList_trim _ _ hi1.index_le
  rw [← hcom, hl] at hpair hplain
  have hpair0 := paired_left hpair
  have hplain0 : tokensPlain n0 := fun x hx => hplain x (List.mem_append_left _ hx)
  obtain ⟨out, ordered, t1, hpre, _, ps, hW, hreal⟩ :=
    PreOrder_tiled t n0 pos hnone hl hF hne hdeep hn
  obtain ⟨up, hast, hwalk⟩ := AST_walks t n0 ps pos hl hW (ordered_apart n0 hpair0 hplain0)
    (fun x hx => by
      obtain ⟨rest, hn0⟩ : ∃ rest, n0 = x :: rest := by
        cases n0 with
        | nil => simp at hx
        | cons y rest =>
          simp at hx
          exact ⟨rest, by rw [hx]⟩
      rcases hplain0 x (by rw [hn0]; simp) with ⟨ha, _⟩ | ⟨_, hw⟩
      · obtain ⟨pre1, u, he, _⟩ := hpair0 [] x rest hn0 ha
        simp at he
      · exact hw)
    hne
  exact ⟨out, ordered, t1, _, up, hpre, hast, rfl,
    (hreal (fun x hx => plain_real x (hplain0 x hx))).trans hwalk.symm⟩

theorem PreOrder_agrees_with_AST_witness :
    ∃ p t, parseRun "[a]\n b = c\n" = .ok (p, none) ∧ p.tokenTree = some t ∧
      t.tree.len < 2147483647 ∧
      ∃ out ordered t1 root up, t.PreOrder = .ok (out, ordered, t1) ∧
        t.AST = node32.mk root up node32.nil ∧ root.pegRule = pegRule.ruleGrammar ∧
        realItems out = up.walk 1 := by
  obtain ⟨p, hp⟩ := parseRun_of_Parse "[a]\n b = c\n" [⟨"a", "", [("b", "c")]⟩] (by decide!)
  obtain ⟨m1, h1, _, ht⟩ := parseRun_tree "[a]\n b = c\n" p hp
  have hidx : (match rules_ruleGrammar (Init (config.new "[a]\n b = c\n")).2 with
      | .ok (_, m) => m.tokenIndex
      | .error _ => 0) < 2147483647 := by decide!
  rw [h1] at hidx
  have hlen : m1.tokenIndex < 2147483647 := hidx
  exact ⟨p, _, hp, ht, hlen,
    PreOrder_agrees_with_AST "[a]\n b = c\n" (by decide) p hp _ ht hlen⟩


/-! ## Reading one rune -/

theorem rest_cons {s : Matcher} {c : Nat} (h : s.buffer[s.position]? = some c) :
    s.rest = c :: s.buffer.drop (s.position + 1) := by
  obtain ⟨hlt, hc⟩ := List.getElem?_eq_some.1 h
  unfold Matcher.rest
  rw [List.drop_eq_getElem_cons hlt, hc]

theorem reads_lit {c : Nat} (hc : c ≠ end_symbol) : Reads (lit c) (fun d => d == c) := by
  intro s s1 hs h
  obtain ⟨d, hd⟩ := hs.peek
  unfold lit at h
  simp only [hd] at h
  split_ifs at h with hne
  · simp at h
  · have hdc : d = c := not_not.1 hne
    simp only [Except.ok.injEq, Prod.mk.injEq, true_and] at h
    subst h
    exact ⟨rfl, hs.inc_eq hd (by rw [hdc]; exact hc), d, hd, by simp [hdc]⟩

theorem reads_matchDot : Reads matchDot (fun d => d != end_symbol) := by
  intro s s1 hs h
  obtain ⟨d, hd⟩ := hs.peek
  unfold matchDot at h
  simp only [hd] at h
  split_ifs at h with hne
  · simp only [Except.ok.injEq, Prod.mk.injEq, true_and] at h
    subst h
    exact ⟨rfl, hs.inc_eq hd hne, d, hd, by simp [hne]⟩
  · simp at h

theorem reads_alt {f g : Rule} {p q : Nat → Bool} (sf : Safe f) (hf : Reads f p)
    (hg : Reads g q) : Reads (alt f g) (fun c => p c || q c) := by
  intro s s1 hs h
  rw [alt_ok] at h
  rcases h with ⟨_, h0⟩ | ⟨s0, h0, h1⟩
  · obtain ⟨h1, h2, c, hc, hp⟩ := hf s s1 hs h0
    exact ⟨h1, h2, c, hc, by simp [hp]⟩
  · have r0 := sf.result hs h0
    obtain ⟨h2, h3, c, hc, hq⟩ := hg (restore s0 s) s1 (hs.rewind r0.1 r0.2.1) h1
    rw [committed_restore hs r0.2.1] at h2
    refine ⟨h2, h3, c, ?_, by simp [hq]⟩
    have hb : (restore s0 s).buffer = s.buffer := r0.2.1.buffer_eq
    rw [hb] at hc
    exact hc

theorem reads_wordChar : Reads wordChar isWordRune := by
  intro s s1 hs h
  unfold wordChar at h
  rw [seq_ok] at h
  rcases h with ⟨s0, h0, h1⟩ | ⟨hb, _⟩
  · rw [notP_ok] at h0
    rcases h0 with ⟨hb, _⟩ | ⟨_, s2, h2, rfl⟩
    · simp at hb
    · have r2 := safe_stopChar.result hs h2
      obtain ⟨h3, h4, c, hc, hne⟩ := reads_matchDot (restore s2 s) s1 (hs.rewind r2.1 r2.2.1) h1
      rw [committed_restore hs r2.2.1] at h3
      have hb : (restore s2 s).buffer = s.buffer := r2.2.1.buffer_eq
      rw [hb] at hc
      refine ⟨h3, h4, c, hc, ?_⟩
      cases hst : isStopRune c
      · simp only [isWordRune, hst]
        simpa using hne
      · obtain ⟨s3, h5, _⟩ := parses_stopChar hst s _ hs (rest_cons hc) trivial
        rw [h5] at h2
        simp at h2
  · simp at hb

theorem hoareOn_reads {buf : List Nat} {P : List token32 → Nat → Prop} {f : Rule}
    {p : Nat → Bool} (hr : Reads f p) :
    HoareOn buf P f (fun l pos => ∃ b, pos = b + 1 ∧ P l b ∧ runeAt buf p b) := by
  intro s s1 hs hb hP h
  obtain ⟨hc, hp, hrune⟩ := hr s s1 hs h
  rw [hc, hp]
  rw [hb] at hrune
  exact ⟨s.position, rfl, hP, hrune⟩

/-- Rule Space reads one blank or tab. -/
theorem blank_ruleSpace {buf : List Nat} {P R : List token32 → Nat → Prop}
    (hq : ∀ l b t, t.pegRule = pegRule.ruleSpace → P l b → runeAt buf isBlankRune b →
      R (l ++ [t]) (b + 1)) :
    HoareOn buf P rules_ruleSpace R :=
  hoareOn_ruleFn (hoareOn_capture _ (safe_alt (safe_lit (by decide)) (safe_lit (by decide)))
    (adv_of_ruleFn adv_ruleSpace)
    (hoareOn_reads (reads_alt (safe_lit (by decide)) (reads_lit (by decide))
      (reads_lit (by decide))))
    (fun l pos t ht _ _ hQ => by
      obtain ⟨b, hpos, hP, hr⟩ := hQ
      rw [hpos]
      exact hq l b t ht hP hr))

/-- Rule Word reads one rune of a word, then more of them. -/
theorem word_ruleWord {buf : List Nat} {P A : List token32 → Nat → Prop}
    (h0 : ∀ l b, P l b → runeAt buf isWordRune b → A l (b + 1))
    (h1 : ∀ l b, A l b → runeAt buf isWordRune b → A l (b + 1))
    (hc : ∀ l pos t, t.pegRule = pegRule.ruleWord → A l pos → A (l ++ [t]) pos) :
    HoareOn buf P rules_ruleWord A :=
  hoareOn_ruleFn (hoareOn_capture _
    (safe_seq safe_wordChar (safe_star safe_wordChar adv_wordChar))
    (adv_of_ruleFn adv_ruleWord)
    (hoareOn_seq safe_wordChar
      (hoareOn_weaken (hoareOn_reads reads_wordChar) (fun _ _ h => h)
        (fun l pos h => by
          obtain ⟨b, hb, hP, hr⟩ := h
          rw [hb]
          exact h0 l b hP hr))
      (hoareOn_star safe_wordChar
        (hoareOn_weaken (hoareOn_reads reads_wordChar) (fun _ _ h => h)
          (fun l pos h => by
            obtain ⟨b, hb, hP, hr⟩ := h
            rw [hb]
            exact h1 l b hP hr))))
    (fun l pos t ht _ _ hQ => hc l pos t ht hQ))

/-- A loop that ends: the state it stops in is one in which its body returns false. -/
theorem hoareOn_star_stop {buf : List Nat} {P : List token32 → Nat → Prop} {f : Rule}
    {E : Nat → Prop} (sf : Safe f) (hf : HoareOn buf P f P)
    (he : ∀ s s0, Inv s → s.buffer = buf → f s = .ok (false, s0) → E s.position) :
    HoareOn buf P (star f) (fun l pos => P l pos ∧ E pos) := by
  have key : ∀ fuel s s1, Inv s → s.buffer = buf → P s.committed s.position →
      starLoop f fuel s = .ok (true, s1) → P s1.committed s1.position ∧ E s1.position := by
    intro fuel
    induction fuel with
    | zero => intro s s1 _ _ _ h; simp [starLoop] at h
    | succ n ih =>
      intro s s1 hs hb hP h
      rw [starLoop_succ_ok] at h
      rcases h with ⟨s0, h0, h1⟩ | ⟨_, s0, h0, rfl⟩
      · have r0 := sf.result hs h0
        exact ih s0 s1 r0.1 (r0.2.1.buffer_eq.trans hb) (hf s s0 hs hb hP h0) h1
      · rw [committed_restore hs (sf.result hs h0).2.1]
        exact ⟨hP, he s s0 hs hb h0⟩
  exact fun s s1 hs hb hP h => key _ s s1 hs hb hP h

/-! ## Where the rules of a value stop -/

theorem blank_cases {c : Nat} (h : isBlankRune c = true) : c = 32 ∨ c = 9 := by
  simpa [isBlankRune] using h

theorem blank_not_word {c : Nat} (h : isBlankRune c = true) : isWordRune c = false := by
  rcases blank_cases h with rfl | rfl <;> decide

theorem space_stops {s s0 : Matcher} (hs : Inv s) (h : rules_ruleSpace s = .ok (false, s0)) :
    ¬ runeAt s.buffer isBlankRune s.position := by
  rintro ⟨c, hc, hb⟩
  have hr := rest_cons hc
  rcases blank_cases hb with rfl | rfl
  · obtain ⟨s1, h1, _⟩ := parses_space s _ hs hr trivial
    rw [h1] at h
    simp at h
  · have hp : Parses rules_ruleSpace [9] [] (fun _ => True) :=
      parses_ruleFn (parses_capture _ rfl
        (parses_alt_right (safe_lit (by decide)) (fails_lit 32) (parses_lit (by decide))
          (fun r _ => next_cons (t := r) (by decide))))
    obtain ⟨s1, h1, _⟩ := hp s _ hs hr trivial
    rw [h1] at h
    simp at h

theorem word_starts {s : Matcher} (hs : Inv s) (h : runeAt s.buffer isWordRune s.position) :
    ∃ s1, rules_ruleWord s = .ok (true, s1) := by
  obtain ⟨c, hc, hw⟩ := h
  have hs' := hs.set_depth (inc s.depth)
  obtain ⟨sa, ha, sta⟩ := parses_wordChar hw { s with depth := inc s.depth } _ hs'
    (rest_cons (s := { s with depth := inc s.depth }) hc) trivial
  obtain ⟨sb, hb, hib, _, hpb⟩ :=
    safe_starLoop safe_wordChar adv_wordChar sa.buffer.length sa sta.inv (Nat.sub_le _ _)
  have hle : s.position ≤ sb.position := by
    have := sta.position_eq
    simp at this
    omega
  obtain ⟨sc, hadd, _⟩ := (hib.set_depth (dec sb.depth)).add_token pegRule.ruleWord s.position hle
  exact ⟨sc, (ruleFn_ok _ _ _ _).2 (Or.inl ⟨rfl, (capture_ok _ _ _ _ _).2
    (Or.inr ⟨rfl, sb, (seq_ok _ _ _ _ _).2 (Or.inl ⟨sa, ha, hb⟩), hadd⟩)⟩)⟩

theorem word_stops {s s0 : Matcher} (hs : Inv s) (h : rules_ruleWord s = .ok (false, s0)) :
    ¬ runeAt s.buffer isWordRune s.position := by
  intro hw
  obtain ⟨s1, h1⟩ := word_starts hs hw
  rw [h1] at h
  simp at h

theorem runesIn_snoc {buf : List Nat} {p : Nat → Bool} {b e : Nat} (h : runesIn buf p b e)
    (he : runeAt buf p e) : runesIn buf p b (e + 1) := by
  intro i hb hi
  by_cases hie : i = e
  · rw [hie]; exact he
  · exact h i hb (by omega)

theorem runeAt_imp {buf : List Nat} {p q : Nat → Bool} {i : Nat} (h : runeAt buf p i)
    (hpq : ∀ c, p c = true → q c = true) : runeAt buf q i := by
  obtain ⟨c, hc, hp⟩ := h
  exact ⟨c, hc, hpq c hp⟩

/-- The loop of rule Value stops where no further word follows. -/
theorem moreWords_stops {buf : List Nat} (s s0 : Matcher) (hs : Inv s) (hb : s.buffer = buf)
    (h : seq rules_ruleSpace (seq (star rules_ruleSpace) rules_ruleWord) s = .ok (false, s0)) :
    noMoreWords buf s.position := by
  intro n hn hbl hw
  rw [seq_ok] at h
  rcases h with ⟨sa, ha, h2⟩ | ⟨_, hf⟩
  · have ra := safe_ruleSpace.result hs ha
    have hba : sa.buffer = buf := ra.2.1.buffer_eq.trans hb
    have hpa : sa.position = s.position + 1 :=
      blank_ruleSpace (P := fun _ pos => pos = s.position)
        (R := fun _ pos => pos = s.position + 1)
        (fun l b t _ hP _ => by rw [hP]) s sa hs hb rfl ha
    rw [seq_ok] at h2
    rcases h2 with ⟨sb, hsb, h3⟩ | ⟨_, hf2⟩
    · have hJ := hoareOn_star_stop
        (P := fun _ pos => s.position < pos ∧ runesIn buf isBlankRune s.position pos)
        (E := fun pos => ¬ runeAt buf isBlankRune pos) safe_ruleSpace
        (blank_ruleSpace (fun l b t _ hP hr => ⟨by omega, runesIn_snoc hP.2 hr⟩))
        (fun s1 s2 hs1 hb1 hf1 => by
          have := space_stops hs1 hf1
          rw [hb1] at this
          exact this)
        sa sb ra.1 hba
        ⟨by omega, by
          intro i hi1 hi2
          have : i = s.position := by omega
          rw [this]
          exact hbl s.position (Nat.le_refl _) (by omega)⟩ hsb
      obtain ⟨⟨hlt, hblank⟩, hnb⟩ := hJ
      have rb := safe_starSpace.result ra.1 hsb
      have hbb : sb.buffer = buf := rb.2.1.buffer_eq.trans hba
      have hnw := word_stops rb.1 h3
      rw [hbb] at hnw
      rcases Nat.lt_trichotomy (s.position + n) sb.position with hlt2 | heq | hgt
      · obtain ⟨c, hc, hcb⟩ := hblank (s.position + n) (by omega) hlt2
        obtain ⟨c1, hc1, hcw⟩ := hw
        rw [hc] at hc1
        obtain rfl := Option.some.inj hc1
        rw [blank_not_word hcb] at hcw
        simp at hcw
      · rw [heq] at hw
        exact hnw hw
      · exact hnb (hbl sb.position (by omega) hgt)
    · obtain ⟨sx, hx, _⟩ :=
        safe_starLoop safe_ruleSpace adv_ruleSpace sa.buffer.length sa ra.1 (Nat.sub_le _ _)
      have hx1 : star rules_ruleSpace sa = .ok (true, sx) := hx
      rw [hx1] at hf2
      simp at hf2
  · have := space_stops hs hf
    rw [hb] at this
    exact this (hbl s.position (Nat.le_refl _) (by omega))

/-! ## The span of a recorded value -/

theorem exact_snoc {buf : List Nat} {l : List token32} {t : token32}
    (h : valuesExact buf l) (ht : t.pegRule ≠ pegRule.ruleAction3) :
    valuesExact buf (l ++ [t]) := by
  intro pre tok post he hr
  rcases snoc_split he with ⟨_, _, rfl⟩ | ⟨post1, _, rfl⟩
  · exact absurd hr ht
  · exact h pre tok post1 rfl hr

theorem wide_exact (buf : List Nat) : WideClosed (valuesExact buf) := by
  intro l t hr _ h
  apply exact_snoc h
  intro h3
  rw [h3] at hr
  exact absurd hr (by decide)

theorem front_start {buf : List Nat} {b : Nat} (h : afterAssign buf b)
    (hw : runeAt buf isWordRune b) : valueBody buf b (b + 1) := by
  refine ⟨⟨h, hw, ?_, by omega⟩, hw⟩
  intro i h1 h2
  have : i = b := by omega
  rw [this]
  exact runeAt_imp hw (fun c hc => by simp [hc])

theorem front_word {buf : List Nat} {b e : Nat} (h : valueFront buf b e)
    (hw : runeAt buf isWordRune e) : valueBody buf b (e + 1) := by
  obtain ⟨h1, h2, h3, h4⟩ := h
  exact ⟨⟨h1, h2, runesIn_snoc h3 (runeAt_imp hw (fun c hc => by simp [hc])), by omega⟩, hw⟩

theorem front_blank {buf : List Nat} {b e : Nat} (h : valueFront buf b e)
    (hw : runeAt buf isBlankRune e) : valueFront buf b (e + 1) := by
  obtain ⟨h1, h2, h3, h4⟩ := h
  exact ⟨h1, h2, runesIn_snoc h3 (runeAt_imp hw (fun c hc => by simp [hc])), by omega⟩

/-- Rule Value, entered at `b` after a `=`: it stops after a word, having read words,
blanks and tabs, where no further word follows. -/
theorem value_inlineValue {buf : List Nat} (b : Nat) :
    HoareOn buf (fun l pos => valuesExact buf l ∧ afterAssign buf pos ∧ pos = b) inlineValue
      (fun l pos => valuesExact buf l ∧ valueBody buf b pos ∧ noMoreWords buf pos) :=
  hoareOn_capture
    (Q := fun l pos => valuesExact buf l ∧ valueBody buf b pos ∧ noMoreWords buf pos)
    _ (safe_seq safe_ruleWord safe_moreWords) adv_inlineValue
    (hoareOn_seq safe_ruleWord
      (word_ruleWord (A := fun l pos => valuesExact buf l ∧ valueBody buf b pos)
        (fun l p hP hr => by
          obtain ⟨hX, hA, rfl⟩ := hP
          exact ⟨hX, front_start hA hr⟩)
        (fun l p hP hr => ⟨hP.1, front_word hP.2.1 hr⟩)
        (fun l p t ht hP => ⟨exact_snoc hP.1 (by rw [ht]; decide), hP.2⟩))
      (hoareOn_weaken
        (hoareOn_star_stop (E := noMoreWords buf)
          (safe_seq safe_ruleSpace (safe_seq safe_starSpace safe_ruleWord))
          (hoareOn_seq safe_ruleSpace
            (blank_ruleSpace (R := fun l pos => valuesExact buf l ∧ valueFront buf b pos)
              (fun l p t ht hP hr =>
                ⟨exact_snoc hP.1 (by rw [ht]; decide), front_blank hP.2.1 hr⟩))
            (hoareOn_seq safe_starSpace
              (hoareOn_star safe_ruleSpace
                (blank_ruleSpace (fun l p t ht hP hr =>
                  ⟨exact_snoc hP.1 (by rw [ht]; decide), front_blank hP.2 hr⟩)))
              (word_ruleWord
                (fun l p hP hr => ⟨hP.1, front_word hP.2 hr⟩)
                (fun l p hP hr => ⟨hP.1, front_word hP.2.1 hr⟩)
                (fun l p t ht hP => ⟨exact_snoc hP.1 (by rw [ht]; decide), hP.2⟩))))
          (fun s s0 hs hb hf => moreWords_stops s s0 hs hb hf))
        (fun _ _ h => h) (fun _ _ h => ⟨h.1.1, h.1.2, h.2⟩)))
    (fun l pos t ht _ _ hQ => ⟨exact_snoc hQ.1 (by rw [ht]; decide), hQ.2⟩)

theorem span_of_body {buf : List Nat} {b e : Nat} (hB : valueBody buf b e)
    (hM : noMoreWords buf e) (hs : runeAt buf isStopRune e) : ValueSpan buf b e :=
  ⟨hB.1.1, hB.1.2.1, hB.1.2.2.1, ⟨hB.1.2.2.2, hB.2⟩, hs, hM⟩

/-- The capture of the value of a line, entered after a `=` and blanks. -/
theorem exact_pegValue {buf : List Nat} :
    HoareOn buf (fun l pos => valuesExact buf l ∧ afterAssign buf pos)
      (capture pegRule.rulePegText inlineValue) (pendingValue buf) := by
  intro s s1 hs hb hP h
  rw [capture_ok] at h
  rcases h with ⟨hb1, _⟩ | ⟨_, s0, h0, h1⟩
  · simp at hb1
  · have hs' := hs.set_depth (inc s.depth)
    have r0 := safe_inlineValue.result hs' h0
    obtain ⟨hX, hB, hM⟩ := value_inlineValue s.position _ s0 hs' hb ⟨hP.1, hP.2, rfl⟩ h0
    have hc2 := committed_add (r0.1.set_depth (dec s0.depth)) h1
    rw [add_ok] at h1
    obtain ⟨_, rfl⟩ := h1
    rw [hc2, committed_set_depth]
    exact ⟨s0.committed, _, rfl, hX, rfl, rfl, fun hstop => span_of_body hB hM hstop⟩

theorem exact_action3 {buf : List Nat} :
    HoareOn buf (pendingValue buf) (action pegRule.ruleAction3)
      (fun l pos => runeAt buf isStopRune pos → valuesExact buf l) :=
  hoareOn_action _ (fun l pos t ht hb _ hP hstop => by
    obtain ⟨l0, u, rfl, hX, hu, hue, hspan⟩ := hP
    intro pre tok post he hr
    rcases snoc_split he with ⟨_, rfl, rfl⟩ | ⟨post1, _, h2⟩
    · refine ⟨l0, u, rfl, hu, by rw [hue, hb], ?_⟩
      rw [hue]
      exact hspan hstop
    · exact exact_snoc hX (by rw [hu]; decide) pre tok post1 h2 hr)

theorem exact_spaceComment {buf : List Nat} :
    HoareOn buf (fun l pos => runeAt buf isStopRune pos → valuesExact buf l)
      rules_ruleSpaceComment (Still (valuesExact buf)) := by
  intro s s1 hs hb hP h
  have hc := spaceComment_starts hs h
  rw [hb] at hc
  exact wide_ruleSpaceComment (wide_exact buf) s s1 hs hb (hP hc) h

theorem exact_capture {buf : List Nat} {f : Rule} (sf : Safe f) (ha : Adv f)
    (hf : HoareOn buf (Still (valuesExact buf)) f (Still (valuesExact buf))) :
    HoareOn buf (Still (valuesExact buf)) (capture pegRule.rulePegText f)
      (Still (valuesExact buf)) :=
  hoareOn_capture _ sf (adv_capture _ ha) hf
    (fun _ _ t ht _ _ hQ => exact_snoc hQ (by rw [ht]; decide))

theorem exact_action {buf : List Nat} (rule : pegRule) (hr : rule ≠ pegRule.ruleAction3) :
    HoareOn buf (Still (valuesExact buf)) (action rule) (Still (valuesExact buf)) :=
  hoareOn_action _ (fun _ _ t ht _ _ hQ => exact_snoc hQ (by rw [ht]; exact hr))

theorem assign_lit {buf : List Nat} :
    HoareOn buf (Still (valuesExact buf)) (lit 61)
      (fun l pos => valuesExact buf l ∧ afterAssign buf pos) :=
  hoareOn_weaken (hoareOn_reads (reads_lit (by decide))) (fun _ _ h => h)
    (fun l pos h => by
      obtain ⟨b, hpos, hX, hr⟩ := h
      refine ⟨hX, b, by omega, hr, ?_⟩
      intro i h1 h2
      omega)

theorem assign_blanks {buf : List Nat} :
    HoareOn buf (fun l pos => valuesExact buf l ∧ afterAssign buf pos) (star rules_ruleSpace)
      (fun l pos => valuesExact buf l ∧ afterAssign buf pos) :=
  hoareOn_star safe_ruleSpace (blank_ruleSpace (fun l b t ht hP hr => by
    obtain ⟨hX, q, hq, h61, hbl⟩ := hP
    exact ⟨exact_snoc hX (by rw [ht]; decide), q, by omega, h61, runesIn_snoc hbl hr⟩))

theorem exact_inlineValueLine {buf : List Nat} :
    HoareOn buf (Still (valuesExact buf)) inlineValueLine (Still (valuesExact buf)) :=
  hoareOn_capture _
    (safe_seq safe_starSpace (safe_seq (safe_capture _ safe_ruleIdentifier) safe_valueLineTail))
    adv_inlineValueLine
    (hoareOn_seq safe_starSpace (wide_starSpace (wide_exact buf))
    (hoareOn_seq (safe_capture _ safe_ruleIdentifier)
      (exact_capture safe_ruleIdentifier adv_ruleIdentifier
        (wide_ruleIdentifier (wide_exact buf)))
    (hoareOn_seq (safe_action _) (exact_action _ (by decide))
    (hoareOn_seq safe_starSpace (wide_starSpace (wide_exact buf))
    (hoareOn_seq (safe_lit (by decide)) assign_lit
    (hoareOn_seq safe_starSpace assign_blanks
    (hoareOn_seq (safe_capture _ safe_inlineValue) exact_pegValue
    (hoareOn_seq (safe_action _) exact_action3 exact_spaceComment))))))))
    (fun l _ t ht hw _ hQ => wide_exact buf l t (by rw [ht]; rfl) hw hQ)

theorem exact_inlineSectionID {buf : List Nat} :
    HoareOn buf (Still (valuesExact buf)) inlineSectionID (Still (valuesExact buf)) :=
  hoareOn_opt
    (safe_seq safe_ruleSpace
    (safe_seq safe_starSpace
    (safe_seq (safe_lit (by decide))
    (safe_seq (safe_capture _ safe_ruleIdentifier)
    (safe_seq (safe_action _) (safe_lit (by decide)))))))
    (hoareOn_seq safe_ruleSpace (wide_ruleSpace (wide_exact buf))
    (hoareOn_seq safe_starSpace (wide_starSpace (wide_exact buf))
    (hoareOn_seq (safe_lit (by decide)) (hoareOn_of (hoare_lit _ _))
    (hoareOn_seq (safe_capture _ safe_ruleIdentifier)
      (exact_capture safe_ruleIdentifier adv_ruleIdentifier
        (wide_ruleIdentifier (wide_exact buf)))
    (hoareOn_seq (safe_action _) (exact_action _ (by decide))
      (hoareOn_of (hoare_lit _ _)))))))

theorem exact_inlineSection {buf : List Nat} :
    HoareOn buf (Still (valuesExact buf)) inlineSection (Still (valuesExact buf)) :=
  hoareOn_capture _ (safe_seq safe_starSpace (safe_seq (safe_lit (by decide)) safe_sectionTail))
    adv_inlineSection
    (hoareOn_seq safe_starSpace (wide_starSpace (wide_exact buf))
    (hoareOn_seq (safe_lit (by decide)) (hoareOn_of (hoare_lit _ _))
    (hoareOn_seq safe_starSpace (wide_starSpace (wide_exact buf))
    (hoareOn_seq (safe_capture _ safe_ruleIdentifier)
      (exact_capture safe_ruleIdentifier adv_ruleIdentifier
        (wide_ruleIdentifier (wide_exact buf)))
    (hoareOn_seq (safe_action _) (exact_action _ (by decide))
    (hoareOn_seq safe_inlineSectionID exact_inlineSectionID
    (hoareOn_seq safe_starSpace (wide_starSpace (wide_exact buf))
    (hoareOn_seq (safe_lit (by decide)) (hoareOn_of (hoare_lit _ _))
    (hoareOn_seq safe_ruleSpaceComment (wide_ruleSpaceComment (wide_exact buf))
      (hoareOn_star safe_inlineValueLine exact_inlineValueLine))))))))))
    (fun l _ t ht hw _ hQ => wide_exact buf l t (by rw [ht]; rfl) hw hQ)

theorem exact_ruleGrammar {buf : List Nat} :
    HoareOn buf (Still (valuesExact buf)) rules_ruleGrammar (Still (valuesExact buf)) :=
  hoareOn_ruleFn (hoareOn_capture _
    (safe_seq safe_grammarItem (safe_star safe_grammarItem adv_grammarItem))
    (adv_of_ruleFn adv_ruleGrammar)
    (hoareOn_seq safe_grammarItem
      (hoareOn_alt safe_ruleSpaceComment (wide_ruleSpaceComment (wide_exact buf))
        exact_inlineSection)
      (hoareOn_star safe_grammarItem
        (hoareOn_alt safe_ruleSpaceComment (wide_ruleSpaceComment (wide_exact buf))
          exact_inlineSection)))
    (fun l _ t ht hw _ hQ => wide_exact buf l t (by rw [ht]; rfl) hw hQ))

/-! ## From the buffer to the text -/

theorem runeAt_text {data : String} {p : Nat → Bool} {i : Nat} (hp : p end_symbol = false)
    (h : runeAt (initBuffer data) p i) : runeAt (runes data) p i := by
  obtain ⟨c, hc, hpc⟩ := h
  rw [initBuffer_eq] at hc
  by_cases hi : i < (data.toList.map Char.toNat).length
  · rw [List.getElem?_append_left hi] at hc
    exact ⟨c, hc, hpc⟩
  · exfalso
    rw [List.getElem?_append_right (by omega)] at hc
    cases hk : i - (data.toList.map Char.toNat).length with
    | zero =>
      rw [hk] at hc
      simp at hc
      rw [← hc, hp] at hpc
      simp at hpc
    | succ k =>
      rw [hk] at hc
      simp at hc

theorem runeAt_buffer {data : String} {p : Nat → Bool} {i : Nat}
    (h : runeAt (runes data) p i) : runeAt (initBuffer data) p i := by
  obtain ⟨c, hc, hpc⟩ := h
  refine ⟨c, ?_, hpc⟩
  rw [initBuffer_eq]
  have hlt : i < (data.toList.map Char.toNat).length := (List.getElem?_eq_some.1 hc).1
  rw [List.getElem?_append_left hlt]
  exact hc

theorem span_in_text {data : String} {b e : Nat} (h : ValueSpan (initBuffer data) b e) :
    ValueSpan (runes data) b e := by
  obtain ⟨⟨q, hq, h61, hbl⟩, h2, h3, ⟨h4, h5⟩, h6, h7⟩ := h
  refine ⟨⟨q, hq, runeAt_text (by decide) h61, fun i a c => runeAt_text (by decide) (hbl i a c)⟩,
    runeAt_text (by decide) h2, fun i a c => runeAt_text (by decide) (h3 i a c),
    ⟨h4, runeAt_text (by decide) h5⟩, runeAt_text (by decide) h6, ?_⟩
  intro n hn hb hw
  exact h7 n hn (fun i a c => runeAt_buffer (hb i a c)) (runeAt_buffer hw)

/-- A value that starts at a given offset ends at one offset only. -/
theorem span_end_unique {text : List Nat} {b e1 e2 : Nat} (h1 : ValueSpan text b e1)
    (h2 : ValueSpan text b e2) (hlt : e1 < e2) : False := by
  have hb1 := h1.last.1
  have key : ∀ m, e1 + m ≤ e2 → runesIn text isBlankRune e1 (e1 + m) := by
    intro m
    induction m with
    | zero => intro _ i a c; omega
    | succ m ih =>
      intro hm
      have hprev := ih (by omega)
      apply runesIn_snoc hprev
      obtain ⟨c, hc, hcw⟩ := h2.inside (e1 + m) (by omega) (by omega)
      cases hbk : isBlankRune c
      · exfalso
        have hw : isWordRune c = true := by simpa [hbk] using hcw
        by_cases hm0 : m = 0
        · subst hm0
          obtain ⟨d, hd, hds⟩ := h1.stop
          rw [Nat.add_zero] at hc
          rw [hc] at hd
          obtain rfl := Option.some.inj hd
          rw [wordRune_not_stop hw] at hds
          simp at hds
        · exact h1.maximal m (by omega) hprev ⟨c, hc, hw⟩
      · exact ⟨c, hc, hbk⟩
  have hall := key (e2 - e1) (by omega)
  obtain ⟨c, hc, hcb⟩ := hall (e2 - 1) (by omega) (by omega)
  obtain ⟨d, hd, hdw⟩ := h2.last.2
  rw [hc] at hd
  obtain rfl := Option.some.inj hd
  rw [blank_not_word hcb] at hdw
  simp at hdw

theorem grammar_exact (data : String) (h : data.length < u32) (m1 : Matcher)
    (h1 : rules_ruleGrammar (Init (config.new data)).2 = .ok (true, m1)) :
    valuesExact (initBuffer data) m1.committed :=
  exact_ruleGrammar (Init (config.new data)).2 m1 (inv_init _ h) rfl
    (fun pre tok post he _ => by
      have : (Init (config.new data)).2.committed = [] := by simp [Init, Matcher.committed]
      rw [this] at he
      simp at he) h1

/-- What `Execute` holds when it reaches an `Action3` token: the text of a value. -/
theorem recorded_spans (data : String) (h : data.length < u32) (m1 : Matcher)
    (h1 : rules_ruleGrammar (Init (config.new data)).2 = .ok (true, m1)) :
    ∃ p0, config.Parse (Init (config.new data)).1 (Init (config.new data)).2 =
        .ok (p0, none, m1) ∧
      ∀ pre tok post, m1.committed = pre ++ tok :: post →
        tok.pegRule = pegRule.ruleAction3 →
        ∃ pre1 u st, pre = pre1 ++ [u] ∧ u.pegRule = pegRule.rulePegText ∧
          u.end_ = tok.begin ∧ ValueSpan (runes data) u.begin u.end_ ∧
          executeLoop pre (p0, "") = .ok st ∧
          st.2 = stringOfRunes (((runes data).take u.end_).drop u.begin) := by
  have hi : Inv (Init (config.new data)).2 := inv_init _ h
  have hr := safe_ruleGrammar.result hi h1
  have hi1 := hr.1
  obtain ⟨_, hsec, _⟩ := grammar_ordered data h m1 h1
  have hex := grammar_exact data h m1 h1
  have hlen : m1.tokenIndex ≤ m1.tree.len := Nat.le_trans hi1.index_le hi1.cells_le
  have hbuf : m1.buffer = initBuffer data := hr.2.1.buffer_eq
  have hspan : ∀ t ∈ m1.committed, t.begin ≤ t.end_ ∧ t.end_ ≤ (initBuffer data).length := by
    intro t ht
    have := hi1.cells_ok t (List.mem_of_mem_take ht)
    rw [hbuf] at this
    exact ⟨this.1, Nat.le_trans this.2 (Nat.sub_le _ _)⟩
  refine ⟨{ (Init (config.new data)).1 with
      tokenTree := some ⟨⟨m1.tree.cells.take m1.tokenIndex, m1.tokenIndex⟩, none⟩ }, ?_, ?_⟩
  · simp only [config.Parse, h1, tokens32.trim, hlen, if_true]
  · intro pre tok post he hr3
    obtain ⟨pre1, u, hpre, hu, hue, hsp⟩ := hex pre tok post he hr3
    have hspt := span_in_text hsp
    have hsp1 : ∀ t ∈ pre, t.begin ≤ t.end_ ∧ t.end_ ≤ (initBuffer data).length :=
      fun t ht => hspan t (by rw [he]; exact List.mem_append_left _ ht)
    obtain ⟨st1, hst1, _, _, htext⟩ := executeLoop_trace
      { (Init (config.new data)).1 with
        tokenTree := some ⟨⟨m1.tree.cells.take m1.tokenIndex, m1.tokenIndex⟩, none⟩ }
      pre hsp1 (sectioned_left (b := tok :: post) (by rw [← he]; exact hsec))
    refine ⟨pre1, u, st1, hpre, hu, hue, hspt, hst1, ?_⟩
    rw [htext pre1 u hpre hu]
    obtain ⟨c, hc, _⟩ := hspt.stop
    have hlt : u.end_ < (runes data).length := (List.getElem?_eq_some.1 hc).1
    show stringOfRunes (((initBuffer data).take u.end_).drop u.begin) = _
    rw [initBuffer_eq]
    show stringOfRunes (((runes data ++ [end_symbol]).take u.end_).drop u.begin) = _
    rw [List.take_append_of_le_length (Nat.le_of_lt hlt)]

theorem span_unique {text : List Nat} {b e1 e2 : Nat} (h1 : ValueSpan text b e1)
    (h2 : ValueSpan text b e2) : e1 = e2 := by
  rcases Nat.lt_trichotomy e1 e2 with h | h | h
  · exact absurd (span_end_unique h1 h2 h) id
  · exact h
  · exact absurd (span_end_unique h2 h1 h) id

/-- C4 as stated fails on the code. In `[core]`, the line ` b = 2 #d` has the form
`key = value #comment` (alone in the section it records `b = 2`), but after the line
` a = 1 #c` nothing is recorded for `b`: the items of Grammar stop in front of it. -/
theorem commented_line_dropped :
    (⟨1, "b", ["2"]⟩ : SrcLine).renderCommented "d" = " b = 2 #d\n" ∧
    Parse "[core]\n b = 2 #d\n" = .ok (some [⟨"core", "", [("b", "2")]⟩], none) ∧
    Parse "[core]\n a = 1 #c\n b = 2 #d\n" = .ok (some [⟨"core", "", [("a", "1")]⟩], none) ∧
    mapGet [("a", "1")] "b" = none ∧
    (rules_ruleGrammar (Init (config.new "[core]\n a = 1 #c\n b = 2 #d\n")).2).map
      (fun r => (r.1, r.2.position)) = .ok (true, 18) := by
  refine ⟨by decide!, by decide!, by decide!, by decide, by decide!⟩

/-- C4, amended. A trailing comment is excluded from the value of every line that is
recorded, and a line `key = value #comment` is recorded when it is the last value line of
its section.
First part, for every text of fewer than `2 ^ 32` characters on which the start rule
succeeds: every `Action3` token (the call of `addValue`) comes right after the `PegText`
token of its value; when the loop of `Execute` reaches the action, the variable `text`
that `addValue` receives holds exactly the characters of the input from `begin` up to
`end` of that token; and this span is the value of its line, exactly (`ValueSpan`): it
starts at the first character after a `=` and the blanks and tabs that follow it, holds
words, blanks and tabs only (no `#`, no end of line), starts and ends with a character
of a word (no separating whitespace at its end), is followed by a blank, a tab, `#` or
an end of line, and no further word follows it on the line; no other end fits that
description.
Second part, for every text made of one or more sections (a header, which blanks may
precede, with an optional id; value lines `key = value`; and last, optionally, a line
`key = value #comment`), followed by blanks and by any text at which the run of items of
Grammar stops (it starts with a character that is not a blank, a tab, `#`, an end of line
or `[`, and that cannot start a key unless the last section ends with a commented line):
`Parse` returns exactly these sections, and the value recorded for the key of a commented
line is exactly `value`. What follows a commented line in its section is not recorded: a
further value line is such a text. -/
theorem trailing_comment_excluded (data : String) (h : data.length < 2 ^ 32) (m1 : Matcher)
    (h1 : rules_ruleGrammar (Init (config.new data)).2 = .ok (true, m1))
    (bs : List SrcBlock) (hne : bs ≠ [])
    (hv : ∀ b ∈ bs, b.valid) (k : Nat) (junk : String)
    (hjunk : ∀ c ∈ junk.toList.head?, isStopRune c.toNat = false ∧ c.toNat ≠ 91)
    (hlast : (∃ b, bs.getLast? = some b ∧ b.commented.isSome = true) ∨
      ∀ c ∈ junk.toList.head?, isIdentRune c.toNat = false)
    (hlen : (renderBlocks bs ++ String.mk (List.replicate k ' ') ++ junk).length < 2 ^ 32) :
    (∃ p0, config.Parse (Init (config.new data)).1 (Init (config.new data)).2 =
        .ok (p0, none, m1) ∧
      ∀ pre tok post, m1.committed = pre ++ tok :: post →
        tok.pegRule = pegRule.ruleAction3 →
        ∃ pre1 u st, pre = pre1 ++ [u] ∧ u.pegRule = pegRule.rulePegText ∧
          u.end_ = tok.begin ∧ ValueSpan (runes data) u.begin u.end_ ∧
          (∀ e, ValueSpan (runes data) u.begin e → e = u.end_) ∧
          executeLoop pre (p0, "") = .ok st ∧
          st.2 = stringOfRunes (((runes data).take u.end_).drop u.begin)) ∧
    Parse (renderBlocks bs ++ String.mk (List.replicate k ' ') ++ junk) =
      .ok (some (bs.map (fun b => b.whole.expected)), none) ∧
    ∀ b ∈ bs, ∀ l c, b.commented = some (l, c) →
      b.whole.expected.Values = valuesOf (b.plain.lines ++ [l]) ∧
      mapGet b.whole.expected.Values l.key = some l.value := by
  refine ⟨?_, Parse_renderBlocks bs hne hv k junk hjunk hlast hlen, fun b _ l c hcm => ?_⟩
  · obtain ⟨p0, hp0, hall⟩ := recorded_spans data h m1 h1
    refine ⟨p0, hp0, fun pre tok post he hr => ?_⟩
    obtain ⟨pre1, u, st, hpre, hu, hue, hsp, hst, htext⟩ := hall pre tok post he hr
    exact ⟨pre1, u, st, hpre, hu, hue, hsp, fun e he2 => span_unique he2 hsp, hst, htext⟩
  · have hw : b.whole.expected.Values = valuesOf (b.plain.lines ++ [l]) := by
      simp [SrcBlock.whole, hcm, SrcSection.expected]
    refine ⟨hw, ?_⟩
    rw [hw]
    unfold valuesOf
    rw [mapGet_foldl]
    simp

theorem trailing_comment_excluded_witness :
    ∃ m1, rules_ruleGrammar (Init (config.new
        "[color]\n    ui = auto #true\n  [color \"branch\"]\n    current = yellow reverse\n")).2 =
        .ok (true, m1) ∧
    (∃ p0, config.Parse (Init (config.new
        "[color]\n    ui = auto #true\n  [color \"branch\"]\n    current = yellow reverse\n")).1
        (Init (config.new
        "[color]\n    ui = auto #true\n  [color \"branch\"]\n    current = yellow reverse\n")).2 =
        .ok (p0, none, m1) ∧
      ∀ pre tok post, m1.committed = pre ++ tok :: post →
        tok.pegRule = pegRule.ruleAction3 →
        ∃ pre1 u st, pre = pre1 ++ [u] ∧ u.pegRule = pegRule.rulePegText ∧
          u.end_ = tok.begin ∧
          ValueSpan (runes
            "[color]\n    ui = auto #true\n  [color \"branch\"]\n    current = yellow reverse\n")
            u.begin u.end_ ∧
          (∀ e, ValueSpan (runes
            "[color]\n    ui = auto #true\n  [color \"branch\"]\n    current = yellow reverse\n")
            u.begin e → e = u.end_) ∧
          executeLoop pre (p0, "") = .ok st ∧
          st.2 = stringOfRunes (((runes
            "[color]\n    ui = auto #true\n  [color \"branch\"]\n    current = yellow reverse\n").take
              u.end_).drop u.begin)) ∧
    renderBlocks [⟨0, ⟨"color", none, []⟩, some (⟨4, "ui", ["auto"]⟩, "true")⟩,
        ⟨2, ⟨"color", some "branch", [⟨4, "current", ["yellow", "reverse"]⟩]⟩, none⟩] ++
      String.mk (List.replicate 0 ' ') ++ "" =
      "[color]\n    ui = auto #true\n  [color \"branch\"]\n    current = yellow reverse\n" ∧
    Parse "[color]\n    ui = auto #true\n  [color \"branch\"]\n    current = yellow reverse\n" =
      .ok (some [⟨"color", "", [("ui", "auto")]⟩,
        ⟨"color", "branch", [("current", "yellow reverse")]⟩], none) ∧
    mapGet [("ui", "auto")] "ui" = some "auto" ∧
    renderBlocks [⟨0, ⟨"core", none, []⟩, some (⟨1, "a", ["1"]⟩, "c")⟩] ++
      String.mk (List.replicate 1 ' ') ++ "b = 2 #d\n" = "[core]\n a = 1 #c\n b = 2 #d\n" ∧
    Parse "[core]\n a = 1 #c\n b = 2 #d\n" = .ok (some [⟨"core", "", [("a", "1")]⟩], none) := by
  obtain ⟨p, hp⟩ := parseRun_of_Parse
    "[color]\n    ui = auto #true\n  [color \"branch\"]\n    current = yellow reverse\n"
    [⟨"color", "", [("ui", "auto")]⟩, ⟨"color", "branch", [("current", "yellow reverse")]⟩]
    (by decide!)
  obtain ⟨m1, hm1, _⟩ := parseRun_tree _ p hp
  have h1 := trailing_comment_excluded
    "[color]\n    ui = auto #true\n  [color \"branch\"]\n    current = yellow reverse\n"
    (by decide) m1 hm1
    [⟨0, ⟨"color", none, []⟩, some (⟨4, "ui", ["auto"]⟩, "true")⟩,
      ⟨2, ⟨"color", some "branch", [⟨4, "current", ["yellow", "reverse"]⟩]⟩, none⟩]
    (by decide) (by decide!) 0 "" (by decide) (Or.inr (by decide)) (by decide!)
  have h2 := trailing_comment_excluded
    "[color]\n    ui = auto #true\n  [color \"branch\"]\n    current = yellow reverse\n"
    (by decide) m1 hm1
    [⟨0, ⟨"core", none, []⟩, some (⟨1, "a", ["1"]⟩, "c")⟩]
    (by decide) (by decide!) 1 "b = 2 #d\n" (by decide) (Or.inl ⟨_, rfl, rfl⟩) (by decide!)
  have t1 : renderBlocks [⟨0, ⟨"color", none, []⟩, some (⟨4, "ui", ["auto"]⟩, "true")⟩,
        ⟨2, ⟨"color", some "branch", [⟨4, "current", ["yellow", "reverse"]⟩]⟩, none⟩] ++
      String.mk (List.replicate 0 ' ') ++ "" =
      "[color]\n    ui = auto #true\n  [color \"branch\"]\n    current = yellow reverse\n" := by
    decide!
  have t2 : renderBlocks [⟨0, ⟨"core", none, []⟩, some (⟨1, "a", ["1"]⟩, "c")⟩] ++
      String.mk (List.replicate 1 ' ') ++ "b = 2 #d\n" = "[core]\n a = 1 #c\n b = 2 #d\n" := by
    decide!
  have e1 : ([⟨0, ⟨"color", none, []⟩, some (⟨4, "ui", ["auto"]⟩, "true")⟩,
        ⟨2, ⟨"color", some "branch", [⟨4, "current", ["yellow", "reverse"]⟩]⟩, none⟩] :
        List SrcBlock).map (fun b => b.whole.expected) =
      [⟨"color", "", [("ui", "auto")]⟩,
        ⟨"color", "branch", [("current", "yellow reverse")]⟩] := by decide!
  have e2 : ([⟨0, ⟨"core", none, []⟩, some (⟨1, "a", ["1"]⟩, "c")⟩] :
        List SrcBlock).map (fun b => b.whole.expected) = [⟨"core", "", [("a", "1")]⟩] := by
    decide!
  have v1 := (h1.2.2 ⟨0, ⟨"color", none, []⟩, some (⟨4, "ui", ["auto"]⟩, "true")⟩
    (by simp) ⟨4, "ui", ["auto"]⟩ "true" rfl).2
  have ev : (SrcBlock.whole ⟨0, ⟨"color", none, []⟩,
      some (⟨4, "ui", ["auto"]⟩, "true")⟩).expected.Values = [("ui", "auto")] := by decide!
  have ek : (⟨4, "ui", ["auto"]⟩ : SrcLine).value = "auto" := by decide!
  rw [ev, ek] at v1
  have p1 := h1.2.1
  have p2 := h2.2.1
  rw [t1, e1] at p1
  rw [t2, e2] at p2
  exact ⟨m1, hm1, h1.1, t1, p1, v1, t2, p2⟩

end gitconfig
